import Mathlib

/-!
# CPU-scheduling simulator: a shallow embedding of `simulator.cpp`

The ten `Scheduler::schedule` implementations of `simulator.cpp` are embedded as
loop bodies over an explicit state.  C++ `int` values are mathematical integers
(the development assumes that no signed overflow occurs, which is undefined
behaviour in the source); the sentinel `INT32_MAX` of the selection loops is kept.
Where a statement needs the range of a 32-bit `int` it has a hypothesis `fitsInt32`,
and `FCFSScheduler.scheduleInt32` is `FCFSScheduler::schedule` with the wrapping
arithmetic of a 32-bit machine.  The `double` arithmetic of `calculateMetrics` is
IEEE 754 binary64 with rounding to nearest (`Double.ofRat`).
`Process*` values that point into the process vector are indices into the list of
processes.  Undefined behaviour that the source can reach without overflow (an
out-of-range `queues[q_level]`, a division by zero) is the outcome `fault`.
-/

namespace Sched

/-- The `struct Process` of `simulator.cpp`, with its default member initialisers. -/
structure Process where
  id : String
  arrival_time : Int
  burst_time : Int
  priority : Int
  remaining_time : Int
  waiting_time : Int := 0
  turnaround_time : Int := 0
  deadline : Int := 0
  vruntime : Int := 0
  weight : Int := 1024
  last_run_time : Int := 0
  io_burst : Int := 0
  in_io : Bool := false
deriving DecidableEq, Repr

/-- The constant `INT32_MAX`. -/
def INT32_MAX : Int := 2147483647

/-- One execution of a dispatch site of a scheduler loop: the process at index `idx`
of the process vector is given the processor at time `start` for `len` time units.
The loop bodies below emit these as labels; no scheduler reads them. -/
structure Dispatch where
  idx : Nat
  start : Int
  len : Int
deriving DecidableEq, Repr

/-- The local variables of the `schedule` bodies.  Each scheduler uses the part it
declares: `completed` (the `std::vector<bool>`) and `completed_count` for the
selection loops (`completed_count` is also the counter `completed` of the preemptive
ones), `idx` and the queues for the admission loops, `last_id` and `last_start` for
the trace, `missed_deadlines` for EDF.  `gantt` holds the segments appended so far. -/
structure State where
  processes : List Process
  gantt : List (String × Int) := []
  current_time : Int := 0
  completed : List Bool := []
  completed_count : Int := 0
  idx : Nat := 0
  ready_queue : List Nat := []
  queues : List (List Nat) := []
  last_id : String := ""
  last_start : Int := -1
  missed_deadlines : Int := 0
deriving DecidableEq, Repr

/-- What one evaluation of a loop condition and body does: the condition is false
(`halt`), the body has undefined behaviour (`fault`), or the body runs to its end or
to a `continue`, having dispatched a process or not. -/
inductive Outcome where
  | halt : Outcome
  | fault : Outcome
  | next : Option Dispatch → State → Outcome
deriving DecidableEq, Repr

/-- The scheduler selected by `main`, with the constructor argument where the class
has one. -/
inductive Policy where
  | fcfs : Policy
  | sjf : Policy
  | srtf : Policy
  | rr (quantum : Int) : Policy
  | priority (aging_interval : Int) : Policy
  | priorityPreemptive : Policy
  | mlq : Policy
  | mfq : Policy
  | cfs : Policy
  | edf : Policy
deriving DecidableEq, Repr

/-- What `schedule` leaves behind: the process vector, the segments appended to
`gantt`, `total_time`, the dispatches in the order most recent first, and the
counter that EDF prints. -/
structure Result where
  processes : List Process
  gantt : List (String × Int)
  total_time : Int
  dispatches : List Dispatch
  missed_deadlines : Int
deriving DecidableEq, Repr

/-! ## Shared fragments -/

/-- The statement `for (auto& p : processes) p.remaining_time = p.burst_time;`. -/
def resetRemaining (ps : List Process) : List Process :=
  ps.map fun p => { p with remaining_time := p.burst_time }

/-- The selection loops `for (i = 0; i < size; ++i) if (ok && key < min) ...`: `best`
and `m` are the index and the minimum found so far, `i` the index of the head. -/
def scanFrom (ok : Nat → Process → Bool) (key : Process → Int) :
    List Process → Nat → Option Nat → Int → Option Nat
  | [], _, best, _ => best
  | p :: rest, i, best, m =>
    if ok i p && decide (key p < m) then scanFrom ok key rest (i + 1) (some i) (key p)
    else scanFrom ok key rest (i + 1) best m

/-- A selection loop run from `shortest = -1` and `min = INT32_MAX`. -/
def scanMin (ok : Nat → Process → Bool) (key : Process → Int) (ps : List Process) :
    Option Nat :=
  scanFrom ok key ps 0 none INT32_MAX

/-- The block that starts a new segment: the open one, if any, is appended to
`gantt`, and `last_id`, `last_start` are set for the process taking over. -/
def switchSegment (s : State) (id : String) : State :=
  { s with
    gantt := if s.last_start ≠ -1 then s.gantt ++ [(s.last_id, s.current_time - s.last_start)]
             else s.gantt
    last_id := id
    last_start := s.current_time }

/-- The guard `if (last_id != p.id)` around the segment block. -/
def noteDispatch (s : State) (id : String) : State :=
  if s.last_id ≠ id then switchSegment s id else s

/-- The statements after a loop that flush the open segment. -/
def closeSegment (s : State) : List (String × Int) :=
  if s.last_start ≠ -1 then s.gantt ++ [(s.last_id, s.current_time - s.last_start)]
  else s.gantt

/-- The completion statements `p.turnaround_time = current_time - p.arrival_time;
p.waiting_time = p.turnaround_time - p.burst_time;`. -/
def complete (p : Process) (current_time : Int) : Process :=
  { p with
    turnaround_time := current_time - p.arrival_time
    waiting_time := (current_time - p.arrival_time) - p.burst_time }

/-- The admission loop `while (idx < size && processes[idx].arrival_time <= current_time)
ready_queue.push(&processes[idx++]);`, given the processes from `idx` on. -/
def enqueueArrived (current_time : Int) : List Process → Nat → List Nat → Nat × List Nat
  | [], idx, q => (idx, q)
  | p :: rest, idx, q =>
    if p.arrival_time ≤ current_time then enqueueArrived current_time rest (idx + 1) (q ++ [idx])
    else (idx, q)

/-! ## 1. FCFS -/

/-- One iteration of the range-based `for` of `FCFSScheduler::schedule`; `idx` is the
position of the iterator. -/
def FCFSScheduler.step (s : State) : Outcome :=
  match s.processes[s.idx]? with
  | none => .halt
  | some p =>
    let start := if s.current_time < p.arrival_time then p.arrival_time else s.current_time
    let finish := start + p.burst_time
    .next (some ⟨s.idx, start, p.burst_time⟩)
      { s with
        processes := s.processes.set s.idx (complete p finish)
        gantt := s.gantt ++ [(p.id, p.burst_time)]
        current_time := finish
        idx := s.idx + 1 }

/-! ## 2. SJF -/

/-- One iteration of the `while` of `SJFScheduler::schedule`. -/
def SJFScheduler.step (s : State) : Outcome :=
  if s.completed_count < s.processes.length then
    match scanMin (fun i p => !(s.completed.getD i false) &&
        decide (p.arrival_time ≤ s.current_time)) (·.burst_time) s.processes with
    | none => .next none { s with current_time := s.current_time + 1 }
    | some i =>
      match s.processes[i]? with
      | none => .fault
      | some p =>
        let finish := s.current_time + p.burst_time
        .next (some ⟨i, s.current_time, p.burst_time⟩)
          { s with
            processes := s.processes.set i (complete p finish)
            gantt := s.gantt ++ [(p.id, p.burst_time)]
            current_time := finish
            completed := s.completed.set i true
            completed_count := s.completed_count + 1 }
  else .halt

/-! ## 3. SRTF, 6. preemptive Priority, 10. EDF -/

/-- The body shared, statement for statement, by the three loops that select by a
key and run the selected process for one time unit; `late` is the test that EDF makes
at a completion (`current_time > p.deadline`), constantly false for the other two. -/
def unitStep (key : Process → Int) (late : Process → Int → Bool) (s : State) : Outcome :=
  if s.completed_count < s.processes.length then
    match scanMin (fun _ p => decide (p.arrival_time ≤ s.current_time) &&
        decide (p.remaining_time > 0)) key s.processes with
    | none => .next none { s with current_time := s.current_time + 1 }
    | some i =>
      match s.processes[i]? with
      | none => .fault
      | some p =>
        let s1 := noteDispatch s p.id
        let now := s.current_time + 1
        let p1 := { p with remaining_time := p.remaining_time - 1 }
        if p1.remaining_time = 0 then
          .next (some ⟨i, s.current_time, 1⟩)
            { s1 with
              processes := s.processes.set i (complete p1 now)
              current_time := now
              missed_deadlines := if late p1 now then s.missed_deadlines + 1
                                  else s.missed_deadlines
              completed_count := s.completed_count + 1 }
        else
          .next (some ⟨i, s.current_time, 1⟩)
            { s1 with processes := s.processes.set i p1, current_time := now }
  else .halt

/-- One iteration of the `while` of `SRTFScheduler::schedule`. -/
def SRTFScheduler.step (s : State) : Outcome :=
  unitStep (·.remaining_time) (fun _ _ => false) s

/-- One iteration of the `while` of `PreemptivePriorityScheduler::schedule`. -/
def PreemptivePriorityScheduler.step (s : State) : Outcome :=
  unitStep (·.priority) (fun _ _ => false) s

/-- One iteration of the `while` of `EDFScheduler::schedule`. -/
def EDFScheduler.step (s : State) : Outcome :=
  unitStep (·.deadline) (fun p now => decide (now > p.deadline)) s

/-- The first loop of `EDFScheduler::schedule`: remaining times are reset and an
unset deadline (0) becomes `arrival_time + burst_time * 2`. -/
def EDFScheduler.prepare (ps : List Process) : List Process :=
  ps.map fun p =>
    { p with
      remaining_time := p.burst_time
      deadline := if p.deadline = 0 then p.arrival_time + p.burst_time * 2 else p.deadline }

/-! ## 5. Priority (non-preemptive) with aging -/

/-- The body of the aging loop of `PriorityScheduler::schedule` for the process `p`,
whose flag `completed[i]` is `done`.  The test `wait > 0 && wait % aging_interval == 0`
divides only when `wait > 0`; a zero `aging_interval` is then undefined behaviour
(`none`). -/
def PriorityScheduler.ageOne (aging_interval current_time : Int) (done : Bool) (p : Process) :
    Option Process :=
  if !done && decide (p.arrival_time ≤ current_time) then
    let wait := current_time - p.arrival_time
    if wait > 0 then
      if aging_interval = 0 then none
      else if wait.tmod aging_interval = 0 then
        some { p with priority := max 1 (p.priority - 1) }
      else some p
    else some p
  else some p

/-- The aging loop of `PriorityScheduler::schedule`, from index `i` on. -/
def PriorityScheduler.age (aging_interval current_time : Int) (completed : List Bool) :
    List Process → Nat → Option (List Process)
  | [], _ => some []
  | p :: rest, i =>
    match PriorityScheduler.ageOne aging_interval current_time (completed.getD i false) p with
    | none => none
    | some q =>
      match PriorityScheduler.age aging_interval current_time completed rest (i + 1) with
      | none => none
      | some rest1 => some (q :: rest1)

/-- One iteration of the `while` of `PriorityScheduler::schedule`. -/
def PriorityScheduler.step (aging_interval : Int) (s : State) : Outcome :=
  if s.completed_count < s.processes.length then
    match PriorityScheduler.age aging_interval s.current_time s.completed s.processes 0 with
    | none => .fault
    | some ps =>
      match scanMin (fun i p => !(s.completed.getD i false) &&
          decide (p.arrival_time ≤ s.current_time)) (·.priority) ps with
      | none => .next none { s with processes := ps, current_time := s.current_time + 1 }
      | some i =>
        match ps[i]? with
        | none => .fault
        | some p =>
          let finish := s.current_time + p.burst_time
          .next (some ⟨i, s.current_time, p.burst_time⟩)
            { s with
              processes := ps.set i (complete p finish)
              gantt := s.gantt ++ [(p.id, p.burst_time)]
              current_time := finish
              completed := s.completed.set i true
              completed_count := s.completed_count + 1 }
  else .halt

/-! ## 4. Round Robin -/

/-- One iteration of the outer `while` of `RoundRobinScheduler::schedule`. -/
def RoundRobinScheduler.step (quantum : Int) (s : State) : Outcome :=
  if s.ready_queue ≠ [] ∨ s.idx < s.processes.length then
    match enqueueArrived s.current_time (s.processes.drop s.idx) s.idx s.ready_queue with
    | (idx1, []) =>
      .next none
        { s with
          idx := idx1
          ready_queue := []
          current_time := match s.processes[idx1]? with
            | some p => p.arrival_time
            | none => s.current_time }
    | (idx1, current :: q1) =>
      match s.processes[current]? with
      | none => .fault
      | some p =>
        let run_time := min quantum p.remaining_time
        let s1 := if s.last_id ≠ p.id ∨ s.last_start = -1 then switchSegment s p.id else s
        let p1 := { p with remaining_time := p.remaining_time - run_time }
        let now := s.current_time + run_time
        let ps1 := s.processes.set current p1
        match enqueueArrived now (ps1.drop idx1) idx1 q1 with
        | (idx2, q2) =>
          if p1.remaining_time > 0 then
            .next (some ⟨current, s.current_time, run_time⟩)
              { s1 with
                processes := ps1, current_time := now, idx := idx2
                ready_queue := q2 ++ [current] }
          else
            .next (some ⟨current, s.current_time, run_time⟩)
              { s1 with
                processes := s.processes.set current (complete p1 now)
                current_time := now, idx := idx2, ready_queue := q2 }
  else .halt

/-! ## 7. Multilevel queue, 8. multilevel feedback queue -/

/-- The queue level `q_level = (priority - 1) / 2; q_level = std::min(q_level, 2);`
with the truncating division of C++. -/
def MultilevelQueueScheduler.level (priority : Int) : Int :=
  min ((priority - 1).tdiv 2) 2

/-- The call `queues[level].push(x)`; an index outside the vector is undefined
behaviour (`none`). -/
def pushAt (queues : List (List Nat)) (level : Int) (x : Nat) : Option (List (List Nat)) :=
  if 0 ≤ level ∧ level < queues.length then
    some (queues.set level.toNat (queues.getD level.toNat [] ++ [x]))
  else none

/-- The admission loop of `MultilevelQueueScheduler::schedule`, given the processes
from `idx` on. -/
def MultilevelQueueScheduler.enqueueArrived (current_time : Int) :
    List Process → Nat → List (List Nat) → Option (Nat × List (List Nat))
  | [], idx, qs => some (idx, qs)
  | p :: rest, idx, qs =>
    if p.arrival_time ≤ current_time then
      match pushAt qs (MultilevelQueueScheduler.level p.priority) idx with
      | none => none
      | some qs1 => MultilevelQueueScheduler.enqueueArrived current_time rest (idx + 1) qs1
    else some (idx, qs)

/-- The loop `for (int i = 0; i < 3; ++i) if (!queues[i].empty()) ...` over the three
queues: the front of the first non-empty queue, its level, and the queues after the
`pop`. -/
def popFirst : List (List Nat) → Option (Nat × Nat × List (List Nat))
  | [] => none
  | (x :: q) :: rest => some (x, 0, q :: rest)
  | [] :: rest =>
    match popFirst rest with
    | none => none
    | some (x, lvl, rest1) => some (x, lvl + 1, [] :: rest1)

/-- The loop condition of the two multilevel schedulers. -/
def anyWork (s : State) : Bool :=
  decide (s.idx < s.processes.length) || s.queues.any (fun q => !q.isEmpty)

/-- One iteration of the outer `while` of `MultilevelQueueScheduler::schedule`. -/
def MultilevelQueueScheduler.step (s : State) : Outcome :=
  if anyWork s then
    match MultilevelQueueScheduler.enqueueArrived s.current_time (s.processes.drop s.idx) s.idx
        s.queues with
    | none => .fault
    | some (idx1, qs1) =>
      match popFirst qs1 with
      | none =>
        .next none
          { s with
            idx := idx1
            queues := qs1
            current_time := match s.processes[idx1]? with
              | some p => p.arrival_time
              | none => s.current_time }
      | some (current, _, qs2) =>
        match s.processes[current]? with
        | none => .fault
        | some p =>
          let s1 := noteDispatch s p.id
          let run_time := min 2 p.remaining_time
          let p1 := { p with remaining_time := p.remaining_time - run_time }
          let now := s.current_time + run_time
          let ps1 := s.processes.set current p1
          match MultilevelQueueScheduler.enqueueArrived now (ps1.drop idx1) idx1 qs2 with
          | none => .fault
          | some (idx2, qs3) =>
            if p1.remaining_time > 0 then
              match pushAt qs3 (MultilevelQueueScheduler.level p1.priority) current with
              | none => .fault
              | some qs4 =>
                .next (some ⟨current, s.current_time, run_time⟩)
                  { s1 with processes := ps1, current_time := now, idx := idx2, queues := qs4 }
            else
              .next (some ⟨current, s.current_time, run_time⟩)
                { s1 with
                  processes := s.processes.set current (complete p1 now)
                  current_time := now, idx := idx2, queues := qs3 }
  else .halt

/-- The first loop of `MFQScheduler::schedule`. -/
def MFQScheduler.prepare (ps : List Process) : List Process :=
  ps.map fun p => { p with remaining_time := p.burst_time, priority := 0 }

/-- The array `int quantum[] = {2, 4, 8};`. -/
def MFQScheduler.quantum : List Int := [2, 4, 8]

/-- The admission loop of `MFQScheduler::schedule`, which pushes to `queues[0]`. -/
def MFQScheduler.enqueueArrived (current_time : Int) :
    List Process → Nat → List (List Nat) → Option (Nat × List (List Nat))
  | [], idx, qs => some (idx, qs)
  | p :: rest, idx, qs =>
    if p.arrival_time ≤ current_time then
      match pushAt qs 0 idx with
      | none => none
      | some qs1 => MFQScheduler.enqueueArrived current_time rest (idx + 1) qs1
    else some (idx, qs)

/-- One iteration of the outer `while` of `MFQScheduler::schedule`. -/
def MFQScheduler.step (s : State) : Outcome :=
  if anyWork s then
    match MFQScheduler.enqueueArrived s.current_time (s.processes.drop s.idx) s.idx s.queues with
    | none => .fault
    | some (idx1, qs1) =>
      match popFirst qs1 with
      | none =>
        .next none
          { s with
            idx := idx1
            queues := qs1
            current_time := match s.processes[idx1]? with
              | some p => p.arrival_time
              | none => s.current_time }
      | some (current, q_level, qs2) =>
        match s.processes[current]?, MFQScheduler.quantum[q_level]? with
        | some p, some slice =>
          let s1 := noteDispatch s p.id
          let run_time := min slice p.remaining_time
          let p1 := { p with remaining_time := p.remaining_time - run_time }
          let now := s.current_time + run_time
          let ps1 := s.processes.set current p1
          match MFQScheduler.enqueueArrived now (ps1.drop idx1) idx1 qs2 with
          | none => .fault
          | some (idx2, qs3) =>
            if p1.remaining_time > 0 then
              match pushAt qs3 (min ((q_level : Int) + 1) 2) current with
              | none => .fault
              | some qs4 =>
                .next (some ⟨current, s.current_time, run_time⟩)
                  { s1 with processes := ps1, current_time := now, idx := idx2, queues := qs4 }
            else
              .next (some ⟨current, s.current_time, run_time⟩)
                { s1 with
                  processes := s.processes.set current (complete p1 now)
                  current_time := now, idx := idx2, queues := qs3 }
        | _, _ => .fault
  else .halt

/-! ## 9. CFS

`std::priority_queue<Process*, std::vector<Process*>, decltype(cmp)>` is a vector kept
as a binary heap by `std::push_heap` and `std::pop_heap`; the two are embedded as the
hole-moving loops `__push_heap` and `__adjust_heap` of the GNU implementation. -/

/-- The value `p->vruntime` for the pointer to the process at index `i`. -/
def vruntimeAt (ps : List Process) (i : Nat) : Int :=
  match ps[i]? with
  | some p => p.vruntime
  | none => 0

/-- The comparator `cmp = [](Process* a, Process* b) { return a->vruntime > b->vruntime; }`. -/
def cmp (ps : List Process) (a b : Nat) : Bool :=
  decide (vruntimeAt ps a > vruntimeAt ps b)

/-- The loop of `__push_heap` with `topIndex = 0`: the hole moves up while the parent
compares before `value`, then receives `value`.  The first argument bounds the number
of iterations; `hole + 1` is enough, since the hole index decreases. -/
def pushHeapLoop (ps : List Process) (value : Nat) : Nat → List Nat → Nat → List Nat
  | 0, c, hole => c.set hole value
  | n + 1, c, hole =>
    let parent := (hole - 1) / 2
    if 0 < hole ∧ cmp ps (c.getD parent 0) value then
      pushHeapLoop ps value n (c.set hole (c.getD parent 0)) parent
    else c.set hole value

/-- The call `ready_queue.push(x)`: `push_back` followed by `std::push_heap`. -/
def heapPush (ps : List Process) (c : List Nat) (x : Nat) : List Nat :=
  pushHeapLoop ps x (c.length + 1) (c ++ [x]) c.length

/-- The `while (secondChild < (len - 1) / 2)` loop of `__adjust_heap`, in which
`holeIndex` and `secondChild` are equal at each test: the hole moves down to the child
that does not compare before its sibling.  Returns the vector and the hole. -/
def adjustHeapLoop (ps : List Process) (len : Nat) : Nat → List Nat → Nat → List Nat × Nat
  | 0, c, hole => (c, hole)
  | n + 1, c, hole =>
    if hole < (len - 1) / 2 then
      let right := 2 * (hole + 1)
      let child := if cmp ps (c.getD right 0) (c.getD (right - 1) 0) then right - 1 else right
      adjustHeapLoop ps len n (c.set hole (c.getD child 0)) child
    else (c, hole)

/-- The function `__adjust_heap(first, 0, len, value, comp)` for `len ≥ 1`: the loop,
the case of a last node with a single child, and the final `__push_heap`. -/
def adjustHeap (ps : List Process) (c : List Nat) (len : Nat) (value : Nat) : List Nat :=
  match adjustHeapLoop ps len len c 0 with
  | (c1, hole) =>
    if len % 2 = 0 ∧ 2 ≤ len ∧ hole = (len - 2) / 2 then
      let only := 2 * (hole + 1) - 1
      pushHeapLoop ps value (only + 1) (c1.set hole (c1.getD only 0)) only
    else pushHeapLoop ps value (hole + 1) c1 hole

/-- The call `ready_queue.pop()`: `std::pop_heap` saves the last element as `value`,
moves the top to the back and adjusts the first `size - 1` positions; `pop_back`
then drops the back.  The positions adjusted are those of `c.dropLast`. -/
def heapPop (ps : List Process) (c : List Nat) : List Nat :=
  if 1 < c.length then adjustHeap ps c.dropLast (c.length - 1) (c.getLastD 0)
  else c.dropLast

/-- The admission loop of `CFSScheduler::schedule`, given the processes from `idx`
on; `ps` is the whole vector, read by the comparator. -/
def CFSScheduler.enqueueArrived (ps : List Process) (current_time : Int) :
    List Process → Nat → List Nat → Nat × List Nat
  | [], idx, q => (idx, q)
  | p :: rest, idx, q =>
    if p.arrival_time ≤ current_time then
      CFSScheduler.enqueueArrived ps current_time rest (idx + 1) (heapPush ps q idx)
    else (idx, q)

/-- The first loop of `CFSScheduler::schedule`. -/
def CFSScheduler.prepare (ps : List Process) : List Process :=
  ps.map fun p => { p with remaining_time := p.burst_time, vruntime := 0 }

/-- One iteration of the outer `while` of `CFSScheduler::schedule`.  The division
`1024 / current->weight` is undefined for a zero weight. -/
def CFSScheduler.step (s : State) : Outcome :=
  if s.ready_queue ≠ [] ∨ s.idx < s.processes.length then
    match CFSScheduler.enqueueArrived s.processes s.current_time (s.processes.drop s.idx) s.idx
        s.ready_queue with
    | (idx1, []) =>
      .next none
        { s with
          idx := idx1
          ready_queue := []
          current_time := match s.processes[idx1]? with
            | some p => p.arrival_time
            | none => s.current_time }
    | (idx1, current :: rest) =>
      match s.processes[current]? with
      | none => .fault
      | some p =>
        let q1 := heapPop s.processes (current :: rest)
        let s1 := noteDispatch s p.id
        let run_time := min 1 p.remaining_time
        if p.weight = 0 then .fault
        else
          let p1 := { p with
            remaining_time := p.remaining_time - run_time
            vruntime := p.vruntime + run_time * (Int.tdiv 1024 p.weight) }
          let now := s.current_time + run_time
          let ps1 := s.processes.set current p1
          match CFSScheduler.enqueueArrived ps1 now (ps1.drop idx1) idx1 q1 with
          | (idx2, q2) =>
            if p1.remaining_time > 0 then
              .next (some ⟨current, s.current_time, run_time⟩)
                { s1 with
                  processes := ps1, current_time := now, idx := idx2
                  ready_queue := heapPush ps1 q2 current }
            else
              .next (some ⟨current, s.current_time, run_time⟩)
                { s1 with
                  processes := s.processes.set current (complete p1 now)
                  current_time := now, idx := idx2, ready_queue := q2 }
  else .halt

/-! ## The driver's view -/

/-- The statements of `schedule` before its main loop. -/
def init : Policy → List Process → State
  | .fcfs, ps => { processes := ps }
  | .sjf, ps => { processes := ps, completed := List.replicate ps.length false }
  | .srtf, ps => { processes := resetRemaining ps }
  | .rr _, ps => { processes := resetRemaining ps }
  | .priority _, ps => { processes := ps, completed := List.replicate ps.length false }
  | .priorityPreemptive, ps => { processes := resetRemaining ps }
  | .mlq, ps => { processes := resetRemaining ps, queues := [[], [], []] }
  | .mfq, ps => { processes := MFQScheduler.prepare ps, queues := [[], [], []] }
  | .cfs, ps => { processes := CFSScheduler.prepare ps }
  | .edf, ps => { processes := EDFScheduler.prepare ps }

/-- One iteration of the main loop of `schedule`. -/
def step : Policy → State → Outcome
  | .fcfs => FCFSScheduler.step
  | .sjf => SJFScheduler.step
  | .srtf => SRTFScheduler.step
  | .rr quantum => RoundRobinScheduler.step quantum
  | .priority aging_interval => PriorityScheduler.step aging_interval
  | .priorityPreemptive => PreemptivePriorityScheduler.step
  | .mlq => MultilevelQueueScheduler.step
  | .mfq => MFQScheduler.step
  | .cfs => CFSScheduler.step
  | .edf => EDFScheduler.step

/-- Whether the scheduler keeps an open segment in `last_id` and `last_start` and
flushes it after the loop; the other three append a whole segment per dispatch. -/
def Policy.coalesces : Policy → Bool
  | .fcfs | .sjf | .priority _ => false
  | _ => true

/-- The statements of `schedule` after its main loop. -/
def finish (pol : Policy) (s : State) (log : List Dispatch) : Result :=
  { processes := s.processes
    gantt := if pol.coalesces then closeSegment s else s.gantt
    total_time := s.current_time
    dispatches := log
    missed_deadlines := s.missed_deadlines }

/-- The dispatches made so far (most recent first) after an iteration that made the
dispatch `ev`, or none. -/
def record : Option Dispatch → List Dispatch → List Dispatch
  | some e, log => e :: log
  | none, log => log

/-- At most `n` iterations of the main loop from a state and the dispatches made so
far (most recent first); the iteration stops where the loop ends or faults. -/
def iterate (pol : Policy) : Nat → State × List Dispatch → State × List Dispatch
  | 0, c => c
  | n + 1, (s, log) =>
    match step pol s with
    | .next ev s1 => iterate pol n (s1, record ev log)
    | _ => (s, log)

/-- The state and the dispatches after at most `n` iterations of the main loop of
`schedule` on the process vector `ps`. -/
def reach (pol : Policy) (n : Nat) (ps : List Process) : State × List Dispatch :=
  iterate pol n (init pol ps, [])

/-- The call `scheduler->schedule(processes, gantt, total_time)` with an empty
`gantt`: the result, if the main loop ends within `fuel` iterations. -/
def schedule (pol : Policy) (fuel : Nat) (ps : List Process) : Option Result :=
  match reach pol fuel ps with
  | (s, log) =>
    match step pol s with
    | .halt => some (finish pol s log)
    | _ => none

/-- The built-in workload of `main`. -/
def builtin : List Process :=
  [ { id := "P1", arrival_time := 0, burst_time := 8, priority := 2, remaining_time := 8 },
    { id := "P2", arrival_time := 1, burst_time := 4, priority := 1, remaining_time := 4 },
    { id := "P3", arrival_time := 2, burst_time := 9, priority := 3, remaining_time := 9 },
    { id := "P4", arrival_time := 3, burst_time := 5, priority := 4, remaining_time := 5 } ]

/-! ## `rr.cpp`

The Round Robin loop of the stand-alone program `rr.cpp`, with the workload and the
quantum, which `main` fixes there, as parameters.  `Process*` values are indices into
the process vector. -/

/-- The `struct Process` of `rr.cpp`; the built-in list leaves `last_executed_time` to
value-initialisation. -/
structure RR.Process where
  id : String
  arrival_time : Int
  burst_time : Int
  priority : Int
  remaining_time : Int
  waiting_time : Int := 0
  turnaround_time : Int := 0
  last_executed_time : Int := 0
deriving DecidableEq, Repr

/-- The local variables of `main` in `rr.cpp`. -/
structure RR.State where
  processes : List RR.Process
  ready_queue : List Nat := []
  gantt : List (String × Int) := []
  current_time : Int := 0
  remaining : List Nat
deriving DecidableEq, Repr

/-- What one evaluation of the loop condition and body of `rr.cpp` does. -/
inductive RR.Outcome where
  | halt : RR.Outcome
  | fault : RR.Outcome
  | next : Option Dispatch → RR.State → RR.Outcome
deriving DecidableEq, Repr

/-- The loop `for (auto it = remaining.begin(); it != remaining.end();)` of `rr.cpp`:
every process of `remaining` that has arrived is pushed to `ready_queue` and erased
from `remaining`; the others stay, in their order.  Returns `remaining` and
`ready_queue`. -/
def RR.enqueueArrived (processes : List RR.Process) (current_time : Int) :
    List Nat → List Nat → List Nat × List Nat
  | [], q => ([], q)
  | i :: rest, q =>
    match processes[i]? with
    | some p =>
      if p.arrival_time ≤ current_time then
        RR.enqueueArrived processes current_time rest (q ++ [i])
      else
        match RR.enqueueArrived processes current_time rest q with
        | (remaining1, q1) => (i :: remaining1, q1)
    | none =>
      match RR.enqueueArrived processes current_time rest q with
      | (remaining1, q1) => (i :: remaining1, q1)

/-- One iteration of the `while` of `rr.cpp`. -/
def RR.step (quantum : Int) (s : RR.State) : RR.Outcome :=
  if s.remaining ≠ [] ∨ s.ready_queue ≠ [] then
    match RR.enqueueArrived s.processes s.current_time s.remaining s.ready_queue with
    | (remaining1, []) =>
      .next none
        { s with remaining := remaining1, ready_queue := [], current_time := s.current_time + 1 }
    | (remaining1, i :: q1) =>
      match s.processes[i]? with
      | none => .fault
      | some p =>
        let time_run := min quantum p.remaining_time
        let waiting :=
          if p.burst_time = p.remaining_time then
            p.waiting_time + (s.current_time - p.arrival_time)
          else p.waiting_time + (s.current_time - p.last_executed_time)
        let now := s.current_time + time_run
        let p1 := { p with
          waiting_time := waiting
          remaining_time := p.remaining_time - time_run
          last_executed_time := now }
        let ps1 := s.processes.set i p1
        match RR.enqueueArrived ps1 now remaining1 q1 with
        | (remaining2, q2) =>
          if p1.remaining_time > 0 then
            .next (some ⟨i, s.current_time, time_run⟩)
              { processes := ps1
                ready_queue := q2 ++ [i]
                gantt := s.gantt ++ [(p.id, time_run)]
                current_time := now
                remaining := remaining2 }
          else
            .next (some ⟨i, s.current_time, time_run⟩)
              { processes := s.processes.set i
                  { p1 with turnaround_time := now - p1.arrival_time }
                ready_queue := q2
                gantt := s.gantt ++ [(p.id, time_run)]
                current_time := now
                remaining := remaining2 }
  else .halt

/-- The statements of `rr.cpp` before its loop. -/
def RR.init (ps : List RR.Process) : RR.State :=
  { processes := ps.map fun p => { p with remaining_time := p.burst_time }
    remaining := List.range ps.length }

/-- At most `n` iterations of the loop of `rr.cpp` from a state and the dispatches made
so far (most recent first). -/
def RR.iterate (quantum : Int) : Nat → RR.State × List Dispatch → RR.State × List Dispatch
  | 0, c => c
  | n + 1, (s, log) =>
    match RR.step quantum s with
    | .next ev s1 => RR.iterate quantum n (s1, record ev log)
    | _ => (s, log)

/-- What the loop of `rr.cpp` leaves behind: the process vector, the trace, the
`current_time` passed to `calculateMetrics`, and the dispatches (most recent first). -/
structure RR.Result where
  processes : List RR.Process
  gantt : List (String × Int)
  total_time : Int
  dispatches : List Dispatch
deriving DecidableEq, Repr

/-- The program `rr.cpp` on the processes `ps` with the quantum `quantum`: the result,
if the loop ends within `fuel` iterations. -/
def RR.schedule (quantum : Int) (fuel : Nat) (ps : List RR.Process) : Option RR.Result :=
  match RR.iterate quantum fuel (RR.init ps, []) with
  | (s, log) =>
    match RR.step quantum s with
    | .halt => some ⟨s.processes, s.gantt, s.current_time, log⟩
    | _ => none

/-- The process of `rr.cpp` for a process of `simulator.cpp`: the five fields that the
two programs share, as both programs list them at creation. -/
def RR.ofProcess (p : Sched.Process) : RR.Process :=
  { id := p.id, arrival_time := p.arrival_time, burst_time := p.burst_time,
    priority := p.priority, remaining_time := p.remaining_time }

/-- A single process that needs two quanta of 4. -/
def twoQuantaWorkload : List Process :=
  [ { id := "P1", arrival_time := 0, burst_time := 8, priority := 1, remaining_time := 8 } ]

/-! ## Metrics -/

/-- A `double` (IEEE 754 binary64) by its value: a rational number, an infinity, or NaN.
The two zeros are the one value `finite 0`: they compare equal, and `calculateMetrics`
divides only by zeros that are converted from an `int`, which are positive. -/
inductive Double where
  | finite : ℚ → Double
  | inf (negative : Bool) : Double
  | nan : Double
deriving DecidableEq

/-- The number of binary digits of `n`, of which at most `fuel` are counted. -/
def bitLength : Nat → Nat → Nat
  | 0, _ => 0
  | fuel + 1, n => if n = 0 then 0 else bitLength fuel (n / 2) + 1

/-- The binary exponent of a rational `a > 0`: the `e` with `2 ^ e ≤ a < 2 ^ (e + 1)`. -/
def Double.exponent (a : ℚ) : Int :=
  let e0 : Int := (bitLength a.num.natAbs a.num.natAbs : Int) - (bitLength a.den a.den : Int)
  if (2 : ℚ) ^ e0 ≤ a then e0 else e0 - 1

/-- Rounding to the nearest integer, a tie to the even one. -/
def roundHalfEven (x : ℚ) : Int :=
  let f : Int := ⌊x⌋
  if x - f < 1 / 2 then f
  else if 1 / 2 < x - f then f + 1
  else if f % 2 = 0 then f else f + 1

/-- The `double` that an arithmetic operation delivers when its mathematical result is
`q`, in the default rounding mode (to nearest, a tie to the even significand): `q` is
rounded to a multiple of `2 ^ (e - 52)`, where `2 ^ e ≤ |q| < 2 ^ (e + 1)`, or of
`2 ^ (-1074)` in the subnormal range, and a result of magnitude `2 ^ 1024` or more is an
infinity. -/
def Double.ofRat (q : ℚ) : Double :=
  if q = 0 then .finite 0
  else
    let u : Int := max (Double.exponent |q| - 52) (-1074)
    let r : ℚ := (roundHalfEven (q / 2 ^ u) : ℚ) * 2 ^ u
    if (2 : ℚ) ^ (1024 : Int) ≤ |r| then .inf (decide (q < 0)) else .finite r

/-- The conversion of an `int` to `double`, which is exact: every value of a 32-bit `int`
is a `double`. -/
def Double.ofInt (z : Int) : Double :=
  .finite z

/-- The sum of two `double` values. -/
def Double.add : Double → Double → Double
  | .finite x, .finite y => Double.ofRat (x + y)
  | .finite _, .inf s => .inf s
  | .inf s, .finite _ => .inf s
  | .inf s, .inf t => if s = t then .inf s else .nan
  | _, _ => .nan

/-- The product of two `double` values. -/
def Double.mul : Double → Double → Double
  | .finite x, .finite y => Double.ofRat (x * y)
  | .finite x, .inf s => if x = 0 then .nan else .inf (xor s (decide (x < 0)))
  | .inf s, .finite y => if y = 0 then .nan else .inf (xor s (decide (y < 0)))
  | .inf s, .inf t => .inf (xor s t)
  | _, _ => .nan

/-- The quotient of two `double` values: a division of a finite value by zero gives an
infinity, or NaN for `0 / 0`. -/
def Double.div : Double → Double → Double
  | .finite x, .finite y =>
    if y ≠ 0 then Double.ofRat (x / y)
    else if 0 < x then .inf false
    else if x < 0 then .inf true
    else .nan
  | .finite _, .inf _ => .finite 0
  | .inf s, .finite y => .inf (xor s (decide (y < 0)))
  | _, _ => .nan

/-- The four output parameters of `calculateMetrics`. -/
structure Metrics where
  avg_wait : Double
  avg_turn : Double
  cpu_util : Double
  throughput : Double
deriving DecidableEq

/-- The function `calculateMetrics` of `simulator.cpp`: `avg_wait` and `avg_turn` are
accumulated and divided in `double`, `total_burst` is accumulated in `int`, and the
operands of the two last quotients and of the product are converted to `double`. -/
def calculateMetrics (processes : List Process) (total_time : Int) : Metrics :=
  let n : Int := processes.length
  let total_burst : Int := processes.foldl (fun sum p => sum + p.burst_time) 0
  { avg_wait :=
      Double.div
        (processes.foldl (fun avg_wait p => Double.add avg_wait (Double.ofInt p.waiting_time))
          (.finite 0))
        (Double.ofInt n)
    avg_turn :=
      Double.div
        (processes.foldl (fun avg_turn p => Double.add avg_turn (Double.ofInt p.turnaround_time))
          (.finite 0))
        (Double.ofInt n)
    cpu_util :=
      if total_time > 0 then
        Double.mul (Double.div (Double.ofInt total_burst) (Double.ofInt total_time))
          (Double.ofInt 100)
      else .finite 0
    throughput := Double.div (Double.ofInt n) (Double.ofInt total_time) }

/-! ## Concrete workloads -/

/-- A workload with an idle gap: P1 arrives at 0 and needs 1 unit, P2 arrives at 5
and needs 1 unit. -/
def gapWorkload : List Process :=
  [ { id := "P1", arrival_time := 0, burst_time := 1, priority := 1, remaining_time := 1 },
    { id := "P2", arrival_time := 5, burst_time := 1, priority := 1, remaining_time := 1 } ]

/-- A single process whose priority is `INT32_MAX`. -/
def sentinelWorkload : List Process :=
  [ { id := "P1", arrival_time := 0, burst_time := 1, priority := 2147483647,
      remaining_time := 1 } ]

/-- A workload whose first process has a negative burst time. -/
def negativeBurstWorkload : List Process :=
  [ { id := "P1", arrival_time := 0, burst_time := -3, priority := 1, remaining_time := -3 },
    { id := "P2", arrival_time := 0, burst_time := 5, priority := 1, remaining_time := 5 } ]

/-- A process that arrives at 5 and needs 5 units. -/
def lateProcess : Process :=
  { id := "P1", arrival_time := 5, burst_time := 5, priority := 1, remaining_time := 5 }

/-- The workload of the single process `lateProcess`. -/
def lateWorkload : List Process :=
  [lateProcess]

/-- The process P1 of the built-in workload, alone. -/
def firstProcess : Process :=
  { id := "P1", arrival_time := 0, burst_time := 8, priority := 2, remaining_time := 8 }

/-- Two processes that arrive together with the same burst time, listed with the
larger id first. -/
def tieWorkload : List Process :=
  [ { id := "P2", arrival_time := 0, burst_time := 5, priority := 1, remaining_time := 5 },
    { id := "P1", arrival_time := 0, burst_time := 5, priority := 1, remaining_time := 5 } ]

/-! ## Notions used to state the properties -/

/-- The completion time of the process at index `i` according to the dispatches
`log` (most recent first): the end of its last dispatch. -/
def completionTime (log : List Dispatch) (i : Nat) : Option Int :=
  (log.find? fun e => decide (e.idx = i)).map fun e => e.start + e.len

/-- The process `p`, at index `i`, has its final times: `turnaround_time` is
`waiting_time + burst_time`, and it is the completion time less the arrival time. -/
def Settled (log : List Dispatch) (i : Nat) (p : Process) : Prop :=
  p.turnaround_time = p.waiting_time + p.burst_time ∧
    completionTime log i = some (p.arrival_time + p.turnaround_time)

/-- The bookkeeping of the unit-step loops: the counter `completed` counts the
processes brought to `remaining_time == 0` by the loop (those of burst time 0 start
there and are never counted), and each process brought there is settled. -/
structure UnitInv (s : State) (log : List Dispatch) : Prop where
  count : s.completed_count + (s.processes.countP fun p => decide (p.burst_time = 0))
    = s.processes.countP fun p => decide (p.remaining_time = 0)
  zero : ∀ p ∈ s.processes, p.burst_time = 0 → p.remaining_time = 0
  settled : ∀ i p, s.processes[i]? = some p → p.remaining_time = 0 → p.burst_time ≠ 0 →
    Settled log i p

/-- The index `x` is held by one of the queues of a multilevel scheduler. -/
def inQueues (qs : List (List Nat)) (x : Nat) : Prop :=
  ∃ q ∈ qs, x ∈ q

/-- The process at index `x` waits in `ready_queue` (Round Robin, CFS). -/
def inReady (s : State) (x : Nat) : Prop :=
  x ∈ s.ready_queue

/-- The process at index `x` waits in one of `queues` (MLQ, MFQ). -/
def inLevels (s : State) (x : Nat) : Prop :=
  inQueues s.queues x

/-- What an admission loop does at time `current_time`: it moves the position from
`idx` to `idx1`, queues exactly the indices it passes (`held` before, `held1` after),
each of a process that has arrived, and stops at the end of the vector or at a
process that has not arrived. -/
structure Admitted (ps : List Process) (current_time : Int) (idx idx1 : Nat)
    (held held1 : Nat → Prop) : Prop where
  le : idx ≤ idx1
  bound : idx1 ≤ max idx ps.length
  held_iff : ∀ x, held1 x ↔ held x ∨ (idx ≤ x ∧ x < idx1)
  arrived : ∀ i p, idx ≤ i → i < idx1 → ps[i]? = some p → p.arrival_time ≤ current_time
  stop : ∀ p, ps[idx1]? = some p → current_time < p.arrival_time

/-- The process left by a dispatch of `p` for `run_time` units that ends at time
`now`, with `vruntime` as updated by the scheduler: unfinished, or completed. -/
def afterRun (p : Process) (run_time now vruntime : Int) : Process :=
  if 0 < p.remaining_time - run_time then
    { p with remaining_time := p.remaining_time - run_time, vruntime := vruntime }
  else
    complete { p with remaining_time := p.remaining_time - run_time, vruntime := vruntime } now

/-- What an iteration of one of the four queue-driven loops (Round Robin, MLQ, MFQ,
CFS) does, with `held s x` for "index `x` is queued in state `s`" and `slice` for the
time slices the scheduler grants: either the queues are empty after admission and
time moves to the next arrival; or the process `current`, queued after admission, is
taken out, runs for `min slice remaining_time`, further processes are admitted at the
new time, and `current` is queued again if it is unfinished.  The open segment of the
trace is kept when `current` carries its id and is replaced otherwise. -/
inductive QStep (held : State → Nat → Prop) (slice : Int → Prop) (s : State) :
    Option Dispatch → State → Prop where
  | idle (s1 : State)
      (hps : s1.processes = s.processes)
      (hadm : Admitted s.processes s.current_time s.idx s1.idx (held s) (held s1))
      (hempty : ∀ x, ¬ held s1 x)
      (hct : s1.current_time = match s.processes[s1.idx]? with
        | some p => p.arrival_time
        | none => s.current_time)
      (htrace : s1.gantt = s.gantt ∧ s1.last_id = s.last_id ∧ s1.last_start = s.last_start) :
      QStep held slice s none s1
  | run (s1 : State) (current : Nat) (p : Process) (sl run_time vruntime : Int) (mid : Nat)
      (heldMid heldPop heldEnd : Nat → Prop)
      (hadm1 : Admitted s.processes s.current_time s.idx mid (held s) heldMid)
      (hpop : ∀ x, heldMid x ↔ x = current ∨ heldPop x)
      (hp : s.processes[current]? = some p)
      (hslice : slice sl)
      (hrun : run_time = min sl p.remaining_time)
      (hps : s1.processes = s.processes.set current
        (afterRun p run_time (s.current_time + run_time) vruntime))
      (hct : s1.current_time = s.current_time + run_time)
      (hadm2 : Admitted s.processes s1.current_time mid s1.idx heldPop heldEnd)
      (hheld : ∀ x, held s1 x ↔ heldEnd x ∨ (x = current ∧ 0 < p.remaining_time - run_time))
      (htrace : (s.last_id = p.id ∧ s1.gantt = s.gantt ∧ s1.last_id = s.last_id ∧
          s1.last_start = s.last_start) ∨
        ((s.last_id ≠ p.id ∨ s.last_start = -1) ∧ s1.gantt = (switchSegment s p.id).gantt ∧
          s1.last_id = p.id ∧ s1.last_start = s.current_time)) :
      QStep held slice s (some ⟨current, s.current_time, run_time⟩) s1

/-- The bookkeeping of the two non-preemptive selection loops (SJF, Priority): there
is one flag per process, `completed_count` counts the flags set, and each process
whose flag is set is settled. -/
structure SelInv (s : State) (log : List Dispatch) : Prop where
  length : s.completed.length = s.processes.length
  count : s.completed_count = s.completed.count true
  settled : ∀ i p, s.completed[i]? = some true → s.processes[i]? = some p → Settled log i p

/-- The single process `p` can be picked by the policy: its key in the selection loop
is below the sentinel `INT32_MAX`, its MLQ level is a valid index, its CFS weight can
be divided by, and the Round Robin quantum is positive. -/
def Policy.canPick : Policy → Process → Prop
  | .fcfs, _ => True
  | .sjf, p => p.burst_time < INT32_MAX
  | .srtf, p => p.burst_time < INT32_MAX
  | .rr quantum, _ => 1 ≤ quantum
  | .priority _, p => p.priority < INT32_MAX
  | .priorityPreemptive, p => p.priority < INT32_MAX
  | .mlq, p => 0 ≤ p.priority
  | .mfq, _ => True
  | .cfs, p => p.weight ≠ 0
  | .edf, p =>
    (if p.deadline = 0 then p.arrival_time + p.burst_time * 2 else p.deadline) < INT32_MAX

/-- The completion times that the FCFS rule prescribes for the processes `ps` served
in order after time `prev`: each is the later of the previous completion time and the
arrival time, plus the burst time. -/
def fcfsCompletions (prev : Int) : List Process → List Int
  | [] => []
  | p :: rest =>
    (max prev p.arrival_time + p.burst_time) ::
      fcfsCompletions (max prev p.arrival_time + p.burst_time) rest

/-- The dispatches that the FCFS rule prescribes for the processes `ps`, which sit at
the indices from `i` on, served in order after time `prev`: each process starts at the
later of the previous completion time and its arrival time and runs for its burst
time. -/
def fcfsDispatches (prev : Int) (i : Nat) : List Process → List Dispatch
  | [] => []
  | p :: rest =>
    ⟨i, max prev p.arrival_time, p.burst_time⟩ ::
      fcfsDispatches (max prev p.arrival_time + p.burst_time) (i + 1) rest

/-- The process `p` without the two times that `schedule` writes at a completion and
never reads. -/
def eraseTimes (p : Process) : Process :=
  { p with waiting_time := 0, turnaround_time := 0 }

/-- The state `s` with `eraseTimes` applied to every process. -/
def State.erase (s : State) : State :=
  { s with processes := s.processes.map eraseTimes }

/-- The outcome `o` with `eraseTimes` applied to every process of its state. -/
def Outcome.erase : Outcome → Outcome
  | .halt => .halt
  | .fault => .fault
  | .next ev s => .next ev s.erase

/-- Three processes that arrive together with equal bursts, whose priorities the aging
of non-preemptive Priority levels out. -/
def agingWorkload : List Process :=
  [ { id := "P1", arrival_time := 0, burst_time := 5, priority := 1, remaining_time := 5 },
    { id := "P2", arrival_time := 0, burst_time := 5, priority := 3, remaining_time := 5 },
    { id := "P3", arrival_time := 0, burst_time := 5, priority := 2, remaining_time := 5 } ]

/-! ## `main` -/

/-- The `if`/`else if` chain of `main` over `scheduler_type`: the scheduler that is
constructed, or none where the chain reaches its final `else`.  Round Robin takes the
quantum of the command line, Priority its default aging interval 5. -/
def selectScheduler (scheduler_type : String) (quantum : Int) : Option Policy :=
  if scheduler_type = "fcfs" then some .fcfs
  else if scheduler_type = "sjf" then some .sjf
  else if scheduler_type = "srtf" then some .srtf
  else if scheduler_type = "rr" then some (.rr quantum)
  else if scheduler_type = "priority" then some (.priority 5)
  else if scheduler_type = "priority-preemptive" then some .priorityPreemptive
  else if scheduler_type = "mlq" then some .mlq
  else if scheduler_type = "mfq" then some .mfq
  else if scheduler_type = "cfs" then some .cfs
  else if scheduler_type = "edf" then some .edf
  else none

/-- How a run of `main` goes: `std::stoi` throws on `--quantum` or `--num`; or `main`
returns 1 having written the lines `cerr` to `std::cerr`, before `scheduler`, `gantt`
and `total_time` exist or `schedule` is called; or a scheduler is constructed, `gantt`
and `total_time` are created and `schedule` is called, with its result if it returns. -/
inductive MainOutcome where
  | thrown : MainOutcome
  | failure (cerr : List String) : MainOutcome
  | ran (scheduler : Policy) (result : Option Result) : MainOutcome
deriving DecidableEq

/-- The function `main` of `simulator.cpp` up to the call of `schedule`, as a function
of the token `args["--scheduler"]`, of what `std::stoi` makes of `--quantum` and
`--num` (`none` where it throws), and of the process vector that the random generator,
`loadProcesses` or the built-in list provides. -/
def main (scheduler_type : String) (quantum num_random : Option Int) (processes : List Process)
    (fuel : Nat) : MainOutcome :=
  match quantum, num_random with
  | some quantum, some _ =>
    if processes.isEmpty then .failure ["No processes loaded."]
    else
      match selectScheduler scheduler_type quantum with
      | some scheduler => .ran scheduler (schedule scheduler fuel processes)
      | none =>
        .failure
          [ "Unknown scheduler: " ++ scheduler_type,
            "Available: fcfs, sjf, srtf, rr, priority, priority-preemptive, mlq, mfq, cfs, edf" ]
  | _, _ => .thrown

/-- What the Round Robin loops of the two programs read of a process: its id, its
arrival time and its remaining time. -/
def viewOf (p : Process) : String × Int × Int :=
  (p.id, p.arrival_time, p.remaining_time)

/-- What the Round Robin loop of `rr.cpp` reads of a process, apart from the times
that enter `waiting_time` only. -/
def RR.viewOf (p : RR.Process) : String × Int × Int :=
  (p.id, p.arrival_time, p.remaining_time)

/-- The state `t` of the loop of `rr.cpp` matches the state `s` of
`RoundRobinScheduler::schedule`: the same time, the same queue, the same ids, arrival
times and remaining times, and the processes not yet admitted are those from `idx`
on.  The arrival times are sorted. -/
structure RRSim (s : State) (t : RR.State) : Prop where
  current_time : t.current_time = s.current_time
  ready_queue : t.ready_queue = s.ready_queue
  remaining : t.remaining = List.range' s.idx (s.processes.length - s.idx)
  view : t.processes.map RR.viewOf = s.processes.map viewOf
  sorted : (s.processes.map (·.arrival_time)).Pairwise (· ≤ ·)

/-- Whether `RoundRobinScheduler::schedule` is about to idle: the queue is empty and
the next process has not arrived (1), or not (0). -/
def rrIdle (s : State) : Nat :=
  match s.processes[s.idx]? with
  | some p => if s.ready_queue = [] ∧ s.current_time < p.arrival_time then 1 else 0
  | none => 0

/-- A quantity that every iteration of `RoundRobinScheduler::schedule` decreases when
the quantum is positive and no remaining time is negative: three units per unit of
remaining time and per process that is queued or not yet admitted, and one unit where
the processor is about to idle. -/
def rrMeasure (s : State) : Nat :=
  (3 * (s.processes.map (·.remaining_time)).sum).toNat
    + 3 * (s.ready_queue.length + (s.processes.length - s.idx)) + rrIdle s

/-- The trace segment that lists the dispatch `e` by itself: the id of the process
dispatched and the length of the dispatch. -/
def segmentOf (ps : List Process) (e : Dispatch) : String × Int :=
  (((ps[e.idx]?).map (·.id)).getD "", e.len)

/-- The metrics that `printResults` computes (by `calculateMetrics`) and prints once
`schedule` has returned; none where `main` does not get there. -/
def report : MainOutcome → Option Metrics
  | .ran _ (some r) => some (calculateMetrics r.processes r.total_time)
  | _ => none

/-- A single process whose burst time is `INT32_MAX`. -/
def longBurstWorkload : List Process :=
  [ { id := "P1", arrival_time := 0, burst_time := 2147483647, priority := 1,
      remaining_time := 2147483647 } ]

/-- Two processes that arrive together; the second has a high priority number and
waits for the whole burst of the first. -/
def agingGapWorkload : List Process :=
  [ { id := "P1", arrival_time := 0, burst_time := 8, priority := 1, remaining_time := 8 },
    { id := "P2", arrival_time := 0, burst_time := 5, priority := 9, remaining_time := 5 } ]

/-- A process whose priority is 0 and that has waited for 5 time units at time 5. -/
def priorityZeroProcess : Process :=
  { id := "P1", arrival_time := 0, burst_time := 3, priority := 0, remaining_time := 3 }

/-- A process whose priority is -1. -/
def negativePriorityWorkload : List Process :=
  [ { id := "P1", arrival_time := 0, burst_time := 3, priority := -1, remaining_time := 3 } ]

/-- Every index that waits in `queues[l]` is that of a process whose priority (taken
from the list `priorities`, by index) has the MLQ level `l`. -/
def queuedAtOwnLevel (priorities : List Int) (queues : List (List Nat)) : Prop :=
  ∀ (l : Nat) (q : List Nat) (y : Nat), queues[l]? = some q → y ∈ q →
    ∃ pr, priorities[y]? = some pr ∧ MultilevelQueueScheduler.level pr = (l : Int)

/-! ## The program `srtf.cpp` -/

/-- The `struct Process` of `srtf.cpp`. -/
structure SRTF.Process where
  id : String
  arrival_time : Int
  burst_time : Int
  priority : Int
  remaining_time : Int
  waiting_time : Int
  turnaround_time : Int
deriving DecidableEq, Repr

/-- The local variables of `main` in `srtf.cpp`; the pointer `current` is the index of
the process it points to, or `none` for `nullptr`. -/
structure SRTF.State where
  processes : List SRTF.Process
  gantt : List (String × Int) := []
  current_time : Int := 0
  current : Option Nat := none
  time_slice : Int := 0
deriving DecidableEq, Repr

/-- What one iteration of the `while (true)` of `srtf.cpp` does: it leaves the loop by
`break`, or it runs to its end or to `continue`, having run a process or not. -/
inductive SRTF.Outcome where
  | done : SRTF.State → SRTF.Outcome
  | next : Option Dispatch → SRTF.State → SRTF.Outcome
deriving DecidableEq, Repr

/-- The loop that collects `arrived`: the indices, in order, of the processes that have
arrived and have time remaining; `i` is the index of the head. -/
def SRTF.arrived (current_time : Int) : List SRTF.Process → Nat → List Nat
  | [], _ => []
  | p :: rest, i =>
    if p.arrival_time ≤ current_time ∧ p.remaining_time > 0 then
      i :: SRTF.arrived current_time rest (i + 1)
    else SRTF.arrived current_time rest (i + 1)

/-- The value `p->remaining_time` for the pointer to the process at index `i`. -/
def SRTF.remainingAt (ps : List SRTF.Process) (i : Nat) : Int :=
  match ps[i]? with
  | some p => p.remaining_time
  | none => 0

/-- The loop of `std::min_element` after its first element `smallest`: a later element
replaces `smallest` when it compares less. -/
def SRTF.minElementFrom (ps : List SRTF.Process) : Nat → List Nat → Nat
  | smallest, [] => smallest
  | smallest, i :: rest =>
    if SRTF.remainingAt ps i < SRTF.remainingAt ps smallest then SRTF.minElementFrom ps i rest
    else SRTF.minElementFrom ps smallest rest

/-- The statement `gantt.push_back({current->id, time_slice});`, for `current` pointing
to the process at index `c`. -/
def SRTF.pushSlice (s : SRTF.State) (c : Nat) : SRTF.State :=
  { s with gantt := s.gantt ++ [(((s.processes[c]?).map (·.id)).getD "", s.time_slice)] }

/-- The block `if (current) { gantt.push_back(...); current = nullptr; time_slice = 0; }`
of the branch taken when no process is ready. -/
def SRTF.closeSlice (s : SRTF.State) : SRTF.State :=
  match s.current with
  | some c => { SRTF.pushSlice s c with current := none, time_slice := 0 }
  | none => s

/-- The block `if (current != shortest) { if (current) gantt.push_back(...);
current = shortest; time_slice = 0; }`. -/
def SRTF.switchTo (s : SRTF.State) (shortest : Nat) : SRTF.State :=
  if s.current ≠ some shortest then
    match s.current with
    | some c => { SRTF.pushSlice s c with current := some shortest, time_slice := 0 }
    | none => { s with current := some shortest, time_slice := 0 }
  else s

/-- One iteration of the `while (true)` of `srtf.cpp`. -/
def SRTF.step (s : SRTF.State) : SRTF.Outcome :=
  match SRTF.arrived s.current_time s.processes 0 with
  | [] =>
    let s1 := SRTF.closeSlice s
    let s2 := { s1 with current_time := s1.current_time + 1 }
    if s2.processes.all (fun p => !decide (p.remaining_time > 0)) then .done s2
    else .next none s2
  | first :: rest =>
    let shortest := SRTF.minElementFrom s.processes first rest
    let s1 := SRTF.switchTo s shortest
    match s1.processes[shortest]? with
    | none => .next none s1
    | some p =>
      let p1 := { p with remaining_time := p.remaining_time - 1 }
      let now := s1.current_time + 1
      let slice := s1.time_slice + 1
      if p1.remaining_time = 0 then
        .next (some ⟨shortest, s.current_time, 1⟩)
          { s1 with
            processes := s1.processes.set shortest
              { p1 with
                turnaround_time := now - p1.arrival_time
                waiting_time := (now - p1.arrival_time) - p1.burst_time }
            gantt := s1.gantt ++ [(p1.id, slice)]
            current_time := now
            current := none
            time_slice := 0 }
      else
        .next (some ⟨shortest, s.current_time, 1⟩)
          { s1 with
            processes := s1.processes.set shortest p1
            current_time := now
            time_slice := slice }

/-- The statements of `srtf.cpp` before its loop. -/
def SRTF.init (ps : List SRTF.Process) : SRTF.State :=
  { processes := ps.map fun p => { p with remaining_time := p.burst_time } }

/-- At most `n` iterations of the loop of `srtf.cpp`: the state at the `break`, if the
loop is left within them. -/
def SRTF.run : Nat → SRTF.State → Option SRTF.State
  | 0, _ => none
  | n + 1, s =>
    match SRTF.step s with
    | .done s1 => some s1
    | .next _ s1 => SRTF.run n s1

/-- The process list of `srtf.cpp`. -/
def SRTF.builtin : List SRTF.Process :=
  [ ⟨"P1", 0, 8, 2, 8, 0, 0⟩, ⟨"P2", 1, 4, 1, 4, 0, 0⟩, ⟨"P3", 2, 9, 3, 9, 0, 0⟩,
    ⟨"P4", 3, 5, 4, 5, 0, 0⟩ ]

/-- The argument `total_time` of the call `calculateMetrics(processes, current_time)`
of `srtf.cpp` on the processes `ps`, if the loop is left within `fuel` iterations. -/
def SRTF.totalTime (fuel : Nat) (ps : List SRTF.Process) : Option Int :=
  (SRTF.run fuel (SRTF.init ps)).map (·.current_time)

/-- The completion times `arrival_time + turnaround_time` that the loop of `srtf.cpp`
has recorded when it is left within `fuel` iterations. -/
def SRTF.completionTimes (fuel : Nat) (ps : List SRTF.Process) : Option (List Int) :=
  (SRTF.run fuel (SRTF.init ps)).map fun s =>
    s.processes.map fun p => p.arrival_time + p.turnaround_time

/-- What the loop of `srtf.cpp` keeps true of the processes and the time: remaining
times have the sign of the burst time or are 0; every completion recorded lies at or
before the current time; and once no process has time remaining, the current time is
that of a completion, unless no process has a positive burst time. -/
def SRTF.Inv (s : SRTF.State) : Prop :=
  (∀ p ∈ s.processes, (0 < p.burst_time → 0 ≤ p.remaining_time) ∧
    (p.burst_time ≤ 0 → p.remaining_time ≤ 0)) ∧
  (∀ p ∈ s.processes, 0 < p.burst_time → p.remaining_time = 0 →
    p.arrival_time + p.turnaround_time ≤ s.current_time) ∧
  ((∀ p ∈ s.processes, p.remaining_time ≤ 0) →
    (∀ p ∈ s.processes, p.burst_time ≤ 0) ∨
    ∃ p ∈ s.processes, 0 < p.burst_time ∧ p.remaining_time = 0 ∧
      p.arrival_time + p.turnaround_time = s.current_time)

/-- The indices that wait in the ready queue of a queue-driven scheduler, with
multiplicity: `ready_queue` (Round Robin, CFS) or the three `queues`, level after level
(MLQ, MFQ). -/
def queued : Policy → State → List Nat
  | .rr _, s => s.ready_queue
  | .cfs, s => s.ready_queue
  | .mlq, s => s.queues.flatten
  | .mfq, s => s.queues.flatten
  | _, _ => []

/-- The total `remaining_time` plus the number of processes not yet admitted
(`processes.size() - idx`) in a state of `RoundRobinScheduler::schedule`. -/
def remainingPlusUnadmitted (s : State) : Int :=
  (s.processes.map (·.remaining_time)).sum + ((s.processes.length - s.idx : Nat) : Int)

/-- A single process whose burst time is 0. -/
def zeroBurstWorkload : List Process :=
  [ { id := "P1", arrival_time := 0, burst_time := 0, priority := 1, remaining_time := 0 } ]

/-- What a dispatching iteration of a queue-driven scheduler does to the indices queued:
the first admission loop adds the indices from `idx` to `mid`, the dispatched index
`e.idx` is taken out, the second admission loop adds the indices from `mid` on, and
`e.idx` is added again if the process is unfinished. -/
def QueueRun (pol : Policy) (s : State) (e : Dispatch) (s1 : State) : Prop :=
  ∃ (mid : Nat) (rest : List Nat) (p : Process),
    s.processes[e.idx]? = some p ∧ s.idx ≤ mid ∧ mid ≤ s1.idx ∧
    (e.idx :: rest).Perm (queued pol s ++ List.range' s.idx (mid - s.idx)) ∧
    (queued pol s1).Perm (rest ++ List.range' mid (s1.idx - mid) ++
      (if 0 < p.remaining_time - e.len then [e.idx] else []))

/-- What a queue-driven scheduler keeps true on a workload with positive burst times: no
index is queued twice, the indices queued are of processes admitted that have time
remaining, the processes not yet admitted have their whole burst time remaining, and no
remaining time is negative or above the burst time. -/
def QueueInv (pol : Policy) (s : State) : Prop :=
  (queued pol s).Nodup ∧ (∀ x ∈ queued pol s, x < s.idx) ∧ s.idx ≤ s.processes.length ∧
  (∀ x ∈ queued pol s, ∀ p, s.processes[x]? = some p → 0 < p.remaining_time) ∧
  (∀ i p, s.idx ≤ i → s.processes[i]? = some p → p.remaining_time = p.burst_time) ∧
  (∀ p ∈ s.processes, 0 < p.burst_time ∧ 0 ≤ p.remaining_time ∧
    p.remaining_time ≤ p.burst_time)

/-- What the loop of `rr.cpp` keeps true on a workload with positive burst times and zero
initial waiting times, `log` being the dispatches made so far: no index is held twice by
`remaining` and `ready_queue`; the processes queued have time remaining and those of
`remaining` their whole burst time; a process has its whole burst time remaining exactly
when it has not been dispatched, and then its waiting time is 0; once dispatched, its
waiting time plus the time it has executed is the time from its arrival to the end of
its last slice; a completed process has that time as turnaround time; and every process
is in `remaining`, queued or completed. -/
def RR.Inv (t : RR.State) (log : List Dispatch) : Prop :=
  t.ready_queue.Nodup ∧ t.remaining.Nodup ∧ (∀ x ∈ t.ready_queue, x ∉ t.remaining) ∧
  (∀ x ∈ t.ready_queue, ∀ p, t.processes[x]? = some p → 0 < p.remaining_time) ∧
  (∀ x ∈ t.remaining, ∀ p, t.processes[x]? = some p → p.remaining_time = p.burst_time) ∧
  (∀ i p, t.processes[i]? = some p →
    0 < p.burst_time ∧ 0 ≤ p.remaining_time ∧ p.remaining_time ≤ p.burst_time ∧
    (p.remaining_time = p.burst_time ↔ ∀ e ∈ log, e.idx ≠ i) ∧
    (p.remaining_time = p.burst_time → p.waiting_time = 0) ∧
    (p.remaining_time < p.burst_time →
      p.waiting_time + (p.burst_time - p.remaining_time)
        = p.last_executed_time - p.arrival_time) ∧
    (p.remaining_time = 0 → p.turnaround_time = p.last_executed_time - p.arrival_time) ∧
    (i ∈ t.remaining ∨ i ∈ t.ready_queue ∨ p.remaining_time = 0))

/-- The process that a dispatch of `rr.cpp` at the time `current_time` for `time_run`
units leaves behind, before the completion statement: the waiting time grows by the
time since the arrival, if the process has its whole burst time remaining, and by the
time since the end of its last slice otherwise. -/
def RR.afterRun (p : RR.Process) (current_time time_run : Int) : RR.Process :=
  { p with
    waiting_time :=
      if p.burst_time = p.remaining_time then
        p.waiting_time + (current_time - p.arrival_time)
      else p.waiting_time + (current_time - p.last_executed_time)
    remaining_time := p.remaining_time - time_run
    last_executed_time := current_time + time_run }

/-- The constant `INT32_MIN`. -/
def INT32_MIN : Int := -2147483648

/-- The value `x` is one that a 32-bit `int` can hold. -/
def fitsInt32 (x : Int) : Bool :=
  decide (INT32_MIN ≤ x) && decide (x ≤ INT32_MAX)

/-- The `int` that a 32-bit two's-complement machine holds after an arithmetic operation
whose mathematical result is `x`: `x` itself when it fits, and `x` reduced modulo `2^32`
into the range of `int` when the operation overflows. -/
def wrapInt32 (x : Int) : Int :=
  (x + 2147483648) % 4294967296 - 2147483648

/-- The range-based `for` of `FCFSScheduler::schedule` with the arithmetic of a 32-bit
`int`, from the processes still to visit and the value of `current_time`: the processes
as the loop leaves them, the segments it appends to `gantt`, and the final
`current_time`. -/
def FCFSScheduler.loopInt32 : List Process → Int → List Process × List (String × Int) × Int
  | [], current_time => ([], [], current_time)
  | p :: rest, current_time =>
    let start := if current_time < p.arrival_time then p.arrival_time else current_time
    let finish := wrapInt32 (start + p.burst_time)
    let turnaround := wrapInt32 (finish - p.arrival_time)
    let p1 := { p with
      turnaround_time := turnaround
      waiting_time := wrapInt32 (turnaround - p.burst_time) }
    match FCFSScheduler.loopInt32 rest finish with
    | (ps1, gantt, total_time) => (p1 :: ps1, (p.id, p.burst_time) :: gantt, total_time)

/-- The function `FCFSScheduler::schedule` with the arithmetic of a 32-bit `int`, called
with an empty `gantt`: the processes, `gantt` and `total_time` when it returns. -/
def FCFSScheduler.scheduleInt32 (ps : List Process) : List Process × List (String × Int) × Int :=
  FCFSScheduler.loopInt32 ps 0

/-- No operation of `FCFSScheduler::schedule` overflows on the processes `ps`, visited
after time `prev`: each completion time `max(prev, arrival_time) + burst_time`, each
turnaround time and each waiting time is a value that a 32-bit `int` can hold. -/
def fcfsFitsInt32 (prev : Int) : List Process → Bool
  | [] => true
  | p :: rest =>
    let finish := max prev p.arrival_time + p.burst_time
    fitsInt32 finish && fitsInt32 (finish - p.arrival_time) &&
      fitsInt32 (finish - p.arrival_time - p.burst_time) && fcfsFitsInt32 finish rest

/-- The `int` members of the process `p` hold values of a 32-bit `int`. -/
def Process.fitsInt32 (p : Process) : Bool :=
  Sched.fitsInt32 p.arrival_time && Sched.fitsInt32 p.burst_time &&
    Sched.fitsInt32 p.priority && Sched.fitsInt32 p.remaining_time &&
    Sched.fitsInt32 p.waiting_time && Sched.fitsInt32 p.turnaround_time &&
    Sched.fitsInt32 p.deadline && Sched.fitsInt32 p.vruntime && Sched.fitsInt32 p.weight

/-- Every `int` of the state `s` of a `schedule` holds a value of a 32-bit `int`: the
members of the processes, the durations in `gantt`, `current_time`, the counters and
`last_start`. -/
def State.fitsInt32 (s : State) : Bool :=
  s.processes.all Process.fitsInt32 && s.gantt.all (fun seg => Sched.fitsInt32 seg.2) &&
    Sched.fitsInt32 s.current_time && Sched.fitsInt32 s.completed_count &&
    Sched.fitsInt32 s.last_start && Sched.fitsInt32 s.missed_deadlines

/-- Two processes that arrive at time 0, with the burst times `INT32_MAX` and 1. -/
def overflowWorkload : List Process :=
  [ { id := "P1", arrival_time := 0, burst_time := 2147483647, priority := 1,
      remaining_time := 2147483647 },
    { id := "P2", arrival_time := 0, burst_time := 1, priority := 1, remaining_time := 1 } ]

/-- The values that `calculateMetrics` reads from the processes `ps` are values that a
32-bit `int` can hold, and its `std::accumulate` does not overflow: every waiting time,
every turnaround time, every burst time and every partial sum of the burst times, the
partial sum before `ps` being `sum`. -/
def metricsFitInt32 (sum : Int) : List Process → Bool
  | [] => true
  | p :: rest =>
    fitsInt32 p.waiting_time && fitsInt32 p.turnaround_time && fitsInt32 p.burst_time &&
      fitsInt32 (sum + p.burst_time) && metricsFitInt32 (sum + p.burst_time) rest

/-- A process that arrives at 18 and needs 7 units. -/
def roundingProcess : Process :=
  { id := "P1", arrival_time := 18, burst_time := 7, priority := 1, remaining_time := 7 }

/-- The workload of the single process `roundingProcess`. -/
def roundingWorkload : List Process :=
  [roundingProcess]

/-! ## The iteration -/

theorem iterate_next {pol : Policy} {s s1 : State} {ev : Option Dispatch}
    (h : step pol s = .next ev s1) (n : Nat) (log : List Dispatch) :
    iterate pol (n + 1) (s, log) = iterate pol n (s1, record ev log) := by
  simp [iterate, h]

theorem iterate_stop {pol : Policy} {s : State}
    (h : ∀ ev s1, step pol s ≠ .next ev s1) (n : Nat) (log : List Dispatch) :
    iterate pol n (s, log) = (s, log) := by
  cases n with
  | zero => rfl
  | succ n =>
    cases hs : step pol s with
    | next ev s1 => exact absurd hs (h ev s1)
    | halt => simp [iterate, hs]
    | fault => simp [iterate, hs]

/-- An invariant of the loop body holds after any number of iterations. -/
theorem iterate_inv (pol : Policy) (Inv : State → List Dispatch → Prop)
    (hstep : ∀ s log ev s1, Inv s log → step pol s = .next ev s1 → Inv s1 (record ev log)) :
    ∀ (n : Nat) (s : State) (log : List Dispatch), Inv s log →
      Inv (iterate pol n (s, log)).1 (iterate pol n (s, log)).2 := by
  intro n
  induction n with
  | zero => intro s log h; exact h
  | succ n ih =>
    intro s log h
    cases hs : step pol s with
    | next ev s1 =>
      rw [iterate_next hs]
      exact ih s1 (record ev log) (hstep s log ev s1 h hs)
    | halt => simpa [iterate, hs] using h
    | fault => simpa [iterate, hs] using h

/-- Once the loop has ended or faulted, further fuel changes nothing. -/
theorem iterate_add (pol : Policy) :
    ∀ (n : Nat) (c : State × List Dispatch),
      (∀ ev s1, step pol (iterate pol n c).1 ≠ .next ev s1) →
      ∀ k, iterate pol (n + k) c = iterate pol n c := by
  intro n
  induction n with
  | zero =>
    intro c h k
    obtain ⟨s, log⟩ := c
    simpa [iterate] using iterate_stop h k log
  | succ n ih =>
    intro c h k
    obtain ⟨s, log⟩ := c
    cases hs : step pol s with
    | next ev s1 =>
      rw [iterate_next hs] at h
      rw [show n + 1 + k = (n + k) + 1 by omega, iterate_next hs, iterate_next hs]
      exact ih _ h k
    | halt =>
      have hstop : ∀ ev s1, step pol s ≠ .next ev s1 := by simp [hs]
      rw [iterate_stop hstop, iterate_stop hstop]
    | fault =>
      have hstop : ∀ ev s1, step pol s ≠ .next ev s1 := by simp [hs]
      rw [iterate_stop hstop, iterate_stop hstop]

theorem schedule_eq_some {pol : Policy} {fuel : Nat} {ps : List Process} {r : Result}
    (h : schedule pol fuel ps = some r) :
    step pol (reach pol fuel ps).1 = .halt ∧
      r = finish pol (reach pol fuel ps).1 (reach pol fuel ps).2 := by
  unfold schedule at h
  cases hs : step pol (reach pol fuel ps).1 with
  | halt => simp [hs] at h; exact ⟨rfl, h.symm⟩
  | fault => simp [hs] at h
  | next ev s1 => simp [hs] at h

/-- More fuel than needed gives the same result. -/
theorem schedule_add {pol : Policy} {fuel : Nat} {ps : List Process} {r : Result}
    (h : schedule pol fuel ps = some r) (k : Nat) : schedule pol (fuel + k) ps = some r := by
  obtain ⟨hh, hr⟩ := schedule_eq_some h
  have hstop : ∀ ev s1, step pol (iterate pol fuel (init pol ps, [])).1 ≠ .next ev s1 := by
    intro ev s1 hc
    have : step pol (reach pol fuel ps).1 = .next ev s1 := hc
    rw [hh] at this
    cases this
  have := iterate_add pol fuel (init pol ps, []) hstop k
  unfold schedule reach
  rw [this]
  unfold schedule reach at h
  exact h

/-- The result of `schedule` does not depend on the fuel. -/
theorem schedule_fuel_unique {pol : Policy} {m n : Nat} {ps : List Process} {r1 r2 : Result}
    (h1 : schedule pol m ps = some r1) (h2 : schedule pol n ps = some r2) : r1 = r2 := by
  rcases Nat.le_total m n with hmn | hmn
  · have := schedule_add h1 (n - m)
    rw [show m + (n - m) = n by omega, h2] at this
    exact (Option.some.inj this).symm
  · have := schedule_add h2 (m - n)
    rw [show n + (m - n) = m by omega, h1] at this
    exact Option.some.inj this

/-! ## The selection loops -/

/-- What a selection loop returns: either nothing new (every eligible process from
here on has a key of at least `m`), or the first eligible process of least key. -/
theorem scanFrom_spec (ok : Nat → Process → Bool) (key : Process → Int) :
    ∀ (ps : List Process) (i : Nat) (best : Option Nat) (m : Int),
      (scanFrom ok key ps i best m = best ∧
        ∀ k q, ps[k]? = some q → ok (i + k) q = true → m ≤ key q) ∨
      (∃ k p, scanFrom ok key ps i best m = some (i + k) ∧ ps[k]? = some p ∧
        ok (i + k) p = true ∧ key p < m ∧
        (∀ j q, ps[j]? = some q → ok (i + j) q = true → key p ≤ key q) ∧
        (∀ j q, j < k → ps[j]? = some q → ok (i + j) q = true → key p < key q)) := by
  intro ps
  induction ps with
  | nil => intro i best m; left; simp [scanFrom]
  | cons p rest ih =>
    intro i best m
    by_cases hc : ok i p = true ∧ key p < m
    · have hdef : scanFrom ok key (p :: rest) i best m
          = scanFrom ok key rest (i + 1) (some i) (key p) := by
        simp [scanFrom, hc.1, hc.2]
      rw [hdef]
      rcases ih (i + 1) (some i) (key p) with ⟨hres, hmin⟩ | ⟨k, p1, hres, hp1, hok, hlt, hmin, hfirst⟩
      · right
        refine ⟨0, p, by simpa using hres, by simp, by simpa using hc.1, hc.2, ?_, ?_⟩
        · intro j q hq hokq
          cases j with
          | zero => simp at hq; subst hq; exact le_refl _
          | succ j =>
            simp at hq
            exact hmin j q hq (by rw [show i + 1 + j = i + (j + 1) by omega]; exact hokq)
        · intro j q hj; omega
      · right
        refine ⟨k + 1, p1, by rw [hres]; congr 1; omega, by simpa using hp1,
          by rw [show i + (k + 1) = i + 1 + k by omega]; exact hok, lt_trans hlt hc.2, ?_, ?_⟩
        · intro j q hq hokq
          cases j with
          | zero => simp at hq; subst hq; exact le_of_lt hlt
          | succ j =>
            simp at hq
            exact hmin j q hq (by rw [show i + 1 + j = i + (j + 1) by omega]; exact hokq)
        · intro j q hj hq hokq
          cases j with
          | zero => simp at hq; subst hq; exact hlt
          | succ j =>
            simp at hq
            exact hfirst j q (by omega) hq
              (by rw [show i + 1 + j = i + (j + 1) by omega]; exact hokq)
    · have hdef : scanFrom ok key (p :: rest) i best m
          = scanFrom ok key rest (i + 1) best m := by
        by_cases h1 : ok i p = true
        · have : ¬ key p < m := fun h => hc ⟨h1, h⟩
          simp [scanFrom, this]
        · simp [scanFrom, h1]
      have hp : ok i p = true → m ≤ key p := by
        intro h1
        by_contra h2
        exact hc ⟨h1, lt_of_not_le h2⟩
      rw [hdef]
      rcases ih (i + 1) best m with ⟨hres, hmin⟩ | ⟨k, p1, hres, hp1, hok, hlt, hmin, hfirst⟩
      · left
        refine ⟨hres, ?_⟩
        intro j q hq hokq
        cases j with
        | zero => simp at hq; subst hq; exact hp (by simpa using hokq)
        | succ j =>
          simp at hq
          exact hmin j q hq (by rw [show i + 1 + j = i + (j + 1) by omega]; exact hokq)
      · right
        refine ⟨k + 1, p1, by rw [hres]; congr 1; omega, by simpa using hp1,
          by rw [show i + (k + 1) = i + 1 + k by omega]; exact hok, hlt, ?_, ?_⟩
        · intro j q hq hokq
          cases j with
          | zero =>
            simp at hq; subst hq
            exact le_of_lt (lt_of_lt_of_le hlt (hp (by simpa using hokq)))
          | succ j =>
            simp at hq
            exact hmin j q hq (by rw [show i + 1 + j = i + (j + 1) by omega]; exact hokq)
        · intro j q hj hq hokq
          cases j with
          | zero =>
            simp at hq; subst hq
            exact lt_of_lt_of_le hlt (hp (by simpa using hokq))
          | succ j =>
            simp at hq
            exact hfirst j q (by omega) hq
              (by rw [show i + 1 + j = i + (j + 1) by omega]; exact hokq)

/-- A selection loop that selects index `i` selects an eligible process whose key is
below `INT32_MAX`, at most the key of every eligible process and strictly below the
key of every eligible process before it. -/
theorem scanMin_some {ok : Nat → Process → Bool} {key : Process → Int} {ps : List Process}
    {i : Nat} (h : scanMin ok key ps = some i) :
    ∃ p, ps[i]? = some p ∧ ok i p = true ∧ key p < INT32_MAX ∧
      (∀ j q, ps[j]? = some q → ok j q = true → key p ≤ key q) ∧
      (∀ j q, j < i → ps[j]? = some q → ok j q = true → key p < key q) := by
  unfold scanMin at h
  rcases scanFrom_spec ok key ps 0 none INT32_MAX with ⟨hres, -⟩ | ⟨k, p, hres, hp, hok, hlt, hmin, hfirst⟩
  · rw [hres] at h; cases h
  · rw [hres] at h
    have hk : 0 + k = i := Option.some.inj h
    simp only [Nat.zero_add] at hk hok hmin hfirst
    subst hk
    exact ⟨p, hp, hok, hlt, hmin, hfirst⟩

/-- A selection loop that selects nothing has met no eligible process with a key
below `INT32_MAX`. -/
theorem scanMin_none {ok : Nat → Process → Bool} {key : Process → Int} {ps : List Process}
    (h : scanMin ok key ps = none) :
    ∀ j q, ps[j]? = some q → ok j q = true → INT32_MAX ≤ key q := by
  unfold scanMin at h
  rcases scanFrom_spec ok key ps 0 none INT32_MAX with ⟨-, hmin⟩ | ⟨k, p, hres, -⟩
  · simpa using hmin
  · rw [hres] at h; cases h

/-! ## Scenarios on concrete workloads -/

/-- Claim C3, as amended: `FCFSScheduler::schedule` on the workload P1(0, 8), P2(1, 4),
P3(2, 9), P4(3, 5) ends after four iterations with the trace P1(8) P2(4) P3(9) P4(5),
waiting times 0, 7, 10, 18, turnaround times 8, 11, 19, 23 and total time 26. -/
theorem fcfs_scenario (k : Nat) :
    ∃ r, schedule .fcfs (4 + k) builtin = some r ∧
      r.gantt = [("P1", 8), ("P2", 4), ("P3", 9), ("P4", 5)] ∧
      r.processes.map (·.waiting_time) = [0, 7, 10, 18] ∧
      r.processes.map (·.turnaround_time) = [8, 11, 19, 23] ∧
      r.total_time = 26 := by
  have h : ∃ r, schedule .fcfs 4 builtin = some r ∧
      r.gantt = [("P1", 8), ("P2", 4), ("P3", 9), ("P4", 5)] ∧
      r.processes.map (·.waiting_time) = [0, 7, 10, 18] ∧
      r.processes.map (·.turnaround_time) = [8, 11, 19, 23] ∧
      r.total_time = 26 := ⟨_, rfl, by decide⟩
  obtain ⟨r, hr, hrest⟩ := h
  exact ⟨r, schedule_add hr k, hrest⟩

/-- Claim C3 as stated fails: no run of `FCFSScheduler::schedule` on the workload
P1(0, 8), P2(1, 4), P3(2, 9), P4(3, 5) leaves the waiting times 0, 7, 10, 15 and the
turnaround times 8, 11, 19, 20 (P4 waits 18 and turns around in 23). -/
theorem fcfs_scenario_as_stated_fails :
    ¬ ∃ fuel r, schedule .fcfs fuel builtin = some r ∧
      r.gantt = [("P1", 8), ("P2", 4), ("P3", 9), ("P4", 5)] ∧
      r.processes.map (·.waiting_time) = [0, 7, 10, 15] ∧
      r.processes.map (·.turnaround_time) = [8, 11, 19, 20] ∧
      r.total_time = 26 := by
  rintro ⟨fuel, r, hr, -, hw, -, -⟩
  have h4 : ∃ r0, schedule .fcfs 4 builtin = some r0 ∧
      r0.processes.map (·.waiting_time) = [0, 7, 10, 18] := ⟨_, rfl, by decide⟩
  obtain ⟨r0, hr0, hw0⟩ := h4
  have := schedule_fuel_unique hr hr0
  subst this
  rw [hw0] at hw
  revert hw
  decide

/-- Claim C4: `RoundRobinScheduler::schedule` with quantum 4 on the workload P1(0, 8),
P2(1, 4), P3(2, 9), P4(3, 5) ends after eight iterations with the trace
P1(4) P2(4) P3(4) P4(4) P1(4) P3(4) P4(1) P3(1), total time 26 and turnaround
time 20 for P1. -/
theorem rr_scenario (k : Nat) :
    ∃ r, schedule (.rr 4) (8 + k) builtin = some r ∧
      r.gantt = [("P1", 4), ("P2", 4), ("P3", 4), ("P4", 4), ("P1", 4), ("P3", 4),
        ("P4", 1), ("P3", 1)] ∧
      r.total_time = 26 ∧
      (r.processes.filter (·.id = "P1")).map (·.turnaround_time) = [20] := by
  have h : ∃ r, schedule (.rr 4) 8 builtin = some r ∧
      r.gantt = [("P1", 4), ("P2", 4), ("P3", 4), ("P4", 4), ("P1", 4), ("P3", 4),
        ("P4", 1), ("P3", 1)] ∧
      r.total_time = 26 ∧
      (r.processes.filter (·.id = "P1")).map (·.turnaround_time) = [20] :=
    ⟨_, rfl, by decide⟩
  obtain ⟨r, hr, hrest⟩ := h
  exact ⟨r, schedule_add hr k, hrest⟩

/-- Claim C2, evaluated where it fails: on P1(0, 1), P2(5, 1) the processor idles
from 1 to 5, and `SRTFScheduler::schedule` records the segment P1(5), which includes
the idle gap, for a process whose burst time is 1. -/
theorem srtf_segment_includes_idle_gap (k : Nat) :
    ∃ r, schedule .srtf (6 + k) gapWorkload = some r ∧
      r.gantt = [("P1", 5), ("P2", 1)] ∧
      r.processes.map (·.burst_time) = [1, 1] := by
  have h : ∃ r, schedule .srtf 6 gapWorkload = some r ∧
      r.gantt = [("P1", 5), ("P2", 1)] ∧
      r.processes.map (·.burst_time) = [1, 1] := ⟨_, rfl, by decide⟩
  obtain ⟨r, hr, hrest⟩ := h
  exact ⟨r, schedule_add hr k, hrest⟩

/-- Claim C8, evaluated where it fails: a single process with arrival time 0, burst
time 1 and priority `INT32_MAX` is passed over by the selection loop of
`PriorityScheduler::schedule` (aging interval 5) until aging lowers its priority at
time 5; it is left with waiting time 5 and turnaround time 6. -/
theorem priority_single_process_waits (k : Nat) :
    ∃ r, schedule (.priority 5) (6 + k) sentinelWorkload = some r ∧
      r.processes.map (·.waiting_time) = [5] ∧
      r.processes.map (·.turnaround_time) = [6] ∧
      r.processes.map (·.burst_time) = [1] := by
  have h : ∃ r, schedule (.priority 5) 6 sentinelWorkload = some r ∧
      r.processes.map (·.waiting_time) = [5] ∧
      r.processes.map (·.turnaround_time) = [6] ∧
      r.processes.map (·.burst_time) = [1] := ⟨_, rfl, by decide⟩
  obtain ⟨r, hr, hrest⟩ := h
  exact ⟨r, schedule_add hr k, hrest⟩

/-! ## The unit-step loops -/

/-- The two ways an iteration of a unit-step loop can continue: an idle unit, when
the selection loop selects nothing, or one unit of the selected process. -/
theorem unitStep_next {key : Process → Int} {late : Process → Int → Bool} {s s1 : State}
    {ev : Option Dispatch} (h : unitStep key late s = .next ev s1) :
    (scanMin (fun _ p => decide (p.arrival_time ≤ s.current_time) &&
        decide (p.remaining_time > 0)) key s.processes = none ∧ ev = none ∧
      s1 = { s with current_time := s.current_time + 1 }) ∨
    (∃ i p, scanMin (fun _ p => decide (p.arrival_time ≤ s.current_time) &&
        decide (p.remaining_time > 0)) key s.processes = some i ∧
      s.processes[i]? = some p ∧ ev = some ⟨i, s.current_time, 1⟩ ∧
      s1.current_time = s.current_time + 1 ∧
      s1.gantt = (noteDispatch s p.id).gantt ∧
      s1.last_id = (noteDispatch s p.id).last_id ∧
      s1.last_start = (noteDispatch s p.id).last_start ∧
      s1.completed = s.completed ∧ s1.idx = s.idx ∧
      s1.ready_queue = s.ready_queue ∧ s1.queues = s.queues ∧
      ((p.remaining_time - 1 = 0 ∧
          s1.processes = s.processes.set i
            (complete { p with remaining_time := p.remaining_time - 1 } (s.current_time + 1)) ∧
          s1.completed_count = s.completed_count + 1 ∧
          s1.missed_deadlines =
            if late { p with remaining_time := p.remaining_time - 1 } (s.current_time + 1)
            then s.missed_deadlines + 1 else s.missed_deadlines) ∨
        (p.remaining_time - 1 ≠ 0 ∧
          s1.processes = s.processes.set i { p with remaining_time := p.remaining_time - 1 } ∧
          s1.completed_count = s.completed_count ∧
          s1.missed_deadlines = s.missed_deadlines))) := by
  unfold unitStep at h
  split at h
  · split at h
    · left
      rename_i hscan
      simp only [Outcome.next.injEq] at h
      exact ⟨hscan, h.1.symm, h.2.symm⟩
    · rename_i i hscan
      split at h
      · cases h
      · rename_i p hp
        right
        refine ⟨i, p, hscan, hp, ?_⟩
        dsimp only at h
        split at h
        · rename_i hz
          simp only [Outcome.next.injEq] at h
          obtain ⟨hev, hs1⟩ := h
          subst hs1
          refine ⟨hev.symm, rfl, ?_, ?_, ?_, ?_, ?_, ?_, ?_, Or.inl ⟨hz, rfl, rfl, rfl⟩⟩ <;>
            (unfold noteDispatch switchSegment; split <;> rfl)
        · rename_i hz
          simp only [Outcome.next.injEq] at h
          obtain ⟨hev, hs1⟩ := h
          subst hs1
          refine ⟨hev.symm, rfl, ?_, ?_, ?_, ?_, ?_, ?_, ?_, Or.inr ⟨hz, rfl, ?_, ?_⟩⟩ <;>
            (unfold noteDispatch switchSegment; split <;> rfl)
  · cases h

/-- Claim C5: in every iteration of `SRTFScheduler::schedule` that executes a process,
the process has arrived, has `remaining_time > 0`, and no arrived unfinished process
has a smaller `remaining_time`; the iteration runs it for exactly one time unit, so
the selection is made anew after every unit.  On the workload P1(0, 8), P2(1, 4),
P3(2, 9), P4(3, 5) the run ends and its trace begins P1(1), P2(4). -/
theorem srtf_runs_shortest_ready :
    (∀ (s s1 : State) (e : Dispatch), SRTFScheduler.step s = .next (some e) s1 →
      ∃ p, s.processes[e.idx]? = some p ∧ p.arrival_time ≤ s.current_time ∧
        0 < p.remaining_time ∧
        (∀ q ∈ s.processes, q.arrival_time ≤ s.current_time → 0 < q.remaining_time →
          p.remaining_time ≤ q.remaining_time) ∧
        e.start = s.current_time ∧ e.len = 1 ∧ s1.current_time = s.current_time + 1 ∧
        s1.processes.map (·.remaining_time) =
          (s.processes.map (·.remaining_time)).set e.idx (p.remaining_time - 1)) ∧
    (∀ k, ∃ r, schedule .srtf (26 + k) builtin = some r ∧
      r.gantt.take 2 = [("P1", 1), ("P2", 4)]) := by
  constructor
  · intro s s1 e h
    rcases unitStep_next h with ⟨-, hev, -⟩ | ⟨i, p, hscan, hp, hev, hct, -, -, -, -, -, -, -, hcases⟩
    · cases hev
    · obtain ⟨p0, hp0, hok, -, hmin, -⟩ := scanMin_some hscan
      rw [hp] at hp0
      cases hp0
      cases hev
      simp only [Bool.and_eq_true, decide_eq_true_eq] at hok hmin
      refine ⟨p, hp, hok.1, hok.2, ?_, rfl, rfl, hct, ?_⟩
      · intro q hq ha hr
        obtain ⟨j, hj⟩ := List.mem_iff_getElem?.mp hq
        exact hmin j q hj ⟨ha, hr⟩
      · rcases hcases with ⟨-, hps, -⟩ | ⟨-, hps, -⟩ <;>
          simp [hps, List.map_set, complete]
  · intro k
    have h : ∃ r, schedule .srtf 26 builtin = some r ∧
        r.gantt.take 2 = [("P1", 1), ("P2", 4)] := ⟨_, rfl, by decide⟩
    obtain ⟨r, hr, hrest⟩ := h
    exact ⟨r, schedule_add hr k, hrest⟩

/-- Claim C5 at the first iteration on the built-in workload: P1 is the only arrived
process at time 0 and runs for the unit from 0 to 1. -/
theorem srtf_runs_shortest_ready_witness :
    SRTFScheduler.step (init .srtf builtin) = .next (some ⟨0, 0, 1⟩) (reach .srtf 1 builtin).1 ∧
    ∃ p, (init .srtf builtin).processes[0]? = some p ∧
      p.arrival_time ≤ (init .srtf builtin).current_time ∧ 0 < p.remaining_time ∧
      (∀ q ∈ (init .srtf builtin).processes,
        q.arrival_time ≤ (init .srtf builtin).current_time → 0 < q.remaining_time →
          p.remaining_time ≤ q.remaining_time) ∧
      (0 : Int) = (init .srtf builtin).current_time ∧ (1 : Int) = 1 ∧
      (reach .srtf 1 builtin).1.current_time = (init .srtf builtin).current_time + 1 ∧
      (reach .srtf 1 builtin).1.processes.map (·.remaining_time) =
        ((init .srtf builtin).processes.map (·.remaining_time)).set 0 (p.remaining_time - 1) :=
  ⟨by rfl, srtf_runs_shortest_ready.1 (init .srtf builtin) (reach .srtf 1 builtin).1 ⟨0, 0, 1⟩
    (by rfl)⟩

/-! ## Fields that an iteration leaves alone -/

/-- Replacing an element by one with the same image leaves the mapped list as it was. -/
theorem map_set_of_eq {α β : Type} (f : α → β) {l : List α} {i : Nat} {a b : α}
    (h : l[i]? = some a) (hf : f b = f a) : (l.set i b).map f = l.map f := by
  rw [List.map_set, hf]
  apply List.ext_getElem?
  intro j
  rw [List.getElem?_set]
  by_cases hij : i = j
  · subst hij
    simp only [if_true, List.length_map, List.getElem?_map, h, Option.map_some']
    have : i < l.length := by
      rcases Nat.lt_or_ge i l.length with hlt | hge
      · exact hlt
      · rw [List.getElem?_eq_none hge] at h; cases h
    simp [this]
  · simp [hij]

/-- An iteration of a unit-step loop changes no field of a process that the image
`f` ignores along with `remaining_time`, `turnaround_time` and `waiting_time`. -/
theorem unitStep_map {β : Type} (f : Process → β)
    (hf : ∀ (p : Process) (r t w : Int),
      f { p with remaining_time := r, turnaround_time := t, waiting_time := w } = f p)
    {key : Process → Int} {late : Process → Int → Bool} {s s1 : State}
    {ev : Option Dispatch} (h : unitStep key late s = .next ev s1) :
    s1.processes.map f = s.processes.map f := by
  rcases unitStep_next h with ⟨-, -, hs1⟩ | ⟨i, p, -, hp, -, -, -, -, -, -, -, -, -, hcases⟩
  · rw [hs1]
  · rcases hcases with ⟨-, hps, -⟩ | ⟨-, hps, -⟩
    · rw [hps]
      exact map_set_of_eq f hp (hf p (p.remaining_time - 1) _ _)
    · rw [hps]
      exact map_set_of_eq f hp (hf p (p.remaining_time - 1) p.turnaround_time p.waiting_time)

theorem completionTime_cons_self (log : List Dispatch) (i : Nat) (start len : Int) :
    completionTime (⟨i, start, len⟩ :: log) i = some (start + len) := by
  simp [completionTime]

theorem completionTime_cons_other {log : List Dispatch} {i : Nat} {e : Dispatch}
    (h : e.idx ≠ i) : completionTime (e :: log) i = completionTime log i := by
  simp [completionTime, List.find?_cons, h]

/-- Replacing the element at a position changes a count by the difference between
the new element and the old one. -/
theorem countP_set_add {α : Type} (f : α → Bool) :
    ∀ {l : List α} {i : Nat} {a : α} (b : α), l[i]? = some a →
      (l.set i b).countP f + (if f a then 1 else 0) = l.countP f + (if f b then 1 else 0) := by
  intro l
  induction l with
  | nil => intro i a b h; simp at h
  | cons x rest ih =>
    intro i a b h
    cases i with
    | zero =>
      simp at h
      subst h
      simp only [List.set_cons_zero, List.countP_cons]
      omega
    | succ i =>
      simp at h
      have := ih b h
      simp only [List.set_cons_succ, List.countP_cons]
      omega

theorem getElem?_set_cases {α : Type} {l : List α} {i j : Nat} {b q : α}
    (h : (l.set i b)[j]? = some q) : (j = i ∧ q = b) ∨ (j ≠ i ∧ l[j]? = some q) := by
  by_cases hij : i = j
  · subst hij
    left
    rw [List.getElem?_set] at h
    simp only [if_true] at h
    split at h
    · exact ⟨rfl, (Option.some.inj h).symm⟩
    · cases h
  · right
    rw [List.getElem?_set_ne hij] at h
    exact ⟨fun hc => hij hc.symm, h⟩

/-- The bookkeeping of the unit-step loops survives the replacement of an unfinished
process at index `i` by `pc`, made by a dispatch of `i`: either `pc` is unfinished
too, or it is settled and the counter was incremented. -/
theorem unitInv_set {s s1 : State} {log : List Dispatch} (hinv : UnitInv s log)
    {i : Nat} {p pc : Process} {start len : Int}
    (hp : s.processes[i]? = some p) (hrem : p.remaining_time ≠ 0)
    (hps : s1.processes = s.processes.set i pc) (hb : pc.burst_time = p.burst_time)
    (hcases : (pc.remaining_time = 0 ∧ s1.completed_count = s.completed_count + 1 ∧
        pc.turnaround_time = pc.waiting_time + pc.burst_time ∧
        start + len = pc.arrival_time + pc.turnaround_time) ∨
      (pc.remaining_time ≠ 0 ∧ s1.completed_count = s.completed_count)) :
    UnitInv s1 (⟨i, start, len⟩ :: log) := by
  have hmem : p ∈ s.processes := List.mem_iff_getElem?.mpr ⟨i, hp⟩
  have hburst : p.burst_time ≠ 0 := fun hb0 => hrem (hinv.zero p hmem hb0)
  have h1 := countP_set_add (fun p => decide (p.burst_time = 0)) pc hp
  have h2 := countP_set_add (fun p => decide (p.remaining_time = 0)) pc hp
  have hc := hinv.count
  simp only [hb, hburst, hrem, decide_False, Bool.false_eq_true, if_false] at h1 h2
  refine ⟨?_, ?_, ?_⟩
  · rw [hps]
    rcases hcases with ⟨hz, hcc, -, -⟩ | ⟨hz, hcc⟩
    · simp only [hz, decide_True, if_true] at h2
      rw [hcc]
      omega
    · simp only [hz, decide_False, Bool.false_eq_true, if_false] at h2
      rw [hcc]
      omega
  · intro q hq hb0
    rw [hps] at hq
    rcases List.mem_or_eq_of_mem_set hq with hq | hq
    · exact hinv.zero q hq hb0
    · subst hq
      exact absurd (hb ▸ hb0) hburst
  · intro j q hq hr hb0
    rw [hps] at hq
    rcases getElem?_set_cases hq with ⟨hj, hqe⟩ | ⟨hj, hqe⟩
    · subst hj hqe
      rcases hcases with ⟨-, -, ht, hend⟩ | ⟨hz, -⟩
      · exact ⟨ht, by rw [completionTime_cons_self, hend]⟩
      · exact absurd hr hz
    · obtain ⟨h3, h4⟩ := hinv.settled j q hqe hr hb0
      refine ⟨h3, ?_⟩
      rw [completionTime_cons_other (by simpa using fun hc => hj hc.symm)]
      exact h4

/-- The bookkeeping of the unit-step loops is kept by every iteration. -/
theorem unitStep_inv {key : Process → Int} {late : Process → Int → Bool} {s s1 : State}
    {ev : Option Dispatch} {log : List Dispatch} (hinv : UnitInv s log)
    (h : unitStep key late s = .next ev s1) : UnitInv s1 (record ev log) := by
  rcases unitStep_next h with ⟨-, hev, hs1⟩ | ⟨i, p, hscan, hp, hev, -, -, -, -, -, -, -, -, hcases⟩
  · subst hev hs1
    exact ⟨hinv.count, hinv.zero, hinv.settled⟩
  · obtain ⟨p0, hp0, hok, -, -, -⟩ := scanMin_some hscan
    rw [hp] at hp0
    cases hp0
    simp only [Bool.and_eq_true, decide_eq_true_eq] at hok
    have hrem : p.remaining_time ≠ 0 := by omega
    subst hev
    rcases hcases with ⟨hz, hps, hcc, -⟩ | ⟨hz, hps, hcc, -⟩
    · exact unitInv_set hinv hp hrem hps rfl
        (Or.inl ⟨hz, hcc, by simp only [complete]; ring, by simp only [complete]; ring⟩)
    · exact unitInv_set hinv hp hrem hps rfl (Or.inr ⟨hz, hcc⟩)

/-- The bookkeeping of the unit-step loops holds before the first iteration. -/
theorem unitInv_init {s : State} (log : List Dispatch)
    (hrem : ∀ p ∈ s.processes, p.remaining_time = p.burst_time)
    (hcc : s.completed_count = 0) : UnitInv s log := by
  refine ⟨?_, ?_, ?_⟩
  · rw [hcc, Int.zero_add]
    congr 1
    apply List.countP_congr
    intro p hp
    simp [hrem p hp]
  · intro p hp hb
    rw [hrem p hp, hb]
  · intro i p hp hr hb
    have := hrem p (List.mem_iff_getElem?.mpr ⟨i, hp⟩)
    omega

/-- When a unit-step loop ends, every process has burst time other than 0, has
`remaining_time == 0` and is settled. -/
theorem unitInv_halt {key : Process → Int} {late : Process → Int → Bool} {s : State}
    {log : List Dispatch} (hinv : UnitInv s log) (h : unitStep key late s = .halt) :
    ∀ i p, s.processes[i]? = some p →
      p.remaining_time = 0 ∧ p.burst_time ≠ 0 ∧ Settled log i p := by
  have hcc : ¬ s.completed_count < s.processes.length := by
    intro hlt
    unfold unitStep at h
    rw [if_pos hlt] at h
    split at h
    · cases h
    · split at h
      · cases h
      · dsimp only at h
        split at h <;> cases h
  have hc := hinv.count
  have hle : s.processes.countP (fun p => decide (p.remaining_time = 0)) ≤ s.processes.length :=
    List.countP_le_length _
  have hall : s.processes.countP (fun p => decide (p.remaining_time = 0))
      = s.processes.length := by omega
  have hnone : s.processes.countP (fun p => decide (p.burst_time = 0)) = 0 := by omega
  rw [List.countP_eq_length] at hall
  rw [List.countP_eq_zero] at hnone
  intro i p hp
  have hmem : p ∈ s.processes := List.mem_iff_getElem?.mpr ⟨i, hp⟩
  have h1 : p.remaining_time = 0 := by simpa using hall p hmem
  have h2 : p.burst_time ≠ 0 := by simpa using hnone p hmem
  exact ⟨h1, h2, hinv.settled i p hp h1 h2⟩

/-! ## EDF: the missed-deadline counter -/

/-- During `EDFScheduler::schedule` the counter `missed_deadlines` is the number of
processes that the loop has completed after their deadline. -/
theorem edf_missed_inv {s s1 : State} {ev : Option Dispatch} {log : List Dispatch}
    (hinv : UnitInv s log)
    (hm : s.missed_deadlines = s.processes.countP fun p =>
      decide (p.remaining_time = 0) && decide (p.burst_time ≠ 0) &&
        decide (p.arrival_time + p.turnaround_time > p.deadline))
    (h : EDFScheduler.step s = .next ev s1) :
    s1.missed_deadlines = s1.processes.countP fun p =>
      decide (p.remaining_time = 0) && decide (p.burst_time ≠ 0) &&
        decide (p.arrival_time + p.turnaround_time > p.deadline) := by
  rcases unitStep_next h with ⟨-, -, hs1⟩ | ⟨i, p, hscan, hp, -, -, -, -, -, -, -, -, -, hcases⟩
  · rw [hs1]; exact hm
  · obtain ⟨p0, hp0, hok, -, -, -⟩ := scanMin_some hscan
    rw [hp] at hp0
    cases hp0
    simp only [Bool.and_eq_true, decide_eq_true_eq] at hok
    have hrem : p.remaining_time ≠ 0 := by omega
    have hburst : p.burst_time ≠ 0 := fun hb =>
      hrem (hinv.zero p (List.mem_iff_getElem?.mpr ⟨i, hp⟩) hb)
    rcases hcases with ⟨hz, hps, -, hmiss⟩ | ⟨hz, hps, -, hmiss⟩
    · have h1 := countP_set_add (fun p => decide (p.remaining_time = 0) &&
          decide (p.burst_time ≠ 0) && decide (p.arrival_time + p.turnaround_time > p.deadline))
        (complete { p with remaining_time := p.remaining_time - 1 } (s.current_time + 1)) hp
      rw [← hps] at h1
      have hlate : (p.arrival_time + (s.current_time + 1 - p.arrival_time) > p.deadline)
          ↔ s.current_time + 1 > p.deadline := by
        constructor <;> intro hh <;> omega
      simp only [hrem, decide_False, Bool.false_and, Bool.false_eq_true, if_false, complete,
        hz, decide_True, Bool.true_and, hburst, ne_eq, not_false_eq_true, hlate,
        decide_eq_true_eq, Nat.add_zero] at h1
      rw [hmiss, hm]
      simp only [decide_eq_true_eq, gt_iff_lt, ne_eq, decide_not]
      simp only [gt_iff_lt, ne_eq, decide_not] at h1
      split
      · rename_i hl
        rw [if_pos hl] at h1
        omega
      · rename_i hl
        rw [if_neg hl] at h1
        omega
    · have h1 := countP_set_add (fun p => decide (p.remaining_time = 0) &&
          decide (p.burst_time ≠ 0) && decide (p.arrival_time + p.turnaround_time > p.deadline))
        { p with remaining_time := p.remaining_time - 1 } hp
      rw [← hps] at h1
      simp only [hrem, hz, decide_False, Bool.false_and, Bool.false_eq_true, if_false,
        Nat.add_zero] at h1
      rw [hmiss, hm, h1]

/-- Claim C7: when `EDFScheduler::schedule` returns, its counter `missed_deadlines` is
the number of processes whose completion time `arrival_time + turnaround_time` is
greater than their deadline; on the workload P1(0, 8), P2(1, 4), P3(2, 9), P4(3, 5)
with default deadlines the run ends with the count 2, P1 completing at 17 with
deadline 16 and P3 at 26 with deadline 20. -/
theorem edf_missed_deadlines :
    (∀ (ps : List Process) (fuel : Nat) (r : Result), schedule .edf fuel ps = some r →
      r.missed_deadlines = r.processes.countP fun p =>
        decide (p.arrival_time + p.turnaround_time > p.deadline)) ∧
    (∀ k, ∃ r, schedule .edf (26 + k) builtin = some r ∧ r.missed_deadlines = 2 ∧
      r.processes.map (fun p => (p.id, p.arrival_time + p.turnaround_time, p.deadline)) =
        [("P1", 17, 16), ("P2", 5, 9), ("P3", 26, 20), ("P4", 10, 13)]) := by
  constructor
  · intro ps fuel r h
    obtain ⟨hh, hr⟩ := schedule_eq_some h
    have hinv := iterate_inv .edf
      (fun s log => UnitInv s log ∧ s.missed_deadlines = s.processes.countP fun p =>
        decide (p.remaining_time = 0) && decide (p.burst_time ≠ 0) &&
          decide (p.arrival_time + p.turnaround_time > p.deadline))
      (fun s log ev s1 hi hs =>
        have hs2 : EDFScheduler.step s = .next ev s1 := hs
        ⟨unitStep_inv hi.1 hs2, edf_missed_inv hi.1 hi.2 hs2⟩)
      fuel (init .edf ps) [] (by
        have hrem : ∀ p ∈ (init .edf ps).processes, p.remaining_time = p.burst_time := by
          intro p hp
          simp only [init, EDFScheduler.prepare, List.mem_map] at hp
          obtain ⟨q, -, rfl⟩ := hp
          rfl
        refine ⟨unitInv_init [] hrem rfl, ?_⟩
        have : (init .edf ps).processes.countP (fun p =>
            decide (p.remaining_time = 0) && decide (p.burst_time ≠ 0) &&
              decide (p.arrival_time + p.turnaround_time > p.deadline)) = 0 := by
          rw [List.countP_eq_zero]
          intro p hp
          have := hrem p hp
          simp only [Bool.and_eq_true, decide_eq_true_eq, not_and]
          intro h1 h2
          omega
        rw [this]
        rfl)
    obtain ⟨hu, hm⟩ := hinv
    have hh2 : EDFScheduler.step (reach .edf fuel ps).1 = .halt := hh
    have hall := unitInv_halt hu hh2
    rw [hr]
    simp only [finish]
    rw [show (reach .edf fuel ps) = iterate .edf fuel (init .edf ps, []) from rfl, hm]
    congr 1
    apply List.countP_congr
    intro p hp
    obtain ⟨i, hi⟩ := List.mem_iff_getElem?.mp hp
    obtain ⟨h1, h2, -⟩ := hall i p hi
    simp [h1, h2]
  · intro k
    have h : ∃ r, schedule .edf 26 builtin = some r ∧ r.missed_deadlines = 2 ∧
        r.processes.map (fun p => (p.id, p.arrival_time + p.turnaround_time, p.deadline)) =
          [("P1", 17, 16), ("P2", 5, 9), ("P3", 26, 20), ("P4", 10, 13)] :=
      ⟨_, rfl, by decide⟩
    obtain ⟨r, hr, hrest⟩ := h
    exact ⟨r, schedule_add hr k, hrest⟩

/-- Claim C7 on the built-in workload: the run that returns after 26 iterations has
counted as many missed deadlines as there are processes completed after theirs. -/
theorem edf_missed_deadlines_witness :
    ∃ r, schedule .edf 26 builtin = some r ∧
      r.missed_deadlines = r.processes.countP fun p =>
        decide (p.arrival_time + p.turnaround_time > p.deadline) :=
  ⟨_, rfl, edf_missed_deadlines.1 builtin 26 _ rfl⟩

/-! ## The admission loops -/

/-- An admission loop over the processes `rest` that follow position `idx`. -/
theorem enqueueArrived_rest (current_time : Int) :
    ∀ (rest : List Process) (idx : Nat) (q : List Nat) (idx1 : Nat) (q1 : List Nat),
      enqueueArrived current_time rest idx q = (idx1, q1) →
      ∃ k, k ≤ rest.length ∧ idx1 = idx + k ∧ q1 = q ++ List.range' idx k ∧
        (∀ j p, j < k → rest[j]? = some p → p.arrival_time ≤ current_time) ∧
        (∀ p, rest[k]? = some p → current_time < p.arrival_time) := by
  intro rest
  induction rest with
  | nil =>
    intro idx q idx1 q1 h
    simp only [enqueueArrived, Prod.mk.injEq] at h
    exact ⟨0, by simp, by omega, by simp [h.2], by intro j p hj; omega, by simp⟩
  | cons p rest ih =>
    intro idx q idx1 q1 h
    by_cases hp : p.arrival_time ≤ current_time
    · simp only [enqueueArrived, hp, if_true] at h
      obtain ⟨k, hk, hidx, hq, harr, hstop⟩ := ih _ _ _ _ h
      refine ⟨k + 1, by simp; omega, by omega, ?_, ?_, ?_⟩
      · rw [hq, List.append_assoc]
        rfl
      · intro j r hj hr
        cases j with
        | zero => simp at hr; subst hr; exact hp
        | succ j => simp at hr; exact harr j r (by omega) hr
      · intro r hr
        simp at hr
        exact hstop r hr
    · simp only [enqueueArrived, hp, if_false, Prod.mk.injEq] at h
      refine ⟨0, by simp, by omega, by simp [h.2], by intro j p hj; omega, ?_⟩
      intro r hr
      simp at hr
      subst hr
      omega

/-- From the processes that follow a position to the positions of the vector. -/
theorem admitted_of_rest {ps : List Process} {current_time : Int} {idx idx1 k : Nat}
    {held held1 : Nat → Prop}
    (hk : k ≤ (ps.drop idx).length) (hidx : idx1 = idx + k)
    (hheld : ∀ x, held1 x ↔ held x ∨ (idx ≤ x ∧ x < idx1))
    (harr : ∀ j p, j < k → (ps.drop idx)[j]? = some p → p.arrival_time ≤ current_time)
    (hstop : ∀ p, (ps.drop idx)[k]? = some p → current_time < p.arrival_time) :
    Admitted ps current_time idx idx1 held held1 := by
  refine ⟨by omega, ?_, hheld, ?_, ?_⟩
  · simp only [List.length_drop] at hk
    omega
  · intro i p h1 h2 hp
    refine harr (i - idx) p (by omega) ?_
    rw [List.getElem?_drop, show idx + (i - idx) = i by omega]
    exact hp
  · intro p hp
    refine hstop p ?_
    rw [List.getElem?_drop, ← hidx]
    exact hp

theorem mem_append_range' {q : List Nat} {idx k x : Nat} :
    x ∈ q ++ List.range' idx k ↔ x ∈ q ∨ (idx ≤ x ∧ x < idx + k) := by
  simp only [List.mem_append, List.mem_range'_1]

/-- The admission loop of Round Robin. -/
theorem enqueueArrived_spec {ps : List Process} {current_time : Int} {idx idx1 : Nat}
    {q q1 : List Nat} (h : enqueueArrived current_time (ps.drop idx) idx q = (idx1, q1)) :
    Admitted ps current_time idx idx1 (· ∈ q) (· ∈ q1) ∧
      q1 = q ++ List.range' idx (idx1 - idx) := by
  obtain ⟨k, hk, hidx, hq, harr, hstop⟩ := enqueueArrived_rest _ _ _ _ _ _ h
  refine ⟨admitted_of_rest hk hidx (fun x => ?_) harr hstop, ?_⟩
  · rw [hq, hidx]
    exact mem_append_range'
  · rw [hq, hidx]
    congr 2
    omega

/-- The guarded segment block either keeps the open segment, whose id is that of the
process dispatched, or starts a new one at the current time. -/
theorem noteDispatch_trace (s : State) (id : String) :
    (s.last_id = id ∧ (noteDispatch s id).gantt = s.gantt ∧
        (noteDispatch s id).last_id = s.last_id ∧
        (noteDispatch s id).last_start = s.last_start) ∨
      ((s.last_id ≠ id ∨ s.last_start = -1) ∧
        (noteDispatch s id).gantt = (switchSegment s id).gantt ∧
        (noteDispatch s id).last_id = id ∧ (noteDispatch s id).last_start = s.current_time) := by
  unfold noteDispatch
  by_cases h : s.last_id ≠ id
  · rw [if_pos h]
    exact Or.inr ⟨Or.inl h, rfl, rfl, rfl⟩
  · rw [if_neg h]
    exact Or.inl ⟨not_not.mp h, rfl, rfl, rfl⟩

/-- The segment block of Round Robin, guarded by
`last_id != current->id || last_start == -1`. -/
theorem rr_trace (s : State) (id : String) :
    (s.last_id = id ∧
        (if s.last_id ≠ id ∨ s.last_start = -1 then switchSegment s id else s).gantt = s.gantt ∧
        (if s.last_id ≠ id ∨ s.last_start = -1 then switchSegment s id else s).last_id
          = s.last_id ∧
        (if s.last_id ≠ id ∨ s.last_start = -1 then switchSegment s id else s).last_start
          = s.last_start) ∨
      ((s.last_id ≠ id ∨ s.last_start = -1) ∧
        (if s.last_id ≠ id ∨ s.last_start = -1 then switchSegment s id else s).gantt
          = (switchSegment s id).gantt ∧
        (if s.last_id ≠ id ∨ s.last_start = -1 then switchSegment s id else s).last_id = id ∧
        (if s.last_id ≠ id ∨ s.last_start = -1 then switchSegment s id else s).last_start
          = s.current_time) := by
  by_cases h : s.last_id ≠ id ∨ s.last_start = -1
  · rw [if_pos h]
    exact Or.inr ⟨h, rfl, rfl, rfl⟩
  · rw [if_neg h]
    simp only [not_or, not_not] at h
    exact Or.inl ⟨h.1, rfl, rfl, rfl⟩

/-- An admission loop reads arrival times only: it does the same on a vector in which
a process was replaced by one with the same arrival time. -/
theorem Admitted.of_set {ps : List Process} {current_time : Int} {idx idx1 : Nat}
    {held held1 : Nat → Prop} {i : Nat} {p pc : Process}
    (h : Admitted (ps.set i pc) current_time idx idx1 held held1)
    (hp : ps[i]? = some p) (ha : pc.arrival_time = p.arrival_time) :
    Admitted ps current_time idx idx1 held held1 := by
  have key : ∀ (j : Nat) (q : Process), ps[j]? = some q →
      ∃ q1, (ps.set i pc)[j]? = some q1 ∧ q1.arrival_time = q.arrival_time := by
    intro j q hq
    by_cases hij : i = j
    · subst hij
      rw [hp] at hq
      cases hq
      refine ⟨pc, ?_, ha⟩
      rw [List.getElem?_set]
      have : i < ps.length := by
        rcases Nat.lt_or_ge i ps.length with hlt | hge
        · exact hlt
        · rw [List.getElem?_eq_none hge] at hp; cases hp
      simp [this]
    · exact ⟨q, by rw [List.getElem?_set_ne hij]; exact hq, rfl⟩
  refine ⟨h.le, by simpa using h.bound, h.held_iff, ?_, ?_⟩
  · intro j q h1 h2 hq
    obtain ⟨q1, hq1, hqa⟩ := key j q hq
    rw [← hqa]
    exact h.arrived j q1 h1 h2 hq1
  · intro q hq
    obtain ⟨q1, hq1, hqa⟩ := key idx1 q hq
    rw [← hqa]
    exact h.stop q1 hq1

/-- An iteration of `RoundRobinScheduler::schedule` is a step of a queue-driven loop
with the slice `quantum`. -/
theorem rr_qstep {quantum : Int} {s s1 : State} {ev : Option Dispatch}
    (h : RoundRobinScheduler.step quantum s = .next ev s1) :
    QStep inReady (· = quantum) s ev s1 := by
  unfold RoundRobinScheduler.step at h
  split at h
  · split at h
    · rename_i idx1 hadm
      simp only [Outcome.next.injEq] at h
      obtain ⟨hev, hs1⟩ := h
      subst hev hs1
      obtain ⟨ha, -⟩ := enqueueArrived_spec hadm
      exact QStep.idle _ rfl ha (by simp [inReady]) rfl ⟨rfl, rfl, rfl⟩
    · rename_i idx1 current q1 hadm
      split at h
      · cases h
      · rename_i p hp
        dsimp only at h
        generalize hadm2 : enqueueArrived _ _ idx1 q1 = r at h
        obtain ⟨idx2, q2⟩ := r
        dsimp only at h
        obtain ⟨ha1, -⟩ := enqueueArrived_spec hadm
        obtain ⟨ha2, -⟩ := enqueueArrived_spec hadm2
        have ha2 := ha2.of_set hp rfl
        split at h
        · rename_i hpos
          simp only [Outcome.next.injEq] at h
          obtain ⟨hev, hs1⟩ := h
          subst hev hs1
          refine QStep.run _ current p quantum _ p.vruntime idx1 (· ∈ current :: q1) (· ∈ q1)
            (· ∈ q2) ha1 (by simp) hp rfl rfl ?_ ?_ ?_ ?_ (rr_trace s p.id)
          · simp only [afterRun, hpos, if_true]
          · rfl
          · exact ha2
          · intro x
            simp only [inReady, List.mem_append, List.mem_singleton, hpos, and_true]
        · rename_i hpos
          simp only [Outcome.next.injEq] at h
          obtain ⟨hev, hs1⟩ := h
          subst hev hs1
          refine QStep.run _ current p quantum _ p.vruntime idx1 (· ∈ current :: q1) (· ∈ q1)
            (· ∈ q2) ha1 (by simp) hp rfl rfl ?_ ?_ ?_ ?_ (rr_trace s p.id)
          · simp only [afterRun, hpos, if_false]
          · rfl
          · exact ha2
          · intro x
            simp only [inReady, hpos, and_false, or_false]
  · cases h

/-! ## The queues of the multilevel schedulers -/

/-- A successful `queues[level].push(x)` adds `x` and nothing else. -/
theorem pushAt_spec {qs qs1 : List (List Nat)} {level : Int} {x : Nat}
    (h : pushAt qs level x = some qs1) :
    (∀ y, inQueues qs1 y ↔ inQueues qs y ∨ y = x) ∧ qs1.length = qs.length := by
  unfold pushAt at h
  split at h
  · rename_i hl
    simp only [Option.some.injEq] at h
    subst h
    have hn : level.toNat < qs.length := by omega
    have hget : qs.getD level.toNat [] = qs[level.toNat] := by
      simp [List.getD, List.getElem?_eq_getElem hn]
    refine ⟨fun y => ⟨?_, ?_⟩, by simp⟩
    · rintro ⟨q, hq, hy⟩
      rcases List.mem_or_eq_of_mem_set hq with hq | hq
      · exact Or.inl ⟨q, hq, hy⟩
      · subst hq
        rcases List.mem_append.mp hy with hy | hy
        · exact Or.inl ⟨qs[level.toNat], List.getElem_mem _, by rw [← hget]; exact hy⟩
        · exact Or.inr (by simpa using hy)
    · rintro (⟨q, hq, hy⟩ | hy)
      · obtain ⟨j, hj⟩ := List.mem_iff_getElem?.mp hq
        by_cases hjn : level.toNat = j
        · subst hjn
          refine ⟨_, List.mem_set _ _ hn _, ?_⟩
          rw [hget]
          rw [List.getElem?_eq_getElem hn] at hj
          cases hj
          exact List.mem_append_left _ hy
        · exact ⟨q, List.mem_iff_getElem?.mpr ⟨j, by rw [List.getElem?_set_ne hjn]; exact hj⟩, hy⟩
      · subst hy
        exact ⟨_, List.mem_set _ _ hn _, by simp⟩
  · cases h

/-- The scan of the queues takes one index out of them and leaves the rest. -/
theorem popFirst_spec :
    ∀ {qs qs1 : List (List Nat)} {x lvl : Nat}, popFirst qs = some (x, lvl, qs1) →
      (∀ y, inQueues qs y ↔ y = x ∨ inQueues qs1 y) ∧ qs1.length = qs.length ∧
        lvl < qs.length := by
  intro qs
  induction qs with
  | nil => intro qs1 x lvl h; simp [popFirst] at h
  | cons q rest ih =>
    intro qs1 x lvl h
    cases q with
    | nil =>
      simp only [popFirst] at h
      split at h
      · cases h
      · rename_i x0 lvl0 rest1 hrest
        simp only [Option.some.injEq, Prod.mk.injEq] at h
        obtain ⟨hx, hl, hq⟩ := h
        subst hx hl hq
        obtain ⟨h1, h2, h3⟩ := ih hrest
        refine ⟨fun y => ?_, by simp [h2], by simp; omega⟩
        simp only [inQueues, List.mem_cons, exists_eq_or_imp, List.not_mem_nil, false_or]
        exact h1 y
    | cons a q =>
      simp only [popFirst, Option.some.injEq, Prod.mk.injEq] at h
      obtain ⟨hx, hl, hq⟩ := h
      subst hx hl hq
      refine ⟨fun y => ?_, by simp, by simp⟩
      simp only [inQueues, List.mem_cons, exists_eq_or_imp]
      tauto

/-- The scan of the queues finds nothing only when all of them are empty. -/
theorem popFirst_none : ∀ {qs : List (List Nat)}, popFirst qs = none → ∀ y, ¬ inQueues qs y := by
  intro qs
  induction qs with
  | nil => intro _ y; simp [inQueues]
  | cons q rest ih =>
    intro h y
    cases q with
    | nil =>
      simp only [popFirst] at h
      split at h
      · rename_i hrest
        simp only [inQueues, List.mem_cons, exists_eq_or_imp, List.not_mem_nil, false_or]
        exact ih hrest y
      · cases h
    | cons a q => simp [popFirst] at h

/-- The admission loop of MLQ over the processes `rest` that follow position `idx`. -/
theorem mlq_enqueueArrived_rest (current_time : Int) :
    ∀ (rest : List Process) (idx : Nat) (qs : List (List Nat)) (idx1 : Nat)
      (qs1 : List (List Nat)),
      MultilevelQueueScheduler.enqueueArrived current_time rest idx qs = some (idx1, qs1) →
      ∃ k, k ≤ rest.length ∧ idx1 = idx + k ∧
        (∀ y, inQueues qs1 y ↔ inQueues qs y ∨ (idx ≤ y ∧ y < idx + k)) ∧
        qs1.length = qs.length ∧
        (∀ j p, j < k → rest[j]? = some p → p.arrival_time ≤ current_time) ∧
        (∀ p, rest[k]? = some p → current_time < p.arrival_time) := by
  intro rest
  induction rest with
  | nil =>
    intro idx qs idx1 qs1 h
    simp only [MultilevelQueueScheduler.enqueueArrived, Option.some.injEq, Prod.mk.injEq] at h
    obtain ⟨h1, h2⟩ := h
    subst h1 h2
    exact ⟨0, by simp, by omega, by intro y; constructor <;> intro hy <;> [exact Or.inl hy;
      (rcases hy with hy | hy <;> [exact hy; omega])], rfl, by intro j p hj; omega, by simp⟩
  | cons p rest ih =>
    intro idx qs idx1 qs1 h
    by_cases hp : p.arrival_time ≤ current_time
    · simp only [MultilevelQueueScheduler.enqueueArrived, hp, if_true] at h
      split at h
      · cases h
      · rename_i qs0 hpush
        obtain ⟨hmem, hlen⟩ := pushAt_spec hpush
        obtain ⟨k, hk, hidx, hq, hl, harr, hstop⟩ := ih _ _ _ _ h
        refine ⟨k + 1, by simp; omega, by omega, ?_, by rw [hl, hlen], ?_, ?_⟩
        · intro y
          rw [hq, hmem]
          constructor
          · rintro ((hy | hy) | hy)
            · exact Or.inl hy
            · exact Or.inr (by omega)
            · exact Or.inr (by omega)
          · rintro (hy | hy)
            · exact Or.inl (Or.inl hy)
            · by_cases hyx : y = idx
              · exact Or.inl (Or.inr hyx)
              · exact Or.inr (by omega)
        · intro j r hj hr
          cases j with
          | zero => simp at hr; subst hr; exact hp
          | succ j => simp at hr; exact harr j r (by omega) hr
        · intro r hr
          simp at hr
          exact hstop r hr
    · simp only [MultilevelQueueScheduler.enqueueArrived, hp, if_false, Option.some.injEq,
        Prod.mk.injEq] at h
      obtain ⟨h1, h2⟩ := h
      subst h1 h2
      refine ⟨0, by simp, by omega, by intro y; constructor <;> intro hy <;> [exact Or.inl hy;
        (rcases hy with hy | hy <;> [exact hy; omega])], rfl, by intro j p hj; omega, ?_⟩
      intro r hr
      simp at hr
      subst hr
      omega

/-- The admission loop of MLQ. -/
theorem mlq_enqueueArrived_spec {ps : List Process} {current_time : Int} {idx idx1 : Nat}
    {qs qs1 : List (List Nat)}
    (h : MultilevelQueueScheduler.enqueueArrived current_time (ps.drop idx) idx qs = some (idx1, qs1)) :
    Admitted ps current_time idx idx1 (inQueues qs) (inQueues qs1) ∧ qs1.length = qs.length := by
  obtain ⟨k, hk, hidx, hq, hl, harr, hstop⟩ := mlq_enqueueArrived_rest _ _ _ _ _ _ h
  exact ⟨admitted_of_rest hk hidx (fun x => by rw [hq, hidx]) harr hstop, hl⟩

/-- The admission loop of MFQ over the processes `rest` that follow position `idx`. -/
theorem mfq_enqueueArrived_rest (current_time : Int) :
    ∀ (rest : List Process) (idx : Nat) (qs : List (List Nat)) (idx1 : Nat)
      (qs1 : List (List Nat)),
      MFQScheduler.enqueueArrived current_time rest idx qs = some (idx1, qs1) →
      ∃ k, k ≤ rest.length ∧ idx1 = idx + k ∧
        (∀ y, inQueues qs1 y ↔ inQueues qs y ∨ (idx ≤ y ∧ y < idx + k)) ∧
        qs1.length = qs.length ∧
        (∀ j p, j < k → rest[j]? = some p → p.arrival_time ≤ current_time) ∧
        (∀ p, rest[k]? = some p → current_time < p.arrival_time) := by
  intro rest
  induction rest with
  | nil =>
    intro idx qs idx1 qs1 h
    simp only [MFQScheduler.enqueueArrived, Option.some.injEq, Prod.mk.injEq] at h
    obtain ⟨h1, h2⟩ := h
    subst h1 h2
    exact ⟨0, by simp, by omega, by intro y; constructor <;> intro hy <;> [exact Or.inl hy;
      (rcases hy with hy | hy <;> [exact hy; omega])], rfl, by intro j p hj; omega, by simp⟩
  | cons p rest ih =>
    intro idx qs idx1 qs1 h
    by_cases hp : p.arrival_time ≤ current_time
    · simp only [MFQScheduler.enqueueArrived, hp, if_true] at h
      split at h
      · cases h
      · rename_i qs0 hpush
        obtain ⟨hmem, hlen⟩ := pushAt_spec hpush
        obtain ⟨k, hk, hidx, hq, hl, harr, hstop⟩ := ih _ _ _ _ h
        refine ⟨k + 1, by simp; omega, by omega, ?_, by rw [hl, hlen], ?_, ?_⟩
        · intro y
          rw [hq, hmem]
          constructor
          · rintro ((hy | hy) | hy)
            · exact Or.inl hy
            · exact Or.inr (by omega)
            · exact Or.inr (by omega)
          · rintro (hy | hy)
            · exact Or.inl (Or.inl hy)
            · by_cases hyx : y = idx
              · exact Or.inl (Or.inr hyx)
              · exact Or.inr (by omega)
        · intro j r hj hr
          cases j with
          | zero => simp at hr; subst hr; exact hp
          | succ j => simp at hr; exact harr j r (by omega) hr
        · intro r hr
          simp at hr
          exact hstop r hr
    · simp only [MFQScheduler.enqueueArrived, hp, if_false, Option.some.injEq, Prod.mk.injEq] at h
      obtain ⟨h1, h2⟩ := h
      subst h1 h2
      refine ⟨0, by simp, by omega, by intro y; constructor <;> intro hy <;> [exact Or.inl hy;
        (rcases hy with hy | hy <;> [exact hy; omega])], rfl, by intro j p hj; omega, ?_⟩
      intro r hr
      simp at hr
      subst hr
      omega

/-- The admission loop of MFQ. -/
theorem mfq_enqueueArrived_spec {ps : List Process} {current_time : Int} {idx idx1 : Nat}
    {qs qs1 : List (List Nat)}
    (h : MFQScheduler.enqueueArrived current_time (ps.drop idx) idx qs = some (idx1, qs1)) :
    Admitted ps current_time idx idx1 (inQueues qs) (inQueues qs1) ∧ qs1.length = qs.length := by
  obtain ⟨k, hk, hidx, hq, hl, harr, hstop⟩ := mfq_enqueueArrived_rest _ _ _ _ _ _ h
  exact ⟨admitted_of_rest hk hidx (fun x => by rw [hq, hidx]) harr hstop, hl⟩

/-- An iteration of `MultilevelQueueScheduler::schedule` is a step of a queue-driven
loop with the slice 2. -/
theorem mlq_qstep {s s1 : State} {ev : Option Dispatch}
    (h : MultilevelQueueScheduler.step s = .next ev s1) :
    QStep inLevels (· = 2) s ev s1 := by
  unfold MultilevelQueueScheduler.step at h
  split at h
  · split at h
    · cases h
    · rename_i idx1 qs1 hadm
      obtain ⟨ha1, -⟩ := mlq_enqueueArrived_spec hadm
      split at h
      · rename_i hpop
        simp only [Outcome.next.injEq] at h
        obtain ⟨hev, hs1⟩ := h
        subst hev hs1
        exact QStep.idle _ rfl ha1 (popFirst_none hpop) rfl ⟨rfl, rfl, rfl⟩
      · rename_i current lvl qs2 hpop
        obtain ⟨hpopmem, -, -⟩ := popFirst_spec hpop
        split at h
        · cases h
        · rename_i p hp
          dsimp only at h
          split at h
          · cases h
          · rename_i idx2 qs3 hadm2
            obtain ⟨ha2, -⟩ := mlq_enqueueArrived_spec hadm2
            have ha2 := ha2.of_set hp rfl
            split at h
            · rename_i hpos
              split at h
              · cases h
              · rename_i qs4 hpush
                obtain ⟨hpushmem, -⟩ := pushAt_spec hpush
                simp only [Outcome.next.injEq] at h
                obtain ⟨hev, hs1⟩ := h
                subst hev hs1
                refine QStep.run _ current p 2 _ p.vruntime idx1 (inQueues qs1) (inQueues qs2)
                  (inQueues qs3) ha1 hpopmem hp rfl rfl ?_ rfl ha2 ?_ (noteDispatch_trace s p.id)
                · simp only [afterRun, hpos, if_true]
                · intro x
                  simp only [inLevels, hpushmem, hpos, and_true]
            · rename_i hpos
              simp only [Outcome.next.injEq] at h
              obtain ⟨hev, hs1⟩ := h
              subst hev hs1
              refine QStep.run _ current p 2 _ p.vruntime idx1 (inQueues qs1) (inQueues qs2)
                (inQueues qs3) ha1 hpopmem hp rfl rfl ?_ rfl ha2 ?_ (noteDispatch_trace s p.id)
              · simp only [afterRun, hpos, if_false]
              · intro x
                simp only [inLevels, hpos, and_false, or_false]
  · cases h

/-- An iteration of `MFQScheduler::schedule` is a step of a queue-driven loop with
the slices 2, 4 and 8. -/
theorem mfq_qstep {s s1 : State} {ev : Option Dispatch}
    (h : MFQScheduler.step s = .next ev s1) :
    QStep inLevels (· ∈ MFQScheduler.quantum) s ev s1 := by
  unfold MFQScheduler.step at h
  split at h
  · split at h
    · cases h
    · rename_i idx1 qs1 hadm
      obtain ⟨ha1, -⟩ := mfq_enqueueArrived_spec hadm
      split at h
      · rename_i hpop
        simp only [Outcome.next.injEq] at h
        obtain ⟨hev, hs1⟩ := h
        subst hev hs1
        exact QStep.idle _ rfl ha1 (popFirst_none hpop) rfl ⟨rfl, rfl, rfl⟩
      · rename_i current lvl qs2 hpop
        obtain ⟨hpopmem, -, -⟩ := popFirst_spec hpop
        split at h
        · rename_i p sl hp hsl
          dsimp only at h
          split at h
          · cases h
          · rename_i idx2 qs3 hadm2
            obtain ⟨ha2, -⟩ := mfq_enqueueArrived_spec hadm2
            have ha2 := ha2.of_set hp rfl
            have hslice : sl ∈ MFQScheduler.quantum := List.mem_iff_getElem?.mpr ⟨lvl, hsl⟩
            split at h
            · rename_i hpos
              split at h
              · cases h
              · rename_i qs4 hpush
                obtain ⟨hpushmem, -⟩ := pushAt_spec hpush
                simp only [Outcome.next.injEq] at h
                obtain ⟨hev, hs1⟩ := h
                subst hev hs1
                refine QStep.run _ current p sl _ p.vruntime idx1 (inQueues qs1) (inQueues qs2)
                  (inQueues qs3) ha1 hpopmem hp hslice rfl ?_ rfl ha2 ?_ (noteDispatch_trace s p.id)
                · simp only [afterRun, hpos, if_true]
                · intro x
                  simp only [inLevels, hpushmem, hpos, and_true]
            · rename_i hpos
              simp only [Outcome.next.injEq] at h
              obtain ⟨hev, hs1⟩ := h
              subst hev hs1
              refine QStep.run _ current p sl _ p.vruntime idx1 (inQueues qs1) (inQueues qs2)
                (inQueues qs3) ha1 hpopmem hp hslice rfl ?_ rfl ha2 ?_ (noteDispatch_trace s p.id)
              · simp only [afterRun, hpos, if_false]
              · intro x
                simp only [inLevels, hpos, and_false, or_false]
        · cases h
  · cases h

/-! ## The binary heap of CFS -/

/-- Moving the hole: writing the element at `j` into position `i` and `v` into `j`
gives a permutation of writing `v` into `i`. -/
theorem set_set_perm {l : List Nat} {i j : Nat} (v : Nat) (hi : i < l.length)
    (hj : j < l.length) (hij : i ≠ j) :
    ((l.set i (l.getD j 0)).set j v).Perm (l.set i v) := by
  rw [List.perm_iff_count]
  intro a
  have hgj : l.getD j 0 = l[j] := by simp [List.getD, List.getElem?_eq_getElem hj]
  have h1 := countP_set_add (· == a) (l := l) (i := i) (a := l[i]) l[j]
    (List.getElem?_eq_getElem hi)
  have h2 := countP_set_add (· == a) (l := l.set i l[j]) (i := j) (a := l[j]) v
    (by rw [List.getElem?_set_ne hij]; exact List.getElem?_eq_getElem hj)
  have h3 := countP_set_add (· == a) (l := l) (i := i) (a := l[i]) v
    (List.getElem?_eq_getElem hi)
  simp only [List.count_eq_countP, hgj]
  omega

/-- The loop of `__push_heap` permutes: its result holds the elements of the vector
with `value` in the hole. -/
theorem pushHeapLoop_perm (ps : List Process) (value : Nat) :
    ∀ (n : Nat) (c : List Nat) (hole : Nat), hole < c.length →
      (pushHeapLoop ps value n c hole).Perm (c.set hole value) := by
  intro n
  induction n with
  | zero => intro c hole _; exact List.Perm.refl _
  | succ n ih =>
    intro c hole hh
    unfold pushHeapLoop
    dsimp only
    split
    · rename_i hc
      have hpar : (hole - 1) / 2 < hole := by omega
      refine (ih _ _ (by simp; omega)).trans ?_
      exact set_set_perm value hh (by omega) (by omega)
    · exact List.Perm.refl _

/-- The loop of `__adjust_heap` moves the hole and keeps the other elements. -/
theorem adjustHeapLoop_perm (ps : List Process) (len : Nat) :
    ∀ (n : Nat) (c : List Nat) (hole : Nat), len ≤ c.length → hole < c.length →
      (adjustHeapLoop ps len n c hole).1.length = c.length ∧
      (adjustHeapLoop ps len n c hole).2 < c.length ∧
      ∀ v, ((adjustHeapLoop ps len n c hole).1.set (adjustHeapLoop ps len n c hole).2 v).Perm
        (c.set hole v) := by
  intro n
  induction n with
  | zero => intro c hole _ hh; exact ⟨rfl, hh, fun v => List.Perm.refl _⟩
  | succ n ih =>
    intro c hole hlen hh
    unfold adjustHeapLoop
    dsimp only
    split
    · rename_i hc
      split
      · obtain ⟨h1, h2, h3⟩ := ih (c.set hole (c.getD (2 * (hole + 1) - 1) 0))
          (2 * (hole + 1) - 1) (by simp; omega) (by simp; omega)
        refine ⟨by simpa using h1, by simpa using h2, fun v => (h3 v).trans ?_⟩
        exact set_set_perm v hh (by omega) (by omega)
      · obtain ⟨h1, h2, h3⟩ := ih (c.set hole (c.getD (2 * (hole + 1)) 0))
          (2 * (hole + 1)) (by simp; omega) (by simp; omega)
        refine ⟨by simpa using h1, by simpa using h2, fun v => (h3 v).trans ?_⟩
        exact set_set_perm v hh (by omega) (by omega)
    · exact ⟨rfl, hh, fun v => List.Perm.refl _⟩

/-- The function `__adjust_heap` from the top permutes: its result holds the elements
of the vector with `value` in place of the top. -/
theorem adjustHeap_perm (ps : List Process) (c : List Nat) (len value : Nat)
    (hlen : len ≤ c.length) (hpos : 0 < c.length) :
    (adjustHeap ps c len value).Perm (c.set 0 value) := by
  unfold adjustHeap
  obtain ⟨h1, h2, h3⟩ := adjustHeapLoop_perm ps len len c 0 hlen hpos
  generalize adjustHeapLoop ps len len c 0 = r at h1 h2 h3
  obtain ⟨c1, hole⟩ := r
  dsimp only at h1 h2 h3 ⊢
  split
  · rename_i hc
    refine (pushHeapLoop_perm ps value _ _ _ (by simp; omega)).trans ?_
    exact (set_set_perm value (by omega) (by omega) (by omega)).trans (h3 value)
  · exact (pushHeapLoop_perm ps value _ _ _ (by omega)).trans (h3 value)

/-- The call `ready_queue.push(x)` adds `x` to the elements of the heap. -/
theorem heapPush_perm (ps : List Process) (c : List Nat) (x : Nat) :
    (heapPush ps c x).Perm (x :: c) := by
  unfold heapPush
  refine (pushHeapLoop_perm ps x _ _ _ (by simp)).trans ?_
  have : (c ++ [x]).set c.length x = c ++ [x] := by
    rw [List.set_append_right _ _ (le_refl _)]
    simp
  rw [this]
  exact List.perm_append_singleton x c

/-- The call `ready_queue.pop()` removes the top from the elements of the heap. -/
theorem heapPop_perm (ps : List Process) (top : Nat) (rest : List Nat) :
    (heapPop ps (top :: rest)).Perm rest := by
  unfold heapPop
  split
  · rename_i hl
    have hne : rest ≠ [] := by
      intro h
      subst h
      simp at hl
    obtain ⟨mid, last, hrest⟩ : ∃ mid last, rest = mid ++ [last] :=
      ⟨rest.dropLast, rest.getLast hne, (List.dropLast_append_getLast hne).symm⟩
    subst hrest
    have hdrop : (top :: (mid ++ [last])).dropLast = top :: mid := by
      rw [← List.cons_append, List.dropLast_concat]
    have hlast : (top :: (mid ++ [last])).getLastD 0 = last := by
      rw [← List.cons_append]
      simp [List.getLastD]
    rw [hdrop, hlast]
    refine (adjustHeap_perm ps _ _ last (by simp) (by simp)).trans ?_
    simp only [List.set_cons_zero]
    exact (List.perm_append_singleton last mid).symm
  · rename_i hl
    have : rest = [] := by
      cases rest with
      | nil => rfl
      | cons a r => simp at hl
    subst this
    simp

/-- The admission loop of CFS over the processes `rest` that follow position `idx`. -/
theorem cfs_enqueueArrived_rest (ps : List Process) (current_time : Int) :
    ∀ (rest : List Process) (idx : Nat) (q : List Nat) (idx1 : Nat) (q1 : List Nat),
      CFSScheduler.enqueueArrived ps current_time rest idx q = (idx1, q1) →
      ∃ k, k ≤ rest.length ∧ idx1 = idx + k ∧
        (∀ y, y ∈ q1 ↔ y ∈ q ∨ (idx ≤ y ∧ y < idx + k)) ∧
        (∀ j p, j < k → rest[j]? = some p → p.arrival_time ≤ current_time) ∧
        (∀ p, rest[k]? = some p → current_time < p.arrival_time) := by
  intro rest
  induction rest with
  | nil =>
    intro idx q idx1 q1 h
    simp only [CFSScheduler.enqueueArrived, Prod.mk.injEq] at h
    obtain ⟨h1, h2⟩ := h
    subst h1 h2
    exact ⟨0, by simp, by omega, by intro y; constructor <;> intro hy <;> [exact Or.inl hy;
      (rcases hy with hy | hy <;> [exact hy; omega])], by intro j p hj; omega, by simp⟩
  | cons p rest ih =>
    intro idx q idx1 q1 h
    by_cases hp : p.arrival_time ≤ current_time
    · simp only [CFSScheduler.enqueueArrived, hp, if_true] at h
      obtain ⟨k, hk, hidx, hq, harr, hstop⟩ := ih _ _ _ _ h
      refine ⟨k + 1, by simp; omega, by omega, ?_, ?_, ?_⟩
      · intro y
        rw [hq, (heapPush_perm ps q idx).mem_iff, List.mem_cons]
        constructor
        · rintro ((hy | hy) | hy)
          · exact Or.inr (by omega)
          · exact Or.inl hy
          · exact Or.inr (by omega)
        · rintro (hy | hy)
          · exact Or.inl (Or.inr hy)
          · by_cases hyx : y = idx
            · exact Or.inl (Or.inl hyx)
            · exact Or.inr (by omega)
      · intro j r hj hr
        cases j with
        | zero => simp at hr; subst hr; exact hp
        | succ j => simp at hr; exact harr j r (by omega) hr
      · intro r hr
        simp at hr
        exact hstop r hr
    · simp only [CFSScheduler.enqueueArrived, hp, if_false, Prod.mk.injEq] at h
      obtain ⟨h1, h2⟩ := h
      subst h1 h2
      refine ⟨0, by simp, by omega, by intro y; constructor <;> intro hy <;> [exact Or.inl hy;
        (rcases hy with hy | hy <;> [exact hy; omega])], by intro j p hj; omega, ?_⟩
      intro r hr
      simp at hr
      subst hr
      omega

/-- The admission loop of CFS. -/
theorem cfs_enqueueArrived_spec {ps0 ps : List Process} {current_time : Int} {idx idx1 : Nat}
    {q q1 : List Nat}
    (h : CFSScheduler.enqueueArrived ps0 current_time (ps.drop idx) idx q = (idx1, q1)) :
    Admitted ps current_time idx idx1 (· ∈ q) (· ∈ q1) := by
  obtain ⟨k, hk, hidx, hq, harr, hstop⟩ := cfs_enqueueArrived_rest _ _ _ _ _ _ _ h
  exact admitted_of_rest hk hidx (fun x => by rw [hq, hidx]) harr hstop

/-- An iteration of `CFSScheduler::schedule` is a step of a queue-driven loop with
the slice 1. -/
theorem cfs_qstep {s s1 : State} {ev : Option Dispatch}
    (h : CFSScheduler.step s = .next ev s1) :
    QStep inReady (· = 1) s ev s1 := by
  unfold CFSScheduler.step at h
  split at h
  · split at h
    · rename_i idx1 hadm
      simp only [Outcome.next.injEq] at h
      obtain ⟨hev, hs1⟩ := h
      subst hev hs1
      exact QStep.idle _ rfl (cfs_enqueueArrived_spec hadm) (by simp [inReady]) rfl
        ⟨rfl, rfl, rfl⟩
    · rename_i idx1 current rest hadm
      have ha1 := cfs_enqueueArrived_spec hadm
      split at h
      · cases h
      · rename_i p hp
        dsimp only at h
        split at h
        · cases h
        · generalize hadm2 : CFSScheduler.enqueueArrived _ _ _ idx1 _ = r at h
          obtain ⟨idx2, q2⟩ := r
          dsimp only at h
          have ha2 := (cfs_enqueueArrived_spec hadm2).of_set hp rfl
          have hpop : ∀ x, x ∈ current :: rest ↔
              x = current ∨ x ∈ heapPop s.processes (current :: rest) := by
            intro x
            rw [(heapPop_perm s.processes current rest).mem_iff, List.mem_cons]
          split at h
          · rename_i hpos
            simp only [Outcome.next.injEq] at h
            obtain ⟨hev, hs1⟩ := h
            subst hev hs1
            refine QStep.run _ current p 1 _
              (p.vruntime + min 1 p.remaining_time * Int.tdiv 1024 p.weight) idx1
              (· ∈ current :: rest) (· ∈ heapPop s.processes (current :: rest))
              (· ∈ q2) ha1 hpop hp rfl rfl ?_ rfl ha2 ?_ (noteDispatch_trace s p.id)
            · simp only [afterRun, hpos, if_true]
            · intro x
              simp only [inReady, (heapPush_perm _ q2 current).mem_iff, List.mem_cons, hpos,
                and_true]
              exact or_comm
          · rename_i hpos
            simp only [Outcome.next.injEq] at h
            obtain ⟨hev, hs1⟩ := h
            subst hev hs1
            refine QStep.run _ current p 1 _
              (p.vruntime + min 1 p.remaining_time * Int.tdiv 1024 p.weight) idx1
              (· ∈ current :: rest) (· ∈ heapPop s.processes (current :: rest))
              (· ∈ q2) ha1 hpop hp rfl rfl ?_ rfl ha2 ?_ (noteDispatch_trace s p.id)
            · simp only [afterRun, hpos, if_false]
            · intro x
              simp only [inReady, hpos, and_false, or_false]
  · cases h

/-! ## Conservation: `turnaround_time == waiting_time + burst_time` -/

theorem settled_complete (log : List Dispatch) (i : Nat) (p : Process) (start len : Int) :
    Settled (⟨i, start, len⟩ :: log) i (complete p (start + len)) := by
  refine ⟨by simp only [complete]; ring, ?_⟩
  rw [completionTime_cons_self]
  simp only [complete]
  congr 1
  ring

theorem settled_cons_other {log : List Dispatch} {i : Nat} {p : Process} {e : Dispatch}
    (h : Settled log i p) (hne : e.idx ≠ i) : Settled (e :: log) i p :=
  ⟨h.1, by rw [completionTime_cons_other hne]; exact h.2⟩

/-- In a queue-driven loop, every process that has been admitted is queued or
settled, and an iteration keeps it so. -/
theorem QStep.settled_inv {held : State → Nat → Prop} {slice : Int → Prop} {s s1 : State}
    {ev : Option Dispatch} {log : List Dispatch} (h : QStep held slice s ev s1)
    (hinv : ∀ i p, i < s.idx → s.processes[i]? = some p → held s i ∨ Settled log i p) :
    ∀ i p, i < s1.idx → s1.processes[i]? = some p → held s1 i ∨ Settled (record ev log) i p := by
  cases h with
  | idle _ hps hadm hempty hct =>
    intro i p hi hp
    rw [hps] at hp
    by_cases hlt : i < s.idx
    · rcases hinv i p hlt hp with hh | hh
      · exact Or.inl ((hadm.held_iff i).mpr (Or.inl hh))
      · exact Or.inr hh
    · exact Or.inl ((hadm.held_iff i).mpr (Or.inr ⟨by omega, hi⟩))
  | run _ current p0 sl run_time vruntime mid heldMid heldPop heldEnd hadm1 hpop hp0 hslice hrun
      hps hct hadm2 hheld =>
    intro i p hi hp
    rw [hps] at hp
    rcases getElem?_set_cases hp with ⟨hic, hpe⟩ | ⟨hic, hpe⟩
    · subst hic hpe
      by_cases hpos : 0 < p0.remaining_time - run_time
      · exact Or.inl ((hheld i).mpr (Or.inr ⟨rfl, hpos⟩))
      · right
        simp only [afterRun, hpos, if_false, record]
        exact settled_complete log i _ _ _
    · have hmidheld : heldMid i → held s1 i := by
        intro hm
        rcases (hpop i).mp hm with hc | hc
        · exact absurd hc hic
        · exact (hheld i).mpr (Or.inl ((hadm2.held_iff i).mpr (Or.inl hc)))
      by_cases hlt : i < s.idx
      · rcases hinv i p hlt hpe with hh | hh
        · exact Or.inl (hmidheld ((hadm1.held_iff i).mpr (Or.inl hh)))
        · exact Or.inr (settled_cons_other hh (fun hc => hic hc.symm))
      · by_cases hlt2 : i < mid
        · exact Or.inl (hmidheld ((hadm1.held_iff i).mpr (Or.inr ⟨by omega, hlt2⟩)))
        · exact Or.inl ((hheld i).mpr (Or.inl ((hadm2.held_iff i).mpr
            (Or.inr ⟨by omega, hi⟩))))

/-- The Round Robin and CFS loops end with every process admitted and none queued. -/
theorem rr_halt {quantum : Int} {s : State} (h : RoundRobinScheduler.step quantum s = .halt) :
    s.processes.length ≤ s.idx ∧ ∀ x, ¬ inReady s x := by
  unfold RoundRobinScheduler.step at h
  split at h
  · split at h
    · cases h
    · split at h
      · cases h
      · dsimp only at h
        generalize enqueueArrived _ _ _ _ = r at h
        obtain ⟨idx2, q2⟩ := r
        dsimp only at h
        split at h <;> cases h
  · rename_i hc
    simp only [not_or, not_not, not_lt] at hc
    exact ⟨hc.2, by simp [inReady, hc.1]⟩

theorem cfs_halt {s : State} (h : CFSScheduler.step s = .halt) :
    s.processes.length ≤ s.idx ∧ ∀ x, ¬ inReady s x := by
  unfold CFSScheduler.step at h
  split at h
  · split at h
    · cases h
    · split at h
      · cases h
      · dsimp only at h
        split at h
        · cases h
        · generalize CFSScheduler.enqueueArrived _ _ _ _ _ = r at h
          obtain ⟨idx2, q2⟩ := r
          dsimp only at h
          split at h <;> cases h
  · rename_i hc
    simp only [not_or, not_not, not_lt] at hc
    exact ⟨hc.2, by simp [inReady, hc.1]⟩

theorem anyWork_false {s : State} (h : ¬ anyWork s = true) :
    s.processes.length ≤ s.idx ∧ ∀ x, ¬ inLevels s x := by
  simp only [anyWork, Bool.or_eq_true, decide_eq_true_eq, List.any_eq_true, not_or, not_lt,
    not_exists, not_and, Bool.not_eq_true', Bool.not_eq_false'] at h
  refine ⟨h.1, ?_⟩
  rintro x ⟨q, hq, hx⟩
  have := h.2 q hq
  cases q with
  | nil => cases hx
  | cons a r => simp at this

/-- The MLQ and MFQ loops end with every process admitted and none queued. -/
theorem mlq_halt {s : State} (h : MultilevelQueueScheduler.step s = .halt) :
    s.processes.length ≤ s.idx ∧ ∀ x, ¬ inLevels s x := by
  unfold MultilevelQueueScheduler.step at h
  split at h
  · split at h
    · cases h
    · split at h
      · cases h
      · split at h
        · cases h
        · dsimp only at h
          split at h
          · cases h
          · split at h
            · split at h <;> cases h
            · cases h
  · rename_i hc
    exact anyWork_false hc

theorem mfq_halt {s : State} (h : MFQScheduler.step s = .halt) :
    s.processes.length ≤ s.idx ∧ ∀ x, ¬ inLevels s x := by
  unfold MFQScheduler.step at h
  split at h
  · split at h
    · cases h
    · split at h
      · cases h
      · split at h
        · dsimp only at h
          split at h
          · cases h
          · split at h
            · split at h <;> cases h
            · cases h
        · cases h
  · rename_i hc
    exact anyWork_false hc

/-! ## FCFS and the non-preemptive selection loops -/

/-- An iteration of `FCFSScheduler::schedule` dispatches the process at the iterator
for its burst time, from the later of the current time and its arrival time. -/
theorem fcfs_next {s s1 : State} {ev : Option Dispatch}
    (h : FCFSScheduler.step s = .next ev s1) :
    ∃ p, s.processes[s.idx]? = some p ∧
      ev = some ⟨s.idx, if s.current_time < p.arrival_time then p.arrival_time
        else s.current_time, p.burst_time⟩ ∧
      s1 = { s with
        processes := s.processes.set s.idx (complete p
          ((if s.current_time < p.arrival_time then p.arrival_time else s.current_time)
            + p.burst_time))
        gantt := s.gantt ++ [(p.id, p.burst_time)]
        current_time := (if s.current_time < p.arrival_time then p.arrival_time
          else s.current_time) + p.burst_time
        idx := s.idx + 1 } := by
  unfold FCFSScheduler.step at h
  split at h
  · cases h
  · rename_i p hp
    simp only [Outcome.next.injEq] at h
    exact ⟨p, hp, h.1.symm, h.2.symm⟩

theorem fcfs_halt {s : State} (h : FCFSScheduler.step s = .halt) :
    s.processes.length ≤ s.idx := by
  unfold FCFSScheduler.step at h
  split at h
  · rename_i hnone
    exact List.getElem?_eq_none_iff.mp hnone
  · cases h

/-- In `FCFSScheduler::schedule` every process before the iterator is settled. -/
theorem fcfs_settled_inv {s s1 : State} {ev : Option Dispatch} {log : List Dispatch}
    (h : FCFSScheduler.step s = .next ev s1)
    (hinv : ∀ i p, i < s.idx → s.processes[i]? = some p → Settled log i p) :
    ∀ i p, i < s1.idx → s1.processes[i]? = some p → Settled (record ev log) i p := by
  obtain ⟨p0, hp0, hev, hs1⟩ := fcfs_next h
  subst hev hs1
  intro i p hi hp
  rcases getElem?_set_cases hp with ⟨hic, hpe⟩ | ⟨hic, hpe⟩
  · subst hic hpe
    exact settled_complete log _ _ _ _
  · exact settled_cons_other (hinv i p (by simp at hi; omega) hpe) (fun hc => hic hc.symm)

/-- The body of the aging loop changes the priority only, to itself or to
`max(1, priority - 1)`. -/
theorem ageOne_spec {aging_interval current_time : Int} {done : Bool} {p q : Process}
    (h : PriorityScheduler.ageOne aging_interval current_time done p = some q) :
    q = { p with priority := q.priority } ∧
      (q.priority = p.priority ∨ q.priority = max 1 (p.priority - 1)) := by
  unfold PriorityScheduler.ageOne at h
  split at h
  · dsimp only at h
    split at h
    · split at h
      · cases h
      · split at h
        · simp only [Option.some.injEq] at h
          subst h
          exact ⟨rfl, Or.inr rfl⟩
        · simp only [Option.some.injEq] at h
          subst h
          exact ⟨rfl, Or.inl rfl⟩
    · simp only [Option.some.injEq] at h
      subst h
      exact ⟨rfl, Or.inl rfl⟩
  · simp only [Option.some.injEq] at h
    subst h
    exact ⟨rfl, Or.inl rfl⟩

/-- The aging loop changes priorities only. -/
theorem age_spec (aging_interval current_time : Int) (completed : List Bool) :
    ∀ (ps : List Process) (i : Nat) (ps1 : List Process),
      PriorityScheduler.age aging_interval current_time completed ps i = some ps1 →
      ps1.length = ps.length ∧
      ∀ (j : Nat) (q1 : Process), ps1[j]? = some q1 →
        ∃ q : Process, ps[j]? = some q ∧ q1 = { q with priority := q1.priority } := by
  intro ps
  induction ps with
  | nil =>
    intro i ps1 h
    unfold PriorityScheduler.age at h
    simp only [Option.some.injEq] at h
    subst h
    exact ⟨rfl, by intro j q1 hq; simp at hq⟩
  | cons p rest ih =>
    intro i ps1 h
    unfold PriorityScheduler.age at h
    split at h
    · cases h
    · rename_i q hq
      split at h
      · cases h
      · rename_i rest1 hrest
        simp only [Option.some.injEq] at h
        subst h
        obtain ⟨hlen, hall⟩ := ih _ _ hrest
        refine ⟨by simp [hlen], ?_⟩
        intro j q1 hq1
        cases j with
        | zero =>
          simp only [List.getElem?_cons_zero, Option.some.injEq] at hq1
          subst hq1
          exact ⟨p, by simp, (ageOne_spec hq).1⟩
        | succ j =>
          simp only [List.getElem?_cons_succ] at hq1 ⊢
          exact hall j q1 hq1

/-- The two ways an iteration of `SJFScheduler::schedule` can continue. -/
theorem sjf_next {s s1 : State} {ev : Option Dispatch}
    (h : SJFScheduler.step s = .next ev s1) :
    (scanMin (fun i p => !(s.completed.getD i false) &&
        decide (p.arrival_time ≤ s.current_time)) (·.burst_time) s.processes = none ∧
      ev = none ∧ s1 = { s with current_time := s.current_time + 1 }) ∨
    (∃ i p, scanMin (fun i p => !(s.completed.getD i false) &&
        decide (p.arrival_time ≤ s.current_time)) (·.burst_time) s.processes = some i ∧
      s.processes[i]? = some p ∧ ev = some ⟨i, s.current_time, p.burst_time⟩ ∧
      s1 = { s with
        processes := s.processes.set i (complete p (s.current_time + p.burst_time))
        gantt := s.gantt ++ [(p.id, p.burst_time)]
        current_time := s.current_time + p.burst_time
        completed := s.completed.set i true
        completed_count := s.completed_count + 1 }) := by
  unfold SJFScheduler.step at h
  split at h
  · split at h
    · rename_i hscan
      simp only [Outcome.next.injEq] at h
      exact Or.inl ⟨hscan, h.1.symm, h.2.symm⟩
    · rename_i i hscan
      split at h
      · cases h
      · rename_i p hp
        simp only [Outcome.next.injEq] at h
        exact Or.inr ⟨i, p, hscan, hp, h.1.symm, h.2.symm⟩
  · cases h

/-- The two ways an iteration of `PriorityScheduler::schedule` can continue, after
the aging loop has produced the vector `ps`. -/
theorem priority_next {aging_interval : Int} {s s1 : State} {ev : Option Dispatch}
    (h : PriorityScheduler.step aging_interval s = .next ev s1) :
    ∃ ps, PriorityScheduler.age aging_interval s.current_time s.completed s.processes 0
        = some ps ∧
      ((scanMin (fun i p => !(s.completed.getD i false) &&
          decide (p.arrival_time ≤ s.current_time)) (·.priority) ps = none ∧
        ev = none ∧ s1 = { s with processes := ps, current_time := s.current_time + 1 }) ∨
      (∃ i p, scanMin (fun i p => !(s.completed.getD i false) &&
          decide (p.arrival_time ≤ s.current_time)) (·.priority) ps = some i ∧
        ps[i]? = some p ∧ ev = some ⟨i, s.current_time, p.burst_time⟩ ∧
        s1 = { s with
          processes := ps.set i (complete p (s.current_time + p.burst_time))
          gantt := s.gantt ++ [(p.id, p.burst_time)]
          current_time := s.current_time + p.burst_time
          completed := s.completed.set i true
          completed_count := s.completed_count + 1 })) := by
  unfold PriorityScheduler.step at h
  split at h
  · split at h
    · cases h
    · rename_i ps hage
      refine ⟨ps, hage, ?_⟩
      split at h
      · rename_i hscan
        simp only [Outcome.next.injEq] at h
        exact Or.inl ⟨hscan, h.1.symm, h.2.symm⟩
      · rename_i i hscan
        split at h
        · cases h
        · rename_i p hp
          simp only [Outcome.next.injEq] at h
          exact Or.inr ⟨i, p, hscan, hp, h.1.symm, h.2.symm⟩
  · cases h

/-- The bookkeeping of the selection loops holds before the first iteration. -/
theorem selInv_init (ps : List Process) (log : List Dispatch) :
    SelInv { processes := ps, completed := List.replicate ps.length false } log := by
  refine ⟨by simp, ?_, ?_⟩
  · simp [List.count_replicate]
  · intro i p hi
    rw [List.getElem?_replicate] at hi
    split at hi <;> cases hi

/-- The bookkeeping of the selection loops does not depend on priorities. -/
theorem selInv_aged {s : State} (s1 : State) {log : List Dispatch} (hinv : SelInv s log)
    {aging_interval : Int} {i : Nat}
    (hage : PriorityScheduler.age aging_interval s.current_time s.completed s.processes i
      = some s1.processes)
    (hc : s1.completed = s.completed) (hcc : s1.completed_count = s.completed_count) :
    SelInv s1 log := by
  obtain ⟨hlen, hall⟩ := age_spec _ _ _ _ _ _ hage
  refine ⟨by rw [hc, hlen, hinv.length], by rw [hc, hcc, hinv.count], ?_⟩
  intro j q1 hj hq1
  obtain ⟨q, hq, hqe⟩ := hall j q1 hq1
  rw [hc] at hj
  obtain ⟨h1, h2⟩ := hinv.settled j q hj hq
  rw [hqe]
  exact ⟨h1, h2⟩

/-- The bookkeeping of the selection loops is kept by a dispatch of an unflagged
process for its whole burst. -/
theorem selInv_dispatch {s : State} (s1 : State) {log : List Dispatch} (hinv : SelInv s log)
    {i : Nat} {p : Process} {start : Int}
    (hp : s.processes[i]? = some p) (hflag : s.completed.getD i false = false)
    (hps : s1.processes = s.processes.set i (complete p (start + p.burst_time)))
    (hc : s1.completed = s.completed.set i true)
    (hcc : s1.completed_count = s.completed_count + 1) :
    SelInv s1 (⟨i, start, p.burst_time⟩ :: log) := by
  have hi : i < s.completed.length := by
    rw [hinv.length]
    rcases Nat.lt_or_ge i s.processes.length with hlt | hge
    · exact hlt
    · rw [List.getElem?_eq_none hge] at hp; cases hp
  have hget : s.completed[i]? = some false := by
    rw [List.getElem?_eq_getElem hi]
    rw [List.getD_eq_getElem _ _ hi] at hflag
    rw [hflag]
  refine ⟨by rw [hc, hps]; simp [hinv.length], ?_, ?_⟩
  · have h1 := countP_set_add (· == true) true hget
    simp only [List.count_eq_countP, hc, hcc, hinv.count]
    simp only [beq_self_eq_true, if_true, Bool.false_eq_true, if_false,
      show (false == true) = false from rfl] at h1
    omega
  · intro j q hj hq
    rw [hps] at hq
    rw [hc] at hj
    rcases getElem?_set_cases hq with ⟨hji, hqe⟩ | ⟨hji, hqe⟩
    · subst hji hqe
      exact settled_complete log _ _ _ _
    · rw [List.getElem?_set_ne (fun hc => hji hc.symm)] at hj
      exact settled_cons_other (hinv.settled j q hj hqe) (fun hc => hji hc.symm)

/-- The bookkeeping of `SJFScheduler::schedule` is kept by every iteration. -/
theorem sjf_inv {s s1 : State} {ev : Option Dispatch} {log : List Dispatch}
    (hinv : SelInv s log) (h : SJFScheduler.step s = .next ev s1) :
    SelInv s1 (record ev log) := by
  rcases sjf_next h with ⟨-, hev, hs1⟩ | ⟨i, p, hscan, hp, hev, hs1⟩
  · subst hev hs1
    exact ⟨hinv.length, hinv.count, hinv.settled⟩
  · subst hev hs1
    obtain ⟨p0, hp0, hok, -⟩ := scanMin_some hscan
    simp only [Bool.and_eq_true, Bool.not_eq_true', decide_eq_true_eq] at hok
    exact selInv_dispatch _ hinv hp hok.1 rfl rfl rfl

/-- The bookkeeping of `PriorityScheduler::schedule` is kept by every iteration. -/
theorem priority_inv {aging_interval : Int} {s s1 : State} {ev : Option Dispatch}
    {log : List Dispatch} (hinv : SelInv s log)
    (h : PriorityScheduler.step aging_interval s = .next ev s1) :
    SelInv s1 (record ev log) := by
  obtain ⟨ps, hage, hcases⟩ := priority_next h
  have haged : SelInv { s with processes := ps } log :=
    selInv_aged { s with processes := ps } hinv hage rfl rfl
  rcases hcases with ⟨-, hev, hs1⟩ | ⟨i, p, hscan, hp, hev, hs1⟩
  · subst hev hs1
    exact ⟨haged.length, haged.count, haged.settled⟩
  · subst hev hs1
    obtain ⟨p0, hp0, hok, -⟩ := scanMin_some hscan
    simp only [Bool.and_eq_true, Bool.not_eq_true', decide_eq_true_eq] at hok
    exact selInv_dispatch { s with
        processes := ps.set i (complete p (s.current_time + p.burst_time))
        gantt := s.gantt ++ [(p.id, p.burst_time)]
        current_time := s.current_time + p.burst_time
        completed := s.completed.set i true
        completed_count := s.completed_count + 1 } haged hp hok.1 rfl rfl rfl

/-- When a selection loop ends, every process is settled. -/
theorem selInv_halt {s : State} {log : List Dispatch} (hinv : SelInv s log)
    (hcc : ¬ s.completed_count < s.processes.length) :
    ∀ i p, s.processes[i]? = some p → Settled log i p := by
  have hle : s.completed.count true ≤ s.completed.length := List.count_le_length _ _
  have hc := hinv.count
  have hl := hinv.length
  have hall : s.completed.count true = s.completed.length := by omega
  rw [List.count_eq_length] at hall
  intro i p hp
  have hi : i < s.completed.length := by
    rw [hl]
    rcases Nat.lt_or_ge i s.processes.length with hlt | hge
    · exact hlt
    · rw [List.getElem?_eq_none hge] at hp; cases hp
  refine hinv.settled i p ?_ hp
  rw [List.getElem?_eq_getElem hi]
  exact congrArg some (hall _ (List.getElem_mem _)).symm

theorem sjf_halt {s : State} (h : SJFScheduler.step s = .halt) :
    ¬ s.completed_count < s.processes.length := by
  intro hlt
  unfold SJFScheduler.step at h
  rw [if_pos hlt] at h
  split at h
  · cases h
  · split at h <;> cases h

theorem priority_halt {aging_interval : Int} {s : State}
    (h : PriorityScheduler.step aging_interval s = .halt) :
    ¬ s.completed_count < s.processes.length := by
  intro hlt
  unfold PriorityScheduler.step at h
  rw [if_pos hlt] at h
  split at h
  · cases h
  · split at h
    · cases h
    · split at h <;> cases h

/-- Claim C1: for each of the ten `Scheduler::schedule` implementations, when
`schedule` returns, every process satisfies
`turnaround_time == waiting_time + burst_time`, and its `turnaround_time` is its
completion time (the end of its last dispatch) less its `arrival_time`.  This holds
for every workload on which `schedule` returns, in particular for the non-empty
arrival-sorted ones with positive burst times (and quantum at least 1). -/
theorem turnaround_conservation (pol : Policy) (ps : List Process) (fuel : Nat) (r : Result)
    (h : schedule pol fuel ps = some r) :
    ∀ i p, r.processes[i]? = some p →
      p.turnaround_time = p.waiting_time + p.burst_time ∧
      completionTime r.dispatches i = some (p.arrival_time + p.turnaround_time) := by
  obtain ⟨hh, hr⟩ := schedule_eq_some h
  have hreach : reach pol fuel ps = iterate pol fuel (init pol ps, []) := rfl
  have hunit : ∀ (key : Process → Int) (late : Process → Int → Bool),
      step pol = unitStep key late →
      (∀ p ∈ (init pol ps).processes, p.remaining_time = p.burst_time) →
      (init pol ps).completed_count = 0 →
      ∀ i p, r.processes[i]? = some p → Settled r.dispatches i p := by
    intro key late hstep hrem hcc
    have hinv := iterate_inv pol UnitInv
      (fun s log ev s1 hi hs => unitStep_inv hi (by rw [hstep] at hs; exact hs))
      fuel (init pol ps) [] (unitInv_init [] hrem hcc)
    rw [← hreach] at hinv
    rw [hstep] at hh
    intro i p hp
    rw [hr] at hp ⊢
    exact (unitInv_halt hinv hh i p hp).2.2
  have hqueue : ∀ (held : State → Nat → Prop) (slice : Int → Prop),
      (∀ s ev s1, step pol s = .next ev s1 → QStep held slice s ev s1) →
      (∀ s, step pol s = .halt → s.processes.length ≤ s.idx ∧ ∀ x, ¬ held s x) →
      (init pol ps).idx = 0 →
      ∀ i p, r.processes[i]? = some p → Settled r.dispatches i p := by
    intro held slice hstep hhalt hidx
    have hinv := iterate_inv pol
      (fun s log => ∀ i p, i < s.idx → s.processes[i]? = some p → held s i ∨ Settled log i p)
      (fun s log ev s1 hi hs => (hstep s ev s1 hs).settled_inv hi)
      fuel (init pol ps) [] (by intro i p hi; rw [hidx] at hi; omega)
    rw [← hreach] at hinv
    obtain ⟨hlen, hnone⟩ := hhalt _ hh
    intro i p hp
    rw [hr] at hp ⊢
    have hi : i < (reach pol fuel ps).1.processes.length := by
      rcases Nat.lt_or_ge i (reach pol fuel ps).1.processes.length with hlt | hge
      · exact hlt
      · simp only [finish] at hp
        rw [List.getElem?_eq_none hge] at hp
        cases hp
    rcases hinv i p (by omega) hp with hq | hs
    · exact absurd hq (hnone i)
    · exact hs
  have hsel : (∀ s log ev s1, SelInv s log → step pol s = .next ev s1 →
        SelInv s1 (record ev log)) →
      (∀ s, step pol s = .halt → ¬ s.completed_count < s.processes.length) →
      init pol ps = { processes := ps, completed := List.replicate ps.length false } →
      ∀ i p, r.processes[i]? = some p → Settled r.dispatches i p := by
    intro hstep hhalt hinit
    have hinv := iterate_inv pol SelInv hstep fuel (init pol ps) []
      (by rw [hinit]; exact selInv_init ps [])
    rw [← hreach] at hinv
    intro i p hp
    rw [hr] at hp ⊢
    exact selInv_halt hinv (hhalt _ hh) i p hp
  have hrem : ∀ p ∈ resetRemaining ps, p.remaining_time = p.burst_time := by
    intro p hp
    simp only [resetRemaining, List.mem_map] at hp
    obtain ⟨q, -, rfl⟩ := hp
    rfl
  cases pol with
  | fcfs =>
    have hinv := iterate_inv .fcfs
      (fun s log => ∀ i p, i < s.idx → s.processes[i]? = some p → Settled log i p)
      (fun s log ev s1 hi hs => fcfs_settled_inv hs hi)
      fuel (init .fcfs ps) [] (by intro i p hi; simp [init] at hi)
    rw [← hreach] at hinv
    have hlen := fcfs_halt hh
    intro i p hp
    rw [hr] at hp ⊢
    have hi : i < (reach .fcfs fuel ps).1.processes.length := by
      rcases Nat.lt_or_ge i (reach .fcfs fuel ps).1.processes.length with hlt | hge
      · exact hlt
      · simp only [finish] at hp
        rw [List.getElem?_eq_none hge] at hp
        cases hp
    exact hinv i p (by omega) hp
  | sjf => exact hsel (fun s log ev s1 hi hs => sjf_inv hi hs) (fun s hs => sjf_halt hs) rfl
  | srtf => exact hunit (·.remaining_time) (fun _ _ => false) rfl hrem rfl
  | rr quantum =>
    exact hqueue inReady (· = quantum) (fun s ev s1 hs => rr_qstep hs) (fun s hs => rr_halt hs) rfl
  | priority aging_interval =>
    exact hsel (fun s log ev s1 hi hs => priority_inv hi hs) (fun s hs => priority_halt hs) rfl
  | priorityPreemptive => exact hunit (·.priority) (fun _ _ => false) rfl hrem rfl
  | mlq => exact hqueue inLevels (· = 2) (fun s ev s1 hs => mlq_qstep hs) (fun s hs => mlq_halt hs) rfl
  | mfq =>
    exact hqueue inLevels (· ∈ MFQScheduler.quantum) (fun s ev s1 hs => mfq_qstep hs)
      (fun s hs => mfq_halt hs) rfl
  | cfs => exact hqueue inReady (· = 1) (fun s ev s1 hs => cfs_qstep hs) (fun s hs => cfs_halt hs) rfl
  | edf =>
    refine hunit (·.deadline) (fun p now => decide (now > p.deadline)) rfl ?_ rfl
    intro p hp
    simp only [init, EDFScheduler.prepare, List.mem_map] at hp
    obtain ⟨q, -, rfl⟩ := hp
    rfl

/-- Claim C1 on the built-in workload: under each of the ten policies (Round Robin
with quantum 4, Priority with aging interval 5) the run returns within 26 iterations,
and each of the four processes has `turnaround_time == waiting_time + burst_time`. -/
theorem turnaround_conservation_witness :
    (∃ r, schedule .fcfs 26 builtin = some r ∧
      ∀ i p, r.processes[i]? = some p →
        p.turnaround_time = p.waiting_time + p.burst_time ∧
        completionTime r.dispatches i = some (p.arrival_time + p.turnaround_time)) ∧
    (∃ r, schedule .sjf 26 builtin = some r ∧
      ∀ i p, r.processes[i]? = some p →
        p.turnaround_time = p.waiting_time + p.burst_time ∧
        completionTime r.dispatches i = some (p.arrival_time + p.turnaround_time)) ∧
    (∃ r, schedule .srtf 26 builtin = some r ∧
      ∀ i p, r.processes[i]? = some p →
        p.turnaround_time = p.waiting_time + p.burst_time ∧
        completionTime r.dispatches i = some (p.arrival_time + p.turnaround_time)) ∧
    (∃ r, schedule (.rr 4) 26 builtin = some r ∧
      ∀ i p, r.processes[i]? = some p →
        p.turnaround_time = p.waiting_time + p.burst_time ∧
        completionTime r.dispatches i = some (p.arrival_time + p.turnaround_time)) ∧
    (∃ r, schedule (.priority 5) 26 builtin = some r ∧
      ∀ i p, r.processes[i]? = some p →
        p.turnaround_time = p.waiting_time + p.burst_time ∧
        completionTime r.dispatches i = some (p.arrival_time + p.turnaround_time)) ∧
    (∃ r, schedule .priorityPreemptive 26 builtin = some r ∧
      ∀ i p, r.processes[i]? = some p →
        p.turnaround_time = p.waiting_time + p.burst_time ∧
        completionTime r.dispatches i = some (p.arrival_time + p.turnaround_time)) ∧
    (∃ r, schedule .mlq 26 builtin = some r ∧
      ∀ i p, r.processes[i]? = some p →
        p.turnaround_time = p.waiting_time + p.burst_time ∧
        completionTime r.dispatches i = some (p.arrival_time + p.turnaround_time)) ∧
    (∃ r, schedule .mfq 26 builtin = some r ∧
      ∀ i p, r.processes[i]? = some p →
        p.turnaround_time = p.waiting_time + p.burst_time ∧
        completionTime r.dispatches i = some (p.arrival_time + p.turnaround_time)) ∧
    (∃ r, schedule .cfs 26 builtin = some r ∧
      ∀ i p, r.processes[i]? = some p →
        p.turnaround_time = p.waiting_time + p.burst_time ∧
        completionTime r.dispatches i = some (p.arrival_time + p.turnaround_time)) ∧
    (∃ r, schedule .edf 26 builtin = some r ∧
      ∀ i p, r.processes[i]? = some p →
        p.turnaround_time = p.waiting_time + p.burst_time ∧
        completionTime r.dispatches i = some (p.arrival_time + p.turnaround_time)) :=
  ⟨(Option.isSome_iff_exists.mp (by decide : (schedule .fcfs 26 builtin).isSome = true)).imp
      fun r hr => ⟨hr, turnaround_conservation .fcfs builtin 26 r hr⟩,
    (Option.isSome_iff_exists.mp (by decide : (schedule .sjf 26 builtin).isSome = true)).imp
      fun r hr => ⟨hr, turnaround_conservation .sjf builtin 26 r hr⟩,
    (Option.isSome_iff_exists.mp (by decide : (schedule .srtf 26 builtin).isSome = true)).imp
      fun r hr => ⟨hr, turnaround_conservation .srtf builtin 26 r hr⟩,
    (Option.isSome_iff_exists.mp (by decide : (schedule (.rr 4) 26 builtin).isSome = true)).imp
      fun r hr => ⟨hr, turnaround_conservation (.rr 4) builtin 26 r hr⟩,
    (Option.isSome_iff_exists.mp (by decide : (schedule (.priority 5) 26 builtin).isSome = true)).imp
      fun r hr => ⟨hr, turnaround_conservation (.priority 5) builtin 26 r hr⟩,
    (Option.isSome_iff_exists.mp (by decide : (schedule .priorityPreemptive 26 builtin).isSome = true)).imp
      fun r hr => ⟨hr, turnaround_conservation .priorityPreemptive builtin 26 r hr⟩,
    (Option.isSome_iff_exists.mp (by decide : (schedule .mlq 26 builtin).isSome = true)).imp
      fun r hr => ⟨hr, turnaround_conservation .mlq builtin 26 r hr⟩,
    (Option.isSome_iff_exists.mp (by decide : (schedule .mfq 26 builtin).isSome = true)).imp
      fun r hr => ⟨hr, turnaround_conservation .mfq builtin 26 r hr⟩,
    (Option.isSome_iff_exists.mp (by decide : (schedule .cfs 26 builtin).isSome = true)).imp
      fun r hr => ⟨hr, turnaround_conservation .cfs builtin 26 r hr⟩,
    (Option.isSome_iff_exists.mp (by decide : (schedule .edf 26 builtin).isSome = true)).imp
      fun r hr => ⟨hr, turnaround_conservation .edf builtin 26 r hr⟩⟩

/-! ## What the iterations leave alone -/

/-- The aging loop leaves every image of the vector that ignores priorities. -/
theorem age_map {β : Type} (f : Process → β)
    (hf : ∀ (p : Process) (pr : Int), f { p with priority := pr } = f p)
    {aging_interval current_time : Int} {completed : List Bool} {ps ps1 : List Process}
    {i : Nat}
    (h : PriorityScheduler.age aging_interval current_time completed ps i = some ps1) :
    ps1.map f = ps.map f := by
  obtain ⟨hlen, hall⟩ := age_spec _ _ _ _ _ _ h
  apply List.ext_getElem?
  intro j
  simp only [List.getElem?_map]
  rcases hq1 : ps1[j]? with _ | q1
  · have : ps1.length ≤ j := List.getElem?_eq_none_iff.mp hq1
    rw [List.getElem?_eq_none (by omega)]
  · obtain ⟨q, hq, hqe⟩ := hall j q1 hq1
    rw [hq, hqe]
    simp only [Option.map_some', hf]

/-- An iteration of any of the ten loops leaves every image of the process vector
that ignores the fields `remaining_time`, `turnaround_time`, `waiting_time`,
`vruntime` and `priority`. -/
theorem step_map {β : Type} (f : Process → β)
    (hf : ∀ (p : Process) (r t w v pr : Int),
      f { p with remaining_time := r, turnaround_time := t, waiting_time := w,
                 vruntime := v, priority := pr } = f p)
    {pol : Policy} {s s1 : State} {ev : Option Dispatch} (h : step pol s = .next ev s1) :
    s1.processes.map f = s.processes.map f := by
  have hcomplete : ∀ (p : Process) (t : Int), f (complete p t) = f p := fun p t =>
    hf p p.remaining_time _ _ p.vruntime p.priority
  have hunit : ∀ (key : Process → Int) (late : Process → Int → Bool),
      unitStep key late s = .next ev s1 → s1.processes.map f = s.processes.map f :=
    fun key late hs => unitStep_map f
      (fun p r t w => hf p r t w p.vruntime p.priority) hs
  have hqueue : ∀ (held : State → Nat → Prop) (slice : Int → Prop),
      QStep held slice s ev s1 → s1.processes.map f = s.processes.map f := by
    intro held slice hq
    cases hq with
    | idle _ hps hadm hempty hct => rw [hps]
    | run _ current p sl run_time vruntime mid heldMid heldPop heldEnd hadm1 hpop hp hslice
        hrun hps hct hadm2 hheld =>
      rw [hps]
      refine map_set_of_eq f hp ?_
      unfold afterRun
      split
      · exact hf p _ p.turnaround_time p.waiting_time _ p.priority
      · exact hf p _ _ _ _ p.priority
  cases pol with
  | fcfs =>
    obtain ⟨p, hp, -, hs1⟩ := fcfs_next h
    subst hs1
    exact map_set_of_eq f hp (hcomplete p _)
  | sjf =>
    rcases sjf_next h with ⟨-, -, hs1⟩ | ⟨i, p, -, hp, -, hs1⟩
    · subst hs1; rfl
    · subst hs1
      exact map_set_of_eq f hp (hcomplete p _)
  | srtf => exact hunit (·.remaining_time) (fun _ _ => false) h
  | rr quantum => exact hqueue _ _ (rr_qstep h)
  | priority aging_interval =>
    obtain ⟨ps, hage, hcases⟩ := priority_next h
    have hmap := age_map f (fun p pr =>
      hf p p.remaining_time p.turnaround_time p.waiting_time p.vruntime pr) hage
    rcases hcases with ⟨-, -, hs1⟩ | ⟨i, p, -, hp, -, hs1⟩
    · subst hs1; exact hmap
    · subst hs1
      exact (map_set_of_eq f hp (hcomplete p _)).trans hmap
  | priorityPreemptive => exact hunit (·.priority) (fun _ _ => false) h
  | mlq => exact hqueue _ _ (mlq_qstep h)
  | mfq => exact hqueue _ _ (mfq_qstep h)
  | cfs => exact hqueue _ _ (cfs_qstep h)
  | edf => exact hunit (·.deadline) (fun p now => decide (now > p.deadline)) h

/-- After any number of iterations the arrival times are those of the workload. -/
theorem reach_arrival (pol : Policy) (ps : List Process) (n : Nat) :
    (reach pol n ps).1.processes.map (·.arrival_time) = ps.map (·.arrival_time) := by
  refine iterate_inv pol (fun s _ => s.processes.map (·.arrival_time) = ps.map (·.arrival_time))
    ?_ n (init pol ps) [] ?_
  · intro s log ev s1 hinv hs
    rw [← hinv]
    exact step_map (·.arrival_time) (fun _ _ _ _ _ _ => rfl) hs
  · cases pol <;>
      simp [init, resetRemaining, MFQScheduler.prepare, CFSScheduler.prepare,
        EDFScheduler.prepare, Function.comp]

/-! ## No dispatch before arrival -/

theorem afterRun_remaining (p : Process) (run_time now vruntime : Int) :
    (afterRun p run_time now vruntime).remaining_time = p.remaining_time - run_time := by
  unfold afterRun
  split <;> rfl

/-- After any number of iterations the ids are those of the workload. -/
theorem reach_id (pol : Policy) (ps : List Process) (n : Nat) :
    (reach pol n ps).1.processes.map (·.id) = ps.map (·.id) := by
  refine iterate_inv pol (fun s _ => s.processes.map (·.id) = ps.map (·.id))
    ?_ n (init pol ps) [] ?_
  · intro s log ev s1 hinv hs
    rw [← hinv]
    exact step_map (·.id) (fun _ _ _ _ _ _ => rfl) hs
  · cases pol <;>
      simp [init, resetRemaining, MFQScheduler.prepare, CFSScheduler.prepare,
        EDFScheduler.prepare, Function.comp]

/-- Progress to the end of the loop: if from every state of a kind `P` an iteration
continues to a final state or to a state of the same kind with a smaller measure,
then from every state of the kind `P` some number of iterations reaches a final
state. -/
theorem run_to_halt (pol : Policy) (P Final : State → Prop) (measure : State → Nat)
    (hstep : ∀ s, P s → ∃ ev s1, step pol s = .next ev s1 ∧
      (Final s1 ∨ (P s1 ∧ measure s1 < measure s))) :
    ∀ (m : Nat) (s : State) (log : List Dispatch), P s → measure s ≤ m →
      ∃ n sf logf, iterate pol n (s, log) = (sf, logf) ∧ Final sf := by
  intro m
  induction m with
  | zero =>
    intro s log hP hm
    obtain ⟨ev, s1, hs, hcase⟩ := hstep s hP
    rcases hcase with hf | ⟨-, hlt⟩
    · exact ⟨1, s1, record ev log, by rw [iterate_next hs]; rfl, hf⟩
    · omega
  | succ m ih =>
    intro s log hP hm
    obtain ⟨ev, s1, hs, hcase⟩ := hstep s hP
    rcases hcase with hf | ⟨hP1, hlt⟩
    · exact ⟨1, s1, record ev log, by rw [iterate_next hs]; rfl, hf⟩
    · obtain ⟨n, sf, logf, hn, hf⟩ := ih s1 (record ev log) hP1 (by omega)
      exact ⟨n + 1, sf, logf, by rw [iterate_next hs]; exact hn, hf⟩

/-- From a final state reached by the iteration, `schedule` returns. -/
theorem schedule_of_iterate {pol : Policy} {ps : List Process} {n : Nat} {sf : State}
    {logf : List Dispatch} (h : iterate pol n (init pol ps, []) = (sf, logf))
    (hhalt : step pol sf = .halt) : schedule pol n ps = some (finish pol sf logf) := by
  unfold schedule reach
  rw [h]
  simp only [hhalt]

/-- The CPU utilization that `calculateMetrics` reports for a single process whose
burst time is the total time is 100. -/
theorem cpu_util_single {q : Process} {total_time : Int} (hb : 0 < q.burst_time)
    (ht : total_time = q.burst_time) :
    (calculateMetrics [q] total_time).cpu_util = .finite 100 := by
  subst ht
  have hne : (q.burst_time : ℚ) ≠ 0 := by
    intro h
    have : q.burst_time = 0 := by exact_mod_cast h
    omega
  have h1 : Double.ofRat 1 = .finite 1 := by decide!
  have h100 : Double.ofRat 100 = .finite 100 := by decide!
  simp only [calculateMetrics, List.foldl_cons, List.foldl_nil, Int.zero_add, gt_iff_lt, hb,
    if_true, Double.div, Double.mul, Double.ofInt, ne_eq, hne, not_false_eq_true,
    div_self hne, h1, Int.cast_ofNat, one_mul, h100]

theorem fcfs_single (p : Process) (ha : p.arrival_time = 0) :
    ∃ n sf logf, iterate .fcfs n (init .fcfs [p], []) = (sf, logf) ∧
      step .fcfs sf = .halt ∧ sf.current_time = p.burst_time ∧
      ∃ q, sf.processes = [q] ∧ q.burst_time = p.burst_time := by
  refine ⟨1, _, _, rfl, ?_, ?_, ?_⟩
  · simp [step, FCFSScheduler.step, init]
  · simp [step, FCFSScheduler.step, init, ha]
  · simp [step, FCFSScheduler.step, init, complete]

theorem iterate_one {pol : Policy} {s s1 : State} {ev : Option Dispatch}
    (hs : step pol s = .next ev s1) (log : List Dispatch) :
    iterate pol 1 (s, log) = (s1, record ev log) := by
  rw [iterate_next hs]
  rfl

theorem sjf_single (p : Process) (ha : p.arrival_time = 0) (hk : p.burst_time < INT32_MAX) :
    ∃ n sf logf, iterate .sjf n (init .sjf [p], []) = (sf, logf) ∧
      step .sjf sf = .halt ∧ sf.current_time = p.burst_time ∧
      ∃ q, sf.processes = [q] ∧ q.burst_time = p.burst_time := by
  have hs : step .sjf (init .sjf [p]) = .next (some ⟨0, 0, p.burst_time⟩)
      { processes := [complete p (0 + p.burst_time)]
        gantt := [(p.id, p.burst_time)]
        current_time := 0 + p.burst_time
        completed := [true]
        completed_count := 1 } := by
    simp [step, SJFScheduler.step, init, scanMin, scanFrom, ha, hk]
  refine ⟨1, _, _, iterate_one hs [], ?_, ?_, ?_⟩
  · simp [step, SJFScheduler.step]
  · simp
  · simp [complete]

theorem priority_single (aging_interval : Int) (p : Process) (ha : p.arrival_time = 0)
    (hk : p.priority < INT32_MAX) :
    ∃ n sf logf, iterate (.priority aging_interval) n (init (.priority aging_interval) [p], [])
        = (sf, logf) ∧
      step (.priority aging_interval) sf = .halt ∧ sf.current_time = p.burst_time ∧
      ∃ q, sf.processes = [q] ∧ q.burst_time = p.burst_time := by
  have hs : step (.priority aging_interval) (init (.priority aging_interval) [p])
      = .next (some ⟨0, 0, p.burst_time⟩)
      { processes := [complete p (0 + p.burst_time)]
        gantt := [(p.id, p.burst_time)]
        current_time := 0 + p.burst_time
        completed := [true]
        completed_count := 1 } := by
    simp [step, PriorityScheduler.step, PriorityScheduler.age, PriorityScheduler.ageOne, init,
      scanMin, scanFrom, ha, hk]
  refine ⟨1, _, _, iterate_one hs [], ?_, ?_, ?_⟩
  · simp [step, PriorityScheduler.step]
  · simp
  · simp [complete]

/-- A unit-step loop on a single unfinished process that has arrived and whose key
stays below the sentinel runs it to completion: the loop ends at the current time
plus the remaining time. -/
theorem unit_single (pol : Policy) (key : Process → Int) (late : Process → Int → Bool)
    (hpol : ∀ s, step pol s = unitStep key late s) (b c : Int) :
    ∀ (s : State) (log : List Dispatch),
      (s.completed_count = 0 ∧ ∃ q, s.processes = [q] ∧ 0 < q.remaining_time ∧
        q.arrival_time ≤ s.current_time ∧ q.burst_time = b ∧
        s.current_time + q.remaining_time = c ∧
        ∀ r, 0 < r → r ≤ q.remaining_time → key { q with remaining_time := r } < INT32_MAX) →
      ∃ n sf logf, iterate pol n (s, log) = (sf, logf) ∧
        (step pol sf = .halt ∧ sf.current_time = c ∧
          ∃ q, sf.processes = [q] ∧ q.burst_time = b) := by
  intro s log hP
  refine run_to_halt pol
    (fun s => s.completed_count = 0 ∧ ∃ q, s.processes = [q] ∧ 0 < q.remaining_time ∧
        q.arrival_time ≤ s.current_time ∧ q.burst_time = b ∧
        s.current_time + q.remaining_time = c ∧
        ∀ r, 0 < r → r ≤ q.remaining_time → key { q with remaining_time := r } < INT32_MAX)
    (fun sf => step pol sf = .halt ∧ sf.current_time = c ∧
          ∃ q, sf.processes = [q] ∧ q.burst_time = b)
    (fun (s : State) =>
      ((s.processes.head?.map (fun p : Process => p.remaining_time)).getD 0).toNat) ?_
    _ s log hP (le_refl _)
  rintro s ⟨hcc, q, hps, hrem, harr, hb, hc, hkey⟩
  have hk : key q < INT32_MAX := hkey q.remaining_time hrem (le_refl _)
  have hscan : scanMin (fun _ p => decide (p.arrival_time ≤ s.current_time) &&
      decide (p.remaining_time > 0)) key s.processes = some 0 := by
    simp [hps, scanMin, scanFrom, harr, hrem, hk]
  by_cases hz : q.remaining_time - 1 = 0
  · refine ⟨some ⟨0, s.current_time, 1⟩,
      { noteDispatch s q.id with
        processes := s.processes.set 0
          (complete { q with remaining_time := q.remaining_time - 1 } (s.current_time + 1))
        current_time := s.current_time + 1
        missed_deadlines :=
          if late { q with remaining_time := q.remaining_time - 1 } (s.current_time + 1)
          then s.missed_deadlines + 1 else s.missed_deadlines
        completed_count := s.completed_count + 1 }, ?_, Or.inl ⟨?_, ?_, ?_⟩⟩
    · rw [hpol]
      unfold unitStep
      simp only [hcc, hps, List.length_singleton, Nat.cast_one, zero_lt_one, if_true]
      rw [hps] at hscan
      simp only [hscan, List.getElem?_cons_zero, hz, if_true, hps, hcc]
    · rw [hpol]
      unfold unitStep
      simp [hcc, hps]
    · simp only
      omega
    · exact ⟨complete { q with remaining_time := q.remaining_time - 1 } (s.current_time + 1),
        by simp [hps], hb⟩
  · refine ⟨some ⟨0, s.current_time, 1⟩,
      { noteDispatch s q.id with
        processes := s.processes.set 0 { q with remaining_time := q.remaining_time - 1 }
        current_time := s.current_time + 1 }, ?_, Or.inr ⟨⟨?_, ?_⟩, ?_⟩⟩
    · rw [hpol]
      unfold unitStep
      simp only [hcc, hps, List.length_singleton, Nat.cast_one, zero_lt_one, if_true]
      rw [hps] at hscan
      simp only [hscan, List.getElem?_cons_zero, hz, if_false, hps]
    · simp only
      unfold noteDispatch switchSegment
      split <;> exact hcc
    · refine ⟨{ q with remaining_time := q.remaining_time - 1 }, by simp [hps], ?_, ?_, hb, ?_, ?_⟩
      · simp only; omega
      · simp only; omega
      · simp only; omega
      · intro r hr hle
        exact hkey r hr (by simp only at hle; omega)
    · simp only [hps, List.set_cons_zero, List.head?_cons, Option.map_some', Option.getD_some]
      omega

/-- Round Robin with a positive quantum on a single unfinished process that has
arrived runs it to completion. -/
theorem rr_single {quantum : Int} (hq : 1 ≤ quantum) (b c : Int) :
    ∀ (s : State) (log : List Dispatch),
      (∃ q, s.processes = [q] ∧ 0 < q.remaining_time ∧ q.arrival_time ≤ s.current_time ∧
        q.burst_time = b ∧ s.current_time + q.remaining_time = c ∧
        ((s.idx = 0 ∧ s.ready_queue = []) ∨ (s.idx = 1 ∧ s.ready_queue = [0]))) →
      ∃ n sf logf, iterate (.rr quantum) n (s, log) = (sf, logf) ∧
        (step (.rr quantum) sf = .halt ∧ sf.current_time = c ∧
          ∃ q, sf.processes = [q] ∧ q.burst_time = b) := by
  intro s log hP
  refine run_to_halt (.rr quantum)
    (fun s => ∃ q, s.processes = [q] ∧ 0 < q.remaining_time ∧ q.arrival_time ≤ s.current_time ∧
        q.burst_time = b ∧ s.current_time + q.remaining_time = c ∧
        ((s.idx = 0 ∧ s.ready_queue = []) ∨ (s.idx = 1 ∧ s.ready_queue = [0])))
    (fun sf => step (.rr quantum) sf = .halt ∧ sf.current_time = c ∧
          ∃ q, sf.processes = [q] ∧ q.burst_time = b)
    (fun (s : State) =>
      ((s.processes.head?.map (fun p : Process => p.remaining_time)).getD 0).toNat) ?_
    _ s log hP (le_refl _)
  rintro s ⟨q, hps, hrem, harr, hb, hc, hqueue⟩
  have hadm : enqueueArrived s.current_time (s.processes.drop s.idx) s.idx s.ready_queue = (1, [0]) := by
    rcases hqueue with ⟨h1, h2⟩ | ⟨h1, h2⟩ <;> simp [h1, h2, hps, enqueueArrived, harr]
  have hcond : s.ready_queue ≠ [] ∨ s.idx < s.processes.length := by
    rcases hqueue with ⟨h1, h2⟩ | ⟨h1, h2⟩
    · right; simp [h1, hps]
    · left; simp [h2]
  rw [hps] at hadm hcond
  have hrun1 : 1 ≤ min quantum q.remaining_time := le_min hq (by omega)
  have hrunle : min quantum q.remaining_time ≤ q.remaining_time := min_le_right _ _
  by_cases hpos : 0 < q.remaining_time - min quantum q.remaining_time
  · refine ⟨some ⟨0, s.current_time, min quantum q.remaining_time⟩,
      { (if s.last_id ≠ q.id ∨ s.last_start = -1 then switchSegment s q.id else s) with
        processes := [{ q with remaining_time := q.remaining_time - min quantum q.remaining_time }]
        current_time := s.current_time + min quantum q.remaining_time
        idx := 1
        ready_queue := [0] }, ?_, Or.inr ⟨?_, ?_⟩⟩
    · simp only [step, RoundRobinScheduler.step, hps]
      rw [if_pos hcond]
      simp only [hadm, List.getElem?_cons_zero, List.set_cons_zero, List.drop_succ_cons,
        List.drop_nil, enqueueArrived, gt_iff_lt, hpos, List.nil_append, if_true]
    · exact ⟨_, rfl, hpos, by simp only; omega, hb, by simp only; omega, Or.inr ⟨rfl, rfl⟩⟩
    · simp only [hps, List.head?_cons, Option.map_some', Option.getD_some]
      omega
  · refine ⟨some ⟨0, s.current_time, min quantum q.remaining_time⟩,
      { (if s.last_id ≠ q.id ∨ s.last_start = -1 then switchSegment s q.id else s) with
        processes := [complete
          { q with remaining_time := q.remaining_time - min quantum q.remaining_time }
          (s.current_time + min quantum q.remaining_time)]
        current_time := s.current_time + min quantum q.remaining_time
        idx := 1
        ready_queue := [] }, ?_, Or.inl ⟨?_, ?_, ?_⟩⟩
    · simp only [step, RoundRobinScheduler.step, hps]
      rw [if_pos hcond]
      simp only [hadm, List.getElem?_cons_zero, List.set_cons_zero, List.drop_succ_cons,
        List.drop_nil, enqueueArrived, gt_iff_lt, hpos, if_false]
    · simp [step, RoundRobinScheduler.step]
    · simp only
      omega
    · exact ⟨_, rfl, hb⟩

/-- CFS on a single unfinished process that has arrived and has a weight other than
0 runs it to completion. -/
theorem cfs_single (b c : Int) :
    ∀ (s : State) (log : List Dispatch),
      (∃ q, s.processes = [q] ∧ 0 < q.remaining_time ∧ q.arrival_time ≤ s.current_time ∧
        q.burst_time = b ∧ s.current_time + q.remaining_time = c ∧ q.weight ≠ 0 ∧
        ((s.idx = 0 ∧ s.ready_queue = []) ∨ (s.idx = 1 ∧ s.ready_queue = [0]))) →
      ∃ n sf logf, iterate .cfs n (s, log) = (sf, logf) ∧
        (step .cfs sf = .halt ∧ sf.current_time = c ∧
          ∃ q, sf.processes = [q] ∧ q.burst_time = b) := by
  intro s log hP
  refine run_to_halt .cfs
    (fun s => ∃ q, s.processes = [q] ∧ 0 < q.remaining_time ∧ q.arrival_time ≤ s.current_time ∧
        q.burst_time = b ∧ s.current_time + q.remaining_time = c ∧ q.weight ≠ 0 ∧
        ((s.idx = 0 ∧ s.ready_queue = []) ∨ (s.idx = 1 ∧ s.ready_queue = [0])))
    (fun sf => step .cfs sf = .halt ∧ sf.current_time = c ∧
          ∃ q, sf.processes = [q] ∧ q.burst_time = b)
    (fun (s : State) =>
      ((s.processes.head?.map (fun p : Process => p.remaining_time)).getD 0).toNat) ?_
    _ s log hP (le_refl _)
  rintro s ⟨q, hps, hrem, harr, hb, hc, hw, hqueue⟩
  have hadm : CFSScheduler.enqueueArrived [q] s.current_time (([q] : List Process).drop s.idx) s.idx
      s.ready_queue = (1, [0]) := by
    rcases hqueue with ⟨h1, h2⟩ | ⟨h1, h2⟩ <;>
      simp [h1, h2, CFSScheduler.enqueueArrived, harr, heapPush, pushHeapLoop]
  have hcond : s.ready_queue ≠ [] ∨ s.idx < ([q] : List Process).length := by
    rcases hqueue with ⟨h1, h2⟩ | ⟨h1, h2⟩
    · right; simp [h1]
    · left; simp [h2]
  have hmin : min 1 q.remaining_time = 1 := min_eq_left (by omega)
  by_cases hpos : 0 < q.remaining_time - 1
  · refine ⟨some ⟨0, s.current_time, 1⟩,
      { noteDispatch s q.id with
        processes := [{ q with
          remaining_time := q.remaining_time - 1
          vruntime := q.vruntime + 1 * Int.tdiv 1024 q.weight }]
        current_time := s.current_time + 1
        idx := 1
        ready_queue := [0] }, ?_, Or.inr ⟨?_, ?_⟩⟩
    · simp only [step, CFSScheduler.step, hps]
      rw [if_pos hcond]
      simp only [hadm, List.getElem?_cons_zero, List.set_cons_zero, List.drop_succ_cons,
        List.drop_nil, CFSScheduler.enqueueArrived, gt_iff_lt, hpos, if_true, hw, if_false, hmin,
        heapPush, pushHeapLoop, heapPop, List.length_singleton, lt_self_iff_false,
        List.dropLast_single, List.nil_append, List.length_nil, Nat.lt_irrefl, false_and,
        List.set_cons_zero]
    · exact ⟨_, rfl, hpos, by simp only; omega, hb, by simp only; omega, hw, Or.inr ⟨rfl, rfl⟩⟩
    · simp only [hps, List.head?_cons, Option.map_some', Option.getD_some]
      omega
  · refine ⟨some ⟨0, s.current_time, 1⟩,
      { noteDispatch s q.id with
        processes := [complete { q with
          remaining_time := q.remaining_time - 1
          vruntime := q.vruntime + 1 * Int.tdiv 1024 q.weight } (s.current_time + 1)]
        current_time := s.current_time + 1
        idx := 1
        ready_queue := [] }, ?_, Or.inl ⟨?_, ?_, ?_⟩⟩
    · simp only [step, CFSScheduler.step, hps]
      rw [if_pos hcond]
      simp only [hadm, List.getElem?_cons_zero, List.set_cons_zero, List.drop_succ_cons,
        List.drop_nil, CFSScheduler.enqueueArrived, gt_iff_lt, hpos, if_false, hw, hmin,
        heapPop, List.length_singleton, lt_self_iff_false, List.dropLast_single]
    · simp [step, CFSScheduler.step]
    · simp only
      omega
    · exact ⟨_, rfl, hb⟩

/-- MFQ on a single unfinished process that has arrived runs it to completion. -/
theorem mfq_single (b c : Int) :
    ∀ (s : State) (log : List Dispatch),
      (∃ q, s.processes = [q] ∧ 0 < q.remaining_time ∧ q.arrival_time ≤ s.current_time ∧
        q.burst_time = b ∧ s.current_time + q.remaining_time = c ∧
        ((s.idx = 0 ∧ s.queues = [[], [], []]) ∨
          (s.idx = 1 ∧
            (s.queues = [[0], [], []] ∨ s.queues = [[], [0], []] ∨ s.queues = [[], [], [0]])))) →
      ∃ n sf logf, iterate .mfq n (s, log) = (sf, logf) ∧
        (step .mfq sf = .halt ∧ sf.current_time = c ∧
          ∃ q, sf.processes = [q] ∧ q.burst_time = b) := by
  intro s log hP
  refine run_to_halt .mfq
    (fun s => ∃ q, s.processes = [q] ∧ 0 < q.remaining_time ∧ q.arrival_time ≤ s.current_time ∧
        q.burst_time = b ∧ s.current_time + q.remaining_time = c ∧
        ((s.idx = 0 ∧ s.queues = [[], [], []]) ∨
          (s.idx = 1 ∧
            (s.queues = [[0], [], []] ∨ s.queues = [[], [0], []] ∨ s.queues = [[], [], [0]]))))
    (fun sf => step .mfq sf = .halt ∧ sf.current_time = c ∧
          ∃ q, sf.processes = [q] ∧ q.burst_time = b)
    (fun (s : State) =>
      ((s.processes.head?.map (fun p : Process => p.remaining_time)).getD 0).toNat) ?_
    _ s log hP (le_refl _)
  rintro s ⟨q, hps, hrem, harr, hb, hc, hqueue⟩
  obtain ⟨qs1, lvl, slice, qs4, hadm, hpop, hsl, hsl1, hpush, hqs4⟩ :
      ∃ (qs1 : List (List Nat)) (lvl : Nat) (slice : Int) (qs4 : List (List Nat)),
        MFQScheduler.enqueueArrived s.current_time (([q] : List Process).drop s.idx) s.idx s.queues
          = some (1, qs1) ∧
        popFirst qs1 = some (0, lvl, [[], [], []]) ∧
        MFQScheduler.quantum[lvl]? = some slice ∧ 1 ≤ slice ∧
        pushAt [[], [], []] (min ((lvl : Int) + 1) 2) 0 = some qs4 ∧
        (qs4 = [[0], [], []] ∨ qs4 = [[], [0], []] ∨ qs4 = [[], [], [0]]) := by
    rcases hqueue with ⟨h1, h2⟩ | ⟨h1, h2 | h2 | h2⟩
    · exact ⟨[[0], [], []], 0, 2, [[], [0], []],
        by simp [h1, h2, MFQScheduler.enqueueArrived, harr, pushAt], rfl, rfl, by decide, by decide,
        Or.inr (Or.inl rfl)⟩
    · exact ⟨[[0], [], []], 0, 2, [[], [0], []],
        by simp [h1, h2, MFQScheduler.enqueueArrived], rfl, rfl, by decide, by decide,
        Or.inr (Or.inl rfl)⟩
    · exact ⟨[[], [0], []], 1, 4, [[], [], [0]],
        by simp [h1, h2, MFQScheduler.enqueueArrived], rfl, rfl, by decide, by decide,
        Or.inr (Or.inr rfl)⟩
    · exact ⟨[[], [], [0]], 2, 8, [[], [], [0]],
        by simp [h1, h2, MFQScheduler.enqueueArrived], rfl, rfl, by decide, by decide,
        Or.inr (Or.inr rfl)⟩
  have hcond : anyWork s = true := by
    rcases hqueue with ⟨h1, h2⟩ | ⟨h1, h2 | h2 | h2⟩ <;> simp [anyWork, h1, h2, hps]
  have hrun1 : 1 ≤ min slice q.remaining_time := le_min hsl1 (by omega)
  have hrunle : min slice q.remaining_time ≤ q.remaining_time := min_le_right _ _
  by_cases hpos : 0 < q.remaining_time - min slice q.remaining_time
  · refine ⟨some ⟨0, s.current_time, min slice q.remaining_time⟩,
      { noteDispatch s q.id with
        processes := [{ q with remaining_time := q.remaining_time - min slice q.remaining_time }]
        current_time := s.current_time + min slice q.remaining_time
        idx := 1
        queues := qs4 }, ?_, Or.inr ⟨?_, ?_⟩⟩
    · simp only [step, MFQScheduler.step]
      rw [if_pos hcond]
      simp only [hps, hadm, hpop, List.getElem?_cons_zero, hsl, List.set_cons_zero,
        List.drop_succ_cons, List.drop_nil, MFQScheduler.enqueueArrived, gt_iff_lt, hpos, if_true, hpush]
    · exact ⟨_, rfl, hpos, by simp only; omega, hb, by simp only; omega, Or.inr ⟨rfl, hqs4⟩⟩
    · simp only [hps, List.head?_cons, Option.map_some', Option.getD_some]
      omega
  · refine ⟨some ⟨0, s.current_time, min slice q.remaining_time⟩,
      { noteDispatch s q.id with
        processes := [complete
          { q with remaining_time := q.remaining_time - min slice q.remaining_time }
          (s.current_time + min slice q.remaining_time)]
        current_time := s.current_time + min slice q.remaining_time
        idx := 1
        queues := [[], [], []] }, ?_, Or.inl ⟨?_, ?_, ?_⟩⟩
    · simp only [step, MFQScheduler.step]
      rw [if_pos hcond]
      simp only [hps, hadm, hpop, List.getElem?_cons_zero, hsl, List.set_cons_zero,
        List.drop_succ_cons, List.drop_nil, MFQScheduler.enqueueArrived, gt_iff_lt, hpos, if_false]
    · simp [step, MFQScheduler.step, anyWork]
    · simp only
      omega
    · exact ⟨_, rfl, hb⟩

/-- For a priority that is not negative the MLQ level is 0, 1 or 2. -/
theorem mlq_level_cases {priority : Int} (h : 0 ≤ priority) :
    MultilevelQueueScheduler.level priority = 0 ∨ MultilevelQueueScheduler.level priority = 1 ∨
      MultilevelQueueScheduler.level priority = 2 := by
  unfold MultilevelQueueScheduler.level
  rcases lt_or_ge 0 priority with hp | hp
  · rw [Int.tdiv_eq_ediv (by omega) (by decide)]
    omega
  · have : priority = 0 := by omega
    subst this
    left
    decide

/-- MLQ on a single unfinished process that has arrived and whose priority is not
negative runs it to completion. -/
theorem mlq_single (b c : Int) :
    ∀ (s : State) (log : List Dispatch),
      (∃ q, s.processes = [q] ∧ 0 < q.remaining_time ∧ q.arrival_time ≤ s.current_time ∧
        q.burst_time = b ∧ s.current_time + q.remaining_time = c ∧ 0 ≤ q.priority ∧
        ((s.idx = 0 ∧ s.queues = [[], [], []]) ∨
          (s.idx = 1 ∧
            pushAt [[], [], []] (MultilevelQueueScheduler.level q.priority) 0 = some s.queues))) →
      ∃ n sf logf, iterate .mlq n (s, log) = (sf, logf) ∧
        (step .mlq sf = .halt ∧ sf.current_time = c ∧
          ∃ q, sf.processes = [q] ∧ q.burst_time = b) := by
  intro s log hP
  refine run_to_halt .mlq
    (fun s => ∃ q, s.processes = [q] ∧ 0 < q.remaining_time ∧ q.arrival_time ≤ s.current_time ∧
        q.burst_time = b ∧ s.current_time + q.remaining_time = c ∧ 0 ≤ q.priority ∧
        ((s.idx = 0 ∧ s.queues = [[], [], []]) ∨
          (s.idx = 1 ∧
            pushAt [[], [], []] (MultilevelQueueScheduler.level q.priority) 0 = some s.queues)))
    (fun sf => step .mlq sf = .halt ∧ sf.current_time = c ∧
          ∃ q, sf.processes = [q] ∧ q.burst_time = b)
    (fun (s : State) =>
      ((s.processes.head?.map (fun p : Process => p.remaining_time)).getD 0).toNat) ?_
    _ s log hP (le_refl _)
  rintro s ⟨q, hps, hrem, harr, hb, hc, hprio, hqueue⟩
  obtain ⟨qs1, lvl, hpush, hpop⟩ :
      ∃ (qs1 : List (List Nat)) (lvl : Nat),
        pushAt [[], [], []] (MultilevelQueueScheduler.level q.priority) 0 = some qs1 ∧
        popFirst qs1 = some (0, lvl, [[], [], []]) := by
    rcases mlq_level_cases hprio with h | h | h
    · exact ⟨[[0], [], []], 0, by rw [h]; decide, rfl⟩
    · exact ⟨[[], [0], []], 1, by rw [h]; decide, rfl⟩
    · exact ⟨[[], [], [0]], 2, by rw [h]; decide, rfl⟩
  have hadm : MultilevelQueueScheduler.enqueueArrived s.current_time (([q] : List Process).drop s.idx)
      s.idx s.queues = some (1, qs1) := by
    rcases hqueue with ⟨h1, h2⟩ | ⟨h1, h2⟩
    · simp [h1, h2, MultilevelQueueScheduler.enqueueArrived, harr, hpush]
    · rw [hpush] at h2
      simp only [Option.some.injEq] at h2
      simp [h1, h2, MultilevelQueueScheduler.enqueueArrived]
  have hcond : anyWork s = true := by
    rcases hqueue with ⟨h1, h2⟩ | ⟨h1, h2⟩
    · simp [anyWork, h1, hps]
    · rw [hpush] at h2
      simp only [Option.some.injEq] at h2
      obtain ⟨hm, -⟩ := popFirst_spec hpop
      have hin : inQueues s.queues 0 := by rw [← h2]; exact (hm 0).mpr (Or.inl rfl)
      obtain ⟨qq, hqq, h0⟩ := hin
      simp only [anyWork, Bool.or_eq_true, decide_eq_true_eq, List.any_eq_true,
        Bool.not_eq_true', List.isEmpty_eq_false]
      right
      refine ⟨qq, hqq, ?_⟩
      cases qq with
      | nil => cases h0
      | cons a r => simp
  have hrun1 : 1 ≤ min 2 q.remaining_time := le_min (by decide) (by omega)
  have hrunle : min 2 q.remaining_time ≤ q.remaining_time := min_le_right _ _
  by_cases hpos : 0 < q.remaining_time - min 2 q.remaining_time
  · refine ⟨some ⟨0, s.current_time, min 2 q.remaining_time⟩,
      { noteDispatch s q.id with
        processes := [{ q with remaining_time := q.remaining_time - min 2 q.remaining_time }]
        current_time := s.current_time + min 2 q.remaining_time
        idx := 1
        queues := qs1 }, ?_, Or.inr ⟨?_, ?_⟩⟩
    · simp only [step, MultilevelQueueScheduler.step]
      rw [if_pos hcond]
      simp only [hps, hadm, hpop, List.getElem?_cons_zero, List.set_cons_zero,
        List.drop_succ_cons, List.drop_nil, MultilevelQueueScheduler.enqueueArrived, gt_iff_lt, hpos,
        if_true, hpush]
    · exact ⟨_, rfl, hpos, by simp only; omega, hb, by simp only; omega, hprio,
        Or.inr ⟨rfl, hpush⟩⟩
    · simp only [hps, List.head?_cons, Option.map_some', Option.getD_some]
      omega
  · refine ⟨some ⟨0, s.current_time, min 2 q.remaining_time⟩,
      { noteDispatch s q.id with
        processes := [complete
          { q with remaining_time := q.remaining_time - min 2 q.remaining_time }
          (s.current_time + min 2 q.remaining_time)]
        current_time := s.current_time + min 2 q.remaining_time
        idx := 1
        queues := [[], [], []] }, ?_, Or.inl ⟨?_, ?_, ?_⟩⟩
    · simp only [step, MultilevelQueueScheduler.step]
      rw [if_pos hcond]
      simp only [hps, hadm, hpop, List.getElem?_cons_zero, List.set_cons_zero,
        List.drop_succ_cons, List.drop_nil, MultilevelQueueScheduler.enqueueArrived, gt_iff_lt, hpos,
        if_false]
    · simp [step, MultilevelQueueScheduler.step, anyWork]
    · simp only
      omega
    · exact ⟨_, rfl, hb⟩

/-- Claim C9, as amended: for each of the ten policies and every workload that
consists of a single process with `arrival_time = 0` and `burst_time > 0` that the
policy can pick (`Policy.canPick`), `schedule` returns with `total_time = burst_time`,
and `calculateMetrics`, applied to the process and the total time that `schedule`
produced, reports a CPU utilization of exactly 100. -/
theorem single_process_utilization (pol : Policy) (p : Process)
    (ha : p.arrival_time = 0) (hb : 0 < p.burst_time) (hok : pol.canPick p) :
    ∃ fuel r, schedule pol fuel [p] = some r ∧ r.total_time = p.burst_time ∧
      (calculateMetrics r.processes r.total_time).cpu_util = .finite 100 := by
  have key : ∃ n sf logf, iterate pol n (init pol [p], []) = (sf, logf) ∧
      (step pol sf = .halt ∧ sf.current_time = p.burst_time ∧
        ∃ q, sf.processes = [q] ∧ q.burst_time = p.burst_time) := by
    cases pol with
    | fcfs => exact fcfs_single p ha
    | sjf => exact sjf_single p ha hok
    | srtf =>
      refine unit_single .srtf (·.remaining_time) (fun _ _ => false)
        (fun _ => rfl) _ _ _ []
        ⟨rfl, { p with remaining_time := p.burst_time }, rfl, hb, by simp [init, ha], rfl,
          by simp [init], ?_⟩
      intro r _ hr
      have : p.burst_time < INT32_MAX := hok
      simp only at hr ⊢
      omega
    | rr quantum =>
      exact rr_single hok _ _ _ []
        ⟨{ p with remaining_time := p.burst_time }, rfl, hb, by simp [init, ha], rfl,
          by simp [init], Or.inl ⟨rfl, rfl⟩⟩
    | priority aging_interval => exact priority_single aging_interval p ha hok
    | priorityPreemptive =>
      exact unit_single .priorityPreemptive (·.priority) (fun _ _ => false)
        (fun _ => rfl) _ _ _ []
        ⟨rfl, { p with remaining_time := p.burst_time }, rfl, hb, by simp [init, ha], rfl,
          by simp [init], fun _ _ _ => hok⟩
    | mlq =>
      exact mlq_single _ _ _ []
        ⟨{ p with remaining_time := p.burst_time }, rfl, hb, by simp [init, ha], rfl,
          by simp [init], hok, Or.inl ⟨rfl, rfl⟩⟩
    | mfq =>
      exact mfq_single _ _ _ []
        ⟨{ p with remaining_time := p.burst_time, priority := 0 }, rfl, hb, by simp [init, ha],
          rfl, by simp [init], Or.inl ⟨rfl, rfl⟩⟩
    | cfs =>
      exact cfs_single _ _ _ []
        ⟨{ p with remaining_time := p.burst_time, vruntime := 0 }, rfl, hb, by simp [init, ha],
          rfl, by simp [init], hok, Or.inl ⟨rfl, rfl⟩⟩
    | edf =>
      exact unit_single .edf (·.deadline) (fun p now => decide (now > p.deadline))
        (fun _ => rfl) _ _ _ []
        ⟨rfl, { p with
            remaining_time := p.burst_time
            deadline := if p.deadline = 0 then p.arrival_time + p.burst_time * 2
                        else p.deadline },
          rfl, hb, by simp [init, ha], rfl, by simp [init], fun _ _ _ => hok⟩
  obtain ⟨n, sf, logf, hiter, hhalt, hct, q, hq, hqb⟩ := key
  refine ⟨n, _, schedule_of_iterate hiter hhalt, hct, ?_⟩
  simp only [finish, hq]
  exact cpu_util_single (by omega) (by rw [hct, hqb])

/-- Claim C9, as amended, under SRTF for the process P1 of the built-in workload,
which arrives at 0 and needs 8 units. -/
theorem single_process_utilization_witness :
    firstProcess.arrival_time = 0 ∧ 0 < firstProcess.burst_time ∧
    Policy.canPick .srtf firstProcess ∧
    ∃ fuel r, schedule .srtf fuel [firstProcess] = some r ∧
      r.total_time = firstProcess.burst_time ∧
      (calculateMetrics r.processes r.total_time).cpu_util = .finite 100 :=
  ⟨rfl, by decide, by show firstProcess.burst_time < INT32_MAX; decide,
    single_process_utilization .srtf firstProcess rfl (by decide)
      (by show firstProcess.burst_time < INT32_MAX; decide)⟩

/-- Claim C9 as stated fails: for the single process P1(arrival 5, burst 5),
`FCFSScheduler::schedule` reports the total time 10, which includes the idle time
before the arrival, and `calculateMetrics` reports a CPU utilization of 50, not 100. -/
theorem single_process_utilization_as_stated_fails :
    ∃ r, schedule .fcfs 1 lateWorkload = some r ∧ r.total_time = 10 ∧
      (calculateMetrics r.processes r.total_time).cpu_util = .finite 50 ∧
      (calculateMetrics r.processes r.total_time).cpu_util ≠ .finite 100 := by
  have h : schedule .fcfs 1 lateWorkload = some
      { processes := [{ lateProcess with turnaround_time := 5 }]
        gantt := [("P1", 5)]
        total_time := 10
        dispatches := [⟨0, 5, 5⟩]
        missed_deadlines := 0 } := by decide
  refine ⟨_, h, rfl, ?_, ?_⟩ <;> decide!

/-! ## The metrics -/

theorem foldl_add_eq_sum {α : Type} [AddCommMonoid α] (f : Process → α) :
    ∀ (ps : List Process) (a : α),
      ps.foldl (fun acc p => acc + f p) a = a + (ps.map f).sum := by
  intro ps
  induction ps with
  | nil => intro a; simp
  | cons p rest ih => intro a; simp [ih, add_assoc]

/-! ### The arithmetic of `double` -/

theorem bitLength_zero (fuel : Nat) : bitLength fuel 0 = 0 := by
  cases fuel <;> simp [bitLength]

theorem bitLength_spec : ∀ (fuel n : Nat), n ≤ fuel → n ≠ 0 →
    2 ^ bitLength fuel n ≤ 2 * n ∧ n < 2 ^ bitLength fuel n := by
  intro fuel
  induction fuel with
  | zero => intro n h hn; omega
  | succ fuel ih =>
    intro n h hn
    simp only [bitLength, if_neg hn]
    by_cases h2 : n / 2 = 0
    · rw [h2, bitLength_zero]
      have : n = 1 := by omega
      subst this
      simp
    · have := ih (n / 2) (by omega) h2
      rw [pow_succ]
      constructor <;> omega

theorem exponent_spec (a : ℚ) (ha : 0 < a) :
    (2 : ℚ) ^ Double.exponent a ≤ a ∧ a < (2 : ℚ) ^ (Double.exponent a + 1) := by
  have hnum : 0 < a.num := Rat.num_pos.mpr ha
  have hN : a.num.natAbs ≠ 0 := by omega
  have hD : a.den ≠ 0 := a.den_nz
  unfold Double.exponent
  simp only
  obtain ⟨hN1, hN2⟩ := bitLength_spec _ _ (le_refl a.num.natAbs) hN
  obtain ⟨hD1, hD2⟩ := bitLength_spec _ _ (le_refl a.den) hD
  generalize bitLength a.num.natAbs a.num.natAbs = lN at hN1 hN2 ⊢
  generalize bitLength a.den a.den = lD at hD1 hD2 ⊢
  have hNq : ((a.num.natAbs : Nat) : ℚ) = a.num := by
    have h : ((a.num.natAbs : Nat) : Int) = a.num := Int.natAbs_of_nonneg hnum.le
    have h2 : (((a.num.natAbs : Nat) : Int) : ℚ) = (a.num : ℚ) := congrArg _ h
    rw [← h2, Int.cast_natCast]
  have hN1q : (2 : ℚ) ^ lN ≤ 2 * (a.num.natAbs : ℚ) := by exact_mod_cast hN1
  have hN2q : (a.num.natAbs : ℚ) < (2 : ℚ) ^ lN := by exact_mod_cast hN2
  have hD1q : (2 : ℚ) ^ lD ≤ 2 * (a.den : ℚ) := by exact_mod_cast hD1
  have hD2q : (a.den : ℚ) < (2 : ℚ) ^ lD := by exact_mod_cast hD2
  have hDpos : (0 : ℚ) < (a.den : ℚ) := by exact_mod_cast Nat.pos_of_ne_zero hD
  have hNpos : (0 : ℚ) < (a.num.natAbs : ℚ) := by exact_mod_cast Nat.pos_of_ne_zero hN
  have hpD : (0 : ℚ) < (2 : ℚ) ^ lD := by positivity
  have hpN : (0 : ℚ) < (2 : ℚ) ^ lN := by positivity
  have he0 : (2 : ℚ) ^ ((lN : Int) - (lD : Int)) = (2 : ℚ) ^ lN / (2 : ℚ) ^ lD := by
    rw [zpow_sub₀ (by norm_num : (2 : ℚ) ≠ 0), zpow_natCast, zpow_natCast]
  have hmul : a * (a.den : ℚ) = (a.num.natAbs : ℚ) := by
    rw [hNq]; exact Rat.mul_den_eq_num a
  split
  · rename_i hle
    refine ⟨hle, ?_⟩
    rw [zpow_add_one₀ (by norm_num : (2 : ℚ) ≠ 0), he0]
    rw [div_mul_eq_mul_div, lt_div_iff₀ hpD]
    nlinarith
  · rename_i hlt
    rw [not_le, he0] at hlt
    rw [sub_add_cancel, he0]
    refine ⟨?_, hlt⟩
    rw [zpow_sub_one₀ (by norm_num : (2 : ℚ) ≠ 0), he0]
    rw [div_mul_eq_mul_div, div_le_iff₀ hpD]
    nlinarith

theorem roundHalfEven_intCast (z : Int) : roundHalfEven (z : ℚ) = z := by
  simp [roundHalfEven]

theorem roundHalfEven_err (x : ℚ) : |(roundHalfEven x : ℚ) - x| ≤ 1 / 2 := by
  have h1 := Int.floor_le x
  have h2 := Int.lt_floor_add_one x
  unfold roundHalfEven
  simp only
  rw [abs_le]
  split_ifs <;> push_cast <;> constructor <;> linarith

theorem exponent_lt_of_lt (a : ℚ) (ha : 0 < a) (k : Int) (h : a < (2 : ℚ) ^ k) :
    Double.exponent a < k := by
  by_contra hc
  rw [not_lt] at hc
  have h1 := (exponent_spec a ha).1
  have h2 : (2 : ℚ) ^ k ≤ (2 : ℚ) ^ Double.exponent a :=
    zpow_le_zpow_right₀ (by norm_num) hc
  linarith

theorem exponent_ge_of_le (a : ℚ) (ha : 0 < a) (k : Int) (h : (2 : ℚ) ^ k ≤ a) :
    k ≤ Double.exponent a := by
  by_contra hc
  rw [not_le] at hc
  have h1 := (exponent_spec a ha).2
  have h2 : (2 : ℚ) ^ (Double.exponent a + 1) ≤ (2 : ℚ) ^ k :=
    zpow_le_zpow_right₀ (by norm_num) (by omega)
  linarith

theorem ofRat_intCast_of_lt (z : Int) (h : |z| < 2 ^ 53) :
    Double.ofRat (z : ℚ) = .finite (z : ℚ) := by
  by_cases hz : z = 0
  · subst hz; simp [Double.ofRat]
  have hzq : (z : ℚ) ≠ 0 := by exact_mod_cast hz
  have ha : 0 < |(z : ℚ)| := abs_pos.mpr hzq
  have habs : |(z : ℚ)| < (2 : ℚ) ^ (53 : Int) := by
    have : ((|z| : Int) : ℚ) < ((2 ^ 53 : Int) : ℚ) := by exact_mod_cast h
    rw [Int.cast_abs] at this
    have h53 : ((2 : ℚ) ^ (53 : Int)) = ((2 ^ 53 : Int) : ℚ) := by norm_num
    rw [h53]; exact this
  have he := exponent_lt_of_lt _ ha 53 habs
  unfold Double.ofRat
  rw [if_neg hzq]
  simp only
  generalize Double.exponent |(z : ℚ)| = e at he
  have hu : max (e - 52) (-1074) ≤ 0 := by omega
  obtain ⟨k, hk⟩ := Int.exists_eq_neg_ofNat hu
  rw [hk]
  have hpow : (2 : ℚ) ^ (-(k : Int)) = ((2 : ℚ) ^ k)⁻¹ := by
    rw [zpow_neg, zpow_natCast]
  have hpos : (0 : ℚ) < (2 : ℚ) ^ k := by positivity
  have hq : (z : ℚ) / (2 : ℚ) ^ (-(k : Int)) = ((z * 2 ^ k : Int) : ℚ) := by
    rw [hpow]; push_cast; field_simp
  rw [hq, roundHalfEven_intCast, hpow]
  have hr : ((z * 2 ^ k : Int) : ℚ) * ((2 : ℚ) ^ k)⁻¹ = (z : ℚ) := by
    push_cast; field_simp
  rw [hr, if_neg]
  rw [not_le]
  calc |(z : ℚ)| < (2 : ℚ) ^ (53 : Int) := habs
    _ ≤ (2 : ℚ) ^ (1024 : Int) := zpow_le_zpow_right₀ (by norm_num) (by norm_num)

/-- Every integer of absolute value at most `2 ^ 53` is a `double`. -/
theorem ofRat_intCast (z : Int) (h : |z| ≤ 2 ^ 53) :
    Double.ofRat (z : ℚ) = .finite (z : ℚ) := by
  rcases lt_or_eq_of_le h with h1 | h1
  · exact ofRat_intCast_of_lt z h1
  · have : z = 2 ^ 53 ∨ z = -2 ^ 53 := by
      rcases abs_cases z with ⟨h2, _⟩ | ⟨h2, _⟩ <;> omega
    rcases this with rfl | rfl <;> decide!

/-- The rounding error of `Double.ofRat` in the range of the normal numbers. -/
theorem ofRat_err (q : ℚ) (h1 : (2 : ℚ) ^ (-1022 : Int) ≤ |q|)
    (h2 : |q| < (2 : ℚ) ^ (1023 : Int)) :
    ∃ r, Double.ofRat q = .finite r ∧ |r - q| ≤ |q| / 2 ^ 53 := by
  have ha : 0 < |q| := lt_of_lt_of_le (by positivity) h1
  have hq : q ≠ 0 := abs_pos.mp ha
  have hlo := exponent_ge_of_le _ ha _ h1
  have hhi := exponent_lt_of_lt _ ha _ h2
  obtain ⟨hs1, hs2⟩ := exponent_spec _ ha
  unfold Double.ofRat
  rw [if_neg hq]
  simp only
  generalize Double.exponent |q| = e at hlo hhi hs1 hs2
  have hu : max (e - 52) (-1074) = e - 52 := by omega
  rw [hu]
  have hpos : (0 : ℚ) < (2 : ℚ) ^ (e - 52) := by positivity
  have herr := roundHalfEven_err (q / (2 : ℚ) ^ (e - 52))
  generalize roundHalfEven (q / (2 : ℚ) ^ (e - 52)) = m at herr
  have hsplit : (2 : ℚ) ^ e = (2 : ℚ) ^ (e - 52) * 2 ^ 52 := by
    rw [zpow_sub₀ (by norm_num : (2 : ℚ) ≠ 0)]
    norm_num
  have hdiff : |(m : ℚ) * (2 : ℚ) ^ (e - 52) - q| ≤ |q| / 2 ^ 53 := by
    have : (m : ℚ) * (2 : ℚ) ^ (e - 52) - q
        = ((m : ℚ) - q / (2 : ℚ) ^ (e - 52)) * (2 : ℚ) ^ (e - 52) := by
      field_simp
    rw [this, abs_mul, abs_of_pos hpos]
    have h3 : |(m : ℚ) - q / (2 : ℚ) ^ (e - 52)| * (2 : ℚ) ^ (e - 52)
        ≤ 1 / 2 * (2 : ℚ) ^ (e - 52) := by nlinarith
    rw [le_div_iff₀ (by positivity)]
    rw [hsplit] at hs1
    nlinarith
  refine ⟨_, ?_, hdiff⟩
  rw [if_neg]
  rw [not_le]
  have h4 : |(m : ℚ) * (2 : ℚ) ^ (e - 52)| ≤ |q| + |q| / 2 ^ 53 := by
    have := abs_sub_abs_le_abs_sub ((m : ℚ) * (2 : ℚ) ^ (e - 52)) q
    linarith
  have h5 : (2 : ℚ) ^ (1024 : Int) = (2 : ℚ) ^ (1023 : Int) * 2 := by
    rw [show (1024 : Int) = 1023 + 1 by norm_num, zpow_add_one₀ (by norm_num : (2 : ℚ) ≠ 0)]
  rw [h5]
  have h6 : |q| / 2 ^ 53 ≤ |q| := by
    rw [div_le_iff₀ (by positivity)]
    nlinarith
  linarith

theorem abs_le_of_fitsInt32 {x : Int} (h : fitsInt32 x = true) : |x| ≤ 2147483648 := by
  unfold fitsInt32 INT32_MIN INT32_MAX at h
  simp only [Bool.and_eq_true, decide_eq_true_eq] at h
  rw [abs_le]
  omega

/-- The accumulation `avg += f(p)` of `calculateMetrics` is exact as long as at most
`2 ^ 22` values of a 32-bit `int` are added: every partial sum is a `double`. -/
theorem foldl_add_exact (f : Process → Int) :
    ∀ (ps : List Process) (s : Int) (k : Nat), |s| ≤ (k : Int) * 2147483648 →
      k + ps.length ≤ 4194304 → (∀ p ∈ ps, fitsInt32 (f p) = true) →
      ps.foldl (fun acc p => Double.add acc (Double.ofInt (f p))) (.finite (s : ℚ))
          = .finite ((s + (ps.map f).sum : Int) : ℚ) ∧
        |s + (ps.map f).sum| ≤ ((k + ps.length : Nat) : Int) * 2147483648 := by
  intro ps
  induction ps with
  | nil => intro s k hs _ _; simpa using hs
  | cons p rest ih =>
    intro s k hs hk hf
    have hp := abs_le_of_fitsInt32 (hf p (List.mem_cons_self _ _))
    have hsum : |s + f p| ≤ ((k + 1 : Nat) : Int) * 2147483648 := by
      have := abs_add s (f p)
      push_cast
      linarith
    have hk1 : k + 1 + rest.length ≤ 4194304 := by
      simp only [List.length_cons] at hk; omega
    have hex : Double.ofRat ((s : ℚ) + (f p : ℚ)) = .finite ((s + f p : Int) : ℚ) := by
      rw [← Int.cast_add]
      apply ofRat_intCast
      have h53 : ((2 : Int) ^ 53) = 9007199254740992 := by norm_num
      rw [h53]
      have : ((k + 1 : Nat) : Int) * 2147483648 ≤ 9007199254740992 := by omega
      exact le_trans hsum this
    obtain ⟨ih1, ih2⟩ := ih (s + f p) (k + 1) hsum hk1
      (fun q hq => hf q (List.mem_cons_of_mem _ hq))
    have hstep : Double.add (.finite (s : ℚ)) (Double.ofInt (f p))
        = .finite ((s + f p : Int) : ℚ) := by
      simp only [Double.add, Double.ofInt]
      exact hex
    rw [List.foldl_cons, hstep, ih1]
    simp only [List.map_cons, List.sum_cons, List.length_cons]
    refine ⟨by rw [add_assoc], ?_⟩
    rw [← add_assoc]
    have : k + (rest.length + 1) = k + 1 + rest.length := by omega
    rw [this]
    exact ih2

theorem metricsFitInt32_spec : ∀ (ps : List Process) (sum : Int),
    metricsFitInt32 sum ps = true →
      (∀ p ∈ ps, fitsInt32 p.waiting_time = true ∧ fitsInt32 p.turnaround_time = true) ∧
        (ps ≠ [] → fitsInt32 (sum + (ps.map (·.burst_time)).sum) = true) := by
  intro ps
  induction ps with
  | nil => intro sum _; simp
  | cons p rest ih =>
    intro sum h
    simp only [metricsFitInt32, Bool.and_eq_true] at h
    obtain ⟨⟨⟨⟨hw, htn⟩, _⟩, hs⟩, hrest⟩ := h
    obtain ⟨ih1, ih2⟩ := ih _ hrest
    refine ⟨?_, fun _ => ?_⟩
    · intro q hq
      rcases List.mem_cons.mp hq with rfl | hq
      · exact ⟨hw, htn⟩
      · exact ih1 q hq
    · by_cases hr : rest = []
      · subst hr; simpa using hs
      · have := ih2 hr
        simpa [add_assoc] using this

/-- The rounding error of a quotient of two integers that are `double` values. -/
theorem ofRat_div_err (x y : Int) (hx : |x| ≤ 2 ^ 53) (hy0 : 0 < y) (hy : y ≤ 2 ^ 53) :
    ∃ r, Double.ofRat ((x : ℚ) / (y : ℚ)) = .finite r ∧
      |r - (x : ℚ) / (y : ℚ)| ≤ |(x : ℚ) / (y : ℚ)| / 2 ^ 53 := by
  by_cases hx0 : x = 0
  · subst hx0
    exact ⟨0, by simp [Double.ofRat], by simp⟩
  have hyq : (0 : ℚ) < (y : ℚ) := by exact_mod_cast hy0
  have hyq2 : (y : ℚ) ≤ 2 ^ 53 := by exact_mod_cast hy
  have hxq1 : (1 : ℚ) ≤ |(x : ℚ)| := by
    have : (1 : Int) ≤ |x| := Int.one_le_abs hx0
    exact_mod_cast this
  have hxq2 : |(x : ℚ)| ≤ 2 ^ 53 := by exact_mod_cast hx
  have hy1 : (1 : ℚ) ≤ (y : ℚ) := by exact_mod_cast hy0
  have habs : |(x : ℚ) / (y : ℚ)| = |(x : ℚ)| / (y : ℚ) := by
    rw [abs_div, abs_of_pos hyq]
  apply ofRat_err
  · rw [habs, le_div_iff₀ hyq]
    have h1 : (2 : ℚ) ^ (-1022 : Int) ≤ 1 / 2 ^ 53 := by
      rw [zpow_neg]; norm_num
    have h2 : (0 : ℚ) ≤ (2 : ℚ) ^ (-1022 : Int) := by positivity
    calc (2 : ℚ) ^ (-1022 : Int) * (y : ℚ) ≤ 1 / 2 ^ 53 * (y : ℚ) :=
          mul_le_mul_of_nonneg_right h1 hyq.le
      _ ≤ 1 / 2 ^ 53 * 2 ^ 53 := mul_le_mul_of_nonneg_left hyq2 (by positivity)
      _ = 1 := by norm_num
      _ ≤ |(x : ℚ)| := hxq1
  · rw [habs, div_lt_iff₀ hyq]
    have h3 : ((2 : ℚ) ^ 53) < (2 : ℚ) ^ (1023 : Int) := by norm_num
    have h4 : (0 : ℚ) < (2 : ℚ) ^ (1023 : Int) := by positivity
    nlinarith

/-- The rounding error of `(double)x / y * 100` for 32-bit values `x` and `y > 0`. -/
theorem cpu_util_err (x y : Int) (hx : |x| ≤ 2147483648) (hy0 : 0 < y)
    (hy : y ≤ 2147483648) :
    ∃ c, Double.mul (Double.ofRat ((x : ℚ) / (y : ℚ))) (.finite 100) = .finite c ∧
      |c - (x : ℚ) / (y : ℚ) * 100| ≤ |(x : ℚ) / (y : ℚ) * 100| / 2 ^ 51 := by
  obtain ⟨r, hr, herr⟩ := ofRat_div_err x y (by omega) hy0 (by omega)
  rw [hr]
  simp only [Double.mul]
  by_cases hx0 : x = 0
  · subst hx0
    simp only [Int.cast_zero, zero_div, sub_zero, abs_zero] at herr ⊢
    have hr0 : r = 0 := by
      have := abs_nonneg r
      have h0 : |r| = 0 := by
        have : |r| ≤ 0 := by simpa using herr
        linarith [abs_nonneg r]
      exact abs_eq_zero.mp h0
    subst hr0
    exact ⟨0, by simp [Double.ofRat], by simp⟩
  have hyq : (0 : ℚ) < (y : ℚ) := by exact_mod_cast hy0
  have hyq2 : (y : ℚ) ≤ 2147483648 := by exact_mod_cast hy
  have hxq1 : (1 : ℚ) ≤ |(x : ℚ)| := by
    have : (1 : Int) ≤ |x| := Int.one_le_abs hx0
    exact_mod_cast this
  have hxq2 : |(x : ℚ)| ≤ 2147483648 := by exact_mod_cast hx
  have hy1 : (1 : ℚ) ≤ (y : ℚ) := by exact_mod_cast hy0
  generalize hq : (x : ℚ) / (y : ℚ) = q at herr ⊢
  have habs : |q| = |(x : ℚ)| / (y : ℚ) := by
    rw [← hq, abs_div, abs_of_pos hyq]
  have hq1 : 1 / 2147483648 ≤ |q| := by
    rw [habs, le_div_iff₀ hyq]; linarith
  have hq2 : |q| ≤ 2147483648 := by
    rw [habs, div_le_iff₀ hyq]; nlinarith
  have hr1 : |q| / 2 ≤ |r| := by
    have := abs_sub_abs_le_abs_sub q r
    rw [abs_sub_comm q r] at this
    have h53 : |q| / 2 ^ 53 ≤ |q| / 2 := by
      apply div_le_div_of_nonneg_left (abs_nonneg q) (by norm_num) (by norm_num)
    linarith
  have hr2 : |r| ≤ 2 * |q| := by
    have := abs_sub_abs_le_abs_sub r q
    have h53 : |q| / 2 ^ 53 ≤ |q| := by
      rw [div_le_iff₀ (by positivity)]
      nlinarith [abs_nonneg q]
    linarith
  have hr100 : |r * 100| = |r| * 100 := by
    rw [abs_mul]; norm_num
  obtain ⟨c, hc, hcerr⟩ := ofRat_err (r * 100)
    (by
      rw [hr100]
      have h1 : (2 : ℚ) ^ (-1022 : Int) ≤ 1 / 2147483648 := by
        rw [zpow_neg]; norm_num
      generalize (2 : ℚ) ^ (-1022 : Int) = t at h1 ⊢
      linarith)
    (by
      rw [hr100]
      have h3 : (2147483648 * 200 : ℚ) < (2 : ℚ) ^ (1023 : Int) := by norm_num
      generalize (2 : ℚ) ^ (1023 : Int) = t at h3 ⊢
      linarith)
  refine ⟨c, hc, ?_⟩
  have hq100 : |q * 100| = |q| * 100 := by
    rw [abs_mul]; norm_num
  rw [hr100] at hcerr
  rw [hq100]
  have htri : |c - q * 100| ≤ |c - r * 100| + |r - q| * 100 := by
    have h := abs_add (c - r * 100) ((r - q) * 100)
    have e1 : c - r * 100 + (r - q) * 100 = c - q * 100 := by ring
    have e2 : |(r - q) * 100| = |r - q| * 100 := by rw [abs_mul]; norm_num
    rw [e1, e2] at h
    exact h
  have hfin : |c - r * 100| + |r - q| * 100 ≤ |q| * 100 / 2 ^ 51 := by
    have a1 : |c - r * 100| ≤ 2 * |q| * 100 / 2 ^ 53 := by
      refine le_trans hcerr ?_
      apply div_le_div_of_nonneg_right _ (by positivity)
      nlinarith
    have a2 : |r - q| * 100 ≤ |q| / 2 ^ 53 * 100 := by nlinarith
    have a3 : 2 * |q| * 100 / 2 ^ 53 + |q| / 2 ^ 53 * 100 ≤ |q| * 100 / 2 ^ 51 := by
      have := abs_nonneg q
      rw [div_add' _ _ _ (by positivity), div_le_div_iff₀ (by positivity) (by positivity)]
      ring_nf
      nlinarith
    linarith
  linarith

/-- C12 as stated fails: for the single process P1(arrival 18, burst 7)
`FCFSScheduler::schedule` reports the total time 25; the exact CPU utilization
`7 / 25 * 100` is 28 and the exact throughput is `1 / 25`, but `calculateMetrics`
computes in `double`: the quotient `7 / 25` is rounded, its product with 100 is rounded
again, and the CPU utilization that it returns is `28 + 2 ^ (-48)`
(28.000000000000004); the throughput that it returns is the `double` nearest to
`1 / 25`, which is not `1 / 25`. -/
theorem calculateMetrics_formulas_as_stated_fails :
    ∃ r, schedule .fcfs 1 roundingWorkload = some r ∧ r.processes ≠ [] ∧
      r.total_time = 25 ∧ (r.processes.map (·.burst_time)).sum = 7 ∧
      r.processes.length = 1 ∧
      (((r.processes.map (·.burst_time)).sum : Int) : ℚ) / (r.total_time : ℚ) * 100 = 28 ∧
      (calculateMetrics r.processes r.total_time).cpu_util = .finite (28 + 1 / 2 ^ 48) ∧
      (calculateMetrics r.processes r.total_time).cpu_util ≠ .finite 28 ∧
      (calculateMetrics r.processes r.total_time).throughput
        = .finite (5764607523034235 / 2 ^ 57) ∧
      (calculateMetrics r.processes r.total_time).throughput ≠ .finite (1 / 25) := by
  have h : schedule .fcfs 1 roundingWorkload = some
      { processes := [{ roundingProcess with turnaround_time := 7 }]
        gantt := [("P1", 7)]
        total_time := 25
        dispatches := [⟨0, 18, 7⟩]
        missed_deadlines := 0 } := by decide
  refine ⟨_, h, ?_, rfl, ?_, rfl, ?_, ?_, ?_, ?_, ?_⟩ <;> decide!

/-- C12, amended. For a non-empty list of `n ≤ 2 ^ 22` processes whose waiting,
turnaround and burst times are values of a 32-bit `int`, with no overflow in the sum of
the burst times, and `0 < total_time ≤ INT32_MAX`, `calculateMetrics` returns the
`double` nearest to `(sum of waiting_time) / n` as `avg_wait`, the `double` nearest to
`(sum of turnaround_time) / n` as `avg_turn`, the `double` nearest to `n / total_time`
as `throughput`, and as `cpu_util` the rounded product with 100 of the `double` nearest
to `(sum of burst_time) / total_time`.  The four values are finite; `avg_wait`,
`avg_turn` and `throughput` are within the relative error `2 ^ (-53)` of the exact
rational values of the formulas, `cpu_util` within `2 ^ (-51)`. -/
theorem calculateMetrics_formulas (ps : List Process) (total_time : Int)
    (hne : ps ≠ []) (ht : 0 < total_time) (htot : total_time ≤ INT32_MAX)
    (hlen : ps.length ≤ 4194304) (hfit : metricsFitInt32 0 ps = true) :
    (calculateMetrics ps total_time).avg_wait
        = Double.ofRat ((((ps.map (·.waiting_time)).sum : Int) : ℚ) / (ps.length : ℚ)) ∧
      (calculateMetrics ps total_time).avg_turn
        = Double.ofRat ((((ps.map (·.turnaround_time)).sum : Int) : ℚ) / (ps.length : ℚ)) ∧
      (calculateMetrics ps total_time).cpu_util
        = Double.mul
            (Double.ofRat ((((ps.map (·.burst_time)).sum : Int) : ℚ) / (total_time : ℚ)))
            (.finite 100) ∧
      (calculateMetrics ps total_time).throughput
        = Double.ofRat ((ps.length : ℚ) / (total_time : ℚ)) ∧
      ∃ w t c th : ℚ,
        calculateMetrics ps total_time
            = { avg_wait := .finite w, avg_turn := .finite t, cpu_util := .finite c,
                throughput := .finite th } ∧
          |w - (((ps.map (·.waiting_time)).sum : Int) : ℚ) / (ps.length : ℚ)|
            ≤ |(((ps.map (·.waiting_time)).sum : Int) : ℚ) / (ps.length : ℚ)| / 2 ^ 53 ∧
          |t - (((ps.map (·.turnaround_time)).sum : Int) : ℚ) / (ps.length : ℚ)|
            ≤ |(((ps.map (·.turnaround_time)).sum : Int) : ℚ) / (ps.length : ℚ)| / 2 ^ 53 ∧
          |c - (((ps.map (·.burst_time)).sum : Int) : ℚ) / (total_time : ℚ) * 100|
            ≤ |(((ps.map (·.burst_time)).sum : Int) : ℚ) / (total_time : ℚ) * 100| / 2 ^ 51 ∧
          |th - (ps.length : ℚ) / (total_time : ℚ)|
            ≤ |(ps.length : ℚ) / (total_time : ℚ)| / 2 ^ 53 := by
  have hmax : INT32_MAX = 2147483647 := rfl
  have hlen0 : 0 < ps.length := List.length_pos.mpr hne
  have hnq : (ps.length : ℚ) ≠ 0 := by
    have : ps.length ≠ 0 := by omega
    exact_mod_cast this
  have hT : (total_time : ℚ) ≠ 0 := by
    have : total_time ≠ 0 := ne_of_gt ht
    exact_mod_cast this
  obtain ⟨hwt, hbs⟩ := metricsFitInt32_spec ps 0 hfit
  have hB := abs_le_of_fitsInt32 (hbs hne)
  rw [Int.zero_add] at hB
  have h0 : (Double.finite 0) = .finite ((0 : Int) : ℚ) := by rw [Int.cast_zero]
  obtain ⟨hw1, hw2⟩ := foldl_add_exact (·.waiting_time) ps 0 0 (by simp)
    (by omega) (fun p hp => (hwt p hp).1)
  obtain ⟨ht1, ht2⟩ := foldl_add_exact (·.turnaround_time) ps 0 0 (by simp)
    (by omega) (fun p hp => (hwt p hp).2)
  rw [Int.zero_add] at hw1 hw2 ht1 ht2
  rw [Nat.zero_add] at hw2 ht2
  have hb := foldl_add_eq_sum (fun p => p.burst_time) ps 0
  rw [Int.zero_add] at hb
  have e1 : (calculateMetrics ps total_time).avg_wait
      = Double.ofRat ((((ps.map (·.waiting_time)).sum : Int) : ℚ) / (ps.length : ℚ)) := by
    simp only [calculateMetrics]
    rw [h0, hw1]
    simp only [Double.div, Double.ofInt, ne_eq, Int.cast_natCast, hnq, not_false_eq_true,
      if_true]
  have e2 : (calculateMetrics ps total_time).avg_turn
      = Double.ofRat ((((ps.map (·.turnaround_time)).sum : Int) : ℚ) / (ps.length : ℚ)) := by
    simp only [calculateMetrics]
    rw [h0, ht1]
    simp only [Double.div, Double.ofInt, ne_eq, Int.cast_natCast, hnq, not_false_eq_true,
      if_true]
  have e3 : (calculateMetrics ps total_time).cpu_util
      = Double.mul
          (Double.ofRat ((((ps.map (·.burst_time)).sum : Int) : ℚ) / (total_time : ℚ)))
          (.finite 100) := by
    simp only [calculateMetrics, gt_iff_lt, ht, if_true, hb]
    simp only [Double.div, Double.ofInt, ne_eq, hT, not_false_eq_true, if_true,
      Int.cast_ofNat]
  have e4 : (calculateMetrics ps total_time).throughput
      = Double.ofRat ((ps.length : ℚ) / (total_time : ℚ)) := by
    simp only [calculateMetrics]
    simp only [Double.div, Double.ofInt, ne_eq, hT, not_false_eq_true, if_true,
      Int.cast_natCast]
  refine ⟨e1, e2, e3, e4, ?_⟩
  have hbig : ((ps.length : Nat) : Int) * 2147483648 ≤ 2 ^ 53 := by
    have h53 : ((2 : Int) ^ 53) = 9007199254740992 := by norm_num
    rw [h53]; omega
  have hlenq : ((ps.length : Int) : ℚ) = (ps.length : ℚ) := Int.cast_natCast _
  obtain ⟨w, hw, hwe⟩ := ofRat_div_err (ps.map (·.waiting_time)).sum ps.length
    (le_trans hw2 hbig) (by omega) (by norm_num; omega)
  obtain ⟨t, htt, hte⟩ := ofRat_div_err (ps.map (·.turnaround_time)).sum ps.length
    (le_trans ht2 hbig) (by omega) (by norm_num; omega)
  obtain ⟨c, hc, hce⟩ := cpu_util_err (ps.map (·.burst_time)).sum total_time hB ht
    (by omega)
  obtain ⟨th, hth, hthe⟩ := ofRat_div_err ps.length total_time
    (by rw [abs_of_nonneg (by omega)]; norm_num; omega) ht (by norm_num; omega)
  rw [hlenq] at hw hwe htt hte hth hthe
  refine ⟨w, t, c, th, ?_, hwe, hte, hce, hthe⟩
  rw [← hw, ← htt, ← hc, ← hth, ← e1, ← e2, ← e3, ← e4]

theorem calculateMetrics_formulas_witness :
    (FCFSScheduler.scheduleInt32 builtin).1 ≠ [] ∧ (0 : Int) < 26 ∧ (26 : Int) ≤ INT32_MAX ∧
      (FCFSScheduler.scheduleInt32 builtin).1.length ≤ 4194304 ∧
      metricsFitInt32 0 (FCFSScheduler.scheduleInt32 builtin).1 = true ∧
      (FCFSScheduler.scheduleInt32 builtin).2.2 = 26 ∧
      (calculateMetrics (FCFSScheduler.scheduleInt32 builtin).1 26).avg_wait
        = .finite (35 / 4) ∧
      (calculateMetrics (FCFSScheduler.scheduleInt32 builtin).1 26).avg_turn
        = .finite (61 / 4) ∧
      (calculateMetrics (FCFSScheduler.scheduleInt32 builtin).1 26).cpu_util
        = .finite 100 ∧
      (calculateMetrics (FCFSScheduler.scheduleInt32 builtin).1 26).throughput
        = .finite (1385722962267845 / 2 ^ 53) ∧
      (calculateMetrics (FCFSScheduler.scheduleInt32 builtin).1 26).throughput
        = Double.ofRat (4 / 26) ∧
      ∃ w t c th : ℚ,
        calculateMetrics (FCFSScheduler.scheduleInt32 builtin).1 26
            = { avg_wait := .finite w, avg_turn := .finite t, cpu_util := .finite c,
                throughput := .finite th } ∧
          |th - (4 : ℚ) / 26| ≤ |(4 : ℚ) / 26| / 2 ^ 53 :=
  have h := calculateMetrics_formulas (FCFSScheduler.scheduleInt32 builtin).1 26
    (by decide) (by decide) (by decide) (by decide) (by decide)
  ⟨by decide, by decide, by decide, by decide, by decide, by decide, by decide!, by decide!,
    by decide!, by decide!, by decide!,
    by
      obtain ⟨w, t, c, th, h1, _, _, _, h5⟩ := h.2.2.2.2
      refine ⟨w, t, c, th, h1, ?_⟩
      have e : (((FCFSScheduler.scheduleInt32 builtin).1.length : Nat) : ℚ) = 4 := by
        have : (FCFSScheduler.scheduleInt32 builtin).1.length = 4 := by decide
        rw [this]; norm_num
      rw [e] at h5
      simpa using h5⟩

/-- C13 as stated fails: for the built-in workload and `total_time == 0` the CPU
utilization is the number 0 and the throughput is an infinity; neither is NaN. -/
theorem metrics_at_zero_as_stated_fails :
    (calculateMetrics builtin 0).cpu_util = .finite 0 ∧
      (calculateMetrics builtin 0).throughput = .inf false ∧
      (calculateMetrics builtin 0).cpu_util ≠ .nan ∧
      (calculateMetrics builtin 0).throughput ≠ .nan := by
  decide!

/-- C13, amended. When `total_time == 0`, `calculateMetrics` reports the CPU
utilization 0 (its guard `total_time > 0` fails) and the throughput `n / 0`: positive
infinity for a non-empty process list, NaN only for an empty one; no outcome of the
function is an error. -/
theorem metrics_at_zero (ps : List Process) :
    (calculateMetrics ps 0).cpu_util = .finite 0 ∧
      (calculateMetrics ps 0).throughput = (if ps = [] then .nan else .inf false) := by
  refine ⟨by simp [calculateMetrics], ?_⟩
  by_cases h : ps = []
  · subst h; simp [calculateMetrics, Double.div, Double.ofInt]
  · have : 0 < ps.length := List.length_pos.mpr h
    simp [calculateMetrics, Double.div, Double.ofInt, h, this]

/-! ## Ties in the selection of SJF -/

/-- C17 as stated fails: on two processes of equal arrival time and burst time, listed
with the larger id first, `SJFScheduler::schedule` dispatches the one listed first,
"P2", before "P1", whose id is smaller. -/
theorem sjf_tie_break_as_stated_fails :
    tieWorkload.map (fun p => (p.id, p.arrival_time, p.burst_time))
        = [("P2", 0, 5), ("P1", 0, 5)] ∧
      "P1" < "P2" ∧
      (∃ s1, step .sjf (init .sjf tieWorkload) = .next (some ⟨0, 0, 5⟩) s1) ∧
      (schedule .sjf 2 tieWorkload).map (·.gantt) = some [("P2", 5), ("P1", 5)] := by
  refine ⟨by decide, String.lt_iff_toList_lt.mpr (by decide), ⟨_, rfl⟩, by decide⟩

/-- C17, amended. When `SJFScheduler::schedule` dispatches a process, that process is
ready (not completed, arrived), no ready process has a smaller burst time, and every
ready process with the same burst time comes later in the process vector; in an
arrival-sorted vector none of those has an earlier arrival time.  Ids are not
compared. -/
theorem sjf_tie_break (s s1 : State) (e : Dispatch)
    (h : step .sjf s = .next (some e) s1) :
    ∃ p, s.processes[e.idx]? = some p ∧
      s.completed.getD e.idx false = false ∧ p.arrival_time ≤ s.current_time ∧
      (∀ (j : Nat) (q : Process), s.processes[j]? = some q →
        s.completed.getD j false = false → q.arrival_time ≤ s.current_time →
        p.burst_time ≤ q.burst_time ∧
        (q.burst_time = p.burst_time → e.idx ≤ j) ∧
        (q.burst_time = p.burst_time →
          s.processes.Pairwise (fun a b => a.arrival_time ≤ b.arrival_time) →
          p.arrival_time ≤ q.arrival_time)) := by
  have h1 : SJFScheduler.step s = .next (some e) s1 := h
  rcases sjf_next h1 with ⟨-, hev, -⟩ | ⟨i, p, hscan, hp, hev, -⟩
  · cases hev
  · have hi : e.idx = i := by
      have := Option.some.inj hev
      rw [this]
    obtain ⟨p1, hp1, hok, -, hmin, hfirst⟩ := scanMin_some hscan
    rw [hp] at hp1
    obtain rfl : p = p1 := Option.some.inj hp1
    simp only [Bool.and_eq_true, Bool.not_eq_true', decide_eq_true_eq] at hok hmin hfirst
    rw [hi]
    refine ⟨p, hp, hok.1, hok.2, ?_⟩
    intro j q hq hc ha
    have hle : q.burst_time = p.burst_time → i ≤ j := by
      intro hb
      by_contra hlt
      have := hfirst j q (by omega) hq ⟨hc, ha⟩
      omega
    refine ⟨hmin j q hq ⟨hc, ha⟩, hle, ?_⟩
    intro hb hsorted
    rcases Nat.eq_or_lt_of_le (hle hb) with heq | hlt
    · subst heq
      rw [hp] at hq
      obtain rfl : p = q := Option.some.inj hq
      exact le_refl _
    · obtain ⟨hj, hqe⟩ := List.getElem?_eq_some_iff.mp hq
      obtain ⟨hi2, hpe⟩ := List.getElem?_eq_some_iff.mp hp
      have := List.pairwise_iff_getElem.mp hsorted i j hi2 hj hlt
      rw [hpe, hqe] at this
      exact this

theorem sjf_tie_break_witness :
    ∃ p, (init .sjf tieWorkload).processes[(⟨0, 0, 5⟩ : Dispatch).idx]? = some p ∧
      (init .sjf tieWorkload).completed.getD (⟨0, 0, 5⟩ : Dispatch).idx false = false ∧
      p.arrival_time ≤ (init .sjf tieWorkload).current_time ∧
      (∀ (j : Nat) (q : Process), (init .sjf tieWorkload).processes[j]? = some q →
        (init .sjf tieWorkload).completed.getD j false = false →
        q.arrival_time ≤ (init .sjf tieWorkload).current_time →
        p.burst_time ≤ q.burst_time ∧
        (q.burst_time = p.burst_time → (⟨0, 0, 5⟩ : Dispatch).idx ≤ j) ∧
        (q.burst_time = p.burst_time →
          (init .sjf tieWorkload).processes.Pairwise
            (fun a b => a.arrival_time ≤ b.arrival_time) →
          p.arrival_time ≤ q.arrival_time)) :=
  sjf_tie_break (init .sjf tieWorkload) _ ⟨0, 0, 5⟩ rfl

/-! ## FCFS in closed form -/

theorem fcfsDispatches_completions :
    ∀ (ps : List Process) (prev : Int) (i : Nat),
      (fcfsDispatches prev i ps).map (fun e => e.start + e.len) = fcfsCompletions prev ps := by
  intro ps
  induction ps with
  | nil => intro prev i; rfl
  | cons p rest ih => intro prev i; simp [fcfsDispatches, fcfsCompletions, ih]

theorem fcfsDispatches_idx :
    ∀ (ps : List Process) (prev : Int) (i : Nat),
      (fcfsDispatches prev i ps).map (·.idx) = List.range' i ps.length := by
  intro ps
  induction ps with
  | nil => intro prev i; rfl
  | cons p rest ih => intro prev i; simp [fcfsDispatches, List.range', ih]

theorem fcfsCompletions_length :
    ∀ (ps : List Process) (prev : Int), (fcfsCompletions prev ps).length = ps.length := by
  intro ps
  induction ps with
  | nil => intro prev; rfl
  | cons p rest ih => intro prev; simp [fcfsCompletions, ih]

theorem getLast_getD_cons {α : Type} (l : List α) (c d : α) :
    (c :: l).getLast?.getD d = l.getLast?.getD c := by
  cases l with
  | nil => rfl
  | cons a l =>
    rw [List.getLast?_cons_cons, List.getLast?_eq_getLast _ (List.cons_ne_nil a l)]
    rfl

/-- The FCFS loop from a state whose iterator stands before the processes `rest`. -/
theorem fcfs_run :
    ∀ (rest pre : List Process) (s : State) (log : List Dispatch),
      s.processes = pre ++ rest → s.idx = pre.length →
      iterate .fcfs rest.length (s, log) =
        ({ s with
            processes := pre ++ List.zipWith complete rest (fcfsCompletions s.current_time rest)
            gantt := s.gantt ++ rest.map (fun p => (p.id, p.burst_time))
            current_time := (fcfsCompletions s.current_time rest).getLastD s.current_time
            idx := pre.length + rest.length },
          (fcfsDispatches s.current_time pre.length rest).reverse ++ log) := by
  intro rest
  induction rest with
  | nil =>
    intro pre s log hps hidx
    obtain ⟨ps, g, ct, c, cc, idx, rq, qs, li, ls, md⟩ := s
    simp only at hps hidx
    subst hps hidx
    simp [iterate, fcfsCompletions, fcfsDispatches]
  | cons p rest ih =>
    intro pre s log hps hidx
    have hget : s.processes[s.idx]? = some p := by
      rw [hps, hidx, List.getElem?_append_right (le_refl _)]; simp
    have hmax : (if s.current_time < p.arrival_time then p.arrival_time else s.current_time)
        = max s.current_time p.arrival_time := by
      rcases lt_or_ge s.current_time p.arrival_time with hlt | hge
      · rw [if_pos hlt, max_eq_right (le_of_lt hlt)]
      · rw [if_neg (not_lt.mpr hge), max_eq_left hge]
    have hstep : step .fcfs s = .next (some ⟨s.idx, max s.current_time p.arrival_time,
        p.burst_time⟩)
        { s with
          processes := s.processes.set s.idx
            (complete p (max s.current_time p.arrival_time + p.burst_time))
          gantt := s.gantt ++ [(p.id, p.burst_time)]
          current_time := max s.current_time p.arrival_time + p.burst_time
          idx := s.idx + 1 } := by
      show FCFSScheduler.step s = _
      unfold FCFSScheduler.step
      rw [hget]
      simp only [hmax]
    rw [List.length_cons, iterate_next hstep]
    have hset : s.processes.set s.idx
        (complete p (max s.current_time p.arrival_time + p.burst_time))
        = (pre ++ [complete p (max s.current_time p.arrival_time + p.burst_time)]) ++ rest := by
      rw [hps, hidx]; simp
    rw [ih (pre ++ [complete p (max s.current_time p.arrival_time + p.burst_time)]) _ _
      (by simpa using hset) (by simp [hidx])]
    simp [fcfsCompletions, fcfsDispatches, record, hidx, Nat.add_assoc, Nat.add_comm 1,
      getLast_getD_cons]

theorem wrapInt32_of_fits {x : Int} (h : fitsInt32 x = true) : wrapInt32 x = x := by
  unfold fitsInt32 INT32_MIN INT32_MAX at h
  simp only [Bool.and_eq_true, decide_eq_true_eq] at h
  unfold wrapInt32
  omega

/-- Where no operation overflows, the loop of `FCFSScheduler::schedule` on a 32-bit
machine leaves the times of the closed form. -/
theorem fcfs_loopInt32 :
    ∀ (ps : List Process) (prev : Int), fcfsFitsInt32 prev ps = true →
      FCFSScheduler.loopInt32 ps prev
        = (List.zipWith complete ps (fcfsCompletions prev ps),
            ps.map (fun p => (p.id, p.burst_time)),
            (fcfsCompletions prev ps).getLastD prev) := by
  intro ps
  induction ps with
  | nil => intro prev _; rfl
  | cons p rest ih =>
    intro prev h
    unfold fcfsFitsInt32 at h
    simp only [Bool.and_eq_true] at h
    obtain ⟨⟨⟨h1, h2⟩, h3⟩, h4⟩ := h
    have hmax : (if prev < p.arrival_time then p.arrival_time else prev)
        = max prev p.arrival_time := by
      rcases lt_or_ge prev p.arrival_time with hlt | hge
      · rw [if_pos hlt, max_eq_right (le_of_lt hlt)]
      · rw [if_neg (not_lt.mpr hge), max_eq_left hge]
    unfold FCFSScheduler.loopInt32
    simp only [hmax, wrapInt32_of_fits h1, wrapInt32_of_fits h2, wrapInt32_of_fits h3,
      ih _ h4]
    simp [fcfsCompletions, complete, getLast_getD_cons]

/-- C19 as stated fails: on two processes that arrive at 0 with the burst times
`INT32_MAX` and 1 the completion times of the closed form are 2147483647 and
2147483648, and the second is no value of an `int`: `current_time += burst_time`
overflows, and on a 32-bit machine `FCFSScheduler::schedule` returns the `total_time`
-2147483648 and, for the second process, the turnaround time -2147483648 in place of
2147483648. -/
theorem fcfs_closed_form_as_stated_fails :
    overflowWorkload.map (fun p => (p.id, p.arrival_time, p.burst_time))
        = [("P1", 0, 2147483647), ("P2", 0, 1)] ∧
      fcfsCompletions 0 overflowWorkload = [2147483647, 2147483648] ∧
      fitsInt32 2147483648 = false ∧
      (FCFSScheduler.scheduleInt32 overflowWorkload).2.2 = -2147483648 ∧
      (FCFSScheduler.scheduleInt32 overflowWorkload).1.map (·.turnaround_time)
        = [2147483647, -2147483648] ∧
      (FCFSScheduler.scheduleInt32 overflowWorkload).2.1 = [("P1", 2147483647), ("P2", 1)] := by
  decide

/-- C19, amended. On every workload on which no operation of `FCFSScheduler::schedule`
overflows (each completion time, turnaround time and waiting time of the closed form is
a value of a 32-bit `int`), `FCFSScheduler::schedule` returns, after one iteration per
process; it emits exactly one trace segment `(id, burst_time)` per process in input
order; the processes are dispatched in input order, the i-th one from the later of the
completion time of its predecessor (0 for the first) and its own arrival time, for its
burst time, so that its completion time is `max(previous completion, arrival_time) +
burst_time`; its `turnaround_time` is that completion time minus its arrival time (and
its `waiting_time` the turnaround less the burst); `total_time` is the completion time of
the last process; and the function returns the same with the arithmetic of a 32-bit
`int`. -/
theorem fcfs_closed_form (ps : List Process) (k : Nat) (hfit : fcfsFitsInt32 0 ps = true) :
    ∃ r, schedule .fcfs (ps.length + k) ps = some r ∧
      r.gantt = ps.map (fun p => (p.id, p.burst_time)) ∧
      r.dispatches.reverse = fcfsDispatches 0 0 ps ∧
      r.dispatches.reverse.map (·.idx) = List.range ps.length ∧
      r.dispatches.reverse.map (fun e => e.start + e.len) = fcfsCompletions 0 ps ∧
      r.processes.map (·.turnaround_time)
        = List.zipWith (fun p c => c - p.arrival_time) ps (fcfsCompletions 0 ps) ∧
      r.processes.map (·.waiting_time)
        = List.zipWith (fun p c => c - p.arrival_time - p.burst_time) ps
            (fcfsCompletions 0 ps) ∧
      r.total_time = (fcfsCompletions 0 ps).getLastD 0 ∧
      FCFSScheduler.scheduleInt32 ps = (r.processes, r.gantt, r.total_time) := by
  have hrun := fcfs_run ps [] (init .fcfs ps) [] rfl rfl
  have hhalt : step .fcfs (iterate .fcfs ps.length (init .fcfs ps, [])).1 = .halt := by
    rw [hrun]
    show FCFSScheduler.step _ = _
    unfold FCFSScheduler.step
    rw [List.getElem?_eq_none (by simp [fcfsCompletions_length])]
  have hs := schedule_add (schedule_of_iterate (Prod.ext rfl rfl) hhalt) k
  refine ⟨_, hs, ?_⟩
  rw [hrun]
  simp only [finish, Policy.coalesces, init, List.nil_append, List.append_nil,
    List.reverse_reverse, List.length_nil, Nat.zero_add, Bool.false_eq_true, if_false]
  refine ⟨trivial, trivial, ?_, fcfsDispatches_completions ps 0 0, ?_, ?_, trivial, ?_⟩
  · rw [fcfsDispatches_idx, List.range_eq_range']
  · rw [List.map_zipWith]; rfl
  · rw [List.map_zipWith]; rfl
  · exact fcfs_loopInt32 ps 0 hfit

theorem fcfs_closed_form_witness :
    fcfsFitsInt32 0 builtin = true ∧
      FCFSScheduler.scheduleInt32 builtin
        = (List.zipWith complete builtin [8, 12, 21, 26],
            [("P1", 8), ("P2", 4), ("P3", 9), ("P4", 5)], 26) ∧
      ∃ r, schedule .fcfs (builtin.length + 0) builtin = some r ∧
        r.gantt = builtin.map (fun p => (p.id, p.burst_time)) ∧
        r.dispatches.reverse = fcfsDispatches 0 0 builtin ∧
        r.dispatches.reverse.map (·.idx) = List.range builtin.length ∧
        r.dispatches.reverse.map (fun e => e.start + e.len) = fcfsCompletions 0 builtin ∧
        r.processes.map (·.turnaround_time)
          = List.zipWith (fun p c => c - p.arrival_time) builtin (fcfsCompletions 0 builtin) ∧
        r.processes.map (·.waiting_time)
          = List.zipWith (fun p c => c - p.arrival_time - p.burst_time) builtin
              (fcfsCompletions 0 builtin) ∧
        r.total_time = (fcfsCompletions 0 builtin).getLastD 0 ∧
        FCFSScheduler.scheduleInt32 builtin = (r.processes, r.gantt, r.total_time) :=
  ⟨by decide, by decide, fcfs_closed_form builtin 0 (by decide)⟩

/-! ## The fields that `schedule` leaves unchanged -/

/-- Under every policy but non-preemptive Priority, an iteration leaves alone every
field other than `remaining_time`, `turnaround_time`, `waiting_time` and `vruntime`. -/
theorem step_map_keep {β : Type} (f : Process → β)
    (hf : ∀ (p : Process) (r t w v : Int),
      f { p with remaining_time := r, turnaround_time := t, waiting_time := w,
                 vruntime := v } = f p)
    {pol : Policy} (hpol : ∀ a, pol ≠ .priority a) {s s1 : State} {ev : Option Dispatch}
    (h : step pol s = .next ev s1) :
    s1.processes.map f = s.processes.map f := by
  have hcomplete : ∀ (p : Process) (t : Int), f (complete p t) = f p := fun p t =>
    hf p p.remaining_time _ _ p.vruntime
  have hunit : ∀ (key : Process → Int) (late : Process → Int → Bool),
      unitStep key late s = .next ev s1 → s1.processes.map f = s.processes.map f :=
    fun key late hs => unitStep_map f (fun p r t w => hf p r t w p.vruntime) hs
  have hqueue : ∀ (held : State → Nat → Prop) (slice : Int → Prop),
      QStep held slice s ev s1 → s1.processes.map f = s.processes.map f := by
    intro held slice hq
    cases hq with
    | idle _ hps hadm hempty hct => rw [hps]
    | run _ current p sl run_time vruntime mid heldMid heldPop heldEnd hadm1 hpop hp hslice
        hrun hps hct hadm2 hheld =>
      rw [hps]
      refine map_set_of_eq f hp ?_
      unfold afterRun
      split
      · exact hf p _ p.turnaround_time p.waiting_time _
      · exact hf p _ _ _ _
  cases pol with
  | fcfs =>
    obtain ⟨p, hp, -, hs1⟩ := fcfs_next h
    subst hs1
    exact map_set_of_eq f hp (hcomplete p _)
  | sjf =>
    rcases sjf_next h with ⟨-, -, hs1⟩ | ⟨i, p, -, hp, -, hs1⟩
    · subst hs1; rfl
    · subst hs1
      exact map_set_of_eq f hp (hcomplete p _)
  | srtf => exact hunit (·.remaining_time) (fun _ _ => false) h
  | rr quantum => exact hqueue _ _ (rr_qstep h)
  | priority aging_interval => exact absurd rfl (hpol aging_interval)
  | priorityPreemptive => exact hunit (·.priority) (fun _ _ => false) h
  | mlq => exact hqueue _ _ (mlq_qstep h)
  | mfq => exact hqueue _ _ (mfq_qstep h)
  | cfs => exact hqueue _ _ (cfs_qstep h)
  | edf => exact hunit (·.deadline) (fun p now => decide (now > p.deadline)) h

/-- After any number of iterations the burst times are those of the workload. -/
theorem reach_burst (pol : Policy) (ps : List Process) (n : Nat) :
    (reach pol n ps).1.processes.map (·.burst_time) = ps.map (·.burst_time) := by
  refine iterate_inv pol (fun s _ => s.processes.map (·.burst_time) = ps.map (·.burst_time))
    ?_ n (init pol ps) [] ?_
  · intro s log ev s1 hinv hs
    rw [← hinv]
    exact step_map (·.burst_time) (fun _ _ _ _ _ _ => rfl) hs
  · cases pol <;>
      simp [init, resetRemaining, MFQScheduler.prepare, CFSScheduler.prepare,
        EDFScheduler.prepare, Function.comp]

/-- Under every policy but non-preemptive Priority and MFQ the priorities are, after
any number of iterations, those of the workload. -/
theorem reach_priority (pol : Policy) (hpol : ∀ a, pol ≠ .priority a) (hmfq : pol ≠ .mfq)
    (ps : List Process) (n : Nat) :
    (reach pol n ps).1.processes.map (·.priority) = ps.map (·.priority) := by
  refine iterate_inv pol (fun s _ => s.processes.map (·.priority) = ps.map (·.priority))
    ?_ n (init pol ps) [] ?_
  · intro s log ev s1 hinv hs
    rw [← hinv]
    exact step_map_keep (·.priority) (fun _ _ _ _ _ => rfl) hpol hs
  · cases pol <;>
      first
      | exact absurd rfl hmfq
      | simp [init, resetRemaining, CFSScheduler.prepare, EDFScheduler.prepare, Function.comp]

/-- Under MFQ every priority is 0 after any number of iterations. -/
theorem reach_mfq_priority (ps : List Process) (n : Nat) :
    (reach .mfq n ps).1.processes.map (·.priority) = ps.map (fun _ => 0) := by
  refine iterate_inv .mfq (fun s _ => s.processes.map (·.priority) = ps.map (fun _ => 0))
    ?_ n (init .mfq ps) [] ?_
  · intro s log ev s1 hinv hs
    rw [← hinv]
    exact step_map_keep (·.priority) (fun _ _ _ _ _ => rfl) (by intro a h; cases h) hs
  · show (MFQScheduler.prepare ps).map (·.priority) = _
    unfold MFQScheduler.prepare
    rw [List.map_map]
    rfl

/-- C16 as stated fails: MFQ is not among the excepted policies, and on the built-in
workload it returns with every priority set to 0. -/
theorem schedule_frame_as_stated_fails :
    builtin.map (·.priority) = [2, 1, 3, 4] ∧
      (schedule .mfq 26 builtin).map (fun r => r.processes.map (·.priority))
        = some [0, 0, 0, 0] := by
  decide

/-- C16, amended. When `schedule` returns, every process has the `id`, `arrival_time`
and `burst_time` it came with, under every policy; it has the `priority` it came with
under every policy other than non-preemptive Priority (aging) and MFQ (CFS included);
under MFQ every `priority` is 0. -/
theorem schedule_frame (pol : Policy) (fuel : Nat) (ps : List Process) (r : Result)
    (h : schedule pol fuel ps = some r) :
    r.processes.map (·.id) = ps.map (·.id) ∧
      r.processes.map (·.arrival_time) = ps.map (·.arrival_time) ∧
      r.processes.map (·.burst_time) = ps.map (·.burst_time) ∧
      ((∀ a, pol ≠ .priority a) → pol ≠ .mfq →
        r.processes.map (·.priority) = ps.map (·.priority)) ∧
      (pol = .mfq → r.processes.map (·.priority) = ps.map (fun _ => 0)) := by
  obtain ⟨-, hr⟩ := schedule_eq_some h
  have hps : r.processes = (reach pol fuel ps).1.processes := by rw [hr]; rfl
  rw [hps]
  refine ⟨reach_id pol ps fuel, reach_arrival pol ps fuel, reach_burst pol ps fuel,
    fun hpol hmfq => reach_priority pol hpol hmfq ps fuel, ?_⟩
  intro hm
  subst hm
  exact reach_mfq_priority ps fuel

theorem schedule_frame_witness :
    ∃ r, schedule .cfs 26 builtin = some r ∧
      r.processes.map (·.id) = builtin.map (·.id) ∧
      r.processes.map (·.arrival_time) = builtin.map (·.arrival_time) ∧
      r.processes.map (·.burst_time) = builtin.map (·.burst_time) ∧
      ((∀ a, Policy.cfs ≠ .priority a) → Policy.cfs ≠ .mfq →
        r.processes.map (·.priority) = builtin.map (·.priority)) ∧
      (Policy.cfs = .mfq → r.processes.map (·.priority) = builtin.map (fun _ => 0)) :=
  (Option.isSome_iff_exists.mp (by decide : (schedule .cfs 26 builtin).isSome = true)).imp
    fun r hr => ⟨hr, schedule_frame .cfs 26 builtin r hr⟩

/-! ## The families of loops, and `remaining_time` at the return -/

/-- Each policy is FCFS, one of the two non-preemptive selection loops, one of the
three unit-step loops, or one of the four queue-driven loops; the loops of the last
two families start from `remaining_time = burst_time`. -/
theorem policy_family (pol : Policy) :
    pol = .fcfs ∨ (pol = .sjf ∨ ∃ a, pol = .priority a) ∨
    (pol.coalesces = true ∧
      ∃ (key : Process → Int) (late : Process → Int → Bool), step pol = unitStep key late ∧
        ∀ ps, (∀ p ∈ (init pol ps).processes, p.remaining_time = p.burst_time) ∧
          (init pol ps).completed_count = 0) ∨
    (pol.coalesces = true ∧
      ∃ (held : State → Nat → Prop) (slice : Int → Prop),
        (∀ s ev s1, step pol s = .next ev s1 → QStep held slice s ev s1) ∧
        (∀ s, step pol s = .halt → s.processes.length ≤ s.idx ∧ ∀ x, ¬ held s x) ∧
        ∀ ps, (init pol ps).idx = 0 ∧
          ∀ p ∈ (init pol ps).processes, p.remaining_time = p.burst_time) := by
  have hrem : ∀ ps, ∀ p ∈ resetRemaining ps, p.remaining_time = p.burst_time := by
    intro ps p hp
    simp only [resetRemaining, List.mem_map] at hp
    obtain ⟨q, -, rfl⟩ := hp
    rfl
  cases pol with
  | fcfs => exact Or.inl rfl
  | sjf => exact Or.inr (Or.inl (Or.inl rfl))
  | priority a => exact Or.inr (Or.inl (Or.inr ⟨a, rfl⟩))
  | srtf =>
    exact Or.inr (Or.inr (Or.inl ⟨rfl, (·.remaining_time), (fun _ _ => false), rfl,
      fun ps => ⟨hrem ps, rfl⟩⟩))
  | priorityPreemptive =>
    exact Or.inr (Or.inr (Or.inl ⟨rfl, (·.priority), (fun _ _ => false), rfl,
      fun ps => ⟨hrem ps, rfl⟩⟩))
  | edf =>
    refine Or.inr (Or.inr (Or.inl ⟨rfl, (·.deadline), (fun p now => decide (now > p.deadline)),
      rfl, fun ps => ⟨?_, rfl⟩⟩))
    intro p hp
    simp only [init, EDFScheduler.prepare, List.mem_map] at hp
    obtain ⟨q, -, rfl⟩ := hp
    rfl
  | rr quantum =>
    exact Or.inr (Or.inr (Or.inr ⟨rfl, inReady, (· = quantum), fun s ev s1 hs => rr_qstep hs,
      fun s hs => rr_halt hs, fun ps => ⟨rfl, hrem ps⟩⟩))
  | mlq =>
    exact Or.inr (Or.inr (Or.inr ⟨rfl, inLevels, (· = 2), fun s ev s1 hs => mlq_qstep hs,
      fun s hs => mlq_halt hs, fun ps => ⟨rfl, hrem ps⟩⟩))
  | mfq =>
    refine Or.inr (Or.inr (Or.inr ⟨rfl, inLevels, (· ∈ MFQScheduler.quantum),
      fun s ev s1 hs => mfq_qstep hs, fun s hs => mfq_halt hs, fun ps => ⟨rfl, ?_⟩⟩))
    intro p hp
    simp only [init, MFQScheduler.prepare, List.mem_map] at hp
    obtain ⟨q, -, rfl⟩ := hp
    rfl
  | cfs =>
    refine Or.inr (Or.inr (Or.inr ⟨rfl, inReady, (· = 1), fun s ev s1 hs => cfs_qstep hs,
      fun s hs => cfs_halt hs, fun ps => ⟨rfl, ?_⟩⟩))
    intro p hp
    simp only [init, CFSScheduler.prepare, List.mem_map] at hp
    obtain ⟨q, -, rfl⟩ := hp
    rfl

/-- In a queue-driven loop every admitted process is queued or has no time
remaining. -/
theorem QStep.remaining_inv {held : State → Nat → Prop} {slice : Int → Prop} {s s1 : State}
    {ev : Option Dispatch} (h : QStep held slice s ev s1)
    (hinv : ∀ i p, i < s.idx → s.processes[i]? = some p → held s i ∨ p.remaining_time = 0) :
    ∀ i p, i < s1.idx → s1.processes[i]? = some p → held s1 i ∨ p.remaining_time = 0 := by
  cases h with
  | idle _ hps hadm hempty hct =>
    intro i p hi hp
    rw [hps] at hp
    by_cases hlt : i < s.idx
    · rcases hinv i p hlt hp with hh | hh
      · exact Or.inl ((hadm.held_iff i).mpr (Or.inl hh))
      · exact Or.inr hh
    · exact Or.inl ((hadm.held_iff i).mpr (Or.inr ⟨by omega, hi⟩))
  | run _ current p0 sl run_time vruntime mid heldMid heldPop heldEnd hadm1 hpop hp0 hslice hrun
      hps hct hadm2 hheld =>
    intro i p hi hp
    rw [hps] at hp
    rcases getElem?_set_cases hp with ⟨hic, hpe⟩ | ⟨hic, hpo⟩
    · subst hic hpe
      rw [afterRun_remaining]
      by_cases hpos : 0 < p0.remaining_time - run_time
      · exact Or.inl ((hheld i).mpr (Or.inr ⟨rfl, hpos⟩))
      · right
        have : min sl p0.remaining_time ≤ p0.remaining_time := min_le_right _ _
        omega
    · by_cases hlt2 : i < mid
      · have hmidOrHeld : heldMid i ∨ p.remaining_time = 0 := by
          by_cases hlt : i < s.idx
          · rcases hinv i p hlt hpo with hh | hh
            · exact Or.inl ((hadm1.held_iff i).mpr (Or.inl hh))
            · exact Or.inr hh
          · exact Or.inl ((hadm1.held_iff i).mpr (Or.inr ⟨by omega, hlt2⟩))
        rcases hmidOrHeld with hm | hz
        · rcases (hpop i).mp hm with heq | hpopd
          · exact absurd heq hic
          · exact Or.inl ((hheld i).mpr (Or.inl ((hadm2.held_iff i).mpr (Or.inl hpopd))))
        · exact Or.inr hz
      · exact Or.inl ((hheld i).mpr (Or.inl ((hadm2.held_iff i).mpr
          (Or.inr ⟨by omega, hi⟩))))

/-- Where a unit-step or queue-driven loop has ended, no process has time remaining. -/
theorem remaining_zero_at_halt (pol : Policy) (hc : pol.coalesces = true) (ps : List Process)
    (n : Nat) (hh : step pol (reach pol n ps).1 = .halt) :
    ∀ p ∈ (reach pol n ps).1.processes, p.remaining_time = 0 := by
  have hreach : reach pol n ps = iterate pol n (init pol ps, []) := rfl
  rcases policy_family pol with hf | hf | ⟨-, key, late, hstep, hinit⟩ |
      ⟨-, held, slice, hstep, hhalt, hinit⟩
  · subst hf; cases hc
  · rcases hf with hf | ⟨a, hf⟩ <;> (subst hf; cases hc)
  · have hinv := iterate_inv pol UnitInv
      (fun s log ev s1 hi hs => unitStep_inv hi (by rw [hstep] at hs; exact hs))
      n (init pol ps) [] (unitInv_init [] (hinit ps).1 (hinit ps).2)
    rw [← hreach] at hinv
    rw [hstep] at hh
    intro p hp
    obtain ⟨i, hi, hpe⟩ := List.getElem_of_mem hp
    exact (unitInv_halt hinv hh i p (by rw [List.getElem?_eq_getElem hi, hpe])).1
  · have hinv := iterate_inv pol
      (fun s _ => ∀ i p, i < s.idx → s.processes[i]? = some p → held s i ∨ p.remaining_time = 0)
      (fun s log ev s1 hi hs => (hstep s ev s1 hs).remaining_inv hi)
      n (init pol ps) [] (by intro i p hi; rw [(hinit ps).1] at hi; omega)
    rw [← hreach] at hinv
    obtain ⟨hlen, hnone⟩ := hhalt _ hh
    intro p hp
    obtain ⟨i, hi, hpe⟩ := List.getElem_of_mem hp
    rcases hinv i p (by omega) (by rw [List.getElem?_eq_getElem hi, hpe]) with hq | hz
    · exact absurd hq (hnone i)
    · exact hz

theorem sum_map_set (f : Process → Int) :
    ∀ {l : List Process} {i : Nat} {a : Process} (b : Process), l[i]? = some a →
      ((l.set i b).map f).sum = (l.map f).sum - f a + f b := by
  intro l
  induction l with
  | nil => intro i a b h; simp at h
  | cons x rest ih =>
    intro i a b h
    cases i with
    | zero =>
      simp only [List.getElem?_cons_zero, Option.some.injEq] at h
      subst h
      simp only [List.set_cons_zero, List.map_cons, List.sum_cons]
      omega
    | succ i =>
      simp only [List.getElem?_cons_succ] at h
      simp only [List.set_cons_succ, List.map_cons, List.sum_cons, ih b h]
      omega

theorem selectScheduler_isSome (scheduler_type : String) (quantum : Int) :
    (selectScheduler scheduler_type quantum).isSome = true ↔
      scheduler_type ∈ ["fcfs", "sjf", "srtf", "rr", "priority", "priority-preemptive",
        "mlq", "mfq", "cfs", "edf"] := by
  unfold selectScheduler
  simp only [List.mem_cons, List.mem_singleton, List.not_mem_nil, or_false]
  constructor
  · intro h
    split_ifs at h <;> simp_all
  · intro h
    rcases h with h | h | h | h | h | h | h | h | h | h <;> (subst h; simp)

/-- C20 as stated fails: with an empty process vector `main` returns failure before it
looks at the token, so that it selects no scheduler for the token "fcfs" and does not
report the token "foo"; and where `std::stoi` throws on `--quantum`, nothing is
reported either. -/
theorem main_selects_as_stated_fails :
    main "fcfs" (some 4) (some 10) [] 0 = .failure ["No processes loaded."] ∧
      main "foo" (some 4) (some 10) [] 0 = .failure ["No processes loaded."] ∧
      main "foo" none (some 10) builtin 0 = .thrown := by
  decide

/-- C20, amended. When `std::stoi` accepts `--quantum` and `--num` and the process
vector is not empty, `main` selects a scheduler (and goes on to create the trace and
`total_time` and to call `schedule`) if and only if the token is one of fcfs, sjf, srtf,
rr, priority, priority-preemptive, mlq, mfq, cfs, edf; for any other token it writes
the token to `std::cerr` and returns failure, without a call of `schedule` and before
the trace and `total_time` are created. -/
theorem main_selects (scheduler_type : String) (quantum num_random : Int)
    (processes : List Process) (fuel : Nat) (hne : processes ≠ []) :
    ((∃ scheduler result,
        main scheduler_type (some quantum) (some num_random) processes fuel
          = .ran scheduler result) ↔
      scheduler_type ∈ ["fcfs", "sjf", "srtf", "rr", "priority", "priority-preemptive",
        "mlq", "mfq", "cfs", "edf"]) ∧
    (scheduler_type ∉ ["fcfs", "sjf", "srtf", "rr", "priority", "priority-preemptive",
        "mlq", "mfq", "cfs", "edf"] →
      main scheduler_type (some quantum) (some num_random) processes fuel
        = .failure
          [ "Unknown scheduler: " ++ scheduler_type,
            "Available: fcfs, sjf, srtf, rr, priority, priority-preemptive, mlq, mfq, cfs, edf" ]) ∧
    (∀ scheduler result,
      main scheduler_type (some quantum) (some num_random) processes fuel
        = .ran scheduler result →
      selectScheduler scheduler_type quantum = some scheduler ∧
        result = schedule scheduler fuel processes) := by
  have hempty : processes.isEmpty = false := by
    cases processes with
    | nil => exact absurd rfl hne
    | cons p rest => rfl
  have hsel := selectScheduler_isSome scheduler_type quantum
  unfold main
  simp only [hempty, Bool.false_eq_true, if_false]
  cases h : selectScheduler scheduler_type quantum with
  | none =>
    rw [h] at hsel
    simp only [Option.isSome_none, Bool.false_eq_true, false_iff] at hsel
    refine ⟨⟨fun ⟨_, _, hc⟩ => (by cases hc), fun hc => absurd hc hsel⟩, fun _ => rfl, ?_⟩
    intro scheduler result hc
    cases hc
  | some pol =>
    rw [h] at hsel
    simp only [Option.isSome_some, true_iff] at hsel
    refine ⟨⟨fun _ => hsel, fun _ => ⟨pol, _, rfl⟩⟩, fun hc => absurd hsel hc, ?_⟩
    intro scheduler result hc
    simp only [MainOutcome.ran.injEq] at hc
    obtain ⟨h1, h2⟩ := hc
    subst h1 h2
    exact ⟨rfl, rfl⟩

theorem main_selects_witness :
    ((∃ scheduler result, main "rr" (some 4) (some 10) builtin 26 = .ran scheduler result) ↔
      "rr" ∈ ["fcfs", "sjf", "srtf", "rr", "priority", "priority-preemptive",
        "mlq", "mfq", "cfs", "edf"]) ∧
    ("rr" ∉ ["fcfs", "sjf", "srtf", "rr", "priority", "priority-preemptive",
        "mlq", "mfq", "cfs", "edf"] →
      main "rr" (some 4) (some 10) builtin 26
        = .failure
          [ "Unknown scheduler: " ++ "rr",
            "Available: fcfs, sjf, srtf, rr, priority, priority-preemptive, mlq, mfq, cfs, edf" ]) ∧
    (∀ scheduler result, main "rr" (some 4) (some 10) builtin 26 = .ran scheduler result →
      selectScheduler "rr" 4 = some scheduler ∧ result = schedule scheduler 26 builtin) :=
  main_selects "rr" 4 10 builtin 26 (by decide)

/-! ## The loops do not read the times they write -/

theorem eraseTimes_idem (p : Process) : eraseTimes (eraseTimes p) = eraseTimes p := rfl

theorem eraseTimes_complete (p : Process) (t : Int) :
    eraseTimes (complete p t) = eraseTimes p := rfl

theorem map_eraseTimes_idem (ps : List Process) :
    (ps.map eraseTimes).map eraseTimes = ps.map eraseTimes := by
  rw [List.map_map]
  rfl

theorem State.erase_idem (s : State) : s.erase.erase = s.erase := by
  simp only [State.erase, map_eraseTimes_idem]

/-- Replacing, at the position of `p` in the erased vector, by a process that erases
like `b` gives the erased vector with `b` at that position. -/
theorem erase_set (ps : List Process) (i : Nat) (a b : Process)
    (h : eraseTimes a = eraseTimes b) :
    ((ps.map eraseTimes).set i a).map eraseTimes = (ps.set i b).map eraseTimes := by
  rw [List.map_set, List.map_set, map_eraseTimes_idem, h]

theorem scanFrom_map (ok : Nat → Process → Bool) (key : Process → Int) (g : Process → Process)
    (hok : ∀ i p, ok i (g p) = ok i p) (hkey : ∀ p, key (g p) = key p) :
    ∀ (ps : List Process) (i : Nat) (best : Option Nat) (m : Int),
      scanFrom ok key (ps.map g) i best m = scanFrom ok key ps i best m := by
  intro ps
  induction ps with
  | nil => intro i best m; rfl
  | cons p rest ih =>
    intro i best m
    simp only [List.map_cons, scanFrom, hok, hkey, ih]

theorem scanMin_map (ok : Nat → Process → Bool) (key : Process → Int) (g : Process → Process)
    (hok : ∀ i p, ok i (g p) = ok i p) (hkey : ∀ p, key (g p) = key p) (ps : List Process) :
    scanMin ok key (ps.map g) = scanMin ok key ps :=
  scanFrom_map ok key g hok hkey ps 0 none INT32_MAX

theorem eraseTimes_fields (p : Process) :
    (eraseTimes p).id = p.id ∧ (eraseTimes p).arrival_time = p.arrival_time ∧
      (eraseTimes p).burst_time = p.burst_time ∧ (eraseTimes p).priority = p.priority ∧
      (eraseTimes p).remaining_time = p.remaining_time ∧
      (eraseTimes p).deadline = p.deadline ∧ (eraseTimes p).vruntime = p.vruntime ∧
      (eraseTimes p).weight = p.weight :=
  ⟨rfl, rfl, rfl, rfl, rfl, rfl, rfl, rfl⟩

theorem fcfs_erase (s : State) :
    (FCFSScheduler.step s.erase).erase = (FCFSScheduler.step s).erase := by
  unfold FCFSScheduler.step
  simp only [State.erase, List.getElem?_map]
  cases s.processes[s.idx]? with
  | none => rfl
  | some p =>
    simp only [Option.map_some', Outcome.erase, State.erase, eraseTimes_fields, List.map_set,
      map_eraseTimes_idem]
    rfl

theorem sjf_erase (s : State) :
    (SJFScheduler.step s.erase).erase = (SJFScheduler.step s).erase := by
  unfold SJFScheduler.step
  have hscan := scanMin_map (fun i p => !(s.completed.getD i false) &&
    decide (p.arrival_time ≤ s.current_time)) (·.burst_time) eraseTimes
    (fun _ _ => rfl) (fun _ => rfl) s.processes
  simp only [State.erase, List.length_map, hscan]
  split
  · cases scanMin (fun i p => !(s.completed.getD i false) &&
        decide (p.arrival_time ≤ s.current_time)) (·.burst_time) s.processes with
    | none => simp only [Outcome.erase, State.erase, map_eraseTimes_idem]
    | some i =>
      simp only [List.getElem?_map]
      cases s.processes[i]? with
      | none => rfl
      | some p =>
        simp only [Option.map_some', Outcome.erase, State.erase, eraseTimes_fields,
          List.map_set, map_eraseTimes_idem]
        rfl
  · rfl

theorem noteDispatch_erase (s : State) (id : String) :
    noteDispatch s.erase id = (noteDispatch s id).erase := by
  unfold noteDispatch switchSegment State.erase
  split <;> rfl

theorem unitStep_erase (key : Process → Int) (f : Int → Int → Bool)
    (hkey : ∀ p, key (eraseTimes p) = key p) (s : State) :
    (unitStep key (fun p t => f p.deadline t) s.erase).erase
      = (unitStep key (fun p t => f p.deadline t) s).erase := by
  unfold unitStep
  have hscan := scanMin_map (fun _ p => decide (p.arrival_time ≤ s.current_time) &&
    decide (p.remaining_time > 0)) key eraseTimes (fun _ _ => rfl) hkey s.processes
  simp only [State.erase, List.length_map, hscan]
  split
  · cases scanMin (fun _ p => decide (p.arrival_time ≤ s.current_time) &&
        decide (p.remaining_time > 0)) key s.processes with
    | none => simp only [Outcome.erase, State.erase, map_eraseTimes_idem]
    | some i =>
      simp only [List.getElem?_map]
      cases s.processes[i]? with
      | none => rfl
      | some p =>
        have hn := noteDispatch_erase s p.id
        simp only [State.erase] at hn
        simp only [Option.map_some', eraseTimes_fields, hn]
        split
        · simp only [Outcome.erase, State.erase, List.map_set, map_eraseTimes_idem]
          rfl
        · simp only [Outcome.erase, State.erase, List.map_set, map_eraseTimes_idem]
          rfl
  · rfl
theorem map_arrival_erase (ps : List Process) :
    (ps.map eraseTimes).map (·.arrival_time) = ps.map (·.arrival_time) := by
  rw [List.map_map]
  rfl

theorem enqueueArrived_congr (current_time : Int) :
    ∀ (l1 l2 : List Process) (idx : Nat) (q : List Nat),
      l1.map (·.arrival_time) = l2.map (·.arrival_time) →
      enqueueArrived current_time l1 idx q = enqueueArrived current_time l2 idx q := by
  intro l1
  induction l1 with
  | nil =>
    intro l2 idx q h
    cases l2 with
    | nil => rfl
    | cons b l2 => simp at h
  | cons a l1 ih =>
    intro l2 idx q h
    cases l2 with
    | nil => simp at h
    | cons b l2 =>
      simp only [List.map_cons, List.cons.injEq] at h
      simp only [enqueueArrived, h.1, ih l2 _ _ h.2]

theorem rr_erase (quantum : Int) (s : State) :
    (RoundRobinScheduler.step quantum s.erase).erase
      = (RoundRobinScheduler.step quantum s).erase := by
  unfold RoundRobinScheduler.step
  simp only [State.erase, List.length_map]
  have h1 : enqueueArrived s.current_time ((s.processes.map eraseTimes).drop s.idx) s.idx
      s.ready_queue
      = enqueueArrived s.current_time (s.processes.drop s.idx) s.idx s.ready_queue :=
    enqueueArrived_congr _ _ _ _ _ (by simp only [List.map_drop, map_arrival_erase])
  rw [h1]
  split
  · rcases enqueueArrived s.current_time (s.processes.drop s.idx) s.idx s.ready_queue with
      ⟨idx1, q⟩
    cases q with
    | nil =>
      simp only [List.getElem?_map]
      cases s.processes[idx1]? <;>
        simp only [Option.map_some', Option.map_none', Outcome.erase, State.erase,
          map_eraseTimes_idem, eraseTimes_fields]
    | cons current q1 =>
      simp only [List.getElem?_map]
      cases s.processes[current]? with
      | none => rfl
      | some p =>
        simp only [Option.map_some', eraseTimes_fields]
        generalize hL : enqueueArrived _ (List.drop _ (List.set (List.map eraseTimes _) _ _)) _ _
          = rL
        generalize hR : enqueueArrived _ _ _ _ = rR
        have hLR : rL = rR := by
          rw [← hL, ← hR]
          exact enqueueArrived_congr _ _ _ _ _
            (by simp only [List.map_drop, List.map_set, map_arrival_erase])
        subst hLR
        obtain ⟨idx2, q2⟩ := rL
        have hsw : switchSegment
            { processes := s.processes.map eraseTimes, gantt := s.gantt,
              current_time := s.current_time, completed := s.completed,
              completed_count := s.completed_count, idx := s.idx,
              ready_queue := s.ready_queue, queues := s.queues, last_id := s.last_id,
              last_start := s.last_start, missed_deadlines := s.missed_deadlines } p.id
            = (switchSegment s p.id).erase := rfl
        simp only [hsw]
        split <;> split <;>
          simp only [Outcome.erase, State.erase, List.map_set, map_eraseTimes_idem] <;> rfl
  · rfl
theorem map_arrival_priority_erase (ps : List Process) :
    (ps.map eraseTimes).map (fun p => (p.arrival_time, p.priority))
      = ps.map (fun p => (p.arrival_time, p.priority)) := by
  rw [List.map_map]
  rfl

theorem mlq_enqueueArrived_congr (current_time : Int) :
    ∀ (l1 l2 : List Process) (idx : Nat) (qs : List (List Nat)),
      l1.map (fun p => (p.arrival_time, p.priority))
        = l2.map (fun p => (p.arrival_time, p.priority)) →
      MultilevelQueueScheduler.enqueueArrived current_time l1 idx qs
        = MultilevelQueueScheduler.enqueueArrived current_time l2 idx qs := by
  intro l1
  induction l1 with
  | nil =>
    intro l2 idx qs h
    cases l2 with
    | nil => rfl
    | cons b l2 => simp at h
  | cons a l1 ih =>
    intro l2 idx qs h
    cases l2 with
    | nil => simp at h
    | cons b l2 =>
      simp only [List.map_cons, List.cons.injEq, Prod.mk.injEq] at h
      simp only [MultilevelQueueScheduler.enqueueArrived, h.1.1, h.1.2]
      split
      · cases pushAt qs (MultilevelQueueScheduler.level b.priority) idx with
        | none => rfl
        | some qs1 => exact ih l2 _ _ h.2
      · rfl

theorem mfq_enqueueArrived_congr (current_time : Int) :
    ∀ (l1 l2 : List Process) (idx : Nat) (qs : List (List Nat)),
      l1.map (·.arrival_time) = l2.map (·.arrival_time) →
      MFQScheduler.enqueueArrived current_time l1 idx qs
        = MFQScheduler.enqueueArrived current_time l2 idx qs := by
  intro l1
  induction l1 with
  | nil =>
    intro l2 idx qs h
    cases l2 with
    | nil => rfl
    | cons b l2 => simp at h
  | cons a l1 ih =>
    intro l2 idx qs h
    cases l2 with
    | nil => simp at h
    | cons b l2 =>
      simp only [List.map_cons, List.cons.injEq] at h
      simp only [MFQScheduler.enqueueArrived, h.1]
      split
      · cases pushAt qs 0 idx with
        | none => rfl
        | some qs1 => exact ih l2 _ _ h.2
      · rfl

theorem anyWork_erase (s : State) : anyWork s.erase = anyWork s := by
  simp only [anyWork, State.erase, List.length_map]

theorem mlq_erase (s : State) :
    (MultilevelQueueScheduler.step s.erase).erase = (MultilevelQueueScheduler.step s).erase := by
  unfold MultilevelQueueScheduler.step
  rw [anyWork_erase]
  simp only [State.erase]
  have h1 : MultilevelQueueScheduler.enqueueArrived s.current_time
      ((s.processes.map eraseTimes).drop s.idx) s.idx s.queues
      = MultilevelQueueScheduler.enqueueArrived s.current_time (s.processes.drop s.idx) s.idx
        s.queues :=
    mlq_enqueueArrived_congr _ _ _ _ _ (by simp only [List.map_drop, map_arrival_priority_erase])
  rw [h1]
  split
  · rcases MultilevelQueueScheduler.enqueueArrived s.current_time (s.processes.drop s.idx) s.idx
      s.queues with _ | ⟨idx1, qs1⟩
    · rfl
    · simp only
      rcases popFirst qs1 with _ | ⟨current, lvl, qs2⟩
      · simp only [List.getElem?_map]
        cases s.processes[idx1]? <;>
          simp only [Option.map_some', Option.map_none', Outcome.erase, State.erase,
            map_eraseTimes_idem, eraseTimes_fields]
      · simp only [List.getElem?_map]
        cases s.processes[current]? with
        | none => rfl
        | some p =>
          have hn := noteDispatch_erase s p.id
          simp only [State.erase] at hn
          simp only [Option.map_some', eraseTimes_fields, hn]
          generalize hL : MultilevelQueueScheduler.enqueueArrived _
            (List.drop _ (List.set (List.map eraseTimes _) _ _)) _ _ = rL
          generalize hR : MultilevelQueueScheduler.enqueueArrived _ _ _ _ = rR
          have hLR : rL = rR := by
            rw [← hL, ← hR]
            exact mlq_enqueueArrived_congr _ _ _ _ _
              (by simp only [List.map_drop, List.map_set, map_arrival_priority_erase])
          subst hLR
          rcases rL with _ | ⟨idx2, qs3⟩
          · rfl
          · simp only
            split
            · cases pushAt qs3 (MultilevelQueueScheduler.level p.priority) current with
              | none => rfl
              | some qs4 =>
                simp only [Outcome.erase, State.erase, List.map_set, map_eraseTimes_idem]
                rfl
            · simp only [Outcome.erase, State.erase, List.map_set, map_eraseTimes_idem]
              rfl
  · rfl

theorem mfq_erase (s : State) :
    (MFQScheduler.step s.erase).erase = (MFQScheduler.step s).erase := by
  unfold MFQScheduler.step
  rw [anyWork_erase]
  simp only [State.erase]
  have h1 : MFQScheduler.enqueueArrived s.current_time
      ((s.processes.map eraseTimes).drop s.idx) s.idx s.queues
      = MFQScheduler.enqueueArrived s.current_time (s.processes.drop s.idx) s.idx s.queues :=
    mfq_enqueueArrived_congr _ _ _ _ _ (by simp only [List.map_drop, map_arrival_erase])
  rw [h1]
  split
  · rcases MFQScheduler.enqueueArrived s.current_time (s.processes.drop s.idx) s.idx
      s.queues with _ | ⟨idx1, qs1⟩
    · rfl
    · simp only
      rcases popFirst qs1 with _ | ⟨current, q_level, qs2⟩
      · simp only [List.getElem?_map]
        cases s.processes[idx1]? <;>
          simp only [Option.map_some', Option.map_none', Outcome.erase, State.erase,
            map_eraseTimes_idem, eraseTimes_fields]
      · simp only [List.getElem?_map]
        cases s.processes[current]? with
        | none => rfl
        | some p =>
          cases MFQScheduler.quantum[q_level]? with
          | none => rfl
          | some slice =>
            have hn := noteDispatch_erase s p.id
            simp only [State.erase] at hn
            simp only [Option.map_some', eraseTimes_fields, hn]
            generalize hL : MFQScheduler.enqueueArrived _
              (List.drop _ (List.set (List.map eraseTimes _) _ _)) _ _ = rL
            generalize hR : MFQScheduler.enqueueArrived _ _ _ _ = rR
            have hLR : rL = rR := by
              rw [← hL, ← hR]
              exact mfq_enqueueArrived_congr _ _ _ _ _
                (by simp only [List.map_drop, List.map_set, map_arrival_erase])
            subst hLR
            rcases rL with _ | ⟨idx2, qs3⟩
            · rfl
            · simp only
              split
              · cases pushAt qs3 (min ((q_level : Int) + 1) 2) current with
                | none => rfl
                | some qs4 =>
                  simp only [Outcome.erase, State.erase, List.map_set, map_eraseTimes_idem]
                  rfl
              · simp only [Outcome.erase, State.erase, List.map_set, map_eraseTimes_idem]
                rfl
  · rfl
theorem map_vruntime_erase (ps : List Process) :
    (ps.map eraseTimes).map (·.vruntime) = ps.map (·.vruntime) := by
  rw [List.map_map]
  rfl

theorem cmp_congr {ps1 ps2 : List Process}
    (h : ps1.map (·.vruntime) = ps2.map (·.vruntime)) (a b : Nat) :
    cmp ps1 a b = cmp ps2 a b := by
  have hv : ∀ i, vruntimeAt ps1 i = vruntimeAt ps2 i := by
    intro i
    have hi := congrArg (fun l => l[i]?) h
    simp only [List.getElem?_map] at hi
    unfold vruntimeAt
    cases h1 : ps1[i]? with
    | none =>
      cases h2 : ps2[i]? with
      | none => rfl
      | some q => rw [h1, h2] at hi; simp at hi
    | some p =>
      cases h2 : ps2[i]? with
      | none => rw [h1, h2] at hi; simp at hi
      | some q =>
        rw [h1, h2] at hi
        simp only [Option.map_some', Option.some.injEq] at hi
        exact hi
  simp only [cmp, hv]

theorem pushHeapLoop_congr {ps1 ps2 : List Process}
    (h : ps1.map (·.vruntime) = ps2.map (·.vruntime)) (value : Nat) :
    ∀ (n : Nat) (c : List Nat) (hole : Nat),
      pushHeapLoop ps1 value n c hole = pushHeapLoop ps2 value n c hole := by
  intro n
  induction n with
  | zero => intro c hole; rfl
  | succ n ih => intro c hole; simp only [pushHeapLoop, cmp_congr h, ih]

theorem adjustHeapLoop_congr {ps1 ps2 : List Process}
    (h : ps1.map (·.vruntime) = ps2.map (·.vruntime)) (len : Nat) :
    ∀ (n : Nat) (c : List Nat) (hole : Nat),
      adjustHeapLoop ps1 len n c hole = adjustHeapLoop ps2 len n c hole := by
  intro n
  induction n with
  | zero => intro c hole; rfl
  | succ n ih => intro c hole; simp only [adjustHeapLoop, cmp_congr h, ih]

theorem heapPush_congr {ps1 ps2 : List Process}
    (h : ps1.map (·.vruntime) = ps2.map (·.vruntime)) (c : List Nat) (x : Nat) :
    heapPush ps1 c x = heapPush ps2 c x := by
  simp only [heapPush, pushHeapLoop_congr h]

theorem heapPop_congr {ps1 ps2 : List Process}
    (h : ps1.map (·.vruntime) = ps2.map (·.vruntime)) (c : List Nat) :
    heapPop ps1 c = heapPop ps2 c := by
  simp only [heapPop, adjustHeap, adjustHeapLoop_congr h, pushHeapLoop_congr h]

theorem cfs_enqueueArrived_congr {ps1 ps2 : List Process}
    (h : ps1.map (·.vruntime) = ps2.map (·.vruntime)) (current_time : Int) :
    ∀ (l1 l2 : List Process) (idx : Nat) (q : List Nat),
      l1.map (·.arrival_time) = l2.map (·.arrival_time) →
      CFSScheduler.enqueueArrived ps1 current_time l1 idx q
        = CFSScheduler.enqueueArrived ps2 current_time l2 idx q := by
  intro l1
  induction l1 with
  | nil =>
    intro l2 idx q hl
    cases l2 with
    | nil => rfl
    | cons b l2 => simp at hl
  | cons a l1 ih =>
    intro l2 idx q hl
    cases l2 with
    | nil => simp at hl
    | cons b l2 =>
      simp only [List.map_cons, List.cons.injEq] at hl
      simp only [CFSScheduler.enqueueArrived, hl.1, heapPush_congr h, ih l2 _ _ hl.2]

theorem cfs_erase (s : State) :
    (CFSScheduler.step s.erase).erase = (CFSScheduler.step s).erase := by
  unfold CFSScheduler.step
  simp only [State.erase, List.length_map]
  have h1 : CFSScheduler.enqueueArrived (s.processes.map eraseTimes) s.current_time
      ((s.processes.map eraseTimes).drop s.idx) s.idx s.ready_queue
      = CFSScheduler.enqueueArrived s.processes s.current_time (s.processes.drop s.idx) s.idx
        s.ready_queue :=
    cfs_enqueueArrived_congr (map_vruntime_erase _) _ _ _ _ _
      (by simp only [List.map_drop, map_arrival_erase])
  rw [h1]
  split
  · rcases CFSScheduler.enqueueArrived s.processes s.current_time (s.processes.drop s.idx)
      s.idx s.ready_queue with ⟨idx1, q⟩
    cases q with
    | nil =>
      simp only [List.getElem?_map]
      cases s.processes[idx1]? <;>
        simp only [Option.map_some', Option.map_none', Outcome.erase, State.erase,
          map_eraseTimes_idem, eraseTimes_fields]
    | cons current rest =>
      simp only [List.getElem?_map]
      cases s.processes[current]? with
      | none => rfl
      | some p =>
        have hn := noteDispatch_erase s p.id
        simp only [State.erase] at hn
        simp only [Option.map_some', eraseTimes_fields, hn,
          heapPop_congr (map_vruntime_erase s.processes)]
        split
        · rfl
        · generalize hL : CFSScheduler.enqueueArrived (List.set (List.map eraseTimes _) _ _) _
            _ _ _ = rL
          generalize hR : CFSScheduler.enqueueArrived _ _ _ _ _ = rR
          have hLR : rL = rR := by
            rw [← hL, ← hR]
            exact cfs_enqueueArrived_congr
              (by simp only [List.map_set, map_vruntime_erase]) _ _ _ _ _
              (by simp only [List.map_drop, List.map_set, map_arrival_erase])
          subst hLR
          obtain ⟨idx2, q2⟩ := rL
          simp only
          split
          · simp only [Outcome.erase, State.erase, List.map_set, map_eraseTimes_idem]
            generalize hL2 : heapPush (List.set (List.map eraseTimes _) _ _) _ _ = hl
            generalize hR2 : heapPush _ _ _ = hr
            have hlr : hl = hr := by
              rw [← hL2, ← hR2]
              exact heapPush_congr (by simp only [List.map_set, map_vruntime_erase]) _ _
            subst hlr
            rfl
          · simp only [Outcome.erase, State.erase, List.map_set, map_eraseTimes_idem]
            rfl
  · rfl

/-- An iteration of Round Robin leaves alone every field other than `remaining_time`,
`turnaround_time` and `waiting_time`. -/
theorem rr_map {β : Type} (f : Process → β)
    (hf : ∀ (p : Process) (r t w : Int),
      f { p with remaining_time := r, turnaround_time := t, waiting_time := w } = f p)
    {quantum : Int} {s s1 : State} {ev : Option Dispatch}
    (h : RoundRobinScheduler.step quantum s = .next ev s1) :
    s1.processes.map f = s.processes.map f := by
  unfold RoundRobinScheduler.step at h
  split at h
  · split at h
    · simp only [Outcome.next.injEq] at h
      obtain ⟨-, rfl⟩ := h
      rfl
    · split at h
      · cases h
      · rename_i p hp
        dsimp only at h
        generalize enqueueArrived _ _ _ _ = r at h
        obtain ⟨idx2, q2⟩ := r
        dsimp only at h
        split at h
        · simp only [Outcome.next.injEq] at h
          obtain ⟨-, rfl⟩ := h
          exact map_set_of_eq f hp (hf p _ p.turnaround_time p.waiting_time)
        · simp only [Outcome.next.injEq] at h
          obtain ⟨-, rfl⟩ := h
          exact map_set_of_eq f hp (hf p _ _ _)
  · cases h

/-- An iteration of MLQ leaves alone every field other than `remaining_time`,
`turnaround_time` and `waiting_time`. -/
theorem mlq_map {β : Type} (f : Process → β)
    (hf : ∀ (p : Process) (r t w : Int),
      f { p with remaining_time := r, turnaround_time := t, waiting_time := w } = f p)
    {s s1 : State} {ev : Option Dispatch}
    (h : MultilevelQueueScheduler.step s = .next ev s1) :
    s1.processes.map f = s.processes.map f := by
  unfold MultilevelQueueScheduler.step at h
  split at h
  · split at h
    · cases h
    · split at h
      · simp only [Outcome.next.injEq] at h
        obtain ⟨-, rfl⟩ := h
        rfl
      · split at h
        · cases h
        · rename_i p hp
          dsimp only at h
          split at h
          · cases h
          · split at h
            · split at h
              · cases h
              · simp only [Outcome.next.injEq] at h
                obtain ⟨-, rfl⟩ := h
                exact map_set_of_eq f hp (hf p _ p.turnaround_time p.waiting_time)
            · simp only [Outcome.next.injEq] at h
              obtain ⟨-, rfl⟩ := h
              exact map_set_of_eq f hp (hf p _ _ _)
  · cases h

/-- An iteration of MFQ leaves alone every field other than `remaining_time`,
`turnaround_time` and `waiting_time`. -/
theorem mfq_map {β : Type} (f : Process → β)
    (hf : ∀ (p : Process) (r t w : Int),
      f { p with remaining_time := r, turnaround_time := t, waiting_time := w } = f p)
    {s s1 : State} {ev : Option Dispatch}
    (h : MFQScheduler.step s = .next ev s1) :
    s1.processes.map f = s.processes.map f := by
  unfold MFQScheduler.step at h
  split at h
  · split at h
    · cases h
    · split at h
      · simp only [Outcome.next.injEq] at h
        obtain ⟨-, rfl⟩ := h
        rfl
      · split at h
        · rename_i p slice hp hsl
          dsimp only at h
          split at h
          · cases h
          · split at h
            · split at h
              · cases h
              · simp only [Outcome.next.injEq] at h
                obtain ⟨-, rfl⟩ := h
                exact map_set_of_eq f hp (hf p _ p.turnaround_time p.waiting_time)
            · simp only [Outcome.next.injEq] at h
              obtain ⟨-, rfl⟩ := h
              exact map_set_of_eq f hp (hf p _ _ _)
        · cases h
  · cases h

/-! ## Running `schedule` again on the vector it has written -/

/-- When `schedule` returns, every process is settled. -/
theorem settled_at_return (pol : Policy) (ps : List Process) (fuel : Nat) (r : Result)
    (h : schedule pol fuel ps = some r) :
    ∀ i p, r.processes[i]? = some p → Settled r.dispatches i p := by
  obtain ⟨hh, hr⟩ := schedule_eq_some h
  have hreach : reach pol fuel ps = iterate pol fuel (init pol ps, []) := rfl
  have hbound : ∀ i p, r.processes[i]? = some p →
      i < (reach pol fuel ps).1.processes.length := by
    intro i p hp
    rw [hr] at hp
    rcases Nat.lt_or_ge i (reach pol fuel ps).1.processes.length with hlt | hge
    · exact hlt
    · simp only [finish] at hp
      rw [List.getElem?_eq_none hge] at hp
      cases hp
  have hsel : (∀ s log ev s1, SelInv s log → step pol s = .next ev s1 →
        SelInv s1 (record ev log)) →
      (∀ s, step pol s = .halt → ¬ s.completed_count < s.processes.length) →
      init pol ps = { processes := ps, completed := List.replicate ps.length false } →
      ∀ i p, r.processes[i]? = some p → Settled r.dispatches i p := by
    intro hstep hhalt hinit
    have hinv := iterate_inv pol SelInv hstep fuel (init pol ps) []
      (by rw [hinit]; exact selInv_init ps [])
    rw [← hreach] at hinv
    intro i p hp
    rw [hr] at hp ⊢
    exact selInv_halt hinv (hhalt _ hh) i p hp
  rcases policy_family pol with hf | hf | ⟨-, key, late, hstep, hinit⟩ |
      ⟨-, held, slice, hstep, hhalt, hinit⟩
  · subst hf
    have hinv := iterate_inv .fcfs
      (fun s log => ∀ i p, i < s.idx → s.processes[i]? = some p → Settled log i p)
      (fun s log ev s1 hi hs => fcfs_settled_inv hs hi)
      fuel (init .fcfs ps) [] (by intro i p hi; simp [init] at hi)
    rw [← hreach] at hinv
    have hlen := fcfs_halt hh
    intro i p hp
    have hi := hbound i p hp
    rw [hr] at hp ⊢
    exact hinv i p (by omega) hp
  · rcases hf with hf | ⟨a, hf⟩
    · subst hf
      exact hsel (fun s log ev s1 hi hs => sjf_inv hi hs) (fun s hs => sjf_halt hs) rfl
    · subst hf
      exact hsel (fun s log ev s1 hi hs => priority_inv hi hs) (fun s hs => priority_halt hs) rfl
  · have hinv := iterate_inv pol UnitInv
      (fun s log ev s1 hi hs => unitStep_inv hi (by rw [hstep] at hs; exact hs))
      fuel (init pol ps) [] (unitInv_init [] (hinit ps).1 (hinit ps).2)
    rw [← hreach] at hinv
    rw [hstep] at hh
    intro i p hp
    rw [hr] at hp ⊢
    exact (unitInv_halt hinv hh i p hp).2.2
  · have hinv := iterate_inv pol
      (fun s log => ∀ i p, i < s.idx → s.processes[i]? = some p → held s i ∨ Settled log i p)
      (fun s log ev s1 hi hs => (hstep s ev s1 hs).settled_inv hi)
      fuel (init pol ps) [] (by intro i p hi; rw [(hinit ps).1] at hi; omega)
    rw [← hreach] at hinv
    obtain ⟨hlen, hnone⟩ := hhalt _ hh
    intro i p hp
    have hi := hbound i p hp
    rw [hr] at hp ⊢
    rcases hinv i p (by omega) hp with hq | hs
    · exact absurd hq (hnone i)
    · exact hs

/-- Under every policy but non-preemptive Priority, an iteration on the erased state
does what it does on the state, up to erasure. -/
theorem step_erase (pol : Policy) (hpol : ∀ a, pol ≠ .priority a) (s : State) :
    (step pol s.erase).erase = (step pol s).erase := by
  cases pol with
  | fcfs => exact fcfs_erase s
  | sjf => exact sjf_erase s
  | srtf => exact unitStep_erase (·.remaining_time) (fun _ _ => false) (fun _ => rfl) s
  | rr quantum => exact rr_erase quantum s
  | priority a => exact absurd rfl (hpol a)
  | priorityPreemptive => exact unitStep_erase (·.priority) (fun _ _ => false) (fun _ => rfl) s
  | mlq => exact mlq_erase s
  | mfq => exact mfq_erase s
  | cfs => exact cfs_erase s
  | edf =>
    exact unitStep_erase (·.deadline) (fun d now => decide (now > d)) (fun _ => rfl) s

theorem Outcome.erase_eq_next {o : Outcome} {ev : Option Dispatch} {t : State}
    (h : o.erase = .next ev t) : ∃ s1, o = .next ev s1 ∧ s1.erase = t := by
  cases o with
  | halt => cases h
  | fault => cases h
  | next ev1 s1 =>
    simp only [Outcome.erase, Outcome.next.injEq] at h
    exact ⟨s1, by rw [h.1], h.2⟩

theorem Outcome.erase_eq_halt {o : Outcome} (h : o.erase = .halt) : o = .halt := by
  cases o with
  | halt => rfl
  | fault => cases h
  | next ev1 s1 => cases h

theorem Outcome.erase_eq_fault {o : Outcome} (h : o.erase = .fault) : o = .fault := by
  cases o with
  | halt => cases h
  | fault => rfl
  | next ev1 s1 => cases h

/-- Two states that differ in the written times only are taken alike by an
iteration. -/
theorem step_erase_eq (pol : Policy) (hpol : ∀ a, pol ≠ .priority a) {s t : State}
    (h : s.erase = t.erase) : (step pol s).erase = (step pol t).erase := by
  rw [← step_erase pol hpol s, ← step_erase pol hpol t, h]

/-- Two states that differ in the written times only are taken alike by any number of
iterations: the same dispatches are made, and the states reached differ in the
written times only. -/
theorem iterate_erase (pol : Policy) (hpol : ∀ a, pol ≠ .priority a) :
    ∀ (n : Nat) (s t : State) (log : List Dispatch), s.erase = t.erase →
      (iterate pol n (s, log)).1.erase = (iterate pol n (t, log)).1.erase ∧
      (iterate pol n (s, log)).2 = (iterate pol n (t, log)).2 := by
  intro n
  induction n with
  | zero => intro s t log h; exact ⟨h, rfl⟩
  | succ n ih =>
    intro s t log h
    have he := step_erase_eq pol hpol h
    cases hs : step pol s with
    | next ev s1 =>
      rw [hs] at he
      obtain ⟨t1, ht, ht1⟩ := Outcome.erase_eq_next he.symm
      rw [iterate_next hs, iterate_next ht]
      exact ih s1 t1 _ ht1.symm
    | halt =>
      rw [hs] at he
      have ht := Outcome.erase_eq_halt he.symm
      simp only [iterate, hs, ht]
      exact ⟨h, trivial⟩
    | fault =>
      rw [hs] at he
      have ht := Outcome.erase_eq_fault he.symm
      simp only [iterate, hs, ht]
      exact ⟨h, trivial⟩

/-- An iteration of FCFS or SJF leaves alone every field other than `turnaround_time`
and `waiting_time`. -/
theorem step_map_times {β : Type} (f : Process → β)
    (hf : ∀ (p : Process) (t w : Int),
      f { p with turnaround_time := t, waiting_time := w } = f p)
    {pol : Policy} (hpol : pol = .fcfs ∨ pol = .sjf) {s s1 : State} {ev : Option Dispatch}
    (h : step pol s = .next ev s1) :
    s1.processes.map f = s.processes.map f := by
  rcases hpol with hp | hp
  · subst hp
    obtain ⟨p, hp, -, hs1⟩ := fcfs_next h
    subst hs1
    exact map_set_of_eq f hp (hf p _ _)
  · subst hp
    rcases sjf_next h with ⟨-, -, hs1⟩ | ⟨i, p, -, hp, -, hs1⟩
    · subst hs1; rfl
    · subst hs1
      exact map_set_of_eq f hp (hf p _ _)

/-- A projection of the processes that every iteration keeps, and that the statements
before the loop keep, is after any number of iterations as in the workload. -/
theorem reach_map_of (pol : Policy) {β : Type} (f : Process → β) (ps : List Process)
    (hstep : ∀ s ev s1, step pol s = .next ev s1 → s1.processes.map f = s.processes.map f)
    (hinit : (init pol ps).processes.map f = ps.map f) (n : Nat) :
    (reach pol n ps).1.processes.map f = ps.map f := by
  refine iterate_inv pol (fun s _ => s.processes.map f = ps.map f) ?_ n (init pol ps) [] hinit
  intro s log ev s1 hinv hs
  rw [← hinv]
  exact hstep s ev s1 hs

/-- The statements before the loop bring the vector that a run has written to the
state, up to the written times, that they bring the workload to. -/
theorem init_erase_reach (pol : Policy) (hpol : ∀ a, pol ≠ .priority a) (ps : List Process)
    (n : Nat) :
    (init pol (reach pol n ps).1.processes).erase = (init pol ps).erase := by
  have hreset : ∀ (pol : Policy),
      (∀ s ev s1, step pol s = .next ev s1 →
        s1.processes.map (eraseTimes ∘ fun p => { p with remaining_time := p.burst_time })
          = s.processes.map (eraseTimes ∘ fun p => { p with remaining_time := p.burst_time })) →
      (init pol ps).processes = resetRemaining ps →
      (resetRemaining (reach pol n ps).1.processes).map eraseTimes
        = (resetRemaining ps).map eraseTimes := by
    intro pol hstep hinit
    simp only [resetRemaining, List.map_map]
    refine reach_map_of pol _ ps hstep ?_ n
    rw [hinit]
    simp only [resetRemaining, List.map_map]
    rfl
  cases pol with
  | fcfs =>
    simp only [init, State.erase]
    congr 1
    exact reach_map_of .fcfs eraseTimes ps
      (fun s ev s1 hs => step_map_times eraseTimes (fun _ _ _ => rfl) (Or.inl rfl) hs) rfl n
  | sjf =>
    simp only [init, State.erase]
    have hlen := congrArg List.length (reach_id .sjf ps n)
    simp only [List.length_map] at hlen
    rw [hlen]
    congr 1
    exact reach_map_of .sjf eraseTimes ps
      (fun s ev s1 hs => step_map_times eraseTimes (fun _ _ _ => rfl) (Or.inr rfl) hs) rfl n
  | priority a => exact absurd rfl (hpol a)
  | srtf =>
    simp only [init, State.erase]
    congr 1
    exact hreset .srtf (fun s ev s1 hs => unitStep_map
      (eraseTimes ∘ fun p => { p with remaining_time := p.burst_time })
      (fun _ _ _ _ => rfl)
      (show unitStep (·.remaining_time) (fun _ _ => false) s = .next ev s1 from hs)) rfl
  | priorityPreemptive =>
    simp only [init, State.erase]
    congr 1
    exact hreset .priorityPreemptive (fun s ev s1 hs => unitStep_map
      (eraseTimes ∘ fun p => { p with remaining_time := p.burst_time })
      (fun _ _ _ _ => rfl)
      (show unitStep (·.priority) (fun _ _ => false) s = .next ev s1 from hs)) rfl
  | rr quantum =>
    simp only [init, State.erase]
    congr 1
    exact hreset (.rr quantum) (fun s ev s1 hs => rr_map
      (eraseTimes ∘ fun p => { p with remaining_time := p.burst_time })
      (fun _ _ _ _ => rfl) hs) rfl
  | mlq =>
    simp only [init, State.erase]
    congr 1
    exact hreset .mlq (fun s ev s1 hs => mlq_map
      (eraseTimes ∘ fun p => { p with remaining_time := p.burst_time })
      (fun _ _ _ _ => rfl) hs) rfl
  | mfq =>
    simp only [init, State.erase, MFQScheduler.prepare, List.map_map]
    congr 1
    refine reach_map_of .mfq
      (eraseTimes ∘ fun p => { p with remaining_time := p.burst_time, priority := 0 }) ps
      (fun s ev s1 hs => mfq_map
        (eraseTimes ∘ fun p => { p with remaining_time := p.burst_time, priority := 0 })
        (fun _ _ _ _ => rfl) hs) ?_ n
    simp only [init, MFQScheduler.prepare, List.map_map]
    rfl
  | cfs =>
    simp only [init, State.erase, CFSScheduler.prepare, List.map_map]
    congr 1
    refine reach_map_of .cfs
      (eraseTimes ∘ fun p => { p with remaining_time := p.burst_time, vruntime := 0 }) ps
      (fun s ev s1 hs => step_map_keep
        (eraseTimes ∘ fun p => { p with remaining_time := p.burst_time, vruntime := 0 })
        (fun _ _ _ _ _ => rfl) (by intro a h; cases h) hs)
      ?_ n
    simp only [init, CFSScheduler.prepare, List.map_map]
    rfl
  | edf =>
    simp only [init, State.erase, EDFScheduler.prepare, List.map_map]
    congr 1
    refine reach_map_of .edf
      (eraseTimes ∘ fun p => { p with
        remaining_time := p.burst_time
        deadline := if p.deadline = 0 then p.arrival_time + p.burst_time * 2 else p.deadline })
      ps
      (fun s ev s1 hs => unitStep_map
        (eraseTimes ∘ fun p => { p with
          remaining_time := p.burst_time
          deadline := if p.deadline = 0 then p.arrival_time + p.burst_time * 2
            else p.deadline })
        (fun _ _ _ _ => rfl)
        (show unitStep (·.deadline) (fun p now => decide (now > p.deadline)) s = .next ev s1
          from hs)) ?_ n
    simp only [init, EDFScheduler.prepare, List.map_map]
    apply List.map_congr_left
    intro p _
    simp only [Function.comp, eraseTimes]
    by_cases hd : p.deadline = 0
    · simp only [hd, if_true, ite_self]
    · simp only [hd, if_false]
theorem eraseTimes_inj {p q : Process} (h : eraseTimes p = eraseTimes q)
    (hw : p.waiting_time = q.waiting_time) (ht : p.turnaround_time = q.turnaround_time) :
    p = q := by
  obtain ⟨i1, a1, b1, pr1, r1, w1, t1, d1, v1, wt1, l1, io1, in1⟩ := p
  obtain ⟨i2, a2, b2, pr2, r2, w2, t2, d2, v2, wt2, l2, io2, in2⟩ := q
  simp only [eraseTimes, Process.mk.injEq] at h
  simp only at hw ht
  simp only [Process.mk.injEq]
  exact ⟨h.1, h.2.1, h.2.2.1, h.2.2.2.1, h.2.2.2.2.1, hw, ht, h.2.2.2.2.2.2.2⟩

theorem State.erase_inj {s t : State} (h : s.erase = t.erase)
    (hp : s.processes = t.processes) : s = t := by
  obtain ⟨p1, g1, c1, cm1, cc1, i1, rq1, qs1, li1, ls1, md1⟩ := s
  obtain ⟨p2, g2, c2, cm2, cc2, i2, rq2, qs2, li2, ls2, md2⟩ := t
  simp only [State.erase, State.mk.injEq] at h
  simp only at hp
  simp only [State.mk.injEq]
  exact ⟨hp, h.2⟩

/-- C15 as stated fails: non-preemptive Priority ages priorities in the caller's
vector, so a second call starts from other priorities.  On three processes that
arrive together, the first call runs P1, P3, P2 and the second call, on the vector
that the first has written, runs P1, P2, P3. -/
theorem rerun_as_stated_fails :
    (schedule (.priority 5) 3 agingWorkload).map (·.gantt)
        = some [("P1", 5), ("P3", 5), ("P2", 5)] ∧
      ((schedule (.priority 5) 3 agingWorkload).bind
          fun r => schedule (.priority 5) 3 r.processes).map (·.gantt)
        = some [("P1", 5), ("P2", 5), ("P3", 5)] := by
  decide

/-- C15, amended. Under each policy of `simulator.cpp` other than non-preemptive
Priority (aging), when `schedule` has returned, a second call of `schedule` (same
policy, same parameters, fresh trace) on the process vector that the first call has
written returns the result of the first call: the same trace, the same waiting and
turnaround time for every process, the same `total_time` (and the same process
vector, dispatches and count of missed deadlines). -/
theorem rerun_reproduces (pol : Policy) (hpol : ∀ a, pol ≠ .priority a) (fuel : Nat)
    (ps : List Process) (r : Result) (h : schedule pol fuel ps = some r) :
    schedule pol fuel r.processes = some r := by
  obtain ⟨hh, hr⟩ := schedule_eq_some h
  have hrp : r.processes = (reach pol fuel ps).1.processes := by rw [hr]; rfl
  have he0 := init_erase_reach pol hpol ps fuel
  rw [← hrp] at he0
  obtain ⟨he, hlog⟩ := iterate_erase pol hpol fuel (init pol r.processes) (init pol ps) [] he0
  have hh2 : step pol (reach pol fuel r.processes).1 = .halt := by
    apply Outcome.erase_eq_halt
    have := step_erase_eq pol hpol he
    rw [show step pol (iterate pol fuel (init pol ps, [])).1 = .halt from hh] at this
    exact this
  have h2 : schedule pol fuel r.processes
      = some (finish pol (reach pol fuel r.processes).1 (reach pol fuel r.processes).2) :=
    schedule_of_iterate (Prod.ext rfl rfl) hh2
  have hset1 := settled_at_return pol ps fuel r h
  have hset2 := settled_at_return pol r.processes fuel _ h2
  have hmap : (reach pol fuel r.processes).1.processes.map eraseTimes
      = (reach pol fuel ps).1.processes.map eraseTimes := by
    have := congrArg State.processes he
    exact this
  have hprocs : (reach pol fuel r.processes).1.processes = (reach pol fuel ps).1.processes := by
    apply List.ext_getElem?
    intro i
    have hi := congrArg (fun l => l[i]?) hmap
    simp only [List.getElem?_map] at hi
    cases h1 : (reach pol fuel r.processes).1.processes[i]? with
    | none =>
      cases h0 : (reach pol fuel ps).1.processes[i]? with
      | none => rfl
      | some p => rw [h1, h0] at hi; simp at hi
    | some q =>
      cases h0 : (reach pol fuel ps).1.processes[i]? with
      | none => rw [h1, h0] at hi; simp at hi
      | some p =>
        rw [h1, h0] at hi
        simp only [Option.map_some', Option.some.injEq] at hi
        obtain ⟨hq1, hq2⟩ := hset2 i q h1
        obtain ⟨hp1, hp2⟩ := hset1 i p (by rw [hrp]; exact h0)
        have hrd : r.dispatches = (reach pol fuel ps).2 := by rw [hr]; rfl
        have hd : (finish pol (reach pol fuel r.processes).1
            (reach pol fuel r.processes).2).dispatches = r.dispatches := by
          rw [hrd]
          exact hlog
        rw [hd, hp2] at hq2
        have harr : q.arrival_time = p.arrival_time := by
          show (eraseTimes q).arrival_time = (eraseTimes p).arrival_time
          rw [hi]
        have hbur : q.burst_time = p.burst_time := by
          show (eraseTimes q).burst_time = (eraseTimes p).burst_time
          rw [hi]
        have hsum : p.arrival_time + p.turnaround_time = q.arrival_time + q.turnaround_time :=
          Option.some.inj hq2
        rw [eraseTimes_inj hi (by omega) (by omega)]
  have hstate : (reach pol fuel r.processes).1 = (reach pol fuel ps).1 :=
    State.erase_inj he hprocs
  have hlog2 : (reach pol fuel r.processes).2 = (reach pol fuel ps).2 := hlog
  rw [h2, hstate, hlog2, ← hr]

theorem rerun_reproduces_witness :
    ∃ r, schedule (.rr 4) 26 builtin = some r ∧ schedule (.rr 4) 26 r.processes = some r :=
  (Option.isSome_iff_exists.mp (by decide : (schedule (.rr 4) 26 builtin).isSome = true)).imp
    fun r hr => ⟨hr, rerun_reproduces (.rr 4) (by intro a h; cases h) 26 builtin r hr⟩

/-! ## The Round Robin loop of `rr.cpp` and that of `simulator.cpp` -/

theorem rrcpp_iterate_next {quantum : Int} {s s1 : RR.State} {ev : Option Dispatch}
    (h : RR.step quantum s = .next ev s1) (n : Nat) (log : List Dispatch) :
    RR.iterate quantum (n + 1) (s, log) = RR.iterate quantum n (s1, record ev log) := by
  simp [RR.iterate, h]

theorem rrcpp_iterate_stop {quantum : Int} {s : RR.State}
    (h : ∀ ev s1, RR.step quantum s ≠ .next ev s1) (n : Nat) (log : List Dispatch) :
    RR.iterate quantum n (s, log) = (s, log) := by
  cases n with
  | zero => rfl
  | succ n =>
    cases hs : RR.step quantum s with
    | next ev s1 => exact absurd hs (h ev s1)
    | halt => simp [RR.iterate, hs]
    | fault => simp [RR.iterate, hs]

/-- Iterations of the loop of `rr.cpp` compose. -/
theorem rrcpp_iterate_comp (quantum : Int) :
    ∀ (m k : Nat) (c : RR.State × List Dispatch),
      RR.iterate quantum (m + k) c = RR.iterate quantum k (RR.iterate quantum m c) := by
  intro m
  induction m with
  | zero => intro k c; simp [RR.iterate]
  | succ m ih =>
    intro k c
    obtain ⟨s, log⟩ := c
    cases hs : RR.step quantum s with
    | next ev s1 =>
      rw [show m + 1 + k = (m + k) + 1 by omega, rrcpp_iterate_next hs, rrcpp_iterate_next hs]
      exact ih k _
    | halt =>
      have hstop : ∀ ev s1, RR.step quantum s ≠ .next ev s1 := by simp [hs]
      rw [rrcpp_iterate_stop hstop, rrcpp_iterate_stop hstop, rrcpp_iterate_stop hstop]
    | fault =>
      have hstop : ∀ ev s1, RR.step quantum s ≠ .next ev s1 := by simp [hs]
      rw [rrcpp_iterate_stop hstop, rrcpp_iterate_stop hstop, rrcpp_iterate_stop hstop]

/-- Where no process of `remaining` has arrived, the admission loop of `rr.cpp`
changes nothing. -/
theorem rrcpp_enqueueArrived_none (processes : List RR.Process) (current_time : Int) :
    ∀ (remaining q : List Nat),
      (∀ j ∈ remaining, ∀ p, processes[j]? = some p → current_time < p.arrival_time) →
      RR.enqueueArrived processes current_time remaining q = (remaining, q) := by
  intro remaining
  induction remaining with
  | nil => intro q _; rfl
  | cons i rest ih =>
    intro q h
    have hrest := ih q (fun j hj => h j (List.mem_cons_of_mem _ hj))
    unfold RR.enqueueArrived
    cases hp : processes[i]? with
    | none => simp only [hrest]
    | some p =>
      have := h i (List.mem_cons_self _ _) p hp
      simp only [not_le.mpr this, if_false, hrest]

/-- The admission loop of `rr.cpp` moves a leading run of arrived processes to the
queue. -/
theorem rrcpp_enqueueArrived_all (processes : List RR.Process) (current_time : Int) :
    ∀ (arrived rest q : List Nat),
      (∀ j ∈ arrived, ∃ p, processes[j]? = some p ∧ p.arrival_time ≤ current_time) →
      RR.enqueueArrived processes current_time (arrived ++ rest) q
        = RR.enqueueArrived processes current_time rest (q ++ arrived) := by
  intro arrived
  induction arrived with
  | nil => intro rest q _; simp
  | cons i more ih =>
    intro rest q h
    obtain ⟨p, hp, ha⟩ := h i (List.mem_cons_self _ _)
    rw [List.cons_append]
    simp only [RR.enqueueArrived, hp, ha, if_true]
    rw [ih rest (q ++ [i]) (fun j hj => h j (List.mem_cons_of_mem _ hj))]
    simp

theorem arrival_of_view {ps : List Process} {ps1 : List RR.Process}
    (hview : ps1.map RR.viewOf = ps.map viewOf) {j : Nat} {p1 : RR.Process}
    (hp1 : ps1[j]? = some p1) :
    ∃ p, ps[j]? = some p ∧ p1.id = p.id ∧ p1.arrival_time = p.arrival_time ∧
      p1.remaining_time = p.remaining_time := by
  have h := congrArg (fun l => l[j]?) hview
  simp only [List.getElem?_map, hp1, Option.map_some'] at h
  rcases hq : ps[j]? with _ | p
  · rw [hq] at h; cases h
  · rw [hq] at h
    simp only [Option.map_some', Option.some.injEq, RR.viewOf, viewOf, Prod.mk.injEq] at h
    exact ⟨p, rfl, h.1, h.2.1, h.2.2⟩

theorem view_of_arrival {ps : List Process} {ps1 : List RR.Process}
    (hview : ps1.map RR.viewOf = ps.map viewOf) {j : Nat} {p : Process}
    (hp : ps[j]? = some p) :
    ∃ p1, ps1[j]? = some p1 ∧ p1.id = p.id ∧ p1.arrival_time = p.arrival_time ∧
      p1.remaining_time = p.remaining_time := by
  have h := congrArg (fun l => l[j]?) hview
  simp only [List.getElem?_map, hp, Option.map_some'] at h
  rcases hq : ps1[j]? with _ | p1
  · rw [hq] at h; cases h
  · rw [hq] at h
    simp only [Option.map_some', Option.some.injEq, RR.viewOf, viewOf, Prod.mk.injEq] at h
    exact ⟨p1, rfl, h.1, h.2.1, h.2.2⟩

/-- On an arrival-sorted vector the admission loop of `rr.cpp`, which looks at every
process not yet admitted, admits what the admission loop of `simulator.cpp` admits,
which stops at the first process that has not arrived. -/
theorem rrcpp_enqueueArrived_agree {ps : List Process} {ps1 : List RR.Process}
    (hview : ps1.map RR.viewOf = ps.map viewOf)
    (hsorted : (ps.map (·.arrival_time)).Pairwise (· ≤ ·))
    {current_time : Int} {idx idx1 : Nat} {q q1 : List Nat}
    (h : enqueueArrived current_time (ps.drop idx) idx q = (idx1, q1)) :
    RR.enqueueArrived ps1 current_time (List.range' idx (ps.length - idx)) q
      = (List.range' idx1 (ps.length - idx1), q1) := by
  obtain ⟨hadm, hq1⟩ := enqueueArrived_spec h
  have hle := hadm.le
  have hb := hadm.bound
  have hsplit : List.range' idx (ps.length - idx)
      = List.range' idx (idx1 - idx) ++ List.range' idx1 (ps.length - idx1) := by
    have := List.range'_append_1 idx (idx1 - idx) (ps.length - idx1)
    rw [show idx + (idx1 - idx) = idx1 by omega] at this
    rw [this]
    congr 1
    omega
  rw [hsplit, rrcpp_enqueueArrived_all, ← hq1, rrcpp_enqueueArrived_none]
  · intro j hj p1 hp1
    obtain ⟨hj1, hj2⟩ := List.mem_range'_1.mp hj
    obtain ⟨p, hp, -, hpa, -⟩ := arrival_of_view hview hp1
    rw [hpa]
    have hi1 : idx1 < ps.length := by omega
    have hstop := hadm.stop ps[idx1] (List.getElem?_eq_getElem hi1)
    obtain ⟨hjl, hpe⟩ := List.getElem?_eq_some_iff.mp hp
    rcases Nat.eq_or_lt_of_le hj1 with heq | hlt
    · subst heq
      rw [← hpe]
      exact hstop
    · have := List.pairwise_iff_getElem.mp hsorted idx1 j (by simpa using hi1)
        (by simpa using hjl) hlt
      simp only [List.getElem_map] at this
      rw [← hpe]
      omega
  · intro j hj
    obtain ⟨hj1, hj2⟩ := List.mem_range'_1.mp hj
    have hjl : j < ps.length := by omega
    obtain ⟨p1, hp1, -, hpa, -⟩ := view_of_arrival hview (List.getElem?_eq_getElem hjl)
    refine ⟨p1, hp1, ?_⟩
    rw [hpa]
    exact hadm.arrived j _ hj1 (by omega) (List.getElem?_eq_getElem hjl)
/-- While the queue is empty and no process has arrived, the loop of `rr.cpp` advances
the time by one unit per iteration. -/
theorem rrcpp_idle_run (quantum : Int) :
    ∀ (k : Nat) (t : RR.State) (log : List Dispatch) (target : Int),
      t.ready_queue = [] → t.remaining ≠ [] →
      (∀ j ∈ t.remaining, ∀ p, t.processes[j]? = some p → target ≤ p.arrival_time) →
      t.current_time + k = target →
      RR.iterate quantum k (t, log) = ({ t with current_time := target }, log) := by
  intro k
  induction k with
  | zero =>
    intro t log target _ _ _ hk
    simp only [Nat.cast_zero, Int.add_zero] at hk
    subst hk
    rfl
  | succ k ih =>
    intro t log target hq hrem harr hk
    have hnone := rrcpp_enqueueArrived_none t.processes t.current_time t.remaining []
      (fun j hj p hp => by
        have := harr j hj p hp
        push_cast at hk
        omega)
    have hstep : RR.step quantum t
        = .next none { t with current_time := t.current_time + 1 } := by
      obtain ⟨ps, rq, g, ct, rem⟩ := t
      simp only at hq hnone hrem
      subst hq
      unfold RR.step
      simp only [hnone]
      rw [if_pos (Or.inl hrem)]
    rw [rrcpp_iterate_next hstep]
    have := ih { t with current_time := t.current_time + 1 } (record none log) target hq hrem
      harr (by push_cast at hk ⊢; omega)
    rw [this]
    rfl

/-- An iteration of `RoundRobinScheduler::schedule` is matched by iterations of the
loop of `rr.cpp` that make the same dispatch, if any: one iteration for a dispatch,
and one iteration per idle time unit where `simulator.cpp` jumps to the next
arrival. -/
theorem rr_step_sim {quantum : Int} {s s1 : State} {t : RR.State} {ev : Option Dispatch}
    (hsim : RRSim s t) (h : RoundRobinScheduler.step quantum s = .next ev s1)
    (log : List Dispatch) :
    ∃ m t1, RR.iterate quantum m (t, log) = (t1, record ev log) ∧ RRSim s1 t1 ∧
      t1.gantt = t.gantt ++ (match ev with
        | some e => [segmentOf s.processes e]
        | none => []) := by
  obtain ⟨hct, hrq, hrem, hview, hsorted⟩ := hsim
  have hlen : t.processes.length = s.processes.length := by
    simpa using congrArg List.length hview
  unfold RoundRobinScheduler.step at h
  split at h
  · rename_i hcond
    split at h
    · rename_i idx1 hadm
      simp only [Outcome.next.injEq] at h
      obtain ⟨hev, hs1⟩ := h
      subst hev hs1
      obtain ⟨ha, hq1⟩ := enqueueArrived_spec hadm
      have hsq : s.ready_queue = [] := (List.append_eq_nil.mp hq1.symm).1
      have hr0 : List.range' s.idx (idx1 - s.idx) = [] := (List.append_eq_nil.mp hq1.symm).2
      have hidx : idx1 = s.idx := by
        have := congrArg List.length hr0
        simp only [List.length_range', List.length_nil] at this
        have := ha.le
        omega
      subst hidx
      have hlt : s.idx < s.processes.length := by
        rcases hcond with hc | hc
        · exact absurd hsq hc
        · exact hc
      have hp0 : s.processes[s.idx]? = some s.processes[s.idx] := List.getElem?_eq_getElem hlt
      have hstop := ha.stop _ hp0
      refine ⟨(s.processes[s.idx].arrival_time - s.current_time).toNat,
        { t with current_time := s.processes[s.idx].arrival_time }, ?_, ?_, by simp⟩
      · refine rrcpp_idle_run quantum _ t log _ (by rw [hrq, hsq]) ?_ ?_ ?_
        · rw [hrem]
          intro hc
          have := congrArg List.length hc
          simp only [List.length_range', List.length_nil] at this
          omega
        · intro j hj p1 hp1
          rw [hrem] at hj
          obtain ⟨hj1, hj2⟩ := List.mem_range'_1.mp hj
          obtain ⟨p, hp, -, hpa, -⟩ := arrival_of_view hview hp1
          rw [hpa]
          obtain ⟨hjl, hpe⟩ := List.getElem?_eq_some_iff.mp hp
          rcases Nat.eq_or_lt_of_le hj1 with heq | hlt2
          · subst heq
            rw [← hpe]
          · have := List.pairwise_iff_getElem.mp hsorted s.idx j (by simpa using hlt)
              (by simpa using hjl) hlt2
            simp only [List.getElem_map] at this
            rw [← hpe]
            exact this
        · rw [hct, Int.toNat_of_nonneg (by omega)]
          omega
      · refine ⟨?_, ?_, ?_, hview, hsorted⟩
        · simp only [hp0]
        · simp only [hrq, hsq]
        · exact hrem
    · rename_i idx1 current q1 hadm
      split at h
      · cases h
      · rename_i p hp
        dsimp only at h
        generalize hadm2 : enqueueArrived _ _ idx1 q1 = r at h
        obtain ⟨idx2, q2⟩ := r
        dsimp only at h
        obtain ⟨p1, hp1, hid, harr, hrt⟩ := view_of_arrival hview hp
        have hag1 := rrcpp_enqueueArrived_agree hview hsorted hadm
        have hview2 : (t.processes.set current
            { p1 with
              waiting_time :=
                if p1.burst_time = p1.remaining_time then
                  p1.waiting_time + (t.current_time - p1.arrival_time)
                else p1.waiting_time + (t.current_time - p1.last_executed_time)
              remaining_time := p1.remaining_time - min quantum p1.remaining_time
              last_executed_time := t.current_time + min quantum p1.remaining_time }).map
              RR.viewOf
            = (s.processes.set current
                { p with remaining_time := p.remaining_time - min quantum p.remaining_time }).map
              viewOf := by
          rw [List.map_set, List.map_set, hview]
          simp only [RR.viewOf, viewOf, hid, harr, hrt]
        have hsorted2 : ((s.processes.set current
            { p with remaining_time := p.remaining_time - min quantum p.remaining_time }).map
              (·.arrival_time)).Pairwise (· ≤ ·) := by
          rw [map_set_of_eq (·.arrival_time) hp
            (show ({ p with remaining_time := p.remaining_time - min quantum p.remaining_time }
              : Process).arrival_time = p.arrival_time from rfl)]
          exact hsorted
        have hag2 := rrcpp_enqueueArrived_agree hview2 hsorted2 hadm2
        simp only [List.length_set] at hag2
        have hcond1 : t.remaining ≠ [] ∨ t.ready_queue ≠ [] := by
          rcases hcond with hc | hc
          · exact Or.inr (by rw [hrq]; exact hc)
          · left
            rw [hrem]
            intro hc2
            have := congrArg List.length hc2
            simp only [List.length_range', List.length_nil] at this
            omega
        rw [← hct, ← hrt] at hag2
        have hag1a : RR.enqueueArrived t.processes t.current_time t.remaining t.ready_queue
            = (List.range' idx1 (s.processes.length - idx1), current :: q1) := by
          rw [hrem, hrq, hct]
          exact hag1
        by_cases hpos : p.remaining_time - min quantum p.remaining_time > 0
        · rw [if_pos hpos] at h
          simp only [Outcome.next.injEq] at h
          obtain ⟨hev, hs1⟩ := h
          subst hev hs1
          have hpos1 : p1.remaining_time - min quantum p1.remaining_time > 0 := by
            rw [hrt]; exact hpos
          obtain ⟨T, hT⟩ : ∃ T : RR.State, T =
            { processes := t.processes.set current
                { p1 with
                  waiting_time :=
                    if p1.burst_time = p1.remaining_time then
                      p1.waiting_time + (t.current_time - p1.arrival_time)
                    else p1.waiting_time + (t.current_time - p1.last_executed_time)
                  remaining_time := p1.remaining_time - min quantum p1.remaining_time
                  last_executed_time := t.current_time + min quantum p1.remaining_time }
              ready_queue := q2 ++ [current]
              gantt := t.gantt ++ [(p1.id, min quantum p1.remaining_time)]
              current_time := t.current_time + min quantum p1.remaining_time
              remaining := List.range' idx2 (s.processes.length - idx2) } := ⟨_, rfl⟩
          refine ⟨1, T, ?_, ?_, ?_⟩
          · have hstep : RR.step quantum t
                = .next (some ⟨current, t.current_time, min quantum p1.remaining_time⟩) T := by
              rw [hT]
              unfold RR.step
              rw [if_pos hcond1, hag1a]
              simp only [hp1]
              rw [hag2]
              simp only
              rw [if_pos hpos1]
            rw [rrcpp_iterate_next hstep]
            simp only [RR.iterate, record, hct, hrt]
          · subst hT
            refine ⟨by simp only [hct, hrt], rfl, ?_, ?_, ?_⟩
            · show List.range' idx2 (s.processes.length - idx2)
                = List.range' idx2 ((s.processes.set current _).length - idx2)
              rw [List.length_set]
            · exact hview2
            · exact hsorted2
          · subst hT
            simp only [segmentOf, hp, Option.map_some', Option.getD_some, hid, hrt]
        · rw [if_neg hpos] at h
          simp only [Outcome.next.injEq] at h
          obtain ⟨hev, hs1⟩ := h
          subst hev hs1
          have hpos1 : ¬ p1.remaining_time - min quantum p1.remaining_time > 0 := by
            rw [hrt]; exact hpos
          obtain ⟨T, hT⟩ : ∃ T : RR.State, T =
            { processes := t.processes.set current
                { p1 with
                  waiting_time :=
                    if p1.burst_time = p1.remaining_time then
                      p1.waiting_time + (t.current_time - p1.arrival_time)
                    else p1.waiting_time + (t.current_time - p1.last_executed_time)
                  remaining_time := p1.remaining_time - min quantum p1.remaining_time
                  last_executed_time := t.current_time + min quantum p1.remaining_time
                  turnaround_time :=
                    t.current_time + min quantum p1.remaining_time - p1.arrival_time }
              ready_queue := q2
              gantt := t.gantt ++ [(p1.id, min quantum p1.remaining_time)]
              current_time := t.current_time + min quantum p1.remaining_time
              remaining := List.range' idx2 (s.processes.length - idx2) } := ⟨_, rfl⟩
          refine ⟨1, T, ?_, ?_, ?_⟩
          · have hstep : RR.step quantum t
                = .next (some ⟨current, t.current_time, min quantum p1.remaining_time⟩) T := by
              rw [hT]
              unfold RR.step
              rw [if_pos hcond1, hag1a]
              simp only [hp1]
              rw [hag2]
              simp only
              rw [if_neg hpos1]
            rw [rrcpp_iterate_next hstep]
            simp only [RR.iterate, record, hct, hrt]
          · subst hT
            refine ⟨by simp only [hct, hrt], rfl, ?_, ?_, ?_⟩
            · show List.range' idx2 (s.processes.length - idx2)
                = List.range' idx2 ((s.processes.set current _).length - idx2)
              rw [List.length_set]
            · show (t.processes.set current _).map RR.viewOf
                = (s.processes.set current _).map viewOf
              rw [List.map_set, List.map_set, hview]
              simp only [RR.viewOf, viewOf, complete, hid, harr, hrt]
            · show ((s.processes.set current _).map (·.arrival_time)).Pairwise (· ≤ ·)
              rw [map_set_of_eq (·.arrival_time) hp
                (show (complete { p with
                    remaining_time := p.remaining_time - min quantum p.remaining_time }
                  (s.current_time + min quantum p.remaining_time)).arrival_time
                  = p.arrival_time from rfl)]
              exact hsorted
          · subst hT
            simp only [segmentOf, hp, Option.map_some', Option.getD_some, hid, hrt]
  · cases h

theorem sum_remaining_nonneg {ps : List Process} (h : ∀ p ∈ ps, 0 ≤ p.remaining_time) :
    0 ≤ (ps.map (·.remaining_time)).sum := by
  apply List.sum_nonneg
  intro x hx
  obtain ⟨p, hp, rfl⟩ := List.mem_map.mp hx
  exact h p hp

theorem rrIdle_le (s : State) : rrIdle s ≤ 1 := by
  unfold rrIdle
  split
  · split <;> omega
  · omega

theorem rrMeasure_lt {s s1 : State} (h0 : 0 ≤ (s1.processes.map (·.remaining_time)).sum)
    (h : (s1.processes.map (·.remaining_time)).sum
        + ((s1.ready_queue.length + (s1.processes.length - s1.idx) : Nat) : Int) + 1
      ≤ (s.processes.map (·.remaining_time)).sum
        + ((s.ready_queue.length + (s.processes.length - s.idx) : Nat) : Int)) :
    rrMeasure s1 < rrMeasure s := by
  have hf := rrIdle_le s1
  unfold rrMeasure
  omega

/-- With a positive quantum and no negative remaining time, an iteration of
`RoundRobinScheduler::schedule` whose loop condition holds runs to its end, keeps the
queue within the vector and the remaining times non-negative, and decreases
`rrMeasure`. -/
theorem rr_progress {quantum : Int} (hq : 1 ≤ quantum) {s : State}
    (hvalid : ∀ x ∈ s.ready_queue, x < s.processes.length)
    (hnn : ∀ p ∈ s.processes, 0 ≤ p.remaining_time)
    (hidx : s.idx ≤ s.processes.length)
    (hcond : s.ready_queue ≠ [] ∨ s.idx < s.processes.length) :
    ∃ ev s1, RoundRobinScheduler.step quantum s = .next ev s1 ∧
      (∀ x ∈ s1.ready_queue, x < s1.processes.length) ∧
      (∀ p ∈ s1.processes, 0 ≤ p.remaining_time) ∧
      s1.idx ≤ s1.processes.length ∧ rrMeasure s1 < rrMeasure s := by
  unfold RoundRobinScheduler.step
  rw [if_pos hcond]
  rcases hadm : enqueueArrived s.current_time (s.processes.drop s.idx) s.idx s.ready_queue with
    ⟨idx1, q⟩
  obtain ⟨ha, hq1⟩ := enqueueArrived_spec hadm
  have hle := ha.le
  have hb := ha.bound
  have hW := sum_remaining_nonneg hnn
  cases q with
  | nil =>
    have hsq : s.ready_queue = [] := (List.append_eq_nil.mp hq1.symm).1
    have hr0 : List.range' s.idx (idx1 - s.idx) = [] := (List.append_eq_nil.mp hq1.symm).2
    have hidx1 : idx1 = s.idx := by
      have := congrArg List.length hr0
      simp only [List.length_range', List.length_nil] at this
      omega
    subst hidx1
    have hlt : s.idx < s.processes.length := by
      rcases hcond with hc | hc
      · exact absurd hsq hc
      · exact hc
    have hp0 : s.processes[s.idx]? = some s.processes[s.idx] := List.getElem?_eq_getElem hlt
    have hstop := ha.stop _ hp0
    refine ⟨_, _, rfl, ?_, hnn, hidx, ?_⟩
    · intro x hx
      cases hx
    · simp only [rrMeasure, rrIdle, hp0, hsq, List.length_nil, true_and, lt_irrefl, if_false,
        hstop, if_true]
      omega
  | cons current q1 =>
    have hcur : current < s.processes.length := by
      have hmem : current ∈ s.ready_queue ++ List.range' s.idx (idx1 - s.idx) := by
        rw [← hq1]; exact List.mem_cons_self _ _
      rcases List.mem_append.mp hmem with hm | hm
      · exact hvalid _ hm
      · have := (List.mem_range'_1.mp hm).2
        omega
    have hp : s.processes[current]? = some s.processes[current] :=
      List.getElem?_eq_getElem hcur
    have hlen1 : (current :: q1).length = s.ready_queue.length + (idx1 - s.idx) := by
      rw [hq1]; simp
    have hq1valid : ∀ x ∈ q1, x < s.processes.length := by
      intro x hx
      have hmem : x ∈ s.ready_queue ++ List.range' s.idx (idx1 - s.idx) := by
        rw [← hq1]; exact List.mem_cons_of_mem _ hx
      rcases List.mem_append.mp hmem with hm | hm
      · exact hvalid _ hm
      · have := (List.mem_range'_1.mp hm).2
        omega
    simp only [hp]
    rcases hadm2 : enqueueArrived
        (s.current_time + min quantum s.processes[current].remaining_time)
        ((s.processes.set current
          { s.processes[current] with
            remaining_time := s.processes[current].remaining_time
              - min quantum s.processes[current].remaining_time }).drop idx1) idx1 q1 with
      ⟨idx2, q2⟩
    obtain ⟨ha2, hq2⟩ := enqueueArrived_spec hadm2
    have hle2 := ha2.le
    have hb2 := ha2.bound
    simp only [List.length_set] at hb2
    have hremc : 0 ≤ s.processes[current].remaining_time := hnn _ (List.getElem_mem hcur)
    have hq2valid : ∀ x ∈ q2, x < s.processes.length := by
      intro x hx
      rw [hq2] at hx
      rcases List.mem_append.mp hx with hm | hm
      · exact hq1valid _ hm
      · have := (List.mem_range'_1.mp hm).2
        omega
    have hlen2 : q2.length = q1.length + (idx2 - idx1) := by
      rw [hq2]; simp
    simp only [List.length_cons] at hlen1
    have hrun : 0 ≤ min quantum s.processes[current].remaining_time := le_min (by omega) hremc
    have hrunle : min quantum s.processes[current].remaining_time
        ≤ s.processes[current].remaining_time := min_le_right _ _
    split
    · rename_i hpos
      have hrun1 : 1 ≤ min quantum s.processes[current].remaining_time := by
        rcases le_total quantum s.processes[current].remaining_time with hc | hc
        · rw [min_eq_left hc]; exact hq
        · rw [min_eq_right hc] at hpos; omega
      have hnn1 : ∀ p0 ∈ s.processes.set current
          { s.processes[current] with
            remaining_time := s.processes[current].remaining_time
              - min quantum s.processes[current].remaining_time },
          0 ≤ p0.remaining_time := by
        intro p0 hp0
        rcases List.mem_or_eq_of_mem_set hp0 with hm | hm
        · exact hnn _ hm
        · rw [hm]; exact le_of_lt hpos
      refine ⟨_, _, rfl, ?_, hnn1, ?_, ?_⟩
      · intro x hx
        simp only [List.length_set]
        rcases List.mem_append.mp hx with hm | hm
        · exact hq2valid _ hm
        · rw [List.mem_singleton.mp hm]; exact hcur
      · simp only [List.length_set]
        omega
      · apply rrMeasure_lt
        · exact sum_remaining_nonneg hnn1
        · simp only [List.length_set, List.length_append, List.length_singleton,
            sum_map_set (·.remaining_time) _ hp]
          omega
    · rename_i hpos
      have hnn1 : ∀ p0 ∈ s.processes.set current
          (complete { s.processes[current] with
            remaining_time := s.processes[current].remaining_time
              - min quantum s.processes[current].remaining_time }
            (s.current_time + min quantum s.processes[current].remaining_time)),
          0 ≤ p0.remaining_time := by
        intro p0 hp0
        rcases List.mem_or_eq_of_mem_set hp0 with hm | hm
        · exact hnn _ hm
        · rw [hm]
          show 0 ≤ s.processes[current].remaining_time
            - min quantum s.processes[current].remaining_time
          omega
      refine ⟨_, _, rfl, ?_, hnn1, ?_, ?_⟩
      · intro x hx
        simp only [List.length_set]
        exact hq2valid _ hx
      · simp only [List.length_set]
        omega
      · apply rrMeasure_lt
        · exact sum_remaining_nonneg hnn1
        · simp only [List.length_set, sum_map_set (·.remaining_time) _ hp, complete]
          omega
/-- Where `RoundRobinScheduler::schedule` leaves its loop, the loop of `rr.cpp` ends. -/
theorem rr_halt_sim {quantum : Int} {s : State} {t : RR.State} (hsim : RRSim s t)
    (h : RoundRobinScheduler.step quantum s = .halt) : RR.step quantum t = .halt := by
  obtain ⟨hlen, hnone⟩ := rr_halt h
  have hq : s.ready_queue = [] := List.eq_nil_iff_forall_not_mem.mpr hnone
  unfold RR.step
  rw [if_neg]
  rw [hsim.remaining, hsim.ready_queue, hq, show s.processes.length - s.idx = 0 by omega]
  simp

theorem segmentOf_congr {ps qs : List Process} (h : ps.map (·.id) = qs.map (·.id))
    (e : Dispatch) : segmentOf ps e = segmentOf qs e := by
  have hi := congrArg (fun l => l[e.idx]?) h
  simp only [List.getElem?_map] at hi
  simp only [segmentOf, hi]

/-- Any number of iterations of `RoundRobinScheduler::schedule` is matched by
iterations of the loop of `rr.cpp` that make the same dispatches; the trace of
`rr.cpp` lists every dispatch as a segment. -/
theorem rr_run_sim (quantum : Int) (ps : List Process) :
    ∀ (n : Nat) (s : State) (t : RR.State) (log : List Dispatch), RRSim s t →
      t.gantt = log.reverse.map (segmentOf ps) → s.processes.map (·.id) = ps.map (·.id) →
      ∃ m t1, RR.iterate quantum m (t, log) = (t1, (iterate (.rr quantum) n (s, log)).2) ∧
        RRSim (iterate (.rr quantum) n (s, log)).1 t1 ∧
        t1.gantt = (iterate (.rr quantum) n (s, log)).2.reverse.map (segmentOf ps) := by
  intro n
  induction n with
  | zero => intro s t log hsim hg _; exact ⟨0, t, rfl, hsim, hg⟩
  | succ n ih =>
    intro s t log hsim hg hid
    cases hs : step (.rr quantum) s with
    | next ev s1 =>
      rw [iterate_next hs]
      obtain ⟨m1, t1, hit1, hsim1, hg1⟩ := rr_step_sim hsim hs log
      have hid1 : s1.processes.map (·.id) = ps.map (·.id) := by
        rw [← hid]
        exact step_map (·.id) (fun _ _ _ _ _ _ => rfl) hs
      have hg2 : t1.gantt = (record ev log).reverse.map (segmentOf ps) := by
        rw [hg1, hg]
        cases ev with
        | none => simp [record]
        | some e => simp [record, segmentOf_congr hid e]
      obtain ⟨m2, t2, hit2, hsim2, hg3⟩ := ih s1 t1 (record ev log) hsim1 hg2 hid1
      refine ⟨m1 + m2, t2, ?_, hsim2, hg3⟩
      rw [rrcpp_iterate_comp, hit1, hit2]
    | halt =>
      have hstop : ∀ ev s1, step (.rr quantum) s ≠ .next ev s1 := by simp [hs]
      rw [iterate_stop hstop]
      exact ⟨0, t, rfl, hsim, hg⟩
    | fault =>
      have hstop : ∀ ev s1, step (.rr quantum) s ≠ .next ev s1 := by simp [hs]
      rw [iterate_stop hstop]
      exact ⟨0, t, rfl, hsim, hg⟩

/-- The two programs start their loops in matching states. -/
theorem rr_init_sim (quantum : Int) (ps : List Process)
    (hsorted : (ps.map (·.arrival_time)).Pairwise (· ≤ ·)) :
    RRSim (init (.rr quantum) ps) (RR.init (ps.map RR.ofProcess)) := by
  refine ⟨rfl, rfl, ?_, ?_, ?_⟩
  · simp [init, RR.init, resetRemaining, List.range_eq_range']
  · simp only [init, RR.init, resetRemaining, List.map_map]
    apply List.map_congr_left
    intro p _
    rfl
  · have : (resetRemaining ps).map (·.arrival_time) = ps.map (·.arrival_time) := by
      simp only [resetRemaining, List.map_map]
      rfl
    show ((resetRemaining ps).map (·.arrival_time)).Pairwise (· ≤ ·)
    rw [this]
    exact hsorted

/-- With a quantum of at least 1 and no negative burst time,
`RoundRobinScheduler::schedule` returns. -/
theorem rr_terminates (quantum : Int) (ps : List Process) (hq : 1 ≤ quantum)
    (hb : ∀ p ∈ ps, 0 ≤ p.burst_time) :
    ∃ fuel r, schedule (.rr quantum) fuel ps = some r := by
  have hhalt : ∀ s : State, ¬ (s.ready_queue ≠ [] ∨ s.idx < s.processes.length) →
      step (.rr quantum) s = .halt := by
    intro s hc
    show RoundRobinScheduler.step quantum s = .halt
    unfold RoundRobinScheduler.step
    rw [if_neg hc]
  have hrun := run_to_halt (.rr quantum)
    (fun s => (∀ x ∈ s.ready_queue, x < s.processes.length) ∧
      (∀ p ∈ s.processes, 0 ≤ p.remaining_time) ∧ s.idx ≤ s.processes.length ∧
      (s.ready_queue ≠ [] ∨ s.idx < s.processes.length))
    (fun s => step (.rr quantum) s = .halt) rrMeasure
    (by
      intro s ⟨h1, h2, h3, h4⟩
      obtain ⟨ev, s1, hs, h5, h6, h7, h8⟩ := rr_progress hq h1 h2 h3 h4
      refine ⟨ev, s1, hs, ?_⟩
      by_cases hc : s1.ready_queue ≠ [] ∨ s1.idx < s1.processes.length
      · exact Or.inr ⟨⟨h5, h6, h7, hc⟩, h8⟩
      · exact Or.inl (hhalt s1 hc))
  by_cases hc : (init (.rr quantum) ps).ready_queue ≠ [] ∨
      (init (.rr quantum) ps).idx < (init (.rr quantum) ps).processes.length
  · have hnn : ∀ p ∈ (init (.rr quantum) ps).processes, 0 ≤ p.remaining_time := by
      intro p hp
      simp only [init, resetRemaining, List.mem_map] at hp
      obtain ⟨p0, hp0, rfl⟩ := hp
      exact hb p0 hp0
    obtain ⟨n, sf, logf, hit, hfin⟩ := hrun (rrMeasure (init (.rr quantum) ps))
      (init (.rr quantum) ps) [] ⟨(by intro x hx; cases hx), hnn, Nat.zero_le _, hc⟩ (le_refl _)
    exact ⟨n, _, schedule_of_iterate hit hfin⟩
  · exact ⟨0, _, schedule_of_iterate rfl (hhalt _ hc)⟩

/-- C18 as stated fails: for one process that needs two quanta (arrival-sorted,
positive burst, quantum 4) the loop of `rr.cpp` records the trace P1(4) P1(4), and
`RoundRobinScheduler::schedule` the trace P1(8); on a workload with an idle gap the
latter also counts the gap into the segment of the process that ran before it. -/
theorem rr_traces_as_stated_fail :
    (RR.schedule 4 2 (twoQuantaWorkload.map RR.ofProcess)).map (·.gantt)
        = some [("P1", 4), ("P1", 4)] ∧
      (schedule (.rr 4) 2 twoQuantaWorkload).map (·.gantt) = some [("P1", 8)] ∧
      (RR.schedule 4 7 (gapWorkload.map RR.ofProcess)).map (·.gantt)
        = some [("P1", 1), ("P2", 1)] ∧
      (schedule (.rr 4) 3 gapWorkload).map (·.gantt) = some [("P1", 5), ("P2", 1)] := by
  decide

/-- C18, amended. For every arrival-sorted workload with positive bursts and a quantum of
at least 1, both Round Robin loops return, that of `rr.cpp` (which idles one time unit
per iteration) and that of `simulator.cpp` (which jumps to the next arrival); they make
the same dispatches (process, start time, length) in the same order and end at the
same time.  Their traces are not the same: `rr.cpp` lists every dispatch as a segment
of its own. -/
theorem rr_loops_agree (quantum : Int) (ps : List Process) (hq : 1 ≤ quantum)
    (hb : ∀ p ∈ ps, 0 < p.burst_time)
    (hsorted : (ps.map (·.arrival_time)).Pairwise (· ≤ ·)) :
    ∃ fuel r fuel2 r2, schedule (.rr quantum) fuel ps = some r ∧
      RR.schedule quantum fuel2 (ps.map RR.ofProcess) = some r2 ∧
      r2.dispatches = r.dispatches ∧ r2.total_time = r.total_time ∧
      r2.gantt = r.dispatches.reverse.map (segmentOf ps) := by
  obtain ⟨fuel, r, h⟩ := rr_terminates quantum ps hq (fun p hp => le_of_lt (hb p hp))
  obtain ⟨hh, hr⟩ := schedule_eq_some h
  obtain ⟨m, t1, hit, hsim, hg⟩ := rr_run_sim quantum ps fuel (init (.rr quantum) ps)
    (RR.init (ps.map RR.ofProcess)) [] (rr_init_sim quantum ps hsorted) rfl
    (by simp only [init, resetRemaining, List.map_map]; rfl)
  have hhalt := rr_halt_sim hsim hh
  refine ⟨fuel, r, m, ⟨t1.processes, t1.gantt, t1.current_time, r.dispatches⟩, h, ?_, rfl, ?_, ?_⟩
  · unfold RR.schedule
    rw [hit]
    simp only [hhalt]
    rw [hr]
    rfl
  · rw [hr]
    exact hsim.current_time
  · rw [hg, hr]
    rfl

theorem rr_loops_agree_witness :
    ∃ fuel r fuel2 r2, schedule (.rr 4) fuel builtin = some r ∧
      RR.schedule 4 fuel2 (builtin.map RR.ofProcess) = some r2 ∧
      r2.dispatches = r.dispatches ∧ r2.total_time = r.total_time ∧
      r2.gantt = r.dispatches.reverse.map (segmentOf builtin) :=
  rr_loops_agree 4 builtin (by decide) (by decide) (by decide)

/-! ## `main` on an empty process vector, and the quantum -/

/-- C21. When the process vector has no entries, `main` (once `std::stoi` has
accepted `--quantum` and `--num`) writes "No processes loaded." and returns failure,
whatever the token; under no circumstances does it construct a scheduler or call
`schedule`, and `printResults`, hence `calculateMetrics`, is not reached. -/
theorem main_empty_workload (scheduler_type : String) (quantum num_random : Option Int)
    (fuel : Nat) :
    (∀ q n, quantum = some q → num_random = some n →
      main scheduler_type quantum num_random [] fuel = .failure ["No processes loaded."]) ∧
    (∀ scheduler result,
      main scheduler_type quantum num_random [] fuel ≠ .ran scheduler result) ∧
    report (main scheduler_type quantum num_random [] fuel) = none := by
  cases quantum with
  | none => exact ⟨fun q n h => (by cases h), fun _ _ h => (by cases h), rfl⟩
  | some q =>
    cases num_random with
    | none => exact ⟨fun q n _ h => (by cases h), fun _ _ h => (by cases h), rfl⟩
    | some n => exact ⟨fun _ _ _ _ => rfl, fun _ _ h => (by cases h), rfl⟩

theorem main_empty_workload_witness :
    (∀ q n, some (4 : Int) = some q → some (10 : Int) = some n →
      main "fcfs" (some 4) (some 10) [] 0 = .failure ["No processes loaded."]) ∧
    (∀ scheduler result, main "fcfs" (some 4) (some 10) [] 0 ≠ .ran scheduler result) ∧
    report (main "fcfs" (some 4) (some 10) [] 0) = none :=
  main_empty_workload "fcfs" (some 4) (some 10) 0

/-- C22 as stated fails: with the token rr and the quantum 0, `main` on the built-in
workload reports nothing and starts a `RoundRobinScheduler::schedule` run, which has
not returned after 50 iterations. -/
theorem quantum_check_as_stated_fails :
    main "rr" (some 0) (some 10) builtin 50 = .ran (.rr 0) none := by
  decide

/-- C22, amended. `main` does not check the quantum: for the token rr, any quantum, be
it `<= 0`, and a non-empty process vector, `main` neither throws nor reports an error;
it constructs `RoundRobinScheduler` with that quantum and calls `schedule`. -/
theorem quantum_not_checked (quantum num_random : Int) (processes : List Process)
    (fuel : Nat) (hne : processes ≠ []) :
    selectScheduler "rr" quantum = some (.rr quantum) ∧
      main "rr" (some quantum) (some num_random) processes fuel
        = .ran (.rr quantum) (schedule (.rr quantum) fuel processes) ∧
      main "rr" (some quantum) (some num_random) processes fuel ≠ .thrown ∧
      ∀ cerr, main "rr" (some quantum) (some num_random) processes fuel ≠ .failure cerr := by
  have hmain : main "rr" (some quantum) (some num_random) processes fuel
      = .ran (.rr quantum) (schedule (.rr quantum) fuel processes) := by
    cases processes with
    | nil => exact absurd rfl hne
    | cons p rest => rfl
  refine ⟨rfl, hmain, ?_, ?_⟩
  · rw [hmain]
    exact fun h => MainOutcome.noConfusion h
  · intro cerr
    rw [hmain]
    exact fun h => MainOutcome.noConfusion h

theorem quantum_not_checked_witness :
    (-5 : Int) ≤ 0 ∧ builtin ≠ [] ∧
      selectScheduler "rr" (-5) = some (.rr (-5)) ∧
      main "rr" (some (-5)) (some 10) builtin 7
        = .ran (.rr (-5)) (schedule (.rr (-5)) 7 builtin) ∧
      main "rr" (some (-5)) (some 10) builtin 7 ≠ .thrown ∧
      ∀ cerr, main "rr" (some (-5)) (some 10) builtin 7 ≠ .failure cerr :=
  ⟨by decide, by decide, quantum_not_checked (-5) 10 builtin 7 (by decide)⟩

/-- C30 as stated fails: through `main`, MLQ and MFQ on the built-in workload give the
same outcome for the quantum 2 and the quantum 8. -/
theorem quantum_slices_as_stated_fail :
    main "mlq" (some 2) (some 10) builtin 40 = main "mlq" (some 8) (some 10) builtin 40 ∧
      main "mfq" (some 2) (some 10) builtin 40 = main "mfq" (some 8) (some 10) builtin 40 ∧
      (∃ r, main "mlq" (some 2) (some 10) builtin 40 = .ran .mlq (some r)) ∧
      (∃ r, main "mfq" (some 2) (some 10) builtin 40 = .ran .mfq (some r)) := by
  refine ⟨rfl, rfl, ?_, ?_⟩
  · exact (Option.isSome_iff_exists.mp
      (by decide : (schedule .mlq 40 builtin).isSome = true)).imp fun r hr => by
        show MainOutcome.ran .mlq (schedule .mlq 40 builtin) = _
        rw [hr]
  · exact (Option.isSome_iff_exists.mp
      (by decide : (schedule .mfq 40 builtin).isSome = true)).imp fun r hr => by
        show MainOutcome.ran .mfq (schedule .mfq 40 builtin) = _
        rw [hr]

/-- C30, amended. For mlq and mfq the slice lengths do not depend on the quantum
parameter: `main` constructs `MultilevelQueueScheduler` and `MFQScheduler` without
it (their slices are the constants 2 and 2, 4, 8), so that two runs through `main` that
differ in `--quantum` (and `--num`) only have the same outcome. -/
theorem quantum_unused_by_multilevel (quantum1 quantum2 num1 num2 : Int)
    (processes : List Process) (fuel : Nat) :
    selectScheduler "mlq" quantum1 = some .mlq ∧ selectScheduler "mfq" quantum1 = some .mfq ∧
      main "mlq" (some quantum1) (some num1) processes fuel
        = main "mlq" (some quantum2) (some num2) processes fuel ∧
      main "mfq" (some quantum1) (some num1) processes fuel
        = main "mfq" (some quantum2) (some num2) processes fuel :=
  ⟨rfl, rfl, rfl, rfl⟩

/-! ## The dispatches of SJF -/

/-- C23. In `SJFScheduler::schedule` each dispatch selects an arrived, not yet completed
process whose burst time is minimal among the arrived, not yet completed processes,
runs it to completion (time advances by its whole burst, its flag is set) and appends
exactly one segment `(id, burst_time)`.  The idle branch (time advances by 1), however,
is taken whenever no arrived uncompleted process has a burst time below `INT32_MAX`:
on a single process of burst time `INT32_MAX`, which has arrived at time 0, the loop
idles, iteration after iteration, and dispatches nothing. -/
theorem sjf_dispatch (s s1 : State) (ev : Option Dispatch) (h : step .sjf s = .next ev s1) :
    (∀ e, ev = some e →
      ∃ p, s.processes[e.idx]? = some p ∧
        s.completed.getD e.idx false = false ∧ p.arrival_time ≤ s.current_time ∧
        (∀ (j : Nat) (q : Process), s.processes[j]? = some q →
          s.completed.getD j false = false → q.arrival_time ≤ s.current_time →
          p.burst_time ≤ q.burst_time) ∧
        e.start = s.current_time ∧ e.len = p.burst_time ∧
        s1.current_time = s.current_time + p.burst_time ∧
        s1.gantt = s.gantt ++ [(p.id, p.burst_time)] ∧
        s1.completed = s.completed.set e.idx true) ∧
    (ev = none →
      s1 = { s with current_time := s.current_time + 1 } ∧
      ∀ (j : Nat) (q : Process), s.processes[j]? = some q →
        s.completed.getD j false = false → q.arrival_time ≤ s.current_time →
        INT32_MAX ≤ q.burst_time) ∧
    (∀ n, reach .sjf n longBurstWorkload
      = ({ processes := longBurstWorkload, completed := [false], current_time := n }, [])) := by
  have h1 : SJFScheduler.step s = .next ev s1 := h
  refine ⟨?_, ?_, ?_⟩
  · intro e he
    rcases sjf_next h1 with ⟨-, hev, -⟩ | ⟨i, p, hscan, hp, hev, hs1⟩
    · rw [hev] at he; cases he
    · rw [hev] at he
      obtain rfl := Option.some.inj he
      obtain ⟨p1, hp1, hok, -, hmin, -⟩ := scanMin_some hscan
      rw [hp] at hp1
      obtain rfl : p = p1 := Option.some.inj hp1
      simp only [Bool.and_eq_true, Bool.not_eq_true', decide_eq_true_eq] at hok hmin
      refine ⟨p, hp, hok.1, hok.2, fun j q hq hc ha => hmin j q hq ⟨hc, ha⟩, rfl, rfl, ?_, ?_, ?_⟩
      · rw [hs1]
      · rw [hs1]
      · rw [hs1]
  · intro he
    rcases sjf_next h1 with ⟨hscan, -, hs1⟩ | ⟨i, p, -, -, hev, -⟩
    · refine ⟨hs1, ?_⟩
      intro j q hq hc ha
      have := scanMin_none hscan j q hq
      simp only [hc, ha, Bool.not_false, decide_True, Bool.and_self, forall_const] at this
      exact this
    · rw [hev] at he; cases he
  · intro n
    induction n with
    | zero => rfl
    | succ n ih =>
      have hstep : ∀ (t : Int), step .sjf
          { processes := longBurstWorkload, completed := [false], current_time := t }
          = .next none
            { processes := longBurstWorkload, completed := [false], current_time := t + 1 } := by
        intro t
        show SJFScheduler.step _ = _
        unfold SJFScheduler.step
        rw [if_pos (by show (0 : Int) < ((longBurstWorkload.length : Nat) : Int); decide)]
        have : scanMin (fun i p => !([false].getD i false) &&
            decide (p.arrival_time ≤ t)) (·.burst_time) longBurstWorkload = none := by
          simp [scanMin, scanFrom, longBurstWorkload, INT32_MAX]
        simp only [this]
      have hcomp : ∀ (m : Nat) (c : State × List Dispatch),
          iterate .sjf (m + 1) c = iterate .sjf 1 (iterate .sjf m c) := by
        intro m
        induction m with
        | zero => intro c; rfl
        | succ m ihm =>
          intro c
          obtain ⟨s0, log0⟩ := c
          cases hs : step .sjf s0 with
          | next ev0 s2 =>
            rw [iterate_next hs, iterate_next hs]
            exact ihm _
          | halt =>
            have hstop : ∀ ev s1, step .sjf s0 ≠ .next ev s1 := by simp [hs]
            rw [iterate_stop hstop, iterate_stop hstop, iterate_stop hstop]
          | fault =>
            have hstop : ∀ ev s1, step .sjf s0 ≠ .next ev s1 := by simp [hs]
            rw [iterate_stop hstop, iterate_stop hstop, iterate_stop hstop]
      show iterate .sjf (n + 1) (init .sjf longBurstWorkload, []) = _
      rw [hcomp]
      have ih2 : iterate .sjf n (init .sjf longBurstWorkload, []) = _ := ih
      rw [ih2, iterate_next (hstep n)]
      simp [iterate, record]

theorem sjf_dispatch_witness :
    (∃ s1, step .sjf (init .sjf builtin) = .next (some ⟨0, 0, 8⟩) s1) ∧
      ∃ p, (init .sjf builtin).processes[0]? = some p ∧
        ∀ (j : Nat) (q : Process), (init .sjf builtin).processes[j]? = some q →
          (init .sjf builtin).completed.getD j false = false →
          q.arrival_time ≤ (init .sjf builtin).current_time → p.burst_time ≤ q.burst_time :=
  ⟨⟨_, rfl⟩,
    let ⟨p, hp, _, _, hmin, _⟩ :=
      (sjf_dispatch (init .sjf builtin) _ (some ⟨0, 0, 8⟩) rfl).1 ⟨0, 0, 8⟩ rfl
    ⟨p, hp, hmin⟩⟩

/-! ## The aging of non-preemptive Priority -/

/-- The body of the aging loop, for an aging interval of at least 1: the priority of a
process that is not completed, has arrived, and has waited for a positive multiple of
the interval becomes `max 1 (priority - 1)`; any other process is left as it is. -/
theorem ageOne_eq {aging_interval : Int} (hk : 1 ≤ aging_interval) (current_time : Int)
    (done : Bool) (p : Process) :
    PriorityScheduler.ageOne aging_interval current_time done p
      = some (if done = false ∧ p.arrival_time ≤ current_time ∧
            0 < current_time - p.arrival_time ∧
            (current_time - p.arrival_time) % aging_interval = 0
          then { p with priority := max 1 (p.priority - 1) } else p) := by
  unfold PriorityScheduler.ageOne
  have hk0 : aging_interval ≠ 0 := by omega
  by_cases hd : done = false
  · by_cases ha : p.arrival_time ≤ current_time
    · by_cases hw : 0 < current_time - p.arrival_time
      · have hmod : (current_time - p.arrival_time).tmod aging_interval
            = (current_time - p.arrival_time) % aging_interval :=
          Int.tmod_eq_emod (le_of_lt hw) (by omega)
        by_cases hm : (current_time - p.arrival_time) % aging_interval = 0
        · simp [hd, ha, hw, hk0, hmod, hm]
        · simp [hd, ha, hw, hk0, hmod, hm]
      · simp [hd, ha, hw]
    · simp [hd, ha]
  · simp [hd]

/-- The aging loop applies its body to every process, with the flag of the process. -/
theorem age_getElem (aging_interval current_time : Int) (completed : List Bool) :
    ∀ (ps : List Process) (i : Nat) (ps1 : List Process),
      PriorityScheduler.age aging_interval current_time completed ps i = some ps1 →
      ∀ (j : Nat) (p : Process), ps[j]? = some p →
        ∃ q, ps1[j]? = some q ∧
          PriorityScheduler.ageOne aging_interval current_time (completed.getD (i + j) false) p
            = some q := by
  intro ps
  induction ps with
  | nil => intro i ps1 _ j p hp; simp at hp
  | cons p0 rest ih =>
    intro i ps1 h j p hp
    unfold PriorityScheduler.age at h
    split at h
    · cases h
    · rename_i q hq
      split at h
      · cases h
      · rename_i rest1 hrest
        simp only [Option.some.injEq] at h
        subst h
        cases j with
        | zero =>
          simp only [List.getElem?_cons_zero, Option.some.injEq] at hp
          subst hp
          exact ⟨q, by simp, by simpa using hq⟩
        | succ j =>
          simp only [List.getElem?_cons_succ] at hp ⊢
          obtain ⟨q1, hq1, hage⟩ := ih _ _ hrest j p hp
          refine ⟨q1, hq1, ?_⟩
          rw [show i + (j + 1) = i + 1 + j by omega]
          exact hage

/-- C25. Each time `PriorityScheduler::schedule` ages a waiting process (one that is not
completed, has arrived, and has waited for a positive multiple of the aging interval),
its new priority is `max(1, old priority - 1)`: the floor of the aging in
`simulator.cpp` is 1, where the specification and `priority.cpp` have the floor 0.  A
priority of at least 2 is decremented by 1, a priority of 1 stays 1, and a priority of at
most 0 becomes 1, which is numerically larger.  On two processes of priority 1 that
arrive together (aging interval 5), the second has waited 5 time units when the first
completes, and returns with the priority 1, not 0; a process of priority 0 that has
waited 5 time units is given the priority 1. -/
theorem aging_floor (aging_interval current_time : Int) (p : Process)
    (hk : 1 ≤ aging_interval) (ha : p.arrival_time ≤ current_time)
    (hw : 0 < current_time - p.arrival_time)
    (hm : (current_time - p.arrival_time) % aging_interval = 0) :
    PriorityScheduler.ageOne aging_interval current_time false p
        = some { p with priority := max 1 (p.priority - 1) } ∧
      (2 ≤ p.priority → max 1 (p.priority - 1) = p.priority - 1) ∧
      (1 ≤ p.priority → max 1 (p.priority - 1) ≤ p.priority) ∧
      (p.priority ≤ 0 → max 1 (p.priority - 1) = 1 ∧ p.priority < max 1 (p.priority - 1)) ∧
      tieWorkload.map (fun q => (q.id, q.arrival_time, q.burst_time, q.priority))
        = [("P2", 0, 5, 1), ("P1", 0, 5, 1)] ∧
      (schedule (.priority 5) 2 tieWorkload).map
          (fun r => (r.gantt, r.processes.map (·.priority)))
        = some ([("P2", 5), ("P1", 5)], [1, 1]) ∧
      priorityZeroProcess.priority = 0 ∧
      PriorityScheduler.ageOne 5 5 false priorityZeroProcess
        = some { priorityZeroProcess with priority := 1 } := by
  refine ⟨?_, ?_, ?_, ?_, by decide, by decide, by decide, by decide⟩
  · rw [ageOne_eq hk, if_pos ⟨rfl, ha, hw, hm⟩]
  · intro h; omega
  · intro h; omega
  · intro h; omega

theorem aging_floor_witness :
    PriorityScheduler.ageOne 5 5 false priorityZeroProcess
        = some { priorityZeroProcess with priority := max 1 (priorityZeroProcess.priority - 1) } ∧
      (2 ≤ priorityZeroProcess.priority →
        max 1 (priorityZeroProcess.priority - 1) = priorityZeroProcess.priority - 1) ∧
      (1 ≤ priorityZeroProcess.priority →
        max 1 (priorityZeroProcess.priority - 1) ≤ priorityZeroProcess.priority) ∧
      (priorityZeroProcess.priority ≤ 0 →
        max 1 (priorityZeroProcess.priority - 1) = 1 ∧
        priorityZeroProcess.priority < max 1 (priorityZeroProcess.priority - 1)) :=
  ⟨(aging_floor 5 5 priorityZeroProcess (by decide) (by decide) (by decide) (by decide)).1,
    (aging_floor 5 5 priorityZeroProcess (by decide) (by decide) (by decide) (by decide)).2.1,
    (aging_floor 5 5 priorityZeroProcess (by decide) (by decide) (by decide) (by decide)).2.2.1,
    (aging_floor 5 5 priorityZeroProcess (by decide) (by decide) (by decide)
      (by decide)).2.2.2.1⟩

/-- C26 as stated fails: with the aging interval 1, P2 (priority 9) waits from time 0
while P1 executes its burst of 8 units; the aging loop runs again at time 8 only, and P2
returns with the priority 8, decremented once and not once per elapsed unit. -/
theorem aging_per_unit_as_stated_fails :
    agingGapWorkload.map (fun p => (p.id, p.arrival_time, p.burst_time, p.priority))
        = [("P1", 0, 8, 1), ("P2", 0, 5, 9)] ∧
      (schedule (.priority 1) 2 agingGapWorkload).map (·.gantt)
        = some [("P1", 8), ("P2", 5)] ∧
      (schedule (.priority 1) 2 agingGapWorkload).map (fun r => r.processes.map (·.priority))
        = some [1, 8] := by
  decide

/-- C26, amended. Under `PriorityScheduler::schedule` with aging interval `k >= 1`, aging
happens once per iteration of the loop, at the time `t` at which the iteration starts:
the priority of every process that is not completed, has arrived, and whose waited time
`t - arrival_time` is positive and divisible by `k` becomes `max(1, priority - 1)`, and
no other priority changes.  The iteration then either idles for one time unit or
executes a process for its whole burst; the time units that elapse during that burst
are not looked at. -/
theorem aging_at_decisions (aging_interval : Int) (hk : 1 ≤ aging_interval) (s s1 : State)
    (ev : Option Dispatch) (h : step (.priority aging_interval) s = .next ev s1) :
    (∀ (j : Nat) (p : Process), s.processes[j]? = some p →
      ∃ p1, s1.processes[j]? = some p1 ∧
        p1.priority = if s.completed.getD j false = false ∧ p.arrival_time ≤ s.current_time ∧
            0 < s.current_time - p.arrival_time ∧
            (s.current_time - p.arrival_time) % aging_interval = 0
          then max 1 (p.priority - 1) else p.priority) ∧
    (ev = none → s1.current_time = s.current_time + 1) ∧
    (∀ e, ev = some e → ∃ p, s.processes[e.idx]? = some p ∧ e.start = s.current_time ∧
      e.len = p.burst_time ∧ s1.current_time = s.current_time + p.burst_time) := by
  have h1 : PriorityScheduler.step aging_interval s = .next ev s1 := h
  obtain ⟨ps, hage, hcases⟩ := priority_next h1
  have haged : ∀ (j : Nat) (p : Process), s.processes[j]? = some p →
      ∃ q, ps[j]? = some q ∧ q = (if s.completed.getD j false = false ∧
            p.arrival_time ≤ s.current_time ∧ 0 < s.current_time - p.arrival_time ∧
            (s.current_time - p.arrival_time) % aging_interval = 0
          then { p with priority := max 1 (p.priority - 1) } else p) := by
    intro j p hp
    obtain ⟨q, hq, hone⟩ := age_getElem _ _ _ _ _ _ hage j p hp
    rw [ageOne_eq hk, Nat.zero_add] at hone
    exact ⟨q, hq, (Option.some.inj hone).symm⟩
  have hprio : ∀ (j : Nat) (p q : Process), q = (if s.completed.getD j false = false ∧
        p.arrival_time ≤ s.current_time ∧ 0 < s.current_time - p.arrival_time ∧
        (s.current_time - p.arrival_time) % aging_interval = 0
      then { p with priority := max 1 (p.priority - 1) } else p) →
      q.priority = (if s.completed.getD j false = false ∧
        p.arrival_time ≤ s.current_time ∧ 0 < s.current_time - p.arrival_time ∧
        (s.current_time - p.arrival_time) % aging_interval = 0
      then max 1 (p.priority - 1) else p.priority) := by
    intro j p q hq
    rw [hq]
    split <;> rfl
  rcases hcases with ⟨-, hev, hs1⟩ | ⟨i, p0, -, hp0, hev, hs1⟩
  · subst hev hs1
    refine ⟨?_, fun _ => rfl, fun e he => (by cases he)⟩
    intro j p hp
    obtain ⟨q, hq, hqe⟩ := haged j p hp
    exact ⟨q, hq, hprio j p q hqe⟩
  · subst hev hs1
    refine ⟨?_, fun he => (by cases he), ?_⟩
    · intro j p hp
      obtain ⟨q, hq, hqe⟩ := haged j p hp
      by_cases hji : i = j
      · subst hji
        rw [hp0] at hq
        obtain rfl := Option.some.inj hq
        refine ⟨complete p0 (s.current_time + p0.burst_time), ?_, ?_⟩
        · simp only
          rw [List.getElem?_set_self]
          exact (List.getElem?_eq_some_iff.mp hp0).1
        · exact hprio i p p0 hqe
      · refine ⟨q, ?_, hprio j p q hqe⟩
        simp only
        rw [List.getElem?_set_ne hji]
        exact hq
    · intro e he
      obtain rfl := Option.some.inj he
      have hlen := (age_spec _ _ _ _ _ _ hage).1
      have hi : i < s.processes.length := by
        rw [← hlen]
        exact (List.getElem?_eq_some_iff.mp hp0).1
      obtain ⟨q, hq, hqe⟩ := haged i s.processes[i] (List.getElem?_eq_getElem hi)
      rw [hp0] at hq
      obtain rfl := Option.some.inj hq
      refine ⟨s.processes[i], List.getElem?_eq_getElem hi, rfl, ?_, ?_⟩
      · rw [hqe]; split <;> rfl
      · simp only
        rw [hqe]; split <;> rfl

theorem aging_at_decisions_witness :
    ∃ s1, step (.priority 1) (init (.priority 1) agingGapWorkload) = .next (some ⟨0, 0, 8⟩) s1 ∧
      (∀ e, some (⟨0, 0, 8⟩ : Dispatch) = some e →
        ∃ p, (init (.priority 1) agingGapWorkload).processes[e.idx]? = some p ∧
          e.start = (init (.priority 1) agingGapWorkload).current_time ∧
          e.len = p.burst_time ∧
          s1.current_time
            = (init (.priority 1) agingGapWorkload).current_time + p.burst_time) :=
  ⟨_, rfl, (aging_at_decisions 1 (by decide) (init (.priority 1) agingGapWorkload) _
    (some ⟨0, 0, 8⟩) rfl).2.2⟩

/-- For a negative priority the MLQ level is negative. -/
theorem mlq_level_neg {priority : Int} (h : priority < 0) :
    MultilevelQueueScheduler.level priority < 0 := by
  unfold MultilevelQueueScheduler.level
  have h1 : priority - 1 = -(1 - priority) := by omega
  rw [h1, Int.neg_tdiv, Int.tdiv_eq_ediv (by omega) (by decide)]
  omega

/-- C27. The level `min((priority - 1) / 2, 2)` of `MultilevelQueueScheduler::schedule`
is one of 0, 1, 2 exactly when the priority is not negative (priority 0 gives level 0,
because the division truncates towards zero); it never exceeds 2.  For a negative
priority the level is negative, `queues[q_level]` lies outside the vector of three
queues, and the run on the process P1(arrival 0, burst 3, priority -1) performs that
access in its first iteration, so `schedule` returns no result for it. -/
theorem mlq_level_range (priority : Int) :
    (MultilevelQueueScheduler.level priority ∈ [0, 1, 2] ↔ 0 ≤ priority) ∧
    MultilevelQueueScheduler.level priority ≤ 2 ∧
    (∀ (qs : List (List Nat)) (x : Nat), qs.length = 3 →
      ((pushAt qs (MultilevelQueueScheduler.level priority) x).isSome ↔ 0 ≤ priority)) ∧
    MultilevelQueueScheduler.level (-1) = -1 ∧
    negativePriorityWorkload.map (fun p => (p.arrival_time, p.burst_time, p.priority))
      = [(0, 3, -1)] ∧
    step .mlq (init .mlq negativePriorityWorkload) = .fault ∧
    ∀ fuel, schedule .mlq fuel negativePriorityWorkload = none := by
  have hiff : MultilevelQueueScheduler.level priority ∈ [0, 1, 2] ↔ 0 ≤ priority := by
    constructor
    · intro hm
      by_contra hneg
      have := mlq_level_neg (lt_of_not_ge hneg)
      simp only [List.mem_cons, List.mem_singleton, List.not_mem_nil, or_false] at hm
      omega
    · intro hp
      simp only [List.mem_cons, List.mem_singleton, List.not_mem_nil, or_false]
      exact mlq_level_cases hp
  refine ⟨hiff, ?_, ?_, by decide, by decide, by decide, ?_⟩
  · unfold MultilevelQueueScheduler.level
    exact min_le_right _ _
  · intro qs x hl
    unfold pushAt
    constructor
    · intro hs
      split at hs
      · rename_i hc
        by_contra hneg
        have := mlq_level_neg (lt_of_not_ge hneg)
        omega
      · cases hs
    · intro hp
      have hm := hiff.mpr hp
      simp only [List.mem_cons, List.mem_singleton, List.not_mem_nil, or_false] at hm
      rw [if_pos (by rw [hl]; omega)]
      rfl
  · intro fuel
    cases fuel with
    | zero => rfl
    | succ n => rfl

/-- The call `queues[level].push(x)` appends `x` to the queue of that level and leaves
the other queues as they are. -/
theorem pushAt_levels {qs qs1 : List (List Nat)} {level : Int} {x : Nat}
    (h : pushAt qs level x = some qs1) :
    ∃ (l : Nat) (q : List Nat), (l : Int) = level ∧ qs[l]? = some q ∧
      qs1[l]? = some (q ++ [x]) ∧ (∀ m, m ≠ l → qs1[m]? = qs[m]?) ∧
      qs1.length = qs.length := by
  unfold pushAt at h
  split at h
  · rename_i hl
    simp only [Option.some.injEq] at h
    subst h
    have hn : level.toNat < qs.length := by omega
    refine ⟨level.toNat, qs[level.toNat], by omega, List.getElem?_eq_getElem hn, ?_, ?_, by simp⟩
    · rw [List.getElem?_set_self hn]
      simp [List.getD, List.getElem?_eq_getElem hn]
    · intro m hm
      rw [List.getElem?_set_ne (Ne.symm hm)]
  · cases h

/-- The loop over the three queues takes the front of the queue of the level it
returns, and every queue of a lower level is empty. -/
theorem popFirst_levels :
    ∀ {qs qs1 : List (List Nat)} {x lvl : Nat}, popFirst qs = some (x, lvl, qs1) →
      ∃ q, qs[lvl]? = some (x :: q) ∧ qs1[lvl]? = some q ∧
        (∀ m, m ≠ lvl → qs1[m]? = qs[m]?) ∧ (∀ m, m < lvl → qs[m]? = some []) ∧
        qs1.length = qs.length := by
  intro qs
  induction qs with
  | nil => intro qs1 x lvl h; simp [popFirst] at h
  | cons q rest ih =>
    intro qs1 x lvl h
    cases q with
    | nil =>
      simp only [popFirst] at h
      split at h
      · cases h
      · rename_i x0 lvl0 rest1 hrest
        simp only [Option.some.injEq, Prod.mk.injEq] at h
        obtain ⟨hx, hl, hq⟩ := h
        subst hx hl hq
        obtain ⟨q, h1, h2, h3, h4, h5⟩ := ih hrest
        refine ⟨q, by simpa using h1, by simpa using h2, ?_, ?_, by simp [h5]⟩
        · intro m hm
          cases m with
          | zero => simp
          | succ m =>
            simp only [List.getElem?_cons_succ]
            exact h3 m (by omega)
        · intro m hm
          cases m with
          | zero => simp
          | succ m =>
            simp only [List.getElem?_cons_succ]
            exact h4 m (by omega)
    | cons a q =>
      simp only [popFirst, Option.some.injEq, Prod.mk.injEq] at h
      obtain ⟨hx, hl, hq⟩ := h
      subst hx hl hq
      refine ⟨q, by simp, by simp, ?_, ?_, rfl⟩
      · intro m hm
        cases m with
        | zero => exact absurd rfl hm
        | succ m => simp
      · intro m hm
        exact absurd hm (Nat.not_lt_zero m)

/-- The admission loop of MFQ appends the indices it passes, in order, to queue 0 and
leaves the other queues as they are. -/
theorem mfq_enqueueArrived_levels (current_time : Int) :
    ∀ (rest : List Process) (idx : Nat) (qs : List (List Nat)) (idx1 : Nat)
      (qs1 : List (List Nat)),
      MFQScheduler.enqueueArrived current_time rest idx qs = some (idx1, qs1) →
      idx ≤ idx1 ∧ qs1[0]? = (qs[0]?).map (· ++ List.range' idx (idx1 - idx)) ∧
        (∀ m, m ≠ 0 → qs1[m]? = qs[m]?) ∧ qs1.length = qs.length := by
  intro rest
  induction rest with
  | nil =>
    intro idx qs idx1 qs1 h
    simp only [MFQScheduler.enqueueArrived, Option.some.injEq, Prod.mk.injEq] at h
    obtain ⟨h1, h2⟩ := h
    subst h1 h2
    refine ⟨le_refl _, ?_, fun _ _ => rfl, rfl⟩
    cases qs[0]? <;> simp
  | cons p rest ih =>
    intro idx qs idx1 qs1 h
    by_cases hp : p.arrival_time ≤ current_time
    · simp only [MFQScheduler.enqueueArrived, hp, if_true] at h
      split at h
      · cases h
      · rename_i qsm hpush
        obtain ⟨l, q, hl, hq, hq1, hother, hlen⟩ := pushAt_levels hpush
        have hl0 : l = 0 := by omega
        subst hl0
        obtain ⟨hle, h0, hm, hlen1⟩ := ih _ _ _ _ h
        refine ⟨by omega, ?_, fun m hm0 => (hm m hm0).trans (hother m hm0), hlen1.trans hlen⟩
        rw [h0, hq1, hq]
        simp only [Option.map_some', Option.some.injEq, List.append_assoc]
        congr 1
        have : idx1 - idx = (idx1 - (idx + 1)) + 1 := by omega
        rw [this, List.range'_succ]
        rfl
    · simp only [MFQScheduler.enqueueArrived, hp, if_false, Option.some.injEq,
        Prod.mk.injEq] at h
      obtain ⟨h1, h2⟩ := h
      subst h1 h2
      refine ⟨le_refl _, ?_, fun _ _ => rfl, rfl⟩
      cases qs[0]? <;> simp

/-- C29. An iteration of `MFQScheduler::schedule` that dispatches: the admission loop
before the dispatch appends the processes that have arrived, in input order, to queue 0
and to no other queue; the dispatch takes the front of the first non-empty queue, of
level `L`, and runs it for `min(quantum[L], remaining_time)` with
`quantum = [2, 4, 8]`; the admission loop after the slice again appends to queue 0 only;
and a process left unfinished is appended to the queue of level `min(L + 1, 2)`, which
is not lower than `L`, while a finished process is not enqueued. -/
theorem mfq_levels (s s1 : State) (e : Dispatch) (h : step .mfq s = .next (some e) s1) :
    MFQScheduler.quantum = [2, 4, 8] ∧
    ∃ (idx1 idx2 L : Nat) (qs1 qs2 qs3 : List (List Nat)) (q : List Nat) (p : Process)
        (slice : Int),
      MFQScheduler.enqueueArrived s.current_time (s.processes.drop s.idx) s.idx s.queues
        = some (idx1, qs1) ∧
      qs1[0]? = (s.queues[0]?).map (· ++ List.range' s.idx (idx1 - s.idx)) ∧
      (∀ m, m ≠ 0 → qs1[m]? = s.queues[m]?) ∧
      qs1[L]? = some (e.idx :: q) ∧ (∀ m, m < L → qs1[m]? = some []) ∧
      qs2[L]? = some q ∧ (∀ m, m ≠ L → qs2[m]? = qs1[m]?) ∧
      s.processes[e.idx]? = some p ∧ [2, 4, 8][L]? = some slice ∧
      e.start = s.current_time ∧ e.len = min slice p.remaining_time ∧
      s1.current_time = s.current_time + e.len ∧
      MFQScheduler.enqueueArrived (s.current_time + e.len)
        ((s.processes.set e.idx { p with remaining_time := p.remaining_time - e.len }).drop idx1)
        idx1 qs2 = some (idx2, qs3) ∧
      qs3[0]? = (qs2[0]?).map (· ++ List.range' idx1 (idx2 - idx1)) ∧
      (∀ m, m ≠ 0 → qs3[m]? = qs2[m]?) ∧
      L ≤ min (L + 1) 2 ∧
      (0 < p.remaining_time - e.len →
        ∃ q3, qs3[min (L + 1) 2]? = some q3 ∧
          s1.queues[min (L + 1) 2]? = some (q3 ++ [e.idx]) ∧
          ∀ m, m ≠ min (L + 1) 2 → s1.queues[m]? = qs3[m]?) ∧
      (p.remaining_time - e.len ≤ 0 → s1.queues = qs3) := by
  refine ⟨rfl, ?_⟩
  have h : MFQScheduler.step s = .next (some e) s1 := h
  unfold MFQScheduler.step at h
  split at h
  · split at h
    · cases h
    · rename_i idx1 qs1 hadm
      obtain ⟨-, ha0, ham, -⟩ := mfq_enqueueArrived_levels _ _ _ _ _ _ hadm
      split at h
      · rename_i hpop
        simp only [Outcome.next.injEq] at h
        exact absurd h.1 (by simp)
      · rename_i current lvl qs2 hpop
        obtain ⟨q, hq1, hq2, hother, hlow, -⟩ := popFirst_levels hpop
        split at h
        · rename_i p sl hp hsl
          dsimp only at h
          have hL : lvl < 3 := by
            have := (List.getElem?_eq_some_iff.mp hsl).1
            simpa [MFQScheduler.quantum] using this
          split at h
          · cases h
          · rename_i idx2 qs3 hadm2
            obtain ⟨-, hb0, hbm, -⟩ := mfq_enqueueArrived_levels _ _ _ _ _ _ hadm2
            split at h
            · rename_i hpos
              split at h
              · cases h
              · rename_i qs4 hpush
                obtain ⟨l, q3, hl, hq3, hq4, hrest, -⟩ := pushAt_levels hpush
                have hl2 : l = min (lvl + 1) 2 := by omega
                subst hl2
                simp only [Outcome.next.injEq, Option.some.injEq] at h
                obtain ⟨hev, hs1⟩ := h
                subst hev hs1
                exact ⟨idx1, idx2, lvl, qs1, qs2, qs3, q, p, sl, hadm, ha0, ham, hq1, hlow, hq2,
                  hother, hp, hsl, rfl, rfl, rfl, hadm2, hb0, hbm, by omega,
                  fun _ => ⟨q3, hq3, hq4, hrest⟩, fun hle => absurd hpos (by simpa using hle)⟩
            · rename_i hpos
              simp only [Outcome.next.injEq, Option.some.injEq] at h
              obtain ⟨hev, hs1⟩ := h
              subst hev hs1
              exact ⟨idx1, idx2, lvl, qs1, qs2, qs3, q, p, sl, hadm, ha0, ham, hq1, hlow, hq2,
                hother, hp, hsl, rfl, rfl, rfl, hadm2, hb0, hbm, by omega,
                fun hlt => absurd hlt hpos, fun _ => rfl⟩
        · cases h
  · cases h

theorem mfq_levels_witness :
    ∃ s1, step .mfq (init .mfq builtin) = .next (some ⟨0, 0, 2⟩) s1 ∧
      s1.queues = [[1, 2], [0], []] ∧ s1.current_time = 2 ∧ MFQScheduler.quantum = [2, 4, 8] :=
  ⟨_, rfl, rfl, rfl, (mfq_levels (init .mfq builtin) _ ⟨0, 0, 2⟩ rfl).1⟩

/-- Pushing an index to the queue of its own level keeps every queued index at its own
level. -/
theorem queuedAtOwnLevel_push {priorities : List Int} {qs qs1 : List (List Nat)} {x : Nat}
    {pr : Int} (h : pushAt qs (MultilevelQueueScheduler.level pr) x = some qs1)
    (hx : priorities[x]? = some pr) (hinv : queuedAtOwnLevel priorities qs) :
    queuedAtOwnLevel priorities qs1 := by
  obtain ⟨l, q0, hl, hq0, hq1, hother, -⟩ := pushAt_levels h
  intro l1 q y hq hy
  by_cases hll : l1 = l
  · subst hll
    rw [hq1] at hq
    obtain rfl := Option.some.inj hq
    rcases List.mem_append.mp hy with hy | hy
    · exact hinv l1 q0 y hq0 hy
    · obtain rfl := List.mem_singleton.mp hy
      exact ⟨pr, hx, hl.symm⟩
  · rw [hother l1 hll] at hq
    exact hinv l1 q y hq hy

/-- Taking the front of the first non-empty queue keeps every queued index at its own
level, and the index taken has the level of the queue it was taken from. -/
theorem queuedAtOwnLevel_pop {priorities : List Int} {qs qs1 : List (List Nat)} {x lvl : Nat}
    (h : popFirst qs = some (x, lvl, qs1)) (hinv : queuedAtOwnLevel priorities qs) :
    queuedAtOwnLevel priorities qs1 ∧
      ∃ pr, priorities[x]? = some pr ∧ MultilevelQueueScheduler.level pr = (lvl : Int) := by
  obtain ⟨q, hq, hq1, hother, -, -⟩ := popFirst_levels h
  refine ⟨?_, hinv lvl (x :: q) x hq (List.mem_cons_self _ _)⟩
  intro l1 q2 y hq2 hy
  by_cases hll : l1 = lvl
  · subst hll
    rw [hq1] at hq2
    obtain rfl := Option.some.inj hq2
    exact hinv l1 (x :: q) y hq (List.mem_cons_of_mem _ hy)
  · rw [hother l1 hll] at hq2
    exact hinv l1 q2 y hq2 hy

/-- The admission loop of MLQ puts every index it passes into the queue of the level of
its priority. -/
theorem mlq_enqueueArrived_levels (priorities : List Int) (current_time : Int) :
    ∀ (rest : List Process) (idx : Nat) (qs : List (List Nat)) (idx1 : Nat)
      (qs1 : List (List Nat)),
      MultilevelQueueScheduler.enqueueArrived current_time rest idx qs = some (idx1, qs1) →
      (∀ j, (rest[j]?).map (·.priority) = priorities[idx + j]?) →
      queuedAtOwnLevel priorities qs → queuedAtOwnLevel priorities qs1 := by
  intro rest
  induction rest with
  | nil =>
    intro idx qs idx1 qs1 h _ hinv
    simp only [MultilevelQueueScheduler.enqueueArrived, Option.some.injEq, Prod.mk.injEq] at h
    obtain ⟨-, h2⟩ := h
    subst h2
    exact hinv
  | cons p rest ih =>
    intro idx qs idx1 qs1 h hrest hinv
    by_cases hp : p.arrival_time ≤ current_time
    · simp only [MultilevelQueueScheduler.enqueueArrived, hp, if_true] at h
      split at h
      · cases h
      · rename_i qsm hpush
        have h0 := hrest 0
        simp only [List.getElem?_cons_zero, Option.map_some', Nat.add_zero] at h0
        refine ih _ _ _ _ h ?_ (queuedAtOwnLevel_push hpush h0.symm hinv)
        intro j
        have hj := hrest (j + 1)
        simp only [List.getElem?_cons_succ] at hj
        rw [hj]
        congr 1
        omega
    · simp only [MultilevelQueueScheduler.enqueueArrived, hp, if_false, Option.some.injEq,
        Prod.mk.injEq] at h
      obtain ⟨-, h2⟩ := h
      subst h2
      exact hinv

/-- With three queues and no negative priority, the admission loop of MLQ indexes one of
the queues at every push. -/
theorem mlq_enqueueArrived_isSome (current_time : Int) :
    ∀ (rest : List Process) (idx : Nat) (qs : List (List Nat)), qs.length = 3 →
      (∀ p ∈ rest, 0 ≤ p.priority) →
      ∃ idx1 qs1, MultilevelQueueScheduler.enqueueArrived current_time rest idx qs
        = some (idx1, qs1) ∧ qs1.length = 3 := by
  intro rest
  induction rest with
  | nil => intro idx qs hl _; exact ⟨idx, qs, rfl, hl⟩
  | cons p rest ih =>
    intro idx qs hl hprio
    by_cases hp : p.arrival_time ≤ current_time
    · simp only [MultilevelQueueScheduler.enqueueArrived, hp, if_true]
      have hlev := mlq_level_cases (hprio p (List.mem_cons_self _ _))
      have hsome : ∃ qsm, pushAt qs (MultilevelQueueScheduler.level p.priority) idx
          = some qsm ∧ qsm.length = 3 := by
        unfold pushAt
        rw [if_pos (by rw [hl]; omega)]
        exact ⟨_, rfl, by simp [hl]⟩
      obtain ⟨qsm, hpush, hlm⟩ := hsome
      rw [hpush]
      exact ih (idx + 1) qsm hlm (fun q hq => hprio q (List.mem_cons_of_mem _ hq))
    · simp only [MultilevelQueueScheduler.enqueueArrived, hp, if_false]
      exact ⟨idx, qs, rfl, hl⟩

/-- An iteration of `MultilevelQueueScheduler::schedule` from a state with three queues,
no negative priority and every queued index at the level of its priority performs no
access outside the vectors. -/
theorem mlq_step_ne_fault {s : State} (hl : s.queues.length = 3)
    (hprio : ∀ p ∈ s.processes, 0 ≤ p.priority)
    (hinv : queuedAtOwnLevel (s.processes.map (·.priority)) s.queues) :
    MultilevelQueueScheduler.step s ≠ .fault := by
  intro h
  have hdrop : ∀ (j : Nat) (ps : List Process),
      ps.map (·.priority) = s.processes.map (·.priority) →
      ∀ i, ((ps.drop j)[i]?).map (·.priority) = (s.processes.map (·.priority))[j + i]? := by
    intro j ps hps i
    rw [List.getElem?_drop, ← hps, List.getElem?_map]
  unfold MultilevelQueueScheduler.step at h
  split at h
  · split at h
    · rename_i hadm
      obtain ⟨idx1, qs1, hsome, -⟩ := mlq_enqueueArrived_isSome s.current_time
        (s.processes.drop s.idx) s.idx s.queues hl
        (fun p hp => hprio p (List.mem_of_mem_drop hp))
      rw [hsome] at hadm
      cases hadm
    · rename_i idx1 qs1 hadm
      obtain ⟨idx1a, qs1a, hsome, hl1⟩ := mlq_enqueueArrived_isSome s.current_time
        (s.processes.drop s.idx) s.idx s.queues hl
        (fun p hp => hprio p (List.mem_of_mem_drop hp))
      rw [hadm] at hsome
      simp only [Option.some.injEq, Prod.mk.injEq] at hsome
      obtain ⟨h1, h2⟩ := hsome
      subst h1 h2
      have hinv1 := mlq_enqueueArrived_levels _ _ _ _ _ _ _ hadm (hdrop s.idx _ rfl) hinv
      split at h
      · cases h
      · rename_i current lvl qs2 hpop
        obtain ⟨hinv2, pr, hpr, hlev⟩ := queuedAtOwnLevel_pop hpop hinv1
        obtain ⟨-, -, -, -, -, hl2⟩ := popFirst_levels hpop
        split at h
        · rename_i hnone
          rw [List.getElem?_map, hnone] at hpr
          cases hpr
        · rename_i p hp
          dsimp only at h
          have hmem : p ∈ s.processes := List.getElem?_mem hp
          have hset : ∀ q ∈ (s.processes.set current
              { p with remaining_time := p.remaining_time - min 2 p.remaining_time }),
              0 ≤ q.priority := by
            intro q hq
            rcases List.mem_or_eq_of_mem_set hq with hq | hq
            · exact hprio q hq
            · rw [hq]
              exact hprio p hmem
          obtain ⟨idx2a, qs3a, hsome2, hl3⟩ := mlq_enqueueArrived_isSome
            (s.current_time + min 2 p.remaining_time)
            ((s.processes.set current
              { p with remaining_time := p.remaining_time - min 2 p.remaining_time }).drop idx1)
            idx1 qs2 (hl2.trans hl1) (fun q hq => hset q (List.mem_of_mem_drop hq))
          split at h
          · rename_i hadm2
            rw [hsome2] at hadm2
            cases hadm2
          · rename_i idx2 qs3 hadm2
            rw [hadm2] at hsome2
            simp only [Option.some.injEq, Prod.mk.injEq] at hsome2
            obtain ⟨h1, h2⟩ := hsome2
            subst h1 h2
            split at h
            · split at h
              · rename_i hpush
                have hlev := mlq_level_cases (hprio p hmem)
                unfold pushAt at hpush
                rw [if_pos (by rw [hl3]; omega)] at hpush
                cases hpush
              · cases h
            · cases h
  · cases h

/-- An iteration of `MultilevelQueueScheduler::schedule` from a state in which every
queued index waits at the level of its priority: what it dispatches, and where the
indices wait afterwards. -/
theorem mlq_step_levels {s s1 : State} {ev : Option Dispatch}
    (h : MultilevelQueueScheduler.step s = .next ev s1)
    (hinv : queuedAtOwnLevel (s.processes.map (·.priority)) s.queues) :
    queuedAtOwnLevel (s.processes.map (·.priority)) s1.queues ∧
    s1.queues.length = s.queues.length ∧
    ∀ e, ev = some e →
      ∃ (idx1 idx2 L : Nat) (qs1 qs2 qs3 : List (List Nat)) (q : List Nat) (p : Process),
        MultilevelQueueScheduler.enqueueArrived s.current_time (s.processes.drop s.idx) s.idx
          s.queues = some (idx1, qs1) ∧
        qs1[L]? = some (e.idx :: q) ∧ (∀ m, m < L → qs1[m]? = some []) ∧
        qs2[L]? = some q ∧ (∀ m, m ≠ L → qs2[m]? = qs1[m]?) ∧
        s.processes[e.idx]? = some p ∧ MultilevelQueueScheduler.level p.priority = (L : Int) ∧
        e.start = s.current_time ∧ e.len = min 2 p.remaining_time ∧
        s1.current_time = s.current_time + e.len ∧
        MultilevelQueueScheduler.enqueueArrived (s.current_time + e.len)
          ((s.processes.set e.idx
            { p with remaining_time := p.remaining_time - e.len }).drop idx1)
          idx1 qs2 = some (idx2, qs3) ∧
        (0 < p.remaining_time - e.len →
          ∃ q3, qs3[L]? = some q3 ∧ s1.queues[L]? = some (q3 ++ [e.idx]) ∧
            ∀ m, m ≠ L → s1.queues[m]? = qs3[m]?) ∧
        (p.remaining_time - e.len ≤ 0 → s1.queues = qs3) := by
  have hdrop : ∀ (j : Nat) (ps : List Process),
      ps.map (·.priority) = s.processes.map (·.priority) →
      ∀ i, ((ps.drop j)[i]?).map (·.priority) = (s.processes.map (·.priority))[j + i]? := by
    intro j ps hps i
    rw [List.getElem?_drop, ← hps, List.getElem?_map]
  unfold MultilevelQueueScheduler.step at h
  split at h
  · split at h
    · cases h
    · rename_i idx1 qs1 hadm
      have hinv1 := mlq_enqueueArrived_levels _ _ _ _ _ _ _ hadm (hdrop s.idx _ rfl) hinv
      obtain ⟨-, -, -, -, hlen1, -, -⟩ := mlq_enqueueArrived_rest _ _ _ _ _ _ hadm
      split at h
      · simp only [Outcome.next.injEq] at h
        obtain ⟨hev, hs1⟩ := h
        subst hev hs1
        exact ⟨hinv1, hlen1, fun e he => (by cases he)⟩
      · rename_i current lvl qs2 hpop
        obtain ⟨hinv2, pr, hpr, hlev⟩ := queuedAtOwnLevel_pop hpop hinv1
        obtain ⟨q, hq1, hq2, hother, hlow, hlen2⟩ := popFirst_levels hpop
        split at h
        · cases h
        · rename_i p hp
          dsimp only at h
          have hprp : pr = p.priority := by
            rw [List.getElem?_map, hp] at hpr
            exact (Option.some.inj hpr).symm
          subst hprp
          have hps1 : (s.processes.set current
              { p with remaining_time := p.remaining_time - min 2 p.remaining_time }).map
                (·.priority) = s.processes.map (·.priority) :=
            map_set_of_eq _ hp rfl
          split at h
          · cases h
          · rename_i idx2 qs3 hadm2
            have hinv3 := mlq_enqueueArrived_levels _ _ _ _ _ _ _ hadm2 (hdrop idx1 _ hps1) hinv2
            obtain ⟨-, -, -, -, hlen3, -, -⟩ := mlq_enqueueArrived_rest _ _ _ _ _ _ hadm2
            split at h
            · rename_i hpos
              split at h
              · cases h
              · rename_i qs4 hpush
                have hinv4 := queuedAtOwnLevel_push hpush hpr hinv3
                obtain ⟨l, q3, hl, hq3, hq4, hrest, hlen4⟩ := pushAt_levels hpush
                have hlL : l = lvl := by
                  have : (l : Int) = (lvl : Int) := hl.trans hlev
                  exact_mod_cast this
                subst hlL
                simp only [Outcome.next.injEq] at h
                obtain ⟨hev, hs1⟩ := h
                subst hev hs1
                refine ⟨hinv4, ?_, ?_⟩
                · show qs4.length = s.queues.length
                  rw [hlen4, hlen3, hlen2, hlen1]
                · intro e he
                  obtain rfl := Option.some.inj he
                  exact ⟨idx1, idx2, l, qs1, qs2, qs3, q, p, hadm, hq1, hlow, hq2, hother, hp,
                    hlev, rfl, rfl, rfl, hadm2, fun _ => ⟨q3, hq3, hq4, hrest⟩,
                    fun hle => absurd hpos (by simpa using hle)⟩
            · rename_i hpos
              simp only [Outcome.next.injEq] at h
              obtain ⟨hev, hs1⟩ := h
              subst hev hs1
              refine ⟨hinv3, ?_, ?_⟩
              · show qs3.length = s.queues.length
                rw [hlen3, hlen2, hlen1]
              · intro e he
                obtain rfl := Option.some.inj he
                exact ⟨idx1, idx2, lvl, qs1, qs2, qs3, q, p, hadm, hq1, hlow, hq2, hother, hp,
                  hlev, rfl, rfl, rfl, hadm2, fun hlt => absurd hlt hpos, fun _ => rfl⟩
  · cases h

/-- After any number of iterations of MLQ the priorities are those of the workload, there
are three queues, and every queued index waits at the level of its priority. -/
theorem mlq_reach_levels (ps : List Process) (n : Nat) :
    (reach .mlq n ps).1.processes.map (·.priority) = ps.map (·.priority) ∧
      (reach .mlq n ps).1.queues.length = 3 ∧
      queuedAtOwnLevel (ps.map (·.priority)) (reach .mlq n ps).1.queues := by
  refine iterate_inv .mlq
    (fun s _ => s.processes.map (·.priority) = ps.map (·.priority) ∧ s.queues.length = 3 ∧
      queuedAtOwnLevel (ps.map (·.priority)) s.queues) ?_ n (init .mlq ps) [] ?_
  · rintro s log ev s1 ⟨hmap, hl, hinv⟩ hs
    have hmap1 : s1.processes.map (·.priority) = s.processes.map (·.priority) :=
      step_map_keep (·.priority) (fun _ _ _ _ _ => rfl) (by intro a h; cases h) hs
    rw [← hmap] at hinv
    obtain ⟨hinv1, hl1, -⟩ := mlq_step_levels hs hinv
    exact ⟨hmap1.trans hmap, hl1.trans hl, hmap ▸ hinv1⟩
  · refine ⟨?_, rfl, ?_⟩
    · show (resetRemaining ps).map (·.priority) = _
      simp [resetRemaining, Function.comp]
    · intro l q y hq hy
      have hq0 : q = [] := by
        have hq1 : ([[], [], []] : List (List Nat))[l]? = some q := hq
        rcases l with _ | _ | _ | l <;> simp at hq1 <;> exact hq1
      subst hq0
      cases hy

/-- C28. On a workload whose priorities are all at least 1, after any number of
iterations of `MultilevelQueueScheduler::schedule`: the next iteration indexes no queue
or process outside the vectors; every queued process waits in the queue of the level of
its priority; and when the iteration dispatches, it takes the front of the queue of a
level `L` while every queue of a lower level is empty (after the arrivals up to the
current time have been enqueued), `L` is the level of the priority of the process, it
runs for `min(2, remaining_time)`, and the process, if unfinished, is appended to the
queue of the same level `L`, after the arrivals during the slice, while no other queue
changes; a finished process is not enqueued. -/
theorem mlq_strict_levels (ps : List Process) (hprio : ∀ p ∈ ps, 1 ≤ p.priority) (n : Nat) :
    step .mlq (reach .mlq n ps).1 ≠ .fault ∧
    queuedAtOwnLevel (ps.map (·.priority)) (reach .mlq n ps).1.queues ∧
    ∀ (e : Dispatch) (s1 : State), step .mlq (reach .mlq n ps).1 = .next (some e) s1 →
      ∃ (idx1 idx2 L : Nat) (qs1 qs2 qs3 : List (List Nat)) (q : List Nat) (p : Process),
        MultilevelQueueScheduler.enqueueArrived (reach .mlq n ps).1.current_time
          ((reach .mlq n ps).1.processes.drop (reach .mlq n ps).1.idx) (reach .mlq n ps).1.idx
          (reach .mlq n ps).1.queues = some (idx1, qs1) ∧
        qs1[L]? = some (e.idx :: q) ∧ (∀ m, m < L → qs1[m]? = some []) ∧
        qs2[L]? = some q ∧ (∀ m, m ≠ L → qs2[m]? = qs1[m]?) ∧
        (reach .mlq n ps).1.processes[e.idx]? = some p ∧
        MultilevelQueueScheduler.level p.priority = (L : Int) ∧
        e.start = (reach .mlq n ps).1.current_time ∧ e.len = min 2 p.remaining_time ∧
        s1.current_time = (reach .mlq n ps).1.current_time + e.len ∧
        MultilevelQueueScheduler.enqueueArrived ((reach .mlq n ps).1.current_time + e.len)
          (((reach .mlq n ps).1.processes.set e.idx
            { p with remaining_time := p.remaining_time - e.len }).drop idx1)
          idx1 qs2 = some (idx2, qs3) ∧
        (0 < p.remaining_time - e.len →
          ∃ q3, qs3[L]? = some q3 ∧ s1.queues[L]? = some (q3 ++ [e.idx]) ∧
            ∀ m, m ≠ L → s1.queues[m]? = qs3[m]?) ∧
        (p.remaining_time - e.len ≤ 0 → s1.queues = qs3) := by
  obtain ⟨hmap, hl, hinv⟩ := mlq_reach_levels ps n
  have hnn : ∀ p ∈ (reach .mlq n ps).1.processes, 0 ≤ p.priority := by
    intro p hp
    have hm : p.priority ∈ (reach .mlq n ps).1.processes.map (·.priority) :=
      List.mem_map_of_mem _ hp
    rw [hmap] at hm
    obtain ⟨p0, hp0, hpe⟩ := List.mem_map.mp hm
    have := hprio p0 hp0
    omega
  rw [← hmap] at hinv
  refine ⟨mlq_step_ne_fault hl hnn hinv, hmap ▸ hinv, ?_⟩
  intro e s1 hs
  exact (mlq_step_levels hs hinv).2.2 e rfl

theorem mlq_strict_levels_witness :
    (∀ p ∈ builtin, 1 ≤ p.priority) ∧ step .mlq (reach .mlq 2 builtin).1 ≠ .fault ∧
      queuedAtOwnLevel (builtin.map (·.priority)) (reach .mlq 2 builtin).1.queues ∧
      step .mlq (reach .mlq 2 builtin).1 = .next (some ⟨0, 4, 2⟩) (reach .mlq 3 builtin).1 ∧
      (reach .mlq 2 builtin).1.queues = [[0, 1], [2, 3], []] ∧
      (reach .mlq 3 builtin).1.queues = [[1, 0], [2, 3], []] :=
  ⟨by decide, (mlq_strict_levels builtin (by decide) 2).1,
    (mlq_strict_levels builtin (by decide) 2).2.1, by decide, by decide, by decide⟩

/-- On a vector sorted by arrival time an admission loop stops only when no process
from its position on has arrived. -/
theorem admitted_sorted {ps : List Process} {current_time : Int} {idx idx1 : Nat}
    {held held1 : Nat → Prop} (ha : Admitted ps current_time idx idx1 held held1)
    (hsorted : (ps.map (·.arrival_time)).Pairwise (· ≤ ·)) :
    ∀ (j : Nat) (r : Process), idx1 ≤ j → ps[j]? = some r → current_time < r.arrival_time := by
  intro j r hj hr
  have hjl : j < ps.length := (List.getElem?_eq_some_iff.mp hr).1
  have hstop := ha.stop ps[idx1] (List.getElem?_eq_getElem (by omega))
  rcases Nat.eq_or_lt_of_le hj with heq | hlt
  · subst heq
    rw [List.getElem?_eq_getElem hjl] at hr
    obtain rfl := Option.some.inj hr
    exact hstop
  · have hle := List.pairwise_iff_getElem.mp hsorted idx1 j (by simp; omega) (by simp; omega) hlt
    simp only [List.getElem_map] at hle
    rw [List.getElem?_eq_getElem hjl] at hr
    obtain rfl := Option.some.inj hr
    omega

/-- C24. An iteration of `RoundRobinScheduler::schedule` with quantum `q >= 1` that
dispatches, on a vector sorted by arrival time: the admission loop appends the indices
from `idx` on, in input order, to the tail of the ready queue, as far as the processes
have arrived; the dispatch takes the head of the queue so obtained and runs it for
`min(q, remaining_time)`, a positive time if the process has work left; the second
admission loop appends, again in input order, the processes that have arrived by the end
of the slice, after which every process of the vector with `arrival_time` at most the end
of the slice has been admitted; and the process dispatched, if unfinished, is appended
after them, at the tail of the queue, while a finished process is not enqueued. -/
theorem rr_dispatch (quantum : Int) (hq : 1 ≤ quantum) (s s1 : State) (e : Dispatch)
    (hsorted : (s.processes.map (·.arrival_time)).Pairwise (· ≤ ·))
    (h : step (.rr quantum) s = .next (some e) s1) :
    ∃ (idx1 idx2 : Nat) (q1 : List Nat) (p : Process),
      s.idx ≤ idx1 ∧ idx1 ≤ idx2 ∧ idx2 ≤ max s.idx s.processes.length ∧
      s.ready_queue ++ List.range' s.idx (idx1 - s.idx) = e.idx :: q1 ∧
      (∀ j r, s.idx ≤ j → s.processes[j]? = some r →
        (j < idx1 ↔ r.arrival_time ≤ s.current_time)) ∧
      s.processes[e.idx]? = some p ∧ e.start = s.current_time ∧
      e.len = min quantum p.remaining_time ∧ (0 < p.remaining_time → 0 < e.len) ∧
      s1.current_time = s.current_time + e.len ∧ s1.idx = idx2 ∧
      (∀ j r, idx1 ≤ j → s.processes[j]? = some r →
        (j < idx2 ↔ r.arrival_time ≤ s.current_time + e.len)) ∧
      (∀ j r, s.idx ≤ j → s.processes[j]? = some r →
        r.arrival_time ≤ s.current_time + e.len → j < idx2) ∧
      s1.ready_queue = q1 ++ List.range' idx1 (idx2 - idx1) ++
        (if 0 < p.remaining_time - e.len then [e.idx] else []) := by
  have h : RoundRobinScheduler.step quantum s = .next (some e) s1 := h
  unfold RoundRobinScheduler.step at h
  split at h
  · split at h
    · simp only [Outcome.next.injEq] at h
      exact absurd h.1 (by simp)
    · rename_i idx1 current q1 hadm
      split at h
      · cases h
      · rename_i p hp
        dsimp only at h
        generalize hadm2 : enqueueArrived _ _ idx1 q1 = r at h
        obtain ⟨idx2, q2⟩ := r
        dsimp only at h
        obtain ⟨ha1, hq1⟩ := enqueueArrived_spec hadm
        obtain ⟨ha2, hq2⟩ := enqueueArrived_spec hadm2
        have ha2 := ha2.of_set hp rfl
        have hb2 : idx2 ≤ max s.idx s.processes.length := by
          have h1 := ha1.bound
          have h2 := ha2.bound
          omega
        have hiff : ∀ (t : Int) (i i1 : Nat) (held held1 : Nat → Prop),
            Admitted s.processes t i i1 held held1 →
            ∀ j r, i ≤ j → s.processes[j]? = some r → (j < i1 ↔ r.arrival_time ≤ t) := by
          intro t i i1 held held1 ha j r hj hr
          constructor
          · intro hlt
            exact ha.arrived j r hj hlt hr
          · intro hle
            by_contra hge
            have := admitted_sorted ha hsorted j r (by omega) hr
            omega
        have hfirst := hiff _ _ _ _ _ ha1
        have hsecond := hiff _ _ _ _ _ ha2
        have hall : ∀ j r, s.idx ≤ j → s.processes[j]? = some r →
            r.arrival_time ≤ s.current_time + min quantum p.remaining_time → j < idx2 := by
          intro j r hj hr hle
          by_cases hji : idx1 ≤ j
          · exact (hsecond j r hji hr).mpr hle
          · have := ha2.le
            omega
        have hpos : 0 < p.remaining_time → 0 < min quantum p.remaining_time := by
          intro hp0
          exact lt_min (by omega) hp0
        split at h
        · rename_i hrem
          simp only [Outcome.next.injEq, Option.some.injEq] at h
          obtain ⟨hev, hs1⟩ := h
          subst hev hs1
          refine ⟨idx1, idx2, q1, p, ha1.le, ha2.le, hb2, hq1.symm, hfirst, hp, rfl, rfl, hpos,
            rfl, rfl, hsecond, hall, ?_⟩
          show q2 ++ [current] = _
          rw [hq2, if_pos (by simpa using hrem)]
        · rename_i hrem
          simp only [Outcome.next.injEq, Option.some.injEq] at h
          obtain ⟨hev, hs1⟩ := h
          subst hev hs1
          refine ⟨idx1, idx2, q1, p, ha1.le, ha2.le, hb2, hq1.symm, hfirst, hp, rfl, rfl, hpos,
            rfl, rfl, hsecond, hall, ?_⟩
          show q2 = _
          rw [hq2, if_neg (by simpa using hrem), List.append_nil]
  · cases h

theorem rr_dispatch_witness :
    ((init (.rr 4) builtin).processes.map (·.arrival_time)).Pairwise (· ≤ ·) ∧
      step (.rr 4) (init (.rr 4) builtin) = .next (some ⟨0, 0, 4⟩) (reach (.rr 4) 1 builtin).1 ∧
      (reach (.rr 4) 1 builtin).1.ready_queue = [1, 2, 3, 0] ∧
      ∃ (idx1 idx2 : Nat) (q1 : List Nat),
        (init (.rr 4) builtin).ready_queue
            ++ List.range' (init (.rr 4) builtin).idx (idx1 - (init (.rr 4) builtin).idx)
          = 0 :: q1 ∧ (reach (.rr 4) 1 builtin).1.idx = idx2 :=
  ⟨by decide, by decide, by decide,
    (rr_dispatch 4 (by decide) (init (.rr 4) builtin) (reach (.rr 4) 1 builtin).1 ⟨0, 0, 4⟩
      (by decide) (by decide)).elim
      (fun idx1 h1 => h1.elim (fun idx2 h2 => h2.elim (fun q1 h3 => h3.elim (fun _ h4 =>
        ⟨idx1, idx2, q1, h4.2.2.2.1, h4.2.2.2.2.2.2.2.2.2.2.1⟩))))⟩

/-- One more iteration is an iteration made after the others. -/
theorem iterate_succ_last (pol : Policy) :
    ∀ (m : Nat) (c : State × List Dispatch),
      iterate pol (m + 1) c = iterate pol 1 (iterate pol m c) := by
  intro m
  induction m with
  | zero => intro c; rfl
  | succ m ihm =>
    intro c
    obtain ⟨s0, log0⟩ := c
    cases hs : step pol s0 with
    | next ev0 s2 =>
      rw [iterate_next hs, iterate_next hs]
      exact ihm _
    | halt =>
      have hstop : ∀ ev s1, step pol s0 ≠ .next ev s1 := by simp [hs]
      rw [iterate_stop hstop, iterate_stop hstop, iterate_stop hstop]
    | fault =>
      have hstop : ∀ ev s1, step pol s0 ≠ .next ev s1 := by simp [hs]
      rw [iterate_stop hstop, iterate_stop hstop, iterate_stop hstop]

/-- C31. An iteration of `PreemptivePriorityScheduler::schedule` that dispatches runs,
for one time unit, a process that has arrived and has time remaining and whose priority
is minimal among such processes; and whenever a ready process has a priority below
`INT32_MAX`, the iteration dispatches.  The idle branch, however, is taken whenever
every ready process has a priority of at least `INT32_MAX`: on a single process with
priority `INT32_MAX`, which is ready from time 0, the loop idles, iteration after
iteration, dispatches nothing, and `schedule` does not return. -/
theorem preemptive_priority_dispatch (s s1 : State) (ev : Option Dispatch)
    (h : step .priorityPreemptive s = .next ev s1) :
    (∀ e, ev = some e →
      ∃ p, s.processes[e.idx]? = some p ∧ p.arrival_time ≤ s.current_time ∧
        0 < p.remaining_time ∧
        (∀ (j : Nat) (q : Process), s.processes[j]? = some q →
          q.arrival_time ≤ s.current_time → 0 < q.remaining_time → p.priority ≤ q.priority) ∧
        e.start = s.current_time ∧ e.len = 1 ∧ s1.current_time = s.current_time + 1) ∧
    (ev = none →
      s1 = { s with current_time := s.current_time + 1 } ∧
      ∀ (j : Nat) (q : Process), s.processes[j]? = some q →
        q.arrival_time ≤ s.current_time → 0 < q.remaining_time → INT32_MAX ≤ q.priority) ∧
    (∀ (j : Nat) (q : Process), s.processes[j]? = some q →
      q.arrival_time ≤ s.current_time → 0 < q.remaining_time → q.priority < INT32_MAX →
      ev ≠ none) ∧
    (∀ n, reach .priorityPreemptive n sentinelWorkload
      = ({ processes := sentinelWorkload, current_time := n }, [])) ∧
    (∀ fuel, schedule .priorityPreemptive fuel sentinelWorkload = none) := by
  have h1 : unitStep (·.priority) (fun _ _ => false) s = .next ev s1 := h
  have hidle : ev = none →
      s1 = { s with current_time := s.current_time + 1 } ∧
      ∀ (j : Nat) (q : Process), s.processes[j]? = some q →
        q.arrival_time ≤ s.current_time → 0 < q.remaining_time → INT32_MAX ≤ q.priority := by
    intro he
    rcases unitStep_next h1 with ⟨hscan, -, hs1⟩ | ⟨i, p, -, -, hev, -⟩
    · refine ⟨hs1, ?_⟩
      intro j q hq ha hr
      have := scanMin_none hscan j q hq
      simp only [ha, hr, gt_iff_lt, decide_True, Bool.and_self, forall_const] at this
      exact this
    · rw [hev] at he; cases he
  have hstep : ∀ (t : Int), step .priorityPreemptive
      { processes := sentinelWorkload, current_time := t }
      = .next none { processes := sentinelWorkload, current_time := t + 1 } := by
    intro t
    show PreemptivePriorityScheduler.step _ = _
    unfold PreemptivePriorityScheduler.step unitStep
    rw [if_pos (by show (0 : Int) < ((sentinelWorkload.length : Nat) : Int); decide)]
    have : scanMin (fun _ p => decide (p.arrival_time ≤ t) && decide (p.remaining_time > 0))
        (·.priority) sentinelWorkload = none := by
      simp [scanMin, scanFrom, sentinelWorkload, INT32_MAX]
    simp only [this]
  have hreach : ∀ n : Nat, reach .priorityPreemptive n sentinelWorkload
      = ({ processes := sentinelWorkload, current_time := n }, []) := by
    intro n
    induction n with
    | zero => rfl
    | succ n ih =>
      show iterate .priorityPreemptive (n + 1) (init .priorityPreemptive sentinelWorkload, [])
        = _
      rw [iterate_succ_last]
      have ih2 : iterate .priorityPreemptive n (init .priorityPreemptive sentinelWorkload, [])
          = _ := ih
      rw [ih2, iterate_next (hstep n)]
      simp [iterate, record]
  refine ⟨?_, hidle, ?_, hreach, ?_⟩
  · intro e he
    rcases unitStep_next h1 with ⟨-, hev, -⟩ | ⟨i, p, hscan, hp, hev, hct, -⟩
    · rw [hev] at he; cases he
    · rw [hev] at he
      obtain rfl := Option.some.inj he
      obtain ⟨p1, hp1, hok, -, hmin, -⟩ := scanMin_some hscan
      rw [hp] at hp1
      obtain rfl : p = p1 := Option.some.inj hp1
      simp only [Bool.and_eq_true, decide_eq_true_eq, gt_iff_lt] at hok hmin
      exact ⟨p, hp, hok.1, hok.2, fun j q hq ha hr => hmin j q hq ⟨ha, hr⟩, rfl, rfl, hct⟩
  · intro j q hq ha hr hlt he
    have := (hidle he).2 j q hq ha hr
    omega
  · intro fuel
    unfold schedule
    rw [hreach fuel]
    simp only [hstep]

theorem preemptive_priority_dispatch_witness :
    ∃ s1, step .priorityPreemptive (init .priorityPreemptive builtin)
        = .next (some ⟨0, 0, 1⟩) s1 ∧
      ∀ e, some (⟨0, 0, 1⟩ : Dispatch) = some e →
        ∃ p, (init .priorityPreemptive builtin).processes[e.idx]? = some p ∧
          p.arrival_time ≤ (init .priorityPreemptive builtin).current_time ∧
          0 < p.remaining_time ∧
          (∀ (j : Nat) (q : Process),
            (init .priorityPreemptive builtin).processes[j]? = some q →
            q.arrival_time ≤ (init .priorityPreemptive builtin).current_time →
            0 < q.remaining_time → p.priority ≤ q.priority) ∧
          e.start = (init .priorityPreemptive builtin).current_time ∧ e.len = 1 ∧
          s1.current_time = (init .priorityPreemptive builtin).current_time + 1 :=
  ⟨_, rfl, (preemptive_priority_dispatch (init .priorityPreemptive builtin) _
    (some ⟨0, 0, 1⟩) rfl).1⟩

/-- The context-switch block of `srtf.cpp` writes neither the processes nor the time. -/
theorem srtf_cpp_switch (s : SRTF.State) (shortest : Nat) :
    (SRTF.switchTo s shortest).processes = s.processes ∧
      (SRTF.switchTo s shortest).current_time = s.current_time := by
  unfold SRTF.switchTo
  split
  · split <;> exact ⟨rfl, rfl⟩
  · exact ⟨rfl, rfl⟩

/-- The block that closes the slice when no process is ready writes neither the
processes nor the time. -/
theorem srtf_cpp_close (s : SRTF.State) :
    (SRTF.closeSlice s).processes = s.processes ∧
      (SRTF.closeSlice s).current_time = s.current_time := by
  unfold SRTF.closeSlice
  split <;> exact ⟨rfl, rfl⟩

/-- The loop of `srtf.cpp` is left only through the branch taken when no process is
ready, after that branch has advanced `current_time` by 1. -/
theorem srtf_cpp_done {s s1 : SRTF.State} (h : SRTF.step s = .done s1) :
    s1.processes = s.processes ∧ s1.current_time = s.current_time + 1 ∧
      SRTF.arrived s.current_time s.processes 0 = [] := by
  unfold SRTF.step at h
  split at h
  · rename_i harr
    dsimp only at h
    obtain ⟨hps, hct⟩ := srtf_cpp_close s
    split at h
    · simp only [SRTF.Outcome.done.injEq] at h
      subst h
      exact ⟨hps, by simp only [hct], harr⟩
    · cases h
  · dsimp only at h
    split at h
    · cases h
    · split at h <;> cases h

/-- The processes collected in `arrived` have arrived and have time remaining. -/
theorem srtf_cpp_arrived_mem (current_time : Int) :
    ∀ (ps : List SRTF.Process) (k i : Nat), i ∈ SRTF.arrived current_time ps k →
      ∃ p, ps[i - k]? = some p ∧ k ≤ i ∧ p.arrival_time ≤ current_time ∧
        0 < p.remaining_time := by
  intro ps
  induction ps with
  | nil => intro k i h; simp [SRTF.arrived] at h
  | cons p rest ih =>
    intro k i h
    unfold SRTF.arrived at h
    have hrest : i ∈ SRTF.arrived current_time rest (k + 1) →
        ∃ q, (p :: rest)[i - k]? = some q ∧ k ≤ i ∧ q.arrival_time ≤ current_time ∧
          0 < q.remaining_time := by
      intro hi
      obtain ⟨q, hq, hk, ha, hr⟩ := ih (k + 1) i hi
      refine ⟨q, ?_, by omega, ha, hr⟩
      rw [show i - k = (i - (k + 1)) + 1 by omega, List.getElem?_cons_succ]
      exact hq
    split at h
    · rename_i hc
      rcases List.mem_cons.mp h with hi | hi
      · subst hi
        exact ⟨p, by simp, le_refl _, hc.1, hc.2⟩
      · exact hrest hi
    · exact hrest h

/-- The element that `std::min_element` returns is one of the range. -/
theorem srtf_cpp_minElement_mem (ps : List SRTF.Process) :
    ∀ (l : List Nat) (smallest : Nat),
      SRTF.minElementFrom ps smallest l ∈ smallest :: l := by
  intro l
  induction l with
  | nil => intro smallest; simp [SRTF.minElementFrom]
  | cons i rest ih =>
    intro smallest
    unfold SRTF.minElementFrom
    split
    · have := ih i
      simp only [List.mem_cons] at this ⊢
      tauto
    · have := ih smallest
      simp only [List.mem_cons] at this ⊢
      tauto

/-- What an iteration of the loop of `srtf.cpp` that does not leave the loop does to the
processes and the time: nothing but a time unit passes while some process is
unfinished, or one process that has arrived and has time remaining runs for one unit,
and is completed with the time at the end of that unit when nothing remains. -/
theorem srtf_cpp_next {s s1 : SRTF.State} {ev : Option Dispatch}
    (h : SRTF.step s = .next ev s1) :
    (s1.processes = s.processes ∧ s1.current_time = s.current_time + 1 ∧
      ∃ p ∈ s.processes, 0 < p.remaining_time) ∨
    (∃ i p, s.processes[i]? = some p ∧ 0 < p.remaining_time ∧
      p.arrival_time ≤ s.current_time ∧ s1.current_time = s.current_time + 1 ∧
      ev = some ⟨i, s.current_time, 1⟩ ∧
      s1.processes = s.processes.set i
        (if p.remaining_time - 1 = 0 then
          { p with
            remaining_time := p.remaining_time - 1
            turnaround_time := s.current_time + 1 - p.arrival_time
            waiting_time := (s.current_time + 1 - p.arrival_time) - p.burst_time }
        else { p with remaining_time := p.remaining_time - 1 })) := by
  unfold SRTF.step at h
  split at h
  · dsimp only at h
    obtain ⟨hps, hct⟩ := srtf_cpp_close s
    split at h
    · cases h
    · rename_i hall
      simp only [SRTF.Outcome.next.injEq] at h
      obtain ⟨-, hs1⟩ := h
      subst hs1
      left
      refine ⟨hps, by simp only [hct], ?_⟩
      simp only [List.all_eq_true, Bool.not_eq_true', decide_eq_false_iff_not, not_forall] at hall
      obtain ⟨p, hp, hr⟩ := hall
      rw [hps] at hp
      exact ⟨p, hp, by simpa using hr⟩
  · rename_i first rest harr
    dsimp only at h
    obtain ⟨hps, hct⟩ := srtf_cpp_switch s (SRTF.minElementFrom s.processes first rest)
    have hmem : SRTF.minElementFrom s.processes first rest
        ∈ SRTF.arrived s.current_time s.processes 0 := by
      rw [harr]
      exact srtf_cpp_minElement_mem _ _ _
    obtain ⟨p, hp, -, ha, hr⟩ := srtf_cpp_arrived_mem _ _ _ _ hmem
    rw [Nat.sub_zero] at hp
    generalize SRTF.minElementFrom s.processes first rest = i at h hps hct hp
    generalize SRTF.switchTo s i = sm at h hps hct
    rw [hps, hp] at h
    dsimp only at h
    right
    split at h
    · rename_i hzero
      simp only [SRTF.Outcome.next.injEq] at h
      obtain ⟨hev, hs1⟩ := h
      subst hev hs1
      refine ⟨i, p, hp, hr, ha, by simp only [hct], rfl, ?_⟩
      simp only [hps, hct]
      rw [if_pos hzero]
    · rename_i hzero
      simp only [SRTF.Outcome.next.injEq] at h
      obtain ⟨hev, hs1⟩ := h
      subst hev hs1
      refine ⟨i, p, hp, hr, ha, by simp only [hct], rfl, ?_⟩
      simp only [hps]
      rw [if_neg hzero]

/-- The loop of `srtf.cpp` is left only when no process has time remaining. -/
theorem srtf_cpp_done_all {s s1 : SRTF.State} (h : SRTF.step s = .done s1) :
    ∀ p ∈ s.processes, p.remaining_time ≤ 0 := by
  unfold SRTF.step at h
  split at h
  · dsimp only at h
    obtain ⟨hps, -⟩ := srtf_cpp_close s
    split at h
    · rename_i hall
      simp only [List.all_eq_true, Bool.not_eq_true', decide_eq_false_iff_not] at hall
      intro p hp
      rw [← hps] at hp
      have := hall p hp
      omega
    · cases h
  · dsimp only at h
    split at h
    · cases h
    · split at h <;> cases h

/-- The statements before the loop of `srtf.cpp` establish its invariant. -/
theorem srtf_cpp_init_inv (ps : List SRTF.Process) : SRTF.Inv (SRTF.init ps) := by
  have hmem : ∀ p ∈ (SRTF.init ps).processes, p.remaining_time = p.burst_time := by
    intro p hp
    simp only [SRTF.init, List.mem_map] at hp
    obtain ⟨q, -, rfl⟩ := hp
    rfl
  refine ⟨?_, ?_, ?_⟩
  · intro p hp
    have := hmem p hp
    constructor <;> intro h <;> omega
  · intro p hp hb hr
    have := hmem p hp
    omega
  · intro hall
    left
    intro p hp
    have := hmem p hp
    have := hall p hp
    omega

/-- An iteration of the loop of `srtf.cpp` keeps its invariant. -/
theorem srtf_cpp_step_inv {s s1 : SRTF.State} {ev : Option Dispatch}
    (h : SRTF.step s = .next ev s1) (hinv : SRTF.Inv s) : SRTF.Inv s1 := by
  obtain ⟨ha, hb, -⟩ := hinv
  rcases srtf_cpp_next h with ⟨hps, hct, q, hq, hqr⟩ | ⟨i, p, hp, hr, -, hct, -, hps⟩
  · refine ⟨?_, ?_, ?_⟩
    · rw [hps]; exact ha
    · intro p hp hpb hpr
      rw [hps] at hp
      have := hb p hp hpb hpr
      omega
    · intro hall
      rw [hps] at hall
      have := hall q hq
      omega
  · have hpm : p ∈ s.processes := List.getElem?_mem hp
    have hpb : 0 < p.burst_time := by
      by_contra hneg
      have := (ha p hpm).2 (by omega)
      omega
    have hil : i < s.processes.length := (List.getElem?_eq_some_iff.mp hp).1
    refine ⟨?_, ?_, ?_⟩
    · intro q hq
      rw [hps] at hq
      rcases List.mem_or_eq_of_mem_set hq with hq | hq
      · exact ha q hq
      · subst hq
        have h1 := ha p hpm
        split <;> (constructor <;> intro hh <;> simp only at hh ⊢ <;> omega)
    · intro q hq hqb hqr
      rw [hps] at hq
      rcases List.mem_or_eq_of_mem_set hq with hq | hq
      · have := hb q hq hqb hqr
        omega
      · subst hq
        split at hqr
        · rename_i hz
          rw [if_pos hz, hct]
          simp only
          omega
        · rename_i hz
          exact absurd hqr hz
    · intro hall
      right
      have hmem : (if p.remaining_time - 1 = 0 then
          { p with
            remaining_time := p.remaining_time - 1
            turnaround_time := s.current_time + 1 - p.arrival_time
            waiting_time := (s.current_time + 1 - p.arrival_time) - p.burst_time }
        else { p with remaining_time := p.remaining_time - 1 }) ∈ s1.processes := by
        rw [hps]
        exact List.getElem?_mem (List.getElem?_set_self hil)
      have hle := hall _ hmem
      by_cases hz : p.remaining_time - 1 = 0
      · rw [if_pos hz] at hmem
        refine ⟨_, hmem, hpb, hz, ?_⟩
        rw [hct]
        simp only
        omega
      · rw [if_neg hz] at hle
        simp only at hle
        omega

/-- When the loop of `srtf.cpp` is left within the iterations allowed, every process
with a positive burst time has been completed before the final `current_time`, and one
of them exactly one time unit before it. -/
theorem srtf_cpp_run_inv :
    ∀ (fuel : Nat) (s sf : SRTF.State), SRTF.run fuel s = some sf → SRTF.Inv s →
      (∀ p ∈ sf.processes, 0 < p.burst_time →
        p.remaining_time = 0 ∧ p.arrival_time + p.turnaround_time < sf.current_time) ∧
      ((∃ p ∈ sf.processes, 0 < p.burst_time) →
        ∃ p ∈ sf.processes, 0 < p.burst_time ∧
          p.arrival_time + p.turnaround_time + 1 = sf.current_time) := by
  intro fuel
  induction fuel with
  | zero => intro s sf h; cases h
  | succ n ih =>
    intro s sf h hinv
    unfold SRTF.run at h
    cases hs : SRTF.step s with
    | done s1 =>
      rw [hs] at h
      obtain rfl := Option.some.inj h
      obtain ⟨hps, hct, -⟩ := srtf_cpp_done hs
      have hall := srtf_cpp_done_all hs
      obtain ⟨ha, hb, hc⟩ := hinv
      rw [hps, hct]
      constructor
      · intro p hp hpb
        have h1 := (ha p hp).1 hpb
        have h2 := hall p hp
        have hz : p.remaining_time = 0 := by omega
        have := hb p hp hpb hz
        exact ⟨hz, by omega⟩
      · rintro ⟨q, hq, hqb⟩
        rcases hc hall with hnone | ⟨p, hp, hpb, -, hpc⟩
        · have := hnone q hq
          omega
        · exact ⟨p, hp, hpb, by omega⟩
    | next ev s1 =>
      rw [hs] at h
      exact ih s1 sf h (srtf_cpp_step_inv hs hinv)

/-- C40. When the loop of `srtf.cpp` is left, the `current_time` that is passed to
`calculateMetrics` as the total time is one more than the completion time
`arrival_time + turnaround_time` of the last process to finish (among the processes
with a positive burst time), because the loop is left only through the branch that
first advances `current_time`; it is later than every completion.  On the built-in
workload P1(0, 8), P2(1, 4), P3(2, 9), P4(3, 5) the completion times are 17, 5, 26, 10
and the total time passed is 27, where `SRTFScheduler::schedule` of `simulator.cpp`
reports 26 on the same workload. -/
theorem srtf_cpp_total_time (fuel : Nat) (ps : List SRTF.Process) (total : Int)
    (h : SRTF.totalTime fuel ps = some total) :
    (∃ sf, SRTF.run fuel (SRTF.init ps) = some sf ∧ sf.current_time = total ∧
      (∀ p ∈ sf.processes, 0 < p.burst_time →
        p.remaining_time = 0 ∧ p.arrival_time + p.turnaround_time < total) ∧
      ((∃ p ∈ sf.processes, 0 < p.burst_time) →
        ∃ p ∈ sf.processes, 0 < p.burst_time ∧
          p.arrival_time + p.turnaround_time + 1 = total)) ∧
    SRTF.totalTime 30 SRTF.builtin = some 27 ∧
    SRTF.completionTimes 30 SRTF.builtin = some [17, 5, 26, 10] ∧
    (schedule .srtf 26 builtin).map (·.total_time) = some 26 := by
  refine ⟨?_, by decide!, by decide!, by decide⟩
  unfold SRTF.totalTime at h
  cases hrun : SRTF.run fuel (SRTF.init ps) with
  | none => rw [hrun] at h; cases h
  | some sf =>
    rw [hrun] at h
    obtain rfl : sf.current_time = total := Option.some.inj h
    obtain ⟨h1, h2⟩ := srtf_cpp_run_inv fuel _ sf hrun (srtf_cpp_init_inv ps)
    exact ⟨sf, rfl, rfl, h1, h2⟩

theorem srtf_cpp_total_time_witness :
    SRTF.totalTime 30 SRTF.builtin = some 27 ∧
      SRTF.completionTimes 30 SRTF.builtin = some [17, 5, 26, 10] ∧
      (schedule .srtf 26 builtin).map (·.total_time) = some 26 :=
  (srtf_cpp_total_time 30 SRTF.builtin 27 (by decide!)).2

/-- An iteration of `CFSScheduler::schedule` that dispatches, statement by statement:
the admission loop, the top of the heap, the update of `remaining_time` and `vruntime`,
the second admission loop, and the push of the unfinished process. -/
theorem cfs_dispatch {s s1 : State} {e : Dispatch}
    (h : CFSScheduler.step s = .next (some e) s1) :
    ∃ (idx1 idx2 : Nat) (rest q2 : List Nat) (p : Process),
      CFSScheduler.enqueueArrived s.processes s.current_time (s.processes.drop s.idx) s.idx
        s.ready_queue = (idx1, e.idx :: rest) ∧
      s.processes[e.idx]? = some p ∧ p.weight ≠ 0 ∧
      e.start = s.current_time ∧ e.len = min 1 p.remaining_time ∧
      s1.current_time = s.current_time + e.len ∧ s1.idx = idx2 ∧
      CFSScheduler.enqueueArrived
        (s.processes.set e.idx { p with
          remaining_time := p.remaining_time - e.len
          vruntime := p.vruntime + e.len * Int.tdiv 1024 p.weight })
        (s.current_time + e.len)
        ((s.processes.set e.idx { p with
          remaining_time := p.remaining_time - e.len
          vruntime := p.vruntime + e.len * Int.tdiv 1024 p.weight }).drop idx1) idx1
        (heapPop s.processes (e.idx :: rest)) = (idx2, q2) ∧
      ((0 < p.remaining_time - e.len ∧
          s1.processes = s.processes.set e.idx { p with
            remaining_time := p.remaining_time - e.len
            vruntime := p.vruntime + e.len * Int.tdiv 1024 p.weight } ∧
          s1.ready_queue = heapPush s1.processes q2 e.idx) ∨
        (p.remaining_time - e.len ≤ 0 ∧
          s1.processes = s.processes.set e.idx (complete { p with
            remaining_time := p.remaining_time - e.len
            vruntime := p.vruntime + e.len * Int.tdiv 1024 p.weight }
            (s.current_time + e.len)) ∧
          s1.ready_queue = q2)) := by
  unfold CFSScheduler.step at h
  split at h
  · split at h
    · simp only [Outcome.next.injEq] at h
      exact absurd h.1 (by simp)
    · rename_i idx1 current rest hadm
      split at h
      · cases h
      · rename_i p hp
        dsimp only at h
        split at h
        · cases h
        · rename_i hw
          generalize hadm2 : CFSScheduler.enqueueArrived _ _ _ idx1 _ = r at h
          obtain ⟨idx2, q2⟩ := r
          dsimp only at h
          split at h
          · rename_i hpos
            simp only [Outcome.next.injEq, Option.some.injEq] at h
            obtain ⟨hev, hs1⟩ := h
            subst hev hs1
            exact ⟨idx1, idx2, rest, q2, p, hadm, hp, hw, rfl, rfl, rfl, rfl, hadm2,
              Or.inl ⟨by simpa using hpos, rfl, rfl⟩⟩
          · rename_i hpos
            simp only [Outcome.next.injEq, Option.some.injEq] at h
            obtain ⟨hev, hs1⟩ := h
            subst hev hs1
            exact ⟨idx1, idx2, rest, q2, p, hadm, hp, hw, rfl, rfl, rfl, rfl, hadm2,
              Or.inr ⟨by simpa using hpos, rfl, rfl⟩⟩
  · cases h

/-- After any number of iterations of CFS the weights are those of the workload. -/
theorem reach_cfs_weight (ps : List Process) (n : Nat) :
    (reach .cfs n ps).1.processes.map (·.weight) = ps.map (·.weight) := by
  refine reach_map_of .cfs (·.weight) ps ?_ ?_ n
  · intro s ev s1 hs
    exact step_map_keep (·.weight) (fun _ _ _ _ _ => rfl) (by intro a h; cases h) hs
  · show (CFSScheduler.prepare ps).map (·.weight) = _
    unfold CFSScheduler.prepare
    rw [List.map_map]
    rfl

/-- C33 as stated fails: the processes of the built-in workload have the priorities 2,
1, 3, 4 and all the weight 1024, the default of the field `weight`, which nothing sets
from the priority; when `CFSScheduler::schedule` returns, the `vruntime` of each process
is its burst time, one unit per time unit executed, whatever its priority. -/
theorem cfs_weight_as_stated_fails :
    builtin.map (·.priority) = [2, 1, 3, 4] ∧ builtin.map (·.weight) = [1024, 1024, 1024, 1024] ∧
      builtin.map (·.burst_time) = [8, 4, 9, 5] ∧
      (schedule .cfs 26 builtin).map (fun r => r.processes.map (·.vruntime))
        = some [8, 4, 9, 5] ∧
      (schedule .cfs 26 builtin).map (fun r => r.processes.map (·.weight))
        = some [1024, 1024, 1024, 1024] := by
  refine ⟨by decide, by decide, by decide, by decide!, by decide!⟩

/-- C33, amended. After any number of iterations of `CFSScheduler::schedule`, a dispatch
of run length `r` increases the `vruntime` of the process dispatched by
`r * (1024 / weight)`, with the truncating division of C++, and changes no other
`vruntime`; `weight` is the field of that name as the workload supplies it, which the
scheduler neither writes nor derives from the priority.  With the weight 1024, which
every process created by `main` has, the increment is `r`, whatever the priority. -/
theorem cfs_vruntime_increment (ps : List Process) (n : Nat) (e : Dispatch) (s1 : State)
    (h : step .cfs (reach .cfs n ps).1 = .next (some e) s1) :
    ∃ p0 p p1, ps[e.idx]? = some p0 ∧ (reach .cfs n ps).1.processes[e.idx]? = some p ∧
      s1.processes[e.idx]? = some p1 ∧
      p.weight = p0.weight ∧ p.priority = p0.priority ∧ p1.weight = p0.weight ∧
      p0.weight ≠ 0 ∧
      p1.vruntime = p.vruntime + e.len * Int.tdiv 1024 p0.weight ∧
      (p0.weight = 1024 → p1.vruntime = p.vruntime + e.len) ∧
      (∀ j, j ≠ e.idx → s1.processes[j]? = (reach .cfs n ps).1.processes[j]?) := by
  have hw := reach_cfs_weight ps n
  have hpr := reach_priority .cfs (by intro a h; cases h) (by intro h; cases h) ps n
  have h1 : CFSScheduler.step (reach .cfs n ps).1 = .next (some e) s1 := h
  obtain ⟨idx1, idx2, rest, q2, p, -, hp, hwne, -, -, -, -, -, hcases⟩ := cfs_dispatch h1
  have hil : e.idx < (reach .cfs n ps).1.processes.length :=
    (List.getElem?_eq_some_iff.mp hp).1
  obtain ⟨p0, hp0, hw0⟩ : ∃ p0, ps[e.idx]? = some p0 ∧ p0.weight = p.weight := by
    have := congrArg (fun l => l[e.idx]?) hw
    simp only [List.getElem?_map, hp, Option.map_some'] at this
    cases hps : ps[e.idx]? with
    | none => rw [hps] at this; cases this
    | some p0 =>
      rw [hps] at this
      exact ⟨p0, rfl, (Option.some.inj this).symm⟩
  have hpr0 : p.priority = p0.priority := by
    have := congrArg (fun l => l[e.idx]?) hpr
    simp only [List.getElem?_map, hp, hp0, Option.map_some'] at this
    exact Option.some.inj this
  have hother : ∀ (x : Process) (j : Nat), j ≠ e.idx →
      ((reach .cfs n ps).1.processes.set e.idx x)[j]? = (reach .cfs n ps).1.processes[j]? :=
    fun x j hj => List.getElem?_set_ne (Ne.symm hj)
  have h1024 : p0.weight = 1024 → e.len * Int.tdiv 1024 p0.weight = e.len := by
    intro h0
    rw [h0]
    have : Int.tdiv 1024 1024 = 1 := by decide
    rw [this, Int.mul_one]
  obtain ⟨p1, hp1, hp1w, hp1v, hoth⟩ : ∃ p1, s1.processes[e.idx]? = some p1 ∧
      p1.weight = p.weight ∧ p1.vruntime = p.vruntime + e.len * Int.tdiv 1024 p.weight ∧
      ∀ j, j ≠ e.idx → s1.processes[j]? = (reach .cfs n ps).1.processes[j]? := by
    rcases hcases with ⟨-, hps, -⟩ | ⟨-, hps, -⟩
    · rw [hps, List.getElem?_set_self hil]
      exact ⟨_, rfl, rfl, rfl, fun j hj => hother _ j hj⟩
    · rw [hps, List.getElem?_set_self hil]
      exact ⟨_, rfl, rfl, rfl, fun j hj => hother _ j hj⟩
  refine ⟨p0, p, p1, hp0, hp, hp1, hw0.symm, hpr0, hp1w.trans hw0.symm, ?_, ?_, ?_, hoth⟩
  · rw [hw0]; exact hwne
  · rw [hw0]; exact hp1v
  · intro h0
    rw [hp1v, ← hw0, h1024 h0]

theorem cfs_vruntime_increment_witness :
    step .cfs (reach .cfs 0 builtin).1 = .next (some ⟨0, 0, 1⟩) (reach .cfs 1 builtin).1 ∧
      ∃ p0 p p1, builtin[(⟨0, 0, 1⟩ : Dispatch).idx]? = some p0 ∧
        (reach .cfs 0 builtin).1.processes[(⟨0, 0, 1⟩ : Dispatch).idx]? = some p ∧
        (reach .cfs 1 builtin).1.processes[(⟨0, 0, 1⟩ : Dispatch).idx]? = some p1 ∧
        p.weight = p0.weight ∧ p.priority = p0.priority ∧ p1.weight = p0.weight ∧
        p0.weight ≠ 0 ∧
        p1.vruntime = p.vruntime + (⟨0, 0, 1⟩ : Dispatch).len * Int.tdiv 1024 p0.weight ∧
        (p0.weight = 1024 → p1.vruntime = p.vruntime + (⟨0, 0, 1⟩ : Dispatch).len) ∧
        (∀ j, j ≠ (⟨0, 0, 1⟩ : Dispatch).idx →
          (reach .cfs 1 builtin).1.processes[j]? = (reach .cfs 0 builtin).1.processes[j]?) :=
  ⟨by decide!, cfs_vruntime_increment builtin 0 ⟨0, 0, 1⟩ (reach .cfs 1 builtin).1 (by decide!)⟩

/-- Pushing to one of the queues adds the index to the indices queued. -/
theorem pushAt_flatten {qs qs1 : List (List Nat)} {level : Int} {x : Nat}
    (h : pushAt qs level x = some qs1) : qs1.flatten.Perm (qs.flatten ++ [x]) := by
  unfold pushAt at h
  split at h
  · rename_i hl
    simp only [Option.some.injEq] at h
    subst h
    have hn : level.toNat < qs.length := by omega
    generalize level.toNat = l at hn
    clear hl
    induction qs generalizing l with
    | nil => simp at hn
    | cons q rest ih =>
      cases l with
      | zero =>
        simp only [List.set_cons_zero, List.flatten_cons, List.getD_cons_zero]
        rw [List.append_assoc, List.append_assoc]
        exact List.Perm.append_left q List.perm_append_comm
      | succ l =>
        simp only [List.set_cons_succ, List.flatten_cons, List.getD_cons_succ]
        rw [List.append_assoc]
        exact List.Perm.append_left q (ih l (by simpa using hn))
  · cases h

/-- The loop over the three queues takes the first of the indices queued. -/
theorem popFirst_flatten :
    ∀ {qs qs1 : List (List Nat)} {x lvl : Nat}, popFirst qs = some (x, lvl, qs1) →
      qs.flatten = x :: qs1.flatten := by
  intro qs
  induction qs with
  | nil => intro qs1 x lvl h; simp [popFirst] at h
  | cons q rest ih =>
    intro qs1 x lvl h
    cases q with
    | nil =>
      simp only [popFirst] at h
      split at h
      · cases h
      · rename_i x0 lvl0 rest1 hrest
        simp only [Option.some.injEq, Prod.mk.injEq] at h
        obtain ⟨hx, -, hq⟩ := h
        subst hx hq
        simp only [List.flatten_cons, List.nil_append]
        exact ih hrest
    | cons a q =>
      simp only [popFirst, Option.some.injEq, Prod.mk.injEq] at h
      obtain ⟨hx, -, hq⟩ := h
      subst hx hq
      simp

/-- Where no queue holds an index, no index is queued. -/
theorem popFirst_none_flatten : ∀ {qs : List (List Nat)}, popFirst qs = none →
    qs.flatten = [] := by
  intro qs
  induction qs with
  | nil => intro _; rfl
  | cons q rest ih =>
    intro h
    cases q with
    | nil =>
      simp only [popFirst] at h
      split at h
      · rename_i hrest
        simp only [List.flatten_cons, List.nil_append]
        exact ih hrest
      · cases h
    | cons a q => simp [popFirst] at h

/-- The admission loop of MLQ adds the indices it passes to the indices queued. -/
theorem mlq_enqueueArrived_flatten (current_time : Int) :
    ∀ (rest : List Process) (idx : Nat) (qs : List (List Nat)) (idx1 : Nat)
      (qs1 : List (List Nat)),
      MultilevelQueueScheduler.enqueueArrived current_time rest idx qs = some (idx1, qs1) →
      idx ≤ idx1 ∧ qs1.flatten.Perm (qs.flatten ++ List.range' idx (idx1 - idx)) := by
  intro rest
  induction rest with
  | nil =>
    intro idx qs idx1 qs1 h
    simp only [MultilevelQueueScheduler.enqueueArrived, Option.some.injEq, Prod.mk.injEq] at h
    obtain ⟨h1, h2⟩ := h
    subst h1 h2
    simp
  | cons p rest ih =>
    intro idx qs idx1 qs1 h
    by_cases hp : p.arrival_time ≤ current_time
    · simp only [MultilevelQueueScheduler.enqueueArrived, hp, if_true] at h
      split at h
      · cases h
      · rename_i qsm hpush
        obtain ⟨hle, hperm⟩ := ih _ _ _ _ h
        refine ⟨by omega, hperm.trans ?_⟩
        have : idx1 - idx = (idx1 - (idx + 1)) + 1 := by omega
        rw [this, List.range'_succ, ← List.singleton_append, ← List.append_assoc]
        exact List.Perm.append_right _ (pushAt_flatten hpush)
    · simp only [MultilevelQueueScheduler.enqueueArrived, hp, if_false, Option.some.injEq,
        Prod.mk.injEq] at h
      obtain ⟨h1, h2⟩ := h
      subst h1 h2
      simp

/-- The admission loop of MFQ adds the indices it passes to the indices queued. -/
theorem mfq_enqueueArrived_flatten (current_time : Int) :
    ∀ (rest : List Process) (idx : Nat) (qs : List (List Nat)) (idx1 : Nat)
      (qs1 : List (List Nat)),
      MFQScheduler.enqueueArrived current_time rest idx qs = some (idx1, qs1) →
      idx ≤ idx1 ∧ qs1.flatten.Perm (qs.flatten ++ List.range' idx (idx1 - idx)) := by
  intro rest
  induction rest with
  | nil =>
    intro idx qs idx1 qs1 h
    simp only [MFQScheduler.enqueueArrived, Option.some.injEq, Prod.mk.injEq] at h
    obtain ⟨h1, h2⟩ := h
    subst h1 h2
    simp
  | cons p rest ih =>
    intro idx qs idx1 qs1 h
    by_cases hp : p.arrival_time ≤ current_time
    · simp only [MFQScheduler.enqueueArrived, hp, if_true] at h
      split at h
      · cases h
      · rename_i qsm hpush
        obtain ⟨hle, hperm⟩ := ih _ _ _ _ h
        refine ⟨by omega, hperm.trans ?_⟩
        have : idx1 - idx = (idx1 - (idx + 1)) + 1 := by omega
        rw [this, List.range'_succ, ← List.singleton_append, ← List.append_assoc]
        exact List.Perm.append_right _ (pushAt_flatten hpush)
    · simp only [MFQScheduler.enqueueArrived, hp, if_false, Option.some.injEq,
        Prod.mk.injEq] at h
      obtain ⟨h1, h2⟩ := h
      subst h1 h2
      simp

/-- The admission loop of CFS adds the indices it passes to the indices queued. -/
theorem cfs_enqueueArrived_perm (ps : List Process) (current_time : Int) :
    ∀ (rest : List Process) (idx : Nat) (q : List Nat) (idx1 : Nat) (q1 : List Nat),
      CFSScheduler.enqueueArrived ps current_time rest idx q = (idx1, q1) →
      idx ≤ idx1 ∧ q1.Perm (q ++ List.range' idx (idx1 - idx)) := by
  intro rest
  induction rest with
  | nil =>
    intro idx q idx1 q1 h
    simp only [CFSScheduler.enqueueArrived, Prod.mk.injEq] at h
    obtain ⟨h1, h2⟩ := h
    subst h1 h2
    simp
  | cons p rest ih =>
    intro idx q idx1 q1 h
    by_cases hp : p.arrival_time ≤ current_time
    · simp only [CFSScheduler.enqueueArrived, hp, if_true] at h
      obtain ⟨hle, hperm⟩ := ih _ _ _ _ h
      refine ⟨by omega, hperm.trans ?_⟩
      have : idx1 - idx = (idx1 - (idx + 1)) + 1 := by omega
      rw [this, List.range'_succ, ← List.singleton_append, ← List.append_assoc]
      refine List.Perm.append_right _ ((heapPush_perm ps q idx).trans ?_)
      exact (List.perm_append_singleton idx q).symm
    · simp only [CFSScheduler.enqueueArrived, hp, if_false, Prod.mk.injEq] at h
      obtain ⟨h1, h2⟩ := h
      subst h1 h2
      simp

theorem rr_queueRun {quantum : Int} {s s1 : State} {e : Dispatch}
    (h : RoundRobinScheduler.step quantum s = .next (some e) s1) :
    QueueRun (.rr quantum) s e s1 := by
  unfold RoundRobinScheduler.step at h
  split at h
  · split at h
    · simp only [Outcome.next.injEq] at h
      exact absurd h.1 (by simp)
    · rename_i idx1 current q1 hadm
      split at h
      · cases h
      · rename_i p hp
        dsimp only at h
        generalize hadm2 : enqueueArrived _ _ idx1 q1 = r at h
        obtain ⟨idx2, q2⟩ := r
        dsimp only at h
        obtain ⟨ha1, hq1⟩ := enqueueArrived_spec hadm
        obtain ⟨ha2, hq2⟩ := enqueueArrived_spec hadm2
        split at h
        · rename_i hrem
          simp only [Outcome.next.injEq, Option.some.injEq] at h
          obtain ⟨hev, hs1⟩ := h
          subst hev hs1
          refine ⟨idx1, q1, p, hp, ha1.le, ha2.le, ?_, ?_⟩
          · show (current :: q1).Perm (s.ready_queue ++ _)
            rw [hq1]
          · show (q2 ++ [current]).Perm (q1 ++ List.range' idx1 (idx2 - idx1) ++
              if 0 < p.remaining_time - min quantum p.remaining_time then [current] else [])
            rw [hq2, if_pos (by simpa using hrem)]
        · rename_i hrem
          simp only [Outcome.next.injEq, Option.some.injEq] at h
          obtain ⟨hev, hs1⟩ := h
          subst hev hs1
          refine ⟨idx1, q1, p, hp, ha1.le, ha2.le, ?_, ?_⟩
          · show (current :: q1).Perm (s.ready_queue ++ _)
            rw [hq1]
          · show q2.Perm (q1 ++ List.range' idx1 (idx2 - idx1) ++
              if 0 < p.remaining_time - min quantum p.remaining_time then [current] else [])
            rw [hq2, if_neg (by simpa using hrem), List.append_nil]
  · cases h

theorem cfs_queueRun {s s1 : State} {e : Dispatch}
    (h : CFSScheduler.step s = .next (some e) s1) : QueueRun .cfs s e s1 := by
  obtain ⟨idx1, idx2, rest, q2, p, hadm, hp, -, -, -, -, hidx, hadm2, hcases⟩ := cfs_dispatch h
  obtain ⟨hle1, hperm1⟩ := cfs_enqueueArrived_perm _ _ _ _ _ _ _ hadm
  obtain ⟨hle2, hperm2⟩ := cfs_enqueueArrived_perm _ _ _ _ _ _ _ hadm2
  have hq2 : q2.Perm (rest ++ List.range' idx1 (idx2 - idx1)) :=
    hperm2.trans (List.Perm.append_right _ (heapPop_perm _ _ _))
  subst hidx
  refine ⟨idx1, rest, p, hp, hle1, hle2, hperm1, ?_⟩
  rcases hcases with ⟨hpos, -, hrq⟩ | ⟨hpos, -, hrq⟩
  · show s1.ready_queue.Perm _
    rw [hrq, if_pos hpos]
    exact (heapPush_perm _ _ _).trans
      ((List.perm_append_singleton _ _).symm.trans (List.Perm.append_right _ hq2))
  · show s1.ready_queue.Perm _
    rw [hrq, if_neg (by omega), List.append_nil]
    exact hq2

theorem mlq_queueRun {s s1 : State} {e : Dispatch}
    (h : MultilevelQueueScheduler.step s = .next (some e) s1) : QueueRun .mlq s e s1 := by
  unfold MultilevelQueueScheduler.step at h
  split at h
  · split at h
    · cases h
    · rename_i idx1 qs1 hadm
      obtain ⟨hle1, hperm1⟩ := mlq_enqueueArrived_flatten _ _ _ _ _ _ hadm
      split at h
      · simp only [Outcome.next.injEq] at h
        exact absurd h.1 (by simp)
      · rename_i current lvl qs2 hpop
        have hflat := popFirst_flatten hpop
        split at h
        · cases h
        · rename_i p hp
          dsimp only at h
          split at h
          · cases h
          · rename_i idx2 qs3 hadm2
            obtain ⟨hle2, hperm2⟩ := mlq_enqueueArrived_flatten _ _ _ _ _ _ hadm2
            split at h
            · rename_i hpos
              split at h
              · cases h
              · rename_i qs4 hpush
                simp only [Outcome.next.injEq, Option.some.injEq] at h
                obtain ⟨hev, hs1⟩ := h
                subst hev hs1
                refine ⟨idx1, qs2.flatten, p, hp, hle1, hle2, ?_, ?_⟩
                · rw [← hflat]
                  exact hperm1
                · show qs4.flatten.Perm _
                  rw [if_pos (by simpa using hpos)]
                  exact (pushAt_flatten hpush).trans (List.Perm.append_right _ hperm2)
            · rename_i hpos
              simp only [Outcome.next.injEq, Option.some.injEq] at h
              obtain ⟨hev, hs1⟩ := h
              subst hev hs1
              refine ⟨idx1, qs2.flatten, p, hp, hle1, hle2, ?_, ?_⟩
              · rw [← hflat]
                exact hperm1
              · show qs3.flatten.Perm _
                rw [if_neg (by simpa using hpos), List.append_nil]
                exact hperm2
  · cases h

theorem mfq_queueRun {s s1 : State} {e : Dispatch}
    (h : MFQScheduler.step s = .next (some e) s1) : QueueRun .mfq s e s1 := by
  unfold MFQScheduler.step at h
  split at h
  · split at h
    · cases h
    · rename_i idx1 qs1 hadm
      obtain ⟨hle1, hperm1⟩ := mfq_enqueueArrived_flatten _ _ _ _ _ _ hadm
      split at h
      · simp only [Outcome.next.injEq] at h
        exact absurd h.1 (by simp)
      · rename_i current lvl qs2 hpop
        have hflat := popFirst_flatten hpop
        split at h
        · rename_i p sl hp hsl
          dsimp only at h
          split at h
          · cases h
          · rename_i idx2 qs3 hadm2
            obtain ⟨hle2, hperm2⟩ := mfq_enqueueArrived_flatten _ _ _ _ _ _ hadm2
            split at h
            · rename_i hpos
              split at h
              · cases h
              · rename_i qs4 hpush
                simp only [Outcome.next.injEq, Option.some.injEq] at h
                obtain ⟨hev, hs1⟩ := h
                subst hev hs1
                refine ⟨idx1, qs2.flatten, p, hp, hle1, hle2, ?_, ?_⟩
                · rw [← hflat]
                  exact hperm1
                · show qs4.flatten.Perm _
                  rw [if_pos (by simpa using hpos)]
                  exact (pushAt_flatten hpush).trans (List.Perm.append_right _ hperm2)
            · rename_i hpos
              simp only [Outcome.next.injEq, Option.some.injEq] at h
              obtain ⟨hev, hs1⟩ := h
              subst hev hs1
              refine ⟨idx1, qs2.flatten, p, hp, hle1, hle2, ?_, ?_⟩
              · rw [← hflat]
                exact hperm1
              · show qs3.flatten.Perm _
                rw [if_neg (by simpa using hpos), List.append_nil]
                exact hperm2
        · cases h
  · cases h

theorem afterRun_burst (p : Process) (run_time now vruntime : Int) :
    (afterRun p run_time now vruntime).burst_time = p.burst_time := by
  unfold afterRun
  split <;> rfl

/-- A queue-driven loop keeps `QueueInv`, and each of its dispatches runs a process for
at least one time unit and at most its remaining time. -/
theorem queueInv_step {pol : Policy} {held : State → Nat → Prop} {slice : Int → Prop}
    {s s1 : State} {ev : Option Dispatch} (hqs : QStep held slice s ev s1)
    (hrun : ∀ e, ev = some e → QueueRun pol s e s1)
    (hidle : ev = none → queued pol s1 = [])
    (hslice : ∀ sl, slice sl → 1 ≤ sl) (hinv : QueueInv pol s) :
    QueueInv pol s1 ∧
      ∀ e, ev = some e → ∃ p, s.processes[e.idx]? = some p ∧ 1 ≤ e.len ∧
        e.len ≤ p.remaining_time ∧
        (∃ p1, s1.processes[e.idx]? = some p1 ∧
          p1.remaining_time = p.remaining_time - e.len) ∧
        ∀ j, j ≠ e.idx → s1.processes[j]? = s.processes[j]? := by
  obtain ⟨hnd, hlt, hidx, hpos, hnew, hall⟩ := hinv
  cases hqs with
  | idle _ hps hadm hempty hct htrace =>
    have hb := hadm.bound
    have hl := hadm.le
    have hlen : s1.processes.length = s.processes.length := by rw [hps]
    refine ⟨⟨?_, ?_, by omega, ?_, ?_, ?_⟩, fun e he => (by cases he)⟩
    · rw [hidle rfl]; exact List.nodup_nil
    · rw [hidle rfl]; intro x hx; cases hx
    · rw [hidle rfl]; intro x hx; cases hx
    · intro i p hi hp
      rw [hps] at hp
      exact hnew i p (by omega) hp
    · rw [hps]; exact hall
  | run _ current p sl run_time vruntime mid1 heldMid heldPop heldEnd hadm1 hpop hp hsl hrt
      hps hct hadm2 hheld htrace =>
    obtain ⟨mid, rest, p2, hp2, hle1, hle2, hperm1, hperm2⟩ := hrun _ rfl
    simp only at hp2 hperm1 hperm2
    rw [hp] at hp2
    obtain rfl := Option.some.inj hp2
    have hb1 := hadm1.bound
    have hb2 := hadm2.bound
    have hlen : s1.processes.length = s.processes.length := by rw [hps, List.length_set]
    have hpm : p ∈ s.processes := List.getElem?_mem hp
    have hcl : current < s.processes.length := (List.getElem?_eq_some_iff.mp hp).1
    -- the queue after the first admission loop
    have hnd1 : (queued pol s ++ List.range' s.idx (mid - s.idx)).Nodup := by
      rw [List.nodup_append]
      refine ⟨hnd, List.nodup_range' _ _, ?_⟩
      intro x hx hr
      have := hlt x hx
      have := (List.mem_range'_1.mp hr).1
      omega
    have hnd2 : (current :: rest).Nodup := hperm1.nodup_iff.mpr hnd1
    have hcur : current ∉ rest := (List.nodup_cons.mp hnd2).1
    have hrnd : rest.Nodup := (List.nodup_cons.mp hnd2).2
    have hmem1 : ∀ x, x ∈ current :: rest → x < mid ∧
        (x ∈ queued pol s ∨ s.idx ≤ x) := by
      intro x hx
      rcases List.mem_append.mp (hperm1.mem_iff.mp hx) with h | h
      · have := hlt x h
        exact ⟨by omega, Or.inl h⟩
      · have := List.mem_range'_1.mp h
        exact ⟨by omega, Or.inr this.1⟩
    have hcmid := (hmem1 current (List.mem_cons_self _ _)).1
    have hrem : 0 < p.remaining_time := by
      rcases (hmem1 current (List.mem_cons_self _ _)).2 with h | h
      · exact hpos current h p hp
      · rw [hnew current p h hp]
        exact (hall p hpm).1
    have hsl1 := hslice sl hsl
    have hr1 : 1 ≤ run_time := by rw [hrt]; exact le_min hsl1 hrem
    have hr2 : run_time ≤ p.remaining_time := by rw [hrt]; exact min_le_right _ _
    have hget : s1.processes[current]?
        = some (afterRun p run_time (s.current_time + run_time) vruntime) := by
      rw [hps]
      exact List.getElem?_set_self hcl
    have hoth : ∀ j, j ≠ current → s1.processes[j]? = s.processes[j]? := by
      intro j hj
      rw [hps]
      exact List.getElem?_set_ne (Ne.symm hj)
    have hmem2 : ∀ x, x ∈ queued pol s1 →
        (x ∈ rest ∨ (mid ≤ x ∧ x < s1.idx)) ∨
          (x = current ∧ 0 < p.remaining_time - run_time) := by
      intro x hx
      rcases List.mem_append.mp (hperm2.mem_iff.mp hx) with h | h
      · rcases List.mem_append.mp h with h | h
        · exact Or.inl (Or.inl h)
        · have := List.mem_range'_1.mp h
          exact Or.inl (Or.inr ⟨this.1, by omega⟩)
      · right
        split at h
        · rename_i hc
          exact ⟨List.mem_singleton.mp h, hc⟩
        · cases h
    refine ⟨⟨?_, ?_, by omega, ?_, ?_, ?_⟩, ?_⟩
    · refine hperm2.nodup_iff.mpr ?_
      rw [List.nodup_append, List.nodup_append]
      refine ⟨⟨hrnd, List.nodup_range' _ _, ?_⟩, ?_, ?_⟩
      · intro x hx hr
        have := (hmem1 x (List.mem_cons_of_mem _ hx)).1
        have := (List.mem_range'_1.mp hr).1
        omega
      · split
        · exact List.nodup_singleton _
        · exact List.nodup_nil
      · intro x hx ht
        split at ht
        · obtain rfl := List.mem_singleton.mp ht
          rcases List.mem_append.mp hx with h | h
          · exact hcur h
          · have := (List.mem_range'_1.mp h).1
            omega
        · cases ht
    · intro x hx
      rcases hmem2 x hx with (h | h) | h
      · have := (hmem1 x (List.mem_cons_of_mem _ h)).1
        omega
      · exact h.2
      · rw [h.1]; omega
    · intro x hx q hq
      rcases hmem2 x hx with (h | h) | h
      · have hxc : x ≠ current := fun hc => hcur (hc ▸ h)
        rw [hoth x hxc] at hq
        rcases (hmem1 x (List.mem_cons_of_mem _ h)).2 with h1 | h1
        · exact hpos x h1 q hq
        · rw [hnew x q h1 hq]
          exact (hall q (List.getElem?_mem hq)).1
      · have hxc : x ≠ current := by omega
        rw [hoth x hxc] at hq
        rw [hnew x q (by omega) hq]
        exact (hall q (List.getElem?_mem hq)).1
      · rw [h.1, hget] at hq
        obtain rfl := Option.some.inj hq
        rw [afterRun_remaining]
        exact h.2
    · intro i q hi hq
      have hic : i ≠ current := by omega
      rw [hoth i hic] at hq
      exact hnew i q (by omega) hq
    · intro q hq
      rw [hps] at hq
      rcases List.mem_or_eq_of_mem_set hq with hq | hq
      · exact hall q hq
      · subst hq
        rw [afterRun_remaining, afterRun_burst]
        have := hall p hpm
        exact ⟨this.1, by omega, by omega⟩
    · intro e he
      obtain rfl := Option.some.inj he
      exact ⟨p, hp, hr1, hr2, ⟨_, hget, afterRun_remaining _ _ _ _⟩, hoth⟩

theorem QStep.idle_empty {held : State → Nat → Prop} {slice : Int → Prop} {s s1 : State}
    (h : QStep held slice s none s1) : ∀ x, ¬ held s1 x := by
  cases h with
  | idle _ hps hadm hempty hct htrace => exact hempty

/-- The four queue-driven schedulers, a Round Robin quantum being at least 1: each
iteration is a step of a queue-driven loop whose slice is at least 1, a dispatching
iteration moves the indices queued as `QueueRun` says, and an idle one leaves none
queued. -/
theorem queue_policy_facts (pol : Policy)
    (hfam : (∃ q, pol = .rr q ∧ 1 ≤ q) ∨ pol = .mlq ∨ pol = .mfq ∨ pol = .cfs) :
    ∃ (held : State → Nat → Prop) (slice : Int → Prop),
      (∀ s ev s1, step pol s = .next ev s1 →
        QStep held slice s ev s1 ∧ (∀ e, ev = some e → QueueRun pol s e s1) ∧
          (ev = none → queued pol s1 = [])) ∧
      (∀ sl, slice sl → 1 ≤ sl) := by
  have hflat : ∀ s1 : State, (∀ x, ¬ inLevels s1 x) → s1.queues.flatten = [] := by
    intro s1 hempty
    apply List.eq_nil_iff_forall_not_mem.mpr
    intro x hx
    obtain ⟨q, hq, hxq⟩ := List.mem_flatten.mp hx
    exact hempty x ⟨q, hq, hxq⟩
  have hready : ∀ s1 : State, (∀ x, ¬ inReady s1 x) → s1.ready_queue = [] := by
    intro s1 hempty
    exact List.eq_nil_iff_forall_not_mem.mpr hempty
  rcases hfam with ⟨q, rfl, hq⟩ | rfl | rfl | rfl
  · refine ⟨inReady, (· = q), ?_, fun sl hsl => by rw [hsl]; exact hq⟩
    intro s ev s1 hs
    have h1 : RoundRobinScheduler.step q s = .next ev s1 := hs
    refine ⟨rr_qstep h1, ?_, ?_⟩
    · intro e he
      subst he
      exact rr_queueRun h1
    · intro he
      subst he
      exact hready s1 (rr_qstep h1).idle_empty
  · refine ⟨inLevels, (· = 2), ?_, fun sl hsl => by rw [hsl]; decide⟩
    intro s ev s1 hs
    have h1 : MultilevelQueueScheduler.step s = .next ev s1 := hs
    refine ⟨mlq_qstep h1, ?_, ?_⟩
    · intro e he
      subst he
      exact mlq_queueRun h1
    · intro he
      subst he
      exact hflat s1 (mlq_qstep h1).idle_empty
  · refine ⟨inLevels, (· ∈ MFQScheduler.quantum), ?_, ?_⟩
    · intro s ev s1 hs
      have h1 : MFQScheduler.step s = .next ev s1 := hs
      refine ⟨mfq_qstep h1, ?_, ?_⟩
      · intro e he
        subst he
        exact mfq_queueRun h1
      · intro he
        subst he
        exact hflat s1 (mfq_qstep h1).idle_empty
    · intro sl hsl
      simp only [MFQScheduler.quantum, List.mem_cons, List.mem_singleton, List.not_mem_nil,
        or_false] at hsl
      omega
  · refine ⟨inReady, (· = 1), ?_, fun sl hsl => by rw [hsl]⟩
    intro s ev s1 hs
    have h1 : CFSScheduler.step s = .next ev s1 := hs
    refine ⟨cfs_qstep h1, ?_, ?_⟩
    · intro e he
      subst he
      exact cfs_queueRun h1
    · intro he
      subst he
      exact hready s1 (cfs_qstep h1).idle_empty

/-- The statements before the loop of a queue-driven scheduler establish `QueueInv` on
a workload with positive burst times. -/
theorem queueInv_init (pol : Policy)
    (hfam : (∃ q, pol = .rr q ∧ 1 ≤ q) ∨ pol = .mlq ∨ pol = .mfq ∨ pol = .cfs)
    (ps : List Process) (hb : ∀ p ∈ ps, 0 < p.burst_time) : QueueInv pol (init pol ps) := by
  have hps : ∀ p ∈ (init pol ps).processes, 0 < p.burst_time ∧
      p.remaining_time = p.burst_time := by
    intro p hp
    rcases hfam with ⟨q, rfl, -⟩ | rfl | rfl | rfl <;>
      (simp only [init, resetRemaining, MFQScheduler.prepare, CFSScheduler.prepare,
          List.mem_map] at hp
       obtain ⟨p0, hp0, rfl⟩ := hp
       exact ⟨hb p0 hp0, rfl⟩)
  have hq : queued pol (init pol ps) = [] ∧ (init pol ps).idx = 0 := by
    rcases hfam with ⟨q, rfl, -⟩ | rfl | rfl | rfl <;> exact ⟨rfl, rfl⟩
  refine ⟨?_, ?_, ?_, ?_, ?_, ?_⟩
  · rw [hq.1]; exact List.nodup_nil
  · rw [hq.1]; intro x hx; cases hx
  · rw [hq.2]; exact Nat.zero_le _
  · rw [hq.1]; intro x hx; cases hx
  · intro i p _ hp
    exact (hps p (List.getElem?_mem hp)).2
  · intro p hp
    have := hps p hp
    exact ⟨this.1, by omega, by omega⟩

/-- On a workload with positive burst times a queue-driven scheduler is, after any
number of iterations, in a state that satisfies `QueueInv`. -/
theorem queueInv_reach (pol : Policy)
    (hfam : (∃ q, pol = .rr q ∧ 1 ≤ q) ∨ pol = .mlq ∨ pol = .mfq ∨ pol = .cfs)
    (ps : List Process) (hb : ∀ p ∈ ps, 0 < p.burst_time) (n : Nat) :
    QueueInv pol (reach pol n ps).1 := by
  obtain ⟨held, slice, hstep, hslice⟩ := queue_policy_facts pol hfam
  refine iterate_inv pol (fun s _ => QueueInv pol s) ?_ n (init pol ps) []
    (queueInv_init pol hfam ps hb)
  intro s log ev s1 hinv hs
  obtain ⟨hqs, hrun, hidle⟩ := hstep s ev s1 hs
  exact (queueInv_step hqs hrun hidle hslice hinv).1

/-- The seven schedulers that keep `remaining_time`: three unit-step loops and four
queue-driven loops. -/
theorem coalesces_cases {pol : Policy} (h : pol.coalesces = true) :
    (pol = .srtf ∨ pol = .priorityPreemptive ∨ pol = .edf) ∨
      ((∃ q, pol = .rr q) ∨ pol = .mlq ∨ pol = .mfq ∨ pol = .cfs) := by
  cases pol with
  | fcfs => cases h
  | sjf => cases h
  | priority a => cases h
  | srtf => exact Or.inl (Or.inl rfl)
  | priorityPreemptive => exact Or.inl (Or.inr (Or.inl rfl))
  | edf => exact Or.inl (Or.inr (Or.inr rfl))
  | rr q => exact Or.inr (Or.inl ⟨q, rfl⟩)
  | mlq => exact Or.inr (Or.inr (Or.inl rfl))
  | mfq => exact Or.inr (Or.inr (Or.inr (Or.inl rfl)))
  | cfs => exact Or.inr (Or.inr (Or.inr (Or.inr rfl)))

/-- An iteration of a unit-step loop keeps the remaining times between 0 and the burst
times; a dispatch takes one unit from a process that has time remaining and leaves the
other processes as they are. -/
theorem unitStep_remaining {key : Process → Int} {late : Process → Int → Bool} {s s1 : State}
    {ev : Option Dispatch} (h : unitStep key late s = .next ev s1)
    (hinv : ∀ p ∈ s.processes, 0 ≤ p.remaining_time ∧ p.remaining_time ≤ p.burst_time) :
    (∀ p ∈ s1.processes, 0 ≤ p.remaining_time ∧ p.remaining_time ≤ p.burst_time) ∧
    (ev = none → s1.processes = s.processes) ∧
    (∀ e, ev = some e → ∃ p, s.processes[e.idx]? = some p ∧ 1 ≤ e.len ∧
        e.len ≤ p.remaining_time ∧
        (∃ p1, s1.processes[e.idx]? = some p1 ∧
          p1.remaining_time = p.remaining_time - e.len) ∧
        ∀ j, j ≠ e.idx → s1.processes[j]? = s.processes[j]?) := by
  rcases unitStep_next h with ⟨-, hev, hs1⟩ | ⟨i, p, hscan, hp, hev, -, -, -, -, -, -, -, -, hcases⟩
  · subst hev hs1
    exact ⟨hinv, fun _ => rfl, fun e he => (by cases he)⟩
  · obtain ⟨p2, hp2, hok, -⟩ := scanMin_some hscan
    rw [hp] at hp2
    obtain rfl := Option.some.inj hp2
    simp only [Bool.and_eq_true, decide_eq_true_eq, gt_iff_lt] at hok
    have hil : i < s.processes.length := (List.getElem?_eq_some_iff.mp hp).1
    have hpm := hinv p (List.getElem?_mem hp)
    obtain ⟨p1, hps, hp1r, hp1b⟩ : ∃ p1, s1.processes = s.processes.set i p1 ∧
        p1.remaining_time = p.remaining_time - 1 ∧ p1.burst_time = p.burst_time := by
      rcases hcases with ⟨-, hps, -⟩ | ⟨-, hps, -⟩
      · exact ⟨_, hps, rfl, rfl⟩
      · exact ⟨_, hps, rfl, rfl⟩
    refine ⟨?_, fun he => ?_, ?_⟩
    · intro q hq
      rw [hps] at hq
      rcases List.mem_or_eq_of_mem_set hq with hq | hq
      · exact hinv q hq
      · subst hq
        rw [hp1r, hp1b]
        omega
    · rw [hev] at he; cases he
    · intro e he
      rw [hev] at he
      obtain rfl := Option.some.inj he
      refine ⟨p, hp, le_refl _, hok.2, ⟨p1, ?_, hp1r⟩, ?_⟩
      · rw [hps]
        exact List.getElem?_set_self hil
      · intro j hj
        rw [hps]
        exact List.getElem?_set_ne (Ne.symm hj)

/-- On a workload with positive burst times, after any number of iterations of one of
the seven schedulers that keep `remaining_time` (Round Robin with a quantum of at least
1), no remaining time is negative or above the burst time, and a dispatch takes between
1 unit and the whole remaining time from the process dispatched and leaves the other
processes as they are. -/
theorem remaining_reach (pol : Policy) (hc : pol.coalesces = true)
    (hq : ∀ q, pol = .rr q → 1 ≤ q) (ps : List Process) (hb : ∀ p ∈ ps, 0 < p.burst_time)
    (n : Nat) :
    (∀ p ∈ (reach pol n ps).1.processes,
      0 ≤ p.remaining_time ∧ p.remaining_time ≤ p.burst_time) ∧
    ∀ ev s1, step pol (reach pol n ps).1 = .next ev s1 →
      (ev = none → s1.processes = (reach pol n ps).1.processes) ∧
      (∀ e, ev = some e → ∃ p, (reach pol n ps).1.processes[e.idx]? = some p ∧ 1 ≤ e.len ∧
        e.len ≤ p.remaining_time ∧
        (∃ p1, s1.processes[e.idx]? = some p1 ∧
          p1.remaining_time = p.remaining_time - e.len) ∧
        ∀ j, j ≠ e.idx → s1.processes[j]? = (reach pol n ps).1.processes[j]?) := by
  rcases coalesces_cases hc with hunit | hqueue
  · obtain ⟨key, late, hstep⟩ : ∃ key late, step pol = unitStep key late := by
      rcases hunit with rfl | rfl | rfl
      · exact ⟨(·.remaining_time), (fun _ _ => false), rfl⟩
      · exact ⟨(·.priority), (fun _ _ => false), rfl⟩
      · exact ⟨(·.deadline), (fun p now => decide (now > p.deadline)), rfl⟩
    have hinit : ∀ p ∈ (init pol ps).processes,
        0 ≤ p.remaining_time ∧ p.remaining_time ≤ p.burst_time := by
      intro p hp
      rcases hunit with rfl | rfl | rfl <;>
        (simp only [init, resetRemaining, EDFScheduler.prepare, List.mem_map] at hp
         obtain ⟨p0, hp0, rfl⟩ := hp
         have := hb p0 hp0
         simp only
         omega)
    have hinv := iterate_inv pol
      (fun s _ => ∀ p ∈ s.processes, 0 ≤ p.remaining_time ∧ p.remaining_time ≤ p.burst_time)
      (fun s log ev s1 hi hs => (unitStep_remaining (by rw [hstep] at hs; exact hs) hi).1)
      n (init pol ps) [] hinit
    refine ⟨hinv, ?_⟩
    intro ev s1 hs
    exact (unitStep_remaining (by rw [hstep] at hs; exact hs) hinv).2
  · have hfam : (∃ q, pol = .rr q ∧ 1 ≤ q) ∨ pol = .mlq ∨ pol = .mfq ∨ pol = .cfs := by
      rcases hqueue with ⟨q, rfl⟩ | h | h | h
      · exact Or.inl ⟨q, rfl, hq q rfl⟩
      · exact Or.inr (Or.inl h)
      · exact Or.inr (Or.inr (Or.inl h))
      · exact Or.inr (Or.inr (Or.inr h))
    have hinv := queueInv_reach pol hfam ps hb n
    obtain ⟨held, slice, hstep, hslice⟩ := queue_policy_facts pol hfam
    refine ⟨fun p hp => (hinv.2.2.2.2.2 p hp).2, ?_⟩
    intro ev s1 hs
    obtain ⟨hqs, hrun, hidle⟩ := hstep _ ev s1 hs
    refine ⟨?_, (queueInv_step hqs hrun hidle hslice hinv).2⟩
    intro he
    subst he
    cases hqs with
    | idle _ hps hadm hempty hct htrace => exact hps

/-- C34 as stated fails: on a process of burst time 0 Round Robin (quantum 4) makes a
dispatch of run length 0, as does CFS; and on a workload whose first process has the
burst time -3 the remaining times start at -3 and 5, and the first dispatch of Round
Robin, of run length -3, brings the first to 0: it is negative at first and it
increases. -/
theorem remaining_monotone_as_stated_fails :
    zeroBurstWorkload.map (·.burst_time) = [0] ∧
    (schedule (.rr 4) 1 zeroBurstWorkload).map (fun r => r.dispatches)
      = some [⟨0, 0, 0⟩] ∧
    (schedule .cfs 1 zeroBurstWorkload).map (fun r => r.dispatches) = some [⟨0, 0, 0⟩] ∧
    negativeBurstWorkload.map (·.burst_time) = [-3, 5] ∧
    (init (.rr 4) negativeBurstWorkload).processes.map (·.remaining_time) = [-3, 5] ∧
    (reach (.rr 4) 1 negativeBurstWorkload).2 = [⟨0, 0, -3⟩] ∧
    (reach (.rr 4) 1 negativeBurstWorkload).1.processes.map (·.remaining_time) = [0, 5] := by
  decide

/-- C34, amended. On a workload with positive burst times, under SRTF, Round Robin
(quantum at least 1), preemptive Priority, MLQ, MFQ, CFS and EDF, after any number of
iterations: every remaining time lies between 0 and the burst time; an iteration that
does not dispatch leaves the processes as they are; a dispatch decreases the
`remaining_time` of the process dispatched by a run length `r` with
`1 <= r <= remaining_time` and leaves every other process as it is; and when the loop
has ended, every `remaining_time` is 0. -/
theorem remaining_monotone (pol : Policy) (hc : pol.coalesces = true)
    (hq : ∀ q, pol = .rr q → 1 ≤ q) (ps : List Process) (hb : ∀ p ∈ ps, 0 < p.burst_time)
    (n : Nat) :
    (∀ p ∈ (reach pol n ps).1.processes,
      0 ≤ p.remaining_time ∧ p.remaining_time ≤ p.burst_time) ∧
    (∀ ev s1, step pol (reach pol n ps).1 = .next ev s1 →
      (ev = none → s1.processes = (reach pol n ps).1.processes) ∧
      (∀ e, ev = some e → ∃ p, (reach pol n ps).1.processes[e.idx]? = some p ∧ 1 ≤ e.len ∧
        e.len ≤ p.remaining_time ∧
        (∃ p1, s1.processes[e.idx]? = some p1 ∧
          p1.remaining_time = p.remaining_time - e.len) ∧
        ∀ j, j ≠ e.idx → s1.processes[j]? = (reach pol n ps).1.processes[j]?)) ∧
    (step pol (reach pol n ps).1 = .halt →
      ∀ p ∈ (reach pol n ps).1.processes, p.remaining_time = 0) :=
  ⟨(remaining_reach pol hc hq ps hb n).1, (remaining_reach pol hc hq ps hb n).2,
    remaining_zero_at_halt pol hc ps n⟩

theorem remaining_monotone_witness :
    (∀ p ∈ builtin, 0 < p.burst_time) ∧
      (∀ p ∈ (reach (.rr 4) 3 builtin).1.processes,
        0 ≤ p.remaining_time ∧ p.remaining_time ≤ p.burst_time) ∧
      (reach (.rr 4) 3 builtin).1.processes.map (·.remaining_time) = [4, 0, 5, 5] ∧
      (reach (.rr 4) 3 builtin).2.map (·.len) = [4, 4, 4] :=
  ⟨by decide, (remaining_monotone (.rr 4) rfl (fun q h => by cases h; decide) builtin
    (by decide) 3).1, by decide, by decide⟩

/-- C35 as stated fails: the quantity named is no measure of the loop.  On the
arrival-sorted workload P1(0, 1), P2(5, 1), with the quantum 4, the second iteration
finds the queue empty at time 1 and only advances the time to 5: the total
`remaining_time` plus the number of processes not yet admitted is 2 before and 2 after
it. -/
theorem rr_measure_as_stated_fails :
    gapWorkload.map (fun p => (p.arrival_time, p.burst_time)) = [(0, 1), (5, 1)] ∧
    step (.rr 4) (reach (.rr 4) 1 gapWorkload).1 = .next none (reach (.rr 4) 2 gapWorkload).1 ∧
    (reach (.rr 4) 1 gapWorkload).1.current_time = 1 ∧
    (reach (.rr 4) 2 gapWorkload).1.current_time = 5 ∧
    remainingPlusUnadmitted (reach (.rr 4) 1 gapWorkload).1 = 2 ∧
    remainingPlusUnadmitted (reach (.rr 4) 2 gapWorkload).1 = 2 := by
  decide

/-- C35, amended. For every workload with positive burst times and every quantum of at
least 1, `RoundRobinScheduler::schedule` terminates.  After any number of iterations,
an iteration does not increase the total `remaining_time` plus the number of processes
not yet admitted, and decreases it when it dispatches; an idle iteration can leave it
unchanged, and what every iteration decreases is `rrMeasure`, which counts in addition
the processes queued and whether the processor is about to idle. -/
theorem rr_total (quantum : Int) (ps : List Process) (hq : 1 ≤ quantum)
    (hb : ∀ p ∈ ps, 0 < p.burst_time) :
    (∃ fuel r, schedule (.rr quantum) fuel ps = some r) ∧
    ∀ n ev s1, step (.rr quantum) (reach (.rr quantum) n ps).1 = .next ev s1 →
      rrMeasure s1 < rrMeasure (reach (.rr quantum) n ps).1 ∧
      remainingPlusUnadmitted s1 ≤ remainingPlusUnadmitted (reach (.rr quantum) n ps).1 ∧
      (ev ≠ none →
        remainingPlusUnadmitted s1 < remainingPlusUnadmitted (reach (.rr quantum) n ps).1) := by
  refine ⟨rr_terminates quantum ps hq (fun p hp => le_of_lt (hb p hp)), ?_⟩
  intro n ev s1 hs
  have hfam : (∃ q, Policy.rr quantum = .rr q ∧ 1 ≤ q) ∨ Policy.rr quantum = .mlq ∨
      Policy.rr quantum = .mfq ∨ Policy.rr quantum = .cfs := Or.inl ⟨quantum, rfl, hq⟩
  have hinv := queueInv_reach (.rr quantum) hfam ps hb n
  generalize (reach (.rr quantum) n ps).1 = s at hs hinv
  have h1 : RoundRobinScheduler.step quantum s = .next ev s1 := hs
  obtain ⟨hnd, hlt, hidx, hpos, hnew, hall⟩ := hinv
  have hcond : s.ready_queue ≠ [] ∨ s.idx < s.processes.length := by
    by_contra hc
    unfold RoundRobinScheduler.step at h1
    rw [if_neg hc] at h1
    cases h1
  obtain ⟨ev2, s2, hs2, -, -, -, hm⟩ := rr_progress hq
    (fun x hx => lt_of_lt_of_le (hlt x hx) hidx) (fun p hp => (hall p hp).2.1) hidx hcond
  rw [h1] at hs2
  simp only [Outcome.next.injEq] at hs2
  obtain ⟨-, rfl⟩ := hs2
  refine ⟨hm, ?_⟩
  have hqs := rr_qstep h1
  have hstep := queueInv_step hqs (fun e he => by subst he; exact rr_queueRun h1)
    (fun he => by
      subst he
      exact List.eq_nil_iff_forall_not_mem.mpr hqs.idle_empty)
    (fun sl (hsl : sl = quantum) => by rw [hsl]; exact hq) ⟨hnd, hlt, hidx, hpos, hnew, hall⟩
  cases hqs with
  | idle _ hps hadm hempty hct htrace =>
    have hle := hadm.le
    constructor
    · unfold remainingPlusUnadmitted
      rw [hps]
      omega
    · intro hne
      exact absurd rfl hne
  | run _ current p sl run_time vruntime mid heldMid heldPop heldEnd hadm1 hpop hp hsl hrt
      hps hct hadm2 hheld htrace =>
    obtain ⟨p2, hp2, hr1, hr2, -, -⟩ := hstep.2 _ rfl
    simp only at hp2 hr1 hr2
    rw [hp] at hp2
    obtain rfl := Option.some.inj hp2
    have hle1 := hadm1.le
    have hle2 := hadm2.le
    have hsum : (s1.processes.map (·.remaining_time)).sum
        = (s.processes.map (·.remaining_time)).sum - run_time := by
      rw [hps, sum_map_set (·.remaining_time) _ hp, afterRun_remaining]
      omega
    have hlen : s1.processes.length = s.processes.length := by rw [hps, List.length_set]
    have hlt2 : remainingPlusUnadmitted s1 < remainingPlusUnadmitted s := by
      unfold remainingPlusUnadmitted
      rw [hsum, hlen]
      omega
    exact ⟨le_of_lt hlt2, fun _ => hlt2⟩

theorem rr_total_witness :
    (∀ p ∈ gapWorkload, 0 < p.burst_time) ∧
      (∃ fuel r, schedule (.rr 4) fuel gapWorkload = some r) ∧
      (schedule (.rr 4) 3 gapWorkload).map (·.total_time) = some 6 :=
  ⟨by decide, (rr_total 4 gapWorkload (by decide) (by decide)).1, by decide⟩

/-- The admission loop of `rr.cpp` appends to the queue the indices it erases from
`remaining`. -/
theorem rrcpp_enqueueArrived_split (processes : List RR.Process) (current_time : Int) :
    ∀ (remaining q remaining1 q1 : List Nat),
      RR.enqueueArrived processes current_time remaining q = (remaining1, q1) →
      ∃ moved, q1 = q ++ moved ∧ (moved ++ remaining1).Perm remaining := by
  intro remaining
  induction remaining with
  | nil =>
    intro q remaining1 q1 h
    simp only [RR.enqueueArrived, Prod.mk.injEq] at h
    obtain ⟨h1, h2⟩ := h
    subst h1 h2
    exact ⟨[], by simp, by simp⟩
  | cons i rest ih =>
    intro q remaining1 q1 h
    have hkeep : ∀ r, RR.enqueueArrived processes current_time rest q = r →
        (i :: r.1, r.2) = (remaining1, q1) →
        ∃ moved, q1 = q ++ moved ∧ (moved ++ remaining1).Perm (i :: rest) := by
      intro r hr heq
      obtain ⟨r1, r2⟩ := r
      simp only [Prod.mk.injEq] at heq
      obtain ⟨h1, h2⟩ := heq
      subst h1 h2
      obtain ⟨moved, hq, hperm⟩ := ih _ _ _ hr
      exact ⟨moved, hq, List.perm_middle.trans (List.Perm.cons i hperm)⟩
    unfold RR.enqueueArrived at h
    split at h
    · rename_i p hp
      split at h
      · obtain ⟨moved, hq, hperm⟩ := ih _ _ _ h
        refine ⟨i :: moved, ?_, List.Perm.cons i hperm⟩
        rw [hq, List.append_assoc]
        rfl
      · exact hkeep _ rfl h
    · exact hkeep _ rfl h

/-- The two ways an iteration of the loop of `rr.cpp` continues: an idle time unit, or a
dispatch of the head of the queue. -/
theorem rrcpp_next {quantum : Int} {t t1 : RR.State} {ev : Option Dispatch}
    (h : RR.step quantum t = .next ev t1) :
    (∃ remaining1,
      RR.enqueueArrived t.processes t.current_time t.remaining t.ready_queue
        = (remaining1, []) ∧ ev = none ∧ t1.processes = t.processes ∧
      t1.remaining = remaining1 ∧ t1.ready_queue = [] ∧
      t1.current_time = t.current_time + 1) ∨
    (∃ (remaining1 remaining2 q1 q2 : List Nat) (i : Nat) (p : RR.Process),
      RR.enqueueArrived t.processes t.current_time t.remaining t.ready_queue
        = (remaining1, i :: q1) ∧ t.processes[i]? = some p ∧
      ev = some ⟨i, t.current_time, min quantum p.remaining_time⟩ ∧
      RR.enqueueArrived
        (t.processes.set i (RR.afterRun p t.current_time (min quantum p.remaining_time)))
        (t.current_time + min quantum p.remaining_time) remaining1 q1 = (remaining2, q2) ∧
      t1.remaining = remaining2 ∧
      t1.current_time = t.current_time + min quantum p.remaining_time ∧
      t1.gantt = t.gantt ++ [(p.id, min quantum p.remaining_time)] ∧
      ((0 < p.remaining_time - min quantum p.remaining_time ∧
          t1.processes = t.processes.set i
            (RR.afterRun p t.current_time (min quantum p.remaining_time)) ∧
          t1.ready_queue = q2 ++ [i]) ∨
        (p.remaining_time - min quantum p.remaining_time ≤ 0 ∧
          t1.processes = t.processes.set i
            { RR.afterRun p t.current_time (min quantum p.remaining_time) with
              turnaround_time :=
                t.current_time + min quantum p.remaining_time - p.arrival_time } ∧
          t1.ready_queue = q2))) := by
  unfold RR.step at h
  split at h
  · split at h
    · rename_i remaining1 hadm
      simp only [RR.Outcome.next.injEq] at h
      obtain ⟨hev, hs1⟩ := h
      subst hev hs1
      exact Or.inl ⟨remaining1, hadm, rfl, rfl, rfl, rfl, rfl⟩
    · rename_i remaining1 i q1 hadm
      split at h
      · cases h
      · rename_i p hp
        dsimp only at h
        generalize hadm2 : RR.enqueueArrived _ _ remaining1 q1 = r at h
        obtain ⟨remaining2, q2⟩ := r
        dsimp only at h
        right
        split at h
        · rename_i hpos
          simp only [RR.Outcome.next.injEq] at h
          obtain ⟨hev, hs1⟩ := h
          subst hev hs1
          exact ⟨remaining1, remaining2, q1, q2, i, p, hadm, hp, rfl, hadm2, rfl, rfl, rfl,
            Or.inl ⟨by simpa using hpos, rfl, rfl⟩⟩
        · rename_i hpos
          simp only [RR.Outcome.next.injEq] at h
          obtain ⟨hev, hs1⟩ := h
          subst hev hs1
          exact ⟨remaining1, remaining2, q1, q2, i, p, hadm, hp, rfl, hadm2, rfl, rfl, rfl,
            Or.inr ⟨by simpa using hpos, rfl, rfl⟩⟩
  · cases h

/-- A dispatching iteration of the loop of `rr.cpp`, with the two branches of its last
`if` put together. -/
theorem rrcpp_run {quantum : Int} {t t1 : RR.State} {e : Dispatch}
    (h : RR.step quantum t = .next (some e) t1) :
    ∃ (remaining1 q1 q2 : List Nat) (p pf : RR.Process),
      RR.enqueueArrived t.processes t.current_time t.remaining t.ready_queue
        = (remaining1, e.idx :: q1) ∧ t.processes[e.idx]? = some p ∧
      e.start = t.current_time ∧ e.len = min quantum p.remaining_time ∧
      RR.enqueueArrived
        (t.processes.set e.idx (RR.afterRun p t.current_time e.len))
        (t.current_time + e.len) remaining1 q1 = (t1.remaining, q2) ∧
      t1.current_time = t.current_time + e.len ∧
      t1.processes = t.processes.set e.idx pf ∧
      t1.ready_queue = q2 ++ (if 0 < p.remaining_time - e.len then [e.idx] else []) ∧
      pf.remaining_time = p.remaining_time - e.len ∧ pf.burst_time = p.burst_time ∧
      pf.arrival_time = p.arrival_time ∧
      pf.waiting_time = (if p.burst_time = p.remaining_time then
          p.waiting_time + (t.current_time - p.arrival_time)
        else p.waiting_time + (t.current_time - p.last_executed_time)) ∧
      pf.last_executed_time = t.current_time + e.len ∧
      (p.remaining_time - e.len ≤ 0 →
        pf.turnaround_time = t.current_time + e.len - p.arrival_time) := by
  rcases rrcpp_next h with ⟨_, -, hev, -⟩ | ⟨remaining1, remaining2, q1, q2, i, p, hadm, hp, hev,
    hadm2, hrem, hct, -, hcases⟩
  · cases hev
  · obtain rfl := Option.some.inj hev
    subst hrem
    rcases hcases with ⟨hpos, hps, hrq⟩ | ⟨hpos, hps, hrq⟩
    · refine ⟨remaining1, q1, q2, p, _, hadm, hp, rfl, rfl, hadm2, hct, hps, ?_, rfl, rfl, rfl,
        rfl, rfl, ?_⟩
      · rw [hrq, if_pos hpos]
      · intro hle
        simp only at hle hpos
        omega
    · refine ⟨remaining1, q1, q2, p, _, hadm, hp, rfl, rfl, hadm2, hct, hps, ?_, rfl, rfl, rfl,
        rfl, rfl, fun _ => rfl⟩
      rw [hrq, if_neg (by simp only at hpos ⊢; omega), List.append_nil]

/-- An idle iteration of the loop of `rr.cpp` keeps `RR.Inv`. -/
theorem rrcpp_idle_inv {quantum : Int} {t t1 : RR.State} {log : List Dispatch}
    (h : RR.step quantum t = .next none t1) (hinv : RR.Inv t log) :
    RR.Inv t1 log ∧ t1.processes = t.processes := by
  obtain ⟨hqn, hrn, hdis, hpos, hnew, hall⟩ := hinv
  rcases rrcpp_next h with ⟨remaining1, hadm, -, hps, hrem, hrq, -⟩ | ⟨_, _, _, _, _, _, _, _, hev, _⟩
  · obtain ⟨moved, hq, hperm⟩ := rrcpp_enqueueArrived_split _ _ _ _ _ _ hadm
    have hq0 : t.ready_queue = [] := (List.append_eq_nil.mp hq.symm).1
    have hm0 : moved = [] := (List.append_eq_nil.mp hq.symm).2
    subst hm0
    simp only [List.nil_append] at hperm
    refine ⟨⟨?_, ?_, ?_, ?_, ?_, ?_⟩, hps⟩
    · rw [hrq]; exact List.nodup_nil
    · rw [hrem]; exact hperm.nodup_iff.mpr hrn
    · rw [hrq]; intro x hx; cases hx
    · rw [hrq]; intro x hx; cases hx
    · rw [hrem, hps]
      intro x hx
      exact hnew x (hperm.mem_iff.mp hx)
    · rw [hps, hrem, hrq]
      intro i p hp
      obtain ⟨h1, h2, h3, h4, h5, h6, h7, h8⟩ := hall i p hp
      refine ⟨h1, h2, h3, h4, h5, h6, h7, ?_⟩
      rcases h8 with h8 | h8 | h8
      · exact Or.inl (hperm.mem_iff.mpr h8)
      · rw [hq0] at h8; cases h8
      · exact Or.inr (Or.inr h8)
  · cases hev

/-- A dispatching iteration of the loop of `rr.cpp` with a quantum of at least 1 keeps
`RR.Inv`; it runs a process that has time remaining, for at least one time unit. -/
theorem rrcpp_run_inv {quantum : Int} (hq : 1 ≤ quantum) {t t1 : RR.State} {e : Dispatch}
    {log : List Dispatch} (h : RR.step quantum t = .next (some e) t1) (hinv : RR.Inv t log) :
    RR.Inv t1 (e :: log) ∧
      ∃ p, t.processes[e.idx]? = some p ∧ 0 < p.remaining_time ∧ 1 ≤ e.len ∧
        e.len ≤ p.remaining_time := by
  obtain ⟨hqn, hrn, hdis, hpos, hnew, hall⟩ := hinv
  obtain ⟨remaining1, q1, q2, p, pf, hadm, hp, -, hlen, hadm2, -, hps, hrq, hpfr, hpfb, hpfa,
    hpfw, hpfl, hpft⟩ := rrcpp_run h
  obtain ⟨moved, hq1, hperm1⟩ := rrcpp_enqueueArrived_split _ _ _ _ _ _ hadm
  obtain ⟨moved2, hq2, hperm2⟩ := rrcpp_enqueueArrived_split _ _ _ _ _ _ hadm2
  have hil : e.idx < t.processes.length := (List.getElem?_eq_some_iff.mp hp).1
  have hnd1 : (moved ++ remaining1).Nodup := hperm1.nodup_iff.mpr hrn
  have hnd2 : (moved2 ++ t1.remaining).Nodup :=
    hperm2.nodup_iff.mpr (List.nodup_append.mp hnd1).2.1
  have hmov : ∀ x, x ∈ moved → x ∈ t.remaining :=
    fun x hx => hperm1.mem_iff.mp (List.mem_append_left _ hx)
  have hr1 : ∀ x, x ∈ remaining1 → x ∈ t.remaining :=
    fun x hx => hperm1.mem_iff.mp (List.mem_append_right _ hx)
  have hmov2 : ∀ x, x ∈ moved2 → x ∈ remaining1 :=
    fun x hx => hperm2.mem_iff.mp (List.mem_append_left _ hx)
  have hr2 : ∀ x, x ∈ t1.remaining → x ∈ remaining1 :=
    fun x hx => hperm2.mem_iff.mp (List.mem_append_right _ hx)
  -- the queue after the first admission loop
  have hA : (e.idx :: q1).Nodup := by
    rw [hq1, List.nodup_append]
    exact ⟨hqn, (List.nodup_append.mp hnd1).1, fun x hx hm => hdis x hx (hmov x hm)⟩
  have hAmem : ∀ x, x ∈ e.idx :: q1 → x ∈ t.ready_queue ∨ x ∈ moved := by
    intro x hx
    rw [hq1] at hx
    exact List.mem_append.mp hx
  have hAr1 : ∀ x, x ∈ e.idx :: q1 → x ∉ remaining1 := by
    intro x hx hr
    rcases hAmem x hx with h1 | h1
    · exact hdis x h1 (hr1 x hr)
    · exact (List.nodup_append.mp hnd1).2.2 h1 hr
  have hApos : ∀ x, x ∈ e.idx :: q1 → ∀ pp, t.processes[x]? = some pp →
      0 < pp.remaining_time := by
    intro x hx pp hpp
    rcases hAmem x hx with h1 | h1
    · exact hpos x h1 pp hpp
    · rw [hnew x (hmov x h1) pp hpp]
      exact (hall x pp hpp).1
  have hcur : e.idx ∉ q1 := (List.nodup_cons.mp hA).1
  have hq1n : q1.Nodup := (List.nodup_cons.mp hA).2
  have hprem : 0 < p.remaining_time := hApos e.idx (List.mem_cons_self _ _) p hp
  have hlen1 : 1 ≤ e.len := by rw [hlen]; exact le_min hq hprem
  have hlen2 : e.len ≤ p.remaining_time := by rw [hlen]; exact min_le_right _ _
  have hget : t1.processes[e.idx]? = some pf := by
    rw [hps]
    exact List.getElem?_set_self hil
  have hoth : ∀ j, j ≠ e.idx → t1.processes[j]? = t.processes[j]? := by
    intro j hj
    rw [hps]
    exact List.getElem?_set_ne (Ne.symm hj)
  have hcr1 : e.idx ∉ remaining1 := hAr1 e.idx (List.mem_cons_self _ _)
  have hqmem : ∀ x, x ∈ t1.ready_queue →
      (x ∈ q1 ∨ x ∈ moved2) ∨ (x = e.idx ∧ 0 < p.remaining_time - e.len) := by
    intro x hx
    rw [hrq, hq2] at hx
    rcases List.mem_append.mp hx with h1 | h1
    · exact Or.inl (List.mem_append.mp h1)
    · right
      split at h1
      · rename_i hc
        exact ⟨List.mem_singleton.mp h1, hc⟩
      · cases h1
  obtain ⟨hb, hr0, hrb, hlog, hw0, hw1, -, -⟩ := hall e.idx p hp
  refine ⟨⟨?_, (List.nodup_append.mp hnd2).2.1, ?_, ?_, ?_, ?_⟩, p, hp, hprem, hlen1, hlen2⟩
  · rw [hrq, hq2, List.nodup_append, List.nodup_append]
    refine ⟨⟨hq1n, (List.nodup_append.mp hnd2).1, ?_⟩, ?_, ?_⟩
    · intro x hx hm
      exact hAr1 x (List.mem_cons_of_mem _ hx) (hmov2 x hm)
    · split
      · exact List.nodup_singleton _
      · exact List.nodup_nil
    · intro x hx ht
      split at ht
      · obtain rfl := List.mem_singleton.mp ht
        rcases List.mem_append.mp hx with h1 | h1
        · exact hcur h1
        · exact hcr1 (hmov2 _ h1)
      · cases ht
  · intro x hx hr
    rcases hqmem x hx with (h1 | h1) | h1
    · exact hAr1 x (List.mem_cons_of_mem _ h1) (hr2 x hr)
    · exact (List.nodup_append.mp hnd2).2.2 h1 hr
    · rw [h1.1] at hr
      exact hcr1 (hr2 _ hr)
  · intro x hx pp hpp
    rcases hqmem x hx with (h1 | h1) | h1
    · have hxc : x ≠ e.idx := fun hc => hcur (hc ▸ h1)
      rw [hoth x hxc] at hpp
      exact hApos x (List.mem_cons_of_mem _ h1) pp hpp
    · have hxc : x ≠ e.idx := fun hc => hcr1 (hc ▸ hmov2 x h1)
      rw [hoth x hxc] at hpp
      rw [hnew x (hr1 x (hmov2 x h1)) pp hpp]
      exact (hall x pp hpp).1
    · rw [h1.1, hget] at hpp
      obtain rfl := Option.some.inj hpp
      rw [hpfr]
      exact h1.2
  · intro x hx pp hpp
    have hxc : x ≠ e.idx := fun hc => hcr1 (hc ▸ hr2 x hx)
    rw [hoth x hxc] at hpp
    exact hnew x (hr1 x (hr2 x hx)) pp hpp
  · intro j pp hpp
    by_cases hj : j = e.idx
    · subst hj
      rw [hget] at hpp
      obtain rfl := Option.some.inj hpp
      rw [hpfr, hpfb, hpfa, hpfw, hpfl]
      refine ⟨hb, by omega, by omega, ?_, ?_, ?_, ?_, ?_⟩
      · constructor
        · intro heq; omega
        · intro hne
          exact absurd rfl (hne e (List.mem_cons_self _ _))
      · intro heq; omega
      · intro _
        by_cases hfirst : p.burst_time = p.remaining_time
        · rw [if_pos hfirst]
          have := hw0 hfirst.symm
          omega
        · rw [if_neg hfirst]
          have := hw1 (by omega)
          omega
      · intro hz
        have := hpft (by omega)
        omega
      · by_cases hfin : 0 < p.remaining_time - e.len
        · refine Or.inr (Or.inl ?_)
          rw [hrq, if_pos hfin]
          exact List.mem_append_right _ (List.mem_singleton_self _)
        · exact Or.inr (Or.inr (by omega))
    · rw [hoth j hj] at hpp
      obtain ⟨h1, h2, h3, h4, h5, h6, h7, h8⟩ := hall j pp hpp
      refine ⟨h1, h2, h3, ?_, h5, h6, h7, ?_⟩
      · rw [h4]
        constructor
        · intro hl e2 he2
          rcases List.mem_cons.mp he2 with h9 | h9
          · rw [h9]; exact fun hc => hj hc.symm
          · exact hl e2 h9
        · intro hl e2 he2
          exact hl e2 (List.mem_cons_of_mem _ he2)
      · have hinq1 : j ∈ e.idx :: q1 → j ∈ t1.ready_queue := by
          intro hm
          rcases List.mem_cons.mp hm with h9 | h9
          · exact absurd h9 hj
          · rw [hrq, hq2]
            exact List.mem_append_left _ (List.mem_append_left _ h9)
        have hinr1 : j ∈ remaining1 → j ∈ t1.remaining ∨ j ∈ t1.ready_queue := by
          intro hm
          rcases List.mem_append.mp (hperm2.mem_iff.mpr hm) with h9 | h9
          · right
            rw [hrq, hq2]
            exact List.mem_append_left _ (List.mem_append_right _ h9)
          · exact Or.inl h9
        rcases h8 with h8 | h8 | h8
        · rcases List.mem_append.mp (hperm1.mem_iff.mpr h8) with h9 | h9
          · refine Or.inr (Or.inl (hinq1 ?_))
            rw [hq1]
            exact List.mem_append_right _ h9
          · rcases hinr1 h9 with h10 | h10
            · exact Or.inl h10
            · exact Or.inr (Or.inl h10)
        · refine Or.inr (Or.inl (hinq1 ?_))
          rw [hq1]
          exact List.mem_append_left _ h8
        · exact Or.inr (Or.inr h8)

/-- The statements before the loop of `rr.cpp` establish `RR.Inv`. -/
theorem rrcpp_init_inv (ps : List RR.Process) (hb : ∀ p ∈ ps, 0 < p.burst_time)
    (hw : ∀ p ∈ ps, p.waiting_time = 0) : RR.Inv (RR.init ps) [] := by
  have hmem : ∀ i p, (RR.init ps).processes[i]? = some p →
      0 < p.burst_time ∧ p.remaining_time = p.burst_time ∧ p.waiting_time = 0 ∧
        i < ps.length := by
    intro i p hp
    have hil : i < (RR.init ps).processes.length := (List.getElem?_eq_some_iff.mp hp).1
    have hpm := List.getElem?_mem hp
    simp only [RR.init, List.mem_map] at hpm
    obtain ⟨p0, hp0, rfl⟩ := hpm
    exact ⟨hb p0 hp0, rfl, hw p0 hp0, by simpa [RR.init] using hil⟩
  refine ⟨List.nodup_nil, List.nodup_range _, ?_, ?_, ?_, ?_⟩
  · intro x hx; cases hx
  · intro x hx; cases hx
  · intro x _ p hp
    exact (hmem x p hp).2.1
  · intro i p hp
    obtain ⟨h1, h2, h3, h4⟩ := hmem i p hp
    refine ⟨h1, by omega, by omega, ?_, fun _ => h3, fun h => by omega, fun h => by omega, ?_⟩
    · exact ⟨fun _ e he => (by cases he), fun _ => h2⟩
    · left
      show i ∈ List.range ps.length
      exact List.mem_range.mpr h4

/-- The loop of `rr.cpp` with a quantum of at least 1 keeps `RR.Inv`. -/
theorem rrcpp_iterate_inv {quantum : Int} (hq : 1 ≤ quantum) :
    ∀ (n : Nat) (t : RR.State) (log : List Dispatch), RR.Inv t log →
      RR.Inv (RR.iterate quantum n (t, log)).1 (RR.iterate quantum n (t, log)).2 := by
  intro n
  induction n with
  | zero => intro t log h; exact h
  | succ n ih =>
    intro t log h
    cases hs : RR.step quantum t with
    | next ev t1 =>
      rw [rrcpp_iterate_next hs]
      cases ev with
      | none => exact ih t1 log (rrcpp_idle_inv hs h).1
      | some e => exact ih t1 (e :: log) (rrcpp_run_inv hq hs h).1
    | halt =>
      rw [rrcpp_iterate_stop (by simp [hs])]
      exact h
    | fault =>
      rw [rrcpp_iterate_stop (by simp [hs])]
      exact h

/-- C37. In the loop of `rr.cpp`, on any workload with positive burst times and zero
initial waiting times and with a quantum of at least 1, after any number of iterations:
a dispatch adds to the waiting time of the process dispatched, once, the time
`current_time - arrival_time` when it is the first dispatch of the process and
`current_time - last_executed_time` when the process has been dispatched before, and
leaves the other processes as they are; an iteration without a dispatch leaves all
processes as they are; every process with no time remaining has
`waiting_time = turnaround_time - burst_time`; and when the loop has ended no process
has time remaining. -/
theorem rrcpp_waiting (quantum : Int) (ps : List RR.Process) (hq : 1 ≤ quantum)
    (hb : ∀ p ∈ ps, 0 < p.burst_time) (hw : ∀ p ∈ ps, p.waiting_time = 0) (n : Nat) :
    (∀ e t1, RR.step quantum (RR.iterate quantum n (RR.init ps, [])).1 = .next (some e) t1 →
      ∃ p p1, (RR.iterate quantum n (RR.init ps, [])).1.processes[e.idx]? = some p ∧
        t1.processes[e.idx]? = some p1 ∧
        ((∀ d ∈ (RR.iterate quantum n (RR.init ps, [])).2, d.idx ≠ e.idx) →
          p1.waiting_time = p.waiting_time +
            ((RR.iterate quantum n (RR.init ps, [])).1.current_time - p.arrival_time)) ∧
        ((∃ d ∈ (RR.iterate quantum n (RR.init ps, [])).2, d.idx = e.idx) →
          p1.waiting_time = p.waiting_time +
            ((RR.iterate quantum n (RR.init ps, [])).1.current_time
              - p.last_executed_time)) ∧
        (∀ j, j ≠ e.idx →
          t1.processes[j]? = (RR.iterate quantum n (RR.init ps, [])).1.processes[j]?)) ∧
    (∀ t1, RR.step quantum (RR.iterate quantum n (RR.init ps, [])).1 = .next none t1 →
      t1.processes = (RR.iterate quantum n (RR.init ps, [])).1.processes) ∧
    (∀ p ∈ (RR.iterate quantum n (RR.init ps, [])).1.processes, p.remaining_time = 0 →
      p.waiting_time = p.turnaround_time - p.burst_time) ∧
    (RR.step quantum (RR.iterate quantum n (RR.init ps, [])).1 = .halt →
      ∀ p ∈ (RR.iterate quantum n (RR.init ps, [])).1.processes, p.remaining_time = 0) := by
  have hinv := rrcpp_iterate_inv hq n (RR.init ps) [] (rrcpp_init_inv ps hb hw)
  generalize (RR.iterate quantum n (RR.init ps, [])).1 = t at hinv
  generalize (RR.iterate quantum n (RR.init ps, [])).2 = log at hinv
  refine ⟨?_, ?_, ?_, ?_⟩
  · intro e t1 hs
    obtain ⟨remaining1, q1, q2, p, pf, -, hp, -, -, -, -, hps, -, -, -, -, hpfw, -, -⟩ :=
      rrcpp_run hs
    have hil : e.idx < t.processes.length := (List.getElem?_eq_some_iff.mp hp).1
    obtain ⟨-, -, -, hlog, -⟩ := hinv.2.2.2.2.2 e.idx p hp
    refine ⟨p, pf, hp, by rw [hps]; exact List.getElem?_set_self hil, ?_, ?_, ?_⟩
    · intro hfirst
      rw [hpfw, if_pos (hlog.mpr hfirst).symm]
    · rintro ⟨d, hd, hde⟩
      have hne : ¬ p.burst_time = p.remaining_time := by
        intro heq
        exact hlog.mp heq.symm d hd hde
      rw [hpfw, if_neg hne]
    · intro j hj
      rw [hps]
      exact List.getElem?_set_ne (Ne.symm hj)
  · intro t1 hs
    exact (rrcpp_idle_inv hs hinv).2
  · intro p hp hz
    obtain ⟨i, hi, hpe⟩ := List.getElem_of_mem hp
    obtain ⟨h1, h2, h3, -, -, h6, h7, -⟩ :=
      hinv.2.2.2.2.2 i p (by rw [List.getElem?_eq_getElem hi, hpe])
    have := h6 (by omega)
    have := h7 hz
    omega
  · intro hh p hp
    obtain ⟨i, hi, hpe⟩ := List.getElem_of_mem hp
    obtain ⟨-, -, -, -, -, -, -, h8⟩ :=
      hinv.2.2.2.2.2 i p (by rw [List.getElem?_eq_getElem hi, hpe])
    have hcond : ¬ (t.remaining ≠ [] ∨ t.ready_queue ≠ []) := by
      intro hc
      unfold RR.step at hh
      rw [if_pos hc] at hh
      split at hh
      · cases hh
      · split at hh
        · cases hh
        · dsimp only at hh
          split at hh <;> cases hh
    have hr : t.remaining = [] := by
      by_contra hne
      exact hcond (Or.inl hne)
    have hqe : t.ready_queue = [] := by
      by_contra hne
      exact hcond (Or.inr hne)
    rcases h8 with h8 | h8 | h8
    · rw [hr] at h8; cases h8
    · rw [hqe] at h8; cases h8
    · exact h8

theorem rrcpp_waiting_witness :
    (∀ p ∈ builtin.map RR.ofProcess, 0 < p.burst_time) ∧
      (∀ p ∈ builtin.map RR.ofProcess, p.waiting_time = 0) ∧
      (RR.schedule 4 8 (builtin.map RR.ofProcess)).map
          (fun r => r.processes.map (fun p => (p.waiting_time, p.turnaround_time, p.burst_time)))
        = some [(12, 20, 8), (3, 7, 4), (15, 24, 9), (17, 22, 5)] ∧
      ∀ p ∈ (RR.iterate 4 8 (RR.init (builtin.map RR.ofProcess), [])).1.processes,
        p.remaining_time = 0 → p.waiting_time = p.turnaround_time - p.burst_time :=
  ⟨by decide, by decide, by decide!,
    (rrcpp_waiting 4 (builtin.map RR.ofProcess) (by decide) (by decide) (by decide) 8).2.2.1⟩

end Sched
